import Mathlib

/-!
# Winter: the alpha-beta search core (`src/search.cc`)

A shallow embedding of the search core of the Winter chess engine.

* The collaborators whose code is not part of `search.cc` (the board, the
  evaluator, the transposition table, the constants of the headers,
  `std::sort` and the wall clock) are the fields of `Env`.
* The file-scope variables of `search.cc`, together with the `Board &board`
  every search routine mutates, form `State`; every routine is a state
  transformer.
* `Score`, `Depth` and `Time` are mathematical integers: the engine keeps
  scores inside `[kMinScore, kMaxScore]`, far from the 32-bit limits.  A
  `Move` is a 32-bit word, and the sort routines that pack a key into its
  upper half are modelled with explicit arithmetic modulo `2^32`.
* `assert`s are compiled out (release build): a run of the debug build that
  returns is a run of the release build with the same result.
* The recursive routines take a `fuel : Nat` bounding the nesting of calls
  and return `none` when it is exhausted.
-/

namespace Winter

abbrev Move := Nat
abbrev Score := Int
abbrev Depth := Int
abbrev BitBoard := Nat
abbrev Time := Int
abbrev HashType := Nat

/-- Transposition-table entry (`table::Entry`), as far as `search.cc` reads it:
the fields `best_move`, `depth`, `bound`; `score` and `hash` are the raw data
behind `get_score` and `ValidateHash`. -/
structure Entry where
  hash : HashType
  best_move : Move
  score : Score
  depth : Depth
  bound : Nat
deriving DecidableEq, Repr

/-- PV-table entry (`table::PVEntry`). -/
structure PVEntry where
  hash : HashType
  best_move : Move
deriving DecidableEq, Repr

/-- Score part of an info line: `score cp C` or `score mate M`. -/
inductive InfoScore where
  | cp (c : Int)
  | mate (m : Int)
deriving DecidableEq, Repr

/-- One `info` line written to stdout by `RootSearch`. -/
structure InfoLine where
  depth : Depth
  seldepth : Nat
  time : Int
  nodes : Int
  score : InfoScore
  pv : List Move
deriving DecidableEq, Repr

/-- Everything `search.cc` uses but does not define: constants and helpers of
the headers, the external `Board`, `evaluation` and `table` modules,
`std::sort` and the clock behind `now()`.  `B` is the board type, `T` the
state of the transposition tables. -/
structure Env (B T : Type) where
  -- general/types.h, settings
  kMaxScore : Score
  kMinScore : Score
  kExactBound : Nat
  kLowerBound : Nat
  kUpperBound : Nat
  kNullMove : Move
  kNormalMove : Nat
  kDoublePawnMove : Nat
  kEnPassant : Nat
  kCapture : Nat
  kNoPiece : Nat
  kKing : Nat
  kQueen : Nat
  piece_phases : Nat → Int
  kUseNullMoves : Bool
  kUseScoreBasedPruning : Bool
  R : Depth
  kMaxDepth : Depth
  GetMoveType : Move → Nat
  GetMoveSource : Move → Nat
  GetMoveDestination : Move → Nat
  GetPieceType : Nat → Nat
  GetSquareBitBoard : Nat → BitBoard
  IsMoveForcing : Move → Bool
  -- general/feature_indexes.h
  kNumMoveProbabilityFeatures : Nat
  kPWIHashMove : Nat
  kPWIKiller : Nat
  kPWISEE : Nat
  kPWIPieceTypeXTargetPieceType : Nat
  kPWIMoveType : Nat
  kPWIMoveSource : Nat
  kPWIMoveDestination : Nat
  kPWICaptureLastMoved : Nat
  kPWIGivesCheck : Nat
  kPWITabooDestination : Nat
  kPWIForcingChanges : Nat
  kPSTindex : Nat → Nat
  -- Board
  Make : B → Move → B
  UnMake : B → B
  get_hash : B → HashType
  get_num_made_moves : B → Nat
  get_last_move : B → Move
  GetMovesQuiescent : B → List Move
  GetMovesNonQuiescent : B → List Move
  InCheck : B → Bool
  IsDraw : B → Bool
  NonNegativeSEE : B → Move → Bool
  GetDirectCheckingSquares : B → Nat → BitBoard
  GetTabooSquares : B → Nat → BitBoard
  get_phase : B → Int
  get_piece : B → Nat → Nat
  -- evaluation
  ScoreBoard : B → Score
  -- table
  GetEntry : T → HashType → Entry
  GetPVEntry : T → HashType → PVEntry
  ValidateHash : Entry → HashType → Bool
  ValidateHashPV : PVEntry → HashType → Bool
  get_score : Entry → B → Score
  SaveEntry : T → B → Move → Score → Nat → Depth → T
  SavePVEntry : T → B → Move → T
  -- the double-precision margin of the score-based pruning (lines 453-458)
  score_margin : Depth → Score → Score
  -- std::sort with a comparator
  sort : (Move → Move → Bool) → List Move → List Move
  -- the value of the k-th call of now(), and the clock unit
  now : Nat → Time
  kTicksPerMillisecond : Int

/-- The file-scope variables of `search.cc` and the board under search. -/
structure State (B T : Type) where
  board : B
  table : T
  killers : Nat → Nat → Move
  search_weights : Nat → Int
  clock : Nat
  end_time : Time
  max_ply : Nat
  nodes : Int
  sample_nodes : Int
  evaluation_nodes : Int
  kNodeCountSampleAt : Int
  kNodeCountSampleEvalAt : Int
  sampled_board : B
  sampled_alpha : Score
  sampled_node_type : Nat
  sampled_depth : Depth
  last_search_score : Score
  print_info : Bool
  out : List InfoLine
  errors : Nat

def kPV : Nat := 0
def kNW : Nat := 1

def kNormalSearchMode : Nat := 0
def kSamplingSearchMode : Nat := 1
def kSamplingEvalMode : Nat := 2
def kMaxDepthSampled : Depth := 3

/-- The table `kFutileMargin` built by `init_futility_margins` (the branch that
is not disabled). -/
def kFutileMargin (i : Depth) : Score :=
  [0, 500, 1000, 1500].getD i.toNat 0

/-- Conversion of a 32-bit signed value to the unsigned 32-bit `Move` word. -/
def toU32 (x : Int) : Nat := (x % 4294967296).toNat

/-- Reduction of the result of an `int` operation to the 32-bit two's
complement range `[-2^31, 2^31)`. -/
def toI32 (x : Int) : Int := (x + 2147483648) % 4294967296 - 2147483648

section
variable {B T : Type} (E : Env B T)

/-- Comparator `Sorter`: descending order of the upper 16 bits. -/
def Sorter (i j : Move) : Bool := decide ((i >>> 16) > (j >>> 16))

/-- Linear scan of `SwapToFront`: the first index holding `move`, if any, is
swapped with index 0. -/
def SwapToFront (moves : List Move) (move : Move) : Bool × List Move :=
  let i := moves.indexOf move
  if i < moves.length then
    (true, (moves.set i (moves.getD 0 0)).set 0 (moves.getD i 0))
  else (false, moves)

/-- Reading the clock: the value of `now()` and the state after the call. -/
def now (st : State B T) : Time × State B T :=
  (E.now st.clock, { st with clock := st.clock + 1 })

def finished (st : State B T) : Bool × State B T :=
  (decide (st.end_time ≤ E.now st.clock), { st with clock := st.clock + 1 })

def end_search_time (st : State B T) : State B T :=
  { st with end_time := E.now st.clock, clock := st.clock + 1 }

def get_infinite_time (st : State B T) : Time × State B T :=
  (E.now st.clock + 24 * 3600 * 1000 * E.kTicksPerMillisecond,
    { st with clock := st.clock + 1 })

/-- Heuristic priority `get_move_priority<Quiescent>`; `quiescent` is the test
`Quiescent == kQuiescent`. -/
def get_move_priority (quiescent : Bool) (killers : Nat → Nat → Move)
    (move : Move) (board : B) (best : Move) : Int :=
  if move = best then 20000
  else if E.GetMoveType move > E.kCapture then 11000
  else if E.GetMoveType move = E.kCapture then
    1000 + 10 * (E.GetPieceType (E.get_piece board (E.GetMoveDestination move)) : Int)
      - (E.GetPieceType (E.get_piece board (E.GetMoveSource move)) : Int)
  else if quiescent then 10
  else if move = killers (E.get_num_made_moves board) 0 then 1001
  else if move = killers (E.get_num_made_moves board) 1 then 1000
  else 10

/-- The three passes of `SortMoves<Quiescent>`: pack the priority into the upper
half of each move, `std::sort` with `Sorter`, clear the upper half. -/
def SortMoves (quiescent : Bool) (killers : Nat → Nat → Move)
    (moves : List Move) (board : B) (best_move : Move) : List Move :=
  let keyed := moves.map fun m =>
    m ||| toU32 (get_move_priority E quiescent killers m board best_move * 65536)
  (E.sort Sorter keyed).map fun m => m &&& 0xFFFF

/-- Generic `GetMoveWeight<T>`: `init` is `init<T>()` and `add` is
`AddFeature<T>`. -/
def GetMoveWeight {W : Type} (init : W) (add : W → Nat → W)
    (killers : Nat → Nat → Move) (move : Move) (board : B) (tt_entry : Move)
    (last_move : Move) (direct_checks taboo_squares : Nat → BitBoard) : W :=
  if move = tt_entry then add init E.kPWIHashMove
  else
    let num_made_moves := E.get_num_made_moves board
    if move = killers num_made_moves 0 then add init E.kPWIKiller
    else if move = killers num_made_moves 1 then add init (E.kPWIKiller + 1)
    else
      let moving_piece := E.GetPieceType (E.get_piece board (E.GetMoveSource move))
      let target := E.GetPieceType (E.get_piece board (E.GetMoveDestination move))
      let w1 :=
        if E.GetMoveType move ≥ E.kCapture ∧ (target < moving_piece ∨ target = E.kNoPiece)
            ∧ E.NonNegativeSEE board move = false then
          add init E.kPWISEE
        else init
      let target := target - target / E.kKing
      let w2 := add w1 (E.kPWIPieceTypeXTargetPieceType + moving_piece * 6 + target)
      let w3 := add w2 (E.kPWIMoveType + E.GetMoveType move)
      let w4 := add w3 (E.kPWIMoveSource + E.kPSTindex (E.GetMoveSource move))
      let w5 := add w4 (E.kPWIMoveDestination + E.kPSTindex (E.GetMoveDestination move))
      let w6 :=
        if last_move ≠ E.kNullMove
            ∧ E.GetMoveDestination last_move = E.GetMoveDestination move then
          add w5 E.kPWICaptureLastMoved
        else w5
      let w7 :=
        if E.GetSquareBitBoard (E.GetMoveDestination move) &&& direct_checks moving_piece ≠ 0 then
          let w := add w6 E.kPWIGivesCheck
          if E.GetMoveType move < E.kEnPassant ∧ E.NonNegativeSEE board move = false then
            add w (E.kPWISEE + 1)
          else w
        else if E.GetMoveType move = E.kNormalMove
            ∧ E.GetSquareBitBoard (E.GetMoveDestination move) &&& taboo_squares moving_piece ≠ 0 then
          add w6 E.kPWITabooDestination
        else w6
      add w7 (E.kPWIForcingChanges + (E.IsMoveForcing move).toNat
        + 2 * (E.IsMoveForcing last_move).toNat)

/-- Instance `GetMoveWeight<int>`: the sum of the weights of the features,
accumulated by `s += search_weights[index]` in a 32-bit `int`. -/
def GetMoveWeightInt (search_weights : Nat → Int) (killers : Nat → Nat → Move)
    (move : Move) (board : B) (tt_entry last_move : Move)
    (direct_checks taboo_squares : Nat → BitBoard) : Int :=
  GetMoveWeight E (0 : Int) (fun s index => toI32 (s + search_weights index))
    killers move board tt_entry last_move direct_checks taboo_squares

/-- Instance `GetMoveWeight<std::vector<int>>`: the 0/1 feature vector. -/
def GetMoveWeightVec (killers : Nat → Nat → Move)
    (move : Move) (board : B) (tt_entry last_move : Move)
    (direct_checks taboo_squares : Nat → BitBoard) : List Int :=
  GetMoveWeight E (List.replicate E.kNumMoveProbabilityFeatures (0 : Int))
    (fun s index => s.set index 1)
    killers move board tt_entry last_move direct_checks taboo_squares

/-- The routine `SortMovesML` on the move list; it reads the board, the killer
table and `search_weights` of the state. -/
def SortMovesML (st : State B T) (moves : List Move) (best_move : Move) : List Move :=
  let board := st.board
  let last_move :=
    if E.get_num_made_moves board > 0 then E.get_last_move board else E.kNullMove
  let direct_checks := E.GetDirectCheckingSquares board
  let taboo_squares := E.GetTabooSquares board
  let keyed := moves.map fun m =>
    m ||| toU32 ((10000 + GetMoveWeightInt E st.search_weights st.killers m board best_move
      last_move direct_checks taboo_squares) * 65536)
  (E.sort Sorter keyed).map fun m => m &&& 0xFFFF

def sufficient_bounds (board : B) (entry : Entry) (alpha beta : Score)
    (depth : Depth) : Bool :=
  let score := E.get_score entry board
  decide (entry.depth ≥ depth)
    && (entry.bound == E.kExactBound
        || (entry.bound == E.kLowerBound && decide (score ≥ beta))
        || (entry.bound == E.kUpperBound && decide (score ≤ alpha)))

def is_mate_score (score : Score) : Bool :=
  decide (score < E.kMinScore + 2000) || decide (score > E.kMaxScore - 2000)

def is_null_move_allowed (board : B) (depth : Depth) : Bool :=
  E.kUseNullMoves && decide (depth > 1)
    && decide (E.get_phase board > 1 * E.piece_phases E.kQueen)

/-- The live branch of `get_futility_margin`. -/
def get_futility_margin (depth : Depth) (_score : Score) : Score :=
  kFutileMargin depth


/-- The call `board.Make(move)`. -/
def Make (st : State B T) (move : Move) : State B T :=
  { st with board := E.Make st.board move }

/-- The call `board.UnMake()`. -/
def UnMake (st : State B T) : State B T :=
  { st with board := E.UnMake st.board }

/-- The call `table::SaveEntry(board, move, score, bound, depth)`. -/
def SaveEntry (st : State B T) (move : Move) (score : Score) (bound : Nat)
    (depth : Depth) : State B T :=
  { st with table := E.SaveEntry st.table st.board move score bound depth }

/-- The call `table::SavePVEntry(board, move)`. -/
def SavePVEntry (st : State B T) (move : Move) : State B T :=
  { st with table := E.SavePVEntry st.table st.board move }

/-- Sampling of evaluation nodes in `QuiescentSearch` (lines 335-341). -/
def QuiescentSample (Mode : Nat) (st : State B T) : State B T :=
  if Mode = kSamplingEvalMode then
    if st.evaluation_nodes + 1 = st.kNodeCountSampleEvalAt then
      end_search_time E
        { st with evaluation_nodes := st.evaluation_nodes + 1, sampled_board := st.board }
    else { st with evaluation_nodes := st.evaluation_nodes + 1 }
  else st

/-- Static evaluation of `QuiescentSearch` (lines 343-346): the evaluator's
score, raised to a stored lower bound. -/
def QuiescentStaticEval (valid_hash : Bool) (entry : Entry) (board : B) : Score :=
  if valid_hash ∧ entry.bound = E.kLowerBound
      ∧ E.ScoreBoard board < E.get_score entry board then
    E.get_score entry board
  else E.ScoreBoard board

/-- Stand-pat part of `QuiescentSearch` (lines 333-354): `Sum.inl` is an early
return, `Sum.inr` carries `alpha` on to the move loop. -/
def QuiescentStandPat (Mode : Nat) (in_check valid_hash : Bool) (entry : Entry)
    (alpha beta : Score) (st : State B T) :
    Sum (Score × State B T) (Score × State B T) :=
  if in_check then Sum.inr (alpha, st)
  else if QuiescentStaticEval E valid_hash entry st.board ≥ beta then
    Sum.inl (QuiescentStaticEval E valid_hash entry st.board, QuiescentSample E Mode st)
  else if QuiescentStaticEval E valid_hash entry st.board > alpha then
    Sum.inr (QuiescentStaticEval E valid_hash entry st.board, QuiescentSample E Mode st)
  else Sum.inr (alpha, QuiescentSample E Mode st)

/-- Move loop of `QuiescentSearch` (lines 366-380); `search` is the recursive
call `QuiescentSearch<Mode>`. -/
def QuiescentLoop (search : Score → Score → State B T → Option (Score × State B T))
    (in_check : Bool) (beta : Score) :
    List Move → Score → State B T → Option (Score × State B T)
  | [], alpha, st => some (alpha, st)
  | move :: rest, alpha, st =>
    if in_check = false ∧ E.GetMoveType move ≠ E.kEnPassant
        ∧ E.NonNegativeSEE st.board move = false then
      QuiescentLoop search in_check beta rest alpha st
    else
      match search (-beta) (-alpha) (Make E st move) with
      | none => none
      | some (r, st1) =>
        if -r ≥ beta then some (beta, UnMake E st1)
        else if -r > alpha then QuiescentLoop search in_check beta rest (-r) (UnMake E st1)
        else QuiescentLoop search in_check beta rest alpha (UnMake E st1)

/-- Sorted quiescent move list (lines 355-364). -/
def QuiescentMoves (entry : Entry) (st : State B T) : List Move :=
  if E.ValidateHash entry (E.get_hash st.board) then
    SortMoves E true st.killers (E.GetMovesQuiescent st.board) st.board entry.best_move
  else SortMoves E true st.killers (E.GetMovesQuiescent st.board) st.board 0

/-- Lines 325-331 of `QuiescentSearch`: the high-water mark `max_ply`. -/
def QuiescentEnter (st : State B T) : State B T :=
  { st with max_ply := max (E.get_num_made_moves st.board) st.max_ply }

/-- Lines 332-380 of `QuiescentSearch`, after the table probe. -/
def QuiescentNode (search : Score → Score → State B T → Option (Score × State B T))
    (Mode : Nat) (valid_hash : Bool) (entry : Entry) (alpha beta : Score)
    (st : State B T) : Option (Score × State B T) :=
  match QuiescentStandPat E Mode (E.InCheck st.board) valid_hash entry alpha beta st with
  | Sum.inl r => some r
  | Sum.inr (alpha1, st1) =>
    if E.InCheck st.board = true ∧ (E.GetMovesQuiescent st1.board).length = 0 then
      some (E.kMinScore + E.get_num_made_moves st1.board, st1)
    else
      QuiescentLoop E search (E.InCheck st.board) beta (QuiescentMoves E entry st1) alpha1 st1

/-- The routine `QuiescentSearch<Mode>`. -/
def QuiescentSearch (Mode : Nat) :
    Nat → Score → Score → State B T → Option (Score × State B T)
  | 0, _, _, _ => none
  | fuel + 1, alpha, beta, st0 =>
    let st := QuiescentEnter E st0
    let entry := E.GetEntry st.table (E.get_hash st.board)
    let valid_hash := E.ValidateHash entry (E.get_hash st.board)
    if valid_hash = true ∧ sufficient_bounds E st.board entry alpha beta 0 = true then
      some (E.get_score entry st.board, st)
    else
      QuiescentNode E (QuiescentSearch Mode fuel) Mode valid_hash entry alpha beta st

/-- Static evaluation of the selectivity prelude (lines 422-435). -/
def ABStaticEval (valid_entry : Bool) (entry : Entry) (board : B) : Score :=
  if valid_entry then
    if entry.bound = E.kExactBound then E.get_score entry board
    else
      if entry.bound = E.kLowerBound ∧ E.ScoreBoard board < E.get_score entry board then
        E.get_score entry board
      else E.ScoreBoard board
  else E.ScoreBoard board

/-- Score-based pruning test of the prelude (lines 437-462); the margin is the
rounded double-precision expression of lines 453-458. -/
def ABScorePrune (NodeType : Nat) (beta : Score) (depth : Depth) (static_eval : Score)
    (board : B) : Bool :=
  decide ((NodeType = kNW ∧ depth ≤ 3)
    ∧ (E.kUseScoreBasedPruning = true
        ∧ static_eval > beta + E.score_margin depth static_eval
        ∧ E.get_phase board > 1 * E.piece_phases E.kQueen))

/-- Selectivity prelude of `AlphaBeta` (lines 419-473): `Sum.inl` is an early
return of the node, `Sum.inr` carries `static_eval` on.  The sampling block of
lines 438-449 is disabled in the source (`if (false && ...)`) and omitted.
`search` is the recursive call `AlphaBeta<·, Mode>`. -/
def ABPrelude
    (search : Nat → Score → Score → Depth → State B T → Option (Score × State B T))
    (NodeType : Nat) (alpha beta : Score) (depth : Depth)
    (valid_entry : Bool) (entry : Entry) (in_check : Bool) (st : State B T) :
    Option (Sum (Score × State B T) (Score × State B T)) :=
  if NodeType = kNW ∧ beta > E.kMinScore + 2000 ∧ alpha < E.kMaxScore - 2000
      ∧ in_check = false then
    if ABScorePrune E NodeType beta depth (ABStaticEval E valid_entry entry st.board) st.board then
      some (Sum.inl (beta, st))
    else if ABStaticEval E valid_entry entry st.board ≥ beta
        ∧ is_null_move_allowed E st.board depth = true then
      match search kNW (-beta) (-alpha) (depth - 1 - E.R) (Make E st E.kNullMove) with
      | none => none
      | some (r, st1) =>
        if -r ≥ beta then some (Sum.inl (beta, UnMake E st1))
        else some (Sum.inr (ABStaticEval E valid_entry entry st.board, UnMake E st1))
    else some (Sum.inr (ABStaticEval E valid_entry entry st.board, st))
  else some (Sum.inr (alpha, st))

/-- Killer update of the cutoff branch (lines 577-583). -/
def update_killers (st : State B T) (move : Move) : State B T :=
  if E.GetMoveType move < E.kCapture then
    if st.killers (E.get_num_made_moves st.board) 0 ≠ move then
      { st with killers := fun p k =>
          if p = E.get_num_made_moves st.board then
            (if k = 0 then move
             else if k = 1 then st.killers (E.get_num_made_moves st.board) 0
             else st.killers p k)
          else st.killers p k }
    else st
  else st

/-- Test shared by the late-move reduction and the move-level futility: the
move lands on a direct-checking square of the moving piece. -/
def gives_direct_check (checking_squares : Nat → BitBoard) (board : B) (move : Move) : Bool :=
  decide (checking_squares (E.GetPieceType (E.get_piece board (E.GetMoveSource move)))
    &&& E.GetSquareBitBoard (E.GetMoveDestination move) ≠ 0)

/-- Late-move reduction (lines 536-542). -/
def ABReduction (NodeType : Nat) (in_check : Bool) (depth : Depth) (i : Nat)
    (checking_squares : Nat → BitBoard) (board : B) (move : Move) : Depth :=
  if NodeType = kNW ∧ in_check = false ∧ depth ≥ 3 ∧ i ≥ 4
      ∧ E.GetMoveType move ≤ E.kDoublePawnMove
      ∧ gives_direct_check E checking_squares board move = false then
    (if i ≥ 8 then 2 else 1)
  else 0

/-- Move-level futility test (lines 544-548). -/
def ABFutile (NodeType : Nat) (in_check : Bool) (depth reduction : Depth)
    (static_eval alpha : Score) (checking_squares : Nat → BitBoard) (board : B)
    (move : Move) : Bool :=
  decide (NodeType = kNW ∧ E.kUseScoreBasedPruning = true ∧ depth - reduction ≤ 3
    ∧ static_eval < alpha - get_futility_margin (depth - reduction) static_eval
    ∧ E.GetMoveType move < E.kEnPassant ∧ in_check = false
    ∧ gives_direct_check E checking_squares board move = false)

/-- Sub-search of one move inside the move loop (lines 552-567), on the board
after `Make`; returns the negated score. -/
def ABChild
    (search : Nat → Score → Score → Depth → State B T → Option (Score × State B T))
    (NodeType : Nat) (i : Nat) (alpha beta : Score) (depth reduction : Depth)
    (st : State B T) : Option (Score × State B T) :=
  if NodeType = kNW then
    match search kNW (-beta) (-alpha) (depth - 1 - reduction) st with
    | none => none
    | some (r, st1) =>
      if reduction > 0 ∧ -r ≥ beta then
        match search kNW (-beta) (-alpha) (depth - 1) st1 with
        | none => none
        | some (r2, st2) => some (-r2, st2)
      else some (-r, st1)
  else if i = 0 then
    match search kPV (-beta) (-alpha) (depth - 1) st with
    | none => none
    | some (r, st1) => some (-r, st1)
  else
    match search kNW (-(alpha + 1)) (-alpha) (depth - 1) st with
    | none => none
    | some (r, st1) =>
      if -r ≥ alpha + 1 then
        match search kPV (-beta) (-alpha) (depth - 1) st1 with
        | none => none
        | some (r2, st2) => some (-r2, st2)
      else some (-r, st1)

/-- Deferred sort at the top of the move loop (lines 531-534): at `i == 1` a
list that was not sorted yet is passed to `SortMovesML`. -/
def ABResort (st : State B T) (tt_entry : Move) (i : Nat) (moves_sorted : Bool)
    (moves : List Move) : List Move :=
  if i = 1 ∧ moves_sorted = false then SortMovesML E st moves tt_entry else moves

/-- The flag `moves_sorted` after lines 531-534. -/
def ABSortedFlag (i : Nat) (moves_sorted : Bool) : Bool :=
  if i = 1 ∧ moves_sorted = false then true else moves_sorted

/-- Final save of `AlphaBeta` (lines 594-604); the `else if (false)` branch is
disabled in the source. -/
def ABFinish (original_alpha alpha : Score) (depth : Depth) (best_local_move : Move)
    (st : State B T) : State B T :=
  if alpha > original_alpha then
    SavePVEntry E (SaveEntry E st best_local_move alpha E.kExactBound depth) best_local_move
  else st

/-- Cutoff branch of the move loop (lines 572-585): the lower-bound save and the
killer update. -/
def ABCutoff (move : Move) (score : Score) (depth : Depth) (st : State B T) : State B T :=
  update_killers E (SaveEntry E st move score E.kLowerBound depth) move

/-- Move loop of `AlphaBeta` and the final save (lines 530-604).  `n` counts the
iterations left (`moves.size() - i`).  The calls `bookkeeping::Inc` only feed
external statistics and are not modelled. -/
def ABLoop
    (search : Nat → Score → Score → Depth → State B T → Option (Score × State B T))
    (NodeType : Nat) (original_alpha beta : Score) (depth : Depth) (in_check : Bool)
    (static_eval : Score) (tt_entry : Move) (checking_squares : Nat → BitBoard) :
    Nat → Nat → List Move → Bool → Score → Move → State B T → Option (Score × State B T)
  | 0, _, _, _, alpha, best_local_move, st =>
    some (alpha, ABFinish E original_alpha alpha depth best_local_move st)
  | n + 1, i, moves0, moves_sorted0, alpha, best_local_move, st =>
    let moves := ABResort E st tt_entry i moves_sorted0 moves0
    let moves_sorted := ABSortedFlag i moves_sorted0
    let move := moves.getD i 0
    let reduction := ABReduction E NodeType in_check depth i checking_squares st.board move
    if ABFutile E NodeType in_check depth reduction static_eval alpha checking_squares
        st.board move then
      ABLoop search NodeType original_alpha beta depth in_check static_eval tt_entry
        checking_squares n (i + 1) moves moves_sorted alpha best_local_move st
    else
      match ABChild search NodeType i alpha beta depth reduction (Make E st move) with
      | none => none
      | some (score, st1) =>
        if (finished E (UnMake E st1)).1 then some (alpha, (finished E (UnMake E st1)).2)
        else if score ≥ beta then
          some (beta, ABCutoff E move score depth (finished E (UnMake E st1)).2)
        else if score > alpha then
          ABLoop search NodeType original_alpha beta depth in_check static_eval tt_entry
            checking_squares n (i + 1) moves moves_sorted score move
            (finished E (UnMake E st1)).2
        else
          ABLoop search NodeType original_alpha beta depth in_check static_eval tt_entry
            checking_squares n (i + 1) moves moves_sorted alpha best_local_move
            (finished E (UnMake E st1)).2

/-- Test of the sampling block of lines 491-501. -/
def ABSampling (Mode NodeType : Nat) (depth : Depth) : Bool :=
  decide (Mode = kSamplingSearchMode ∧ NodeType = kNW ∧ depth ≤ kMaxDepthSampled)

/-- Counting of the sampled nodes (line 492). -/
def ABSampleCount (Mode NodeType : Nat) (depth : Depth) (st : State B T) : State B T :=
  if ABSampling Mode NodeType depth then { st with sample_nodes := st.sample_nodes + 1 }
  else st

/-- Capture of the sampled node (lines 492-498). -/
def ABSampleCapture (NodeType : Nat) (alpha : Score) (depth : Depth)
    (st : State B T) : State B T :=
  end_search_time E
    { st with sample_nodes := st.sample_nodes + 1, sampled_board := st.board,
              sampled_depth := depth, sampled_node_type := NodeType, sampled_alpha := alpha }

/-- Hash move of the node (lines 503-512): the move of the general table if its
entry is valid, else the move of the PV table if that entry is valid. -/
def ABHashMove (valid_entry : Bool) (entry : Entry) (st : State B T) : Move :=
  if valid_entry then entry.best_move
  else if E.ValidateHashPV (E.GetPVEntry st.table (E.get_hash st.board)) (E.get_hash st.board) then
    (E.GetPVEntry st.table (E.get_hash st.board)).best_move
  else E.kNullMove

/-- Outcome of `SwapToFront` in the lazy-sort preamble (lines 513-515). -/
def ABSwap (moves : List Move) (tt_entry : Move) : Bool × List Move :=
  if tt_entry ≠ E.kNullMove then SwapToFront moves tt_entry else (false, moves)

/-- The call `debug::Error("SwapToFront failed")` (lines 516-518), counted. -/
def ABSwapCheck (st : State B T) (moves : List Move) (tt_entry : Move) : State B T :=
  if (ABSwap E moves tt_entry).1 = true ∧ tt_entry ≠ (ABSwap E moves tt_entry).2.getD 0 0 then
    { st with errors := st.errors + 1 }
  else st

/-- Move list at the start of the move loop (lines 513-523). -/
def ABOrder (st : State B T) (moves : List Move) (tt_entry : Move) : List Move :=
  if (ABSwap E moves tt_entry).1 = false then
    SortMovesML E st (ABSwap E moves tt_entry).2 tt_entry
  else (ABSwap E moves tt_entry).2

/-- PV extension (lines 526-528): a PV node with a single move searches one ply
deeper. -/
def ABExtend (NodeType : Nat) (moves : List Move) (depth : Depth) : Depth :=
  if NodeType = kPV ∧ moves.length = 1 then depth + 1 else depth

/-- Lines 503-604 of `AlphaBeta`: the lazy move ordering and the move loop. -/
def ABMoves
    (search : Nat → Score → Score → Depth → State B T → Option (Score × State B T))
    (NodeType : Nat) (alpha beta : Score) (depth : Depth)
    (valid_entry : Bool) (entry : Entry) (in_check : Bool) (static_eval : Score)
    (st : State B T) : Option (Score × State B T) :=
  let tt_entry := ABHashMove E valid_entry entry st
  let moves0 := E.GetMovesNonQuiescent st.board
  let st1 := ABSwapCheck E st moves0 tt_entry
  let moves := ABOrder E st1 moves0 tt_entry
  ABLoop E search NodeType alpha beta (ABExtend NodeType moves depth) in_check static_eval
    tt_entry (E.GetDirectCheckingSquares st.board) moves.length 0 moves
    (!(ABSwap E moves0 tt_entry).1) alpha (moves.getD 0 0) st1

/-- Second half of `AlphaBeta` (lines 474-604): move generation, mate and
stalemate, the sampling return, then the move loop. -/
def ABNode
    (search : Nat → Score → Score → Depth → State B T → Option (Score × State B T))
    (Mode NodeType : Nat) (alpha beta : Score) (depth : Depth)
    (valid_entry : Bool) (entry : Entry) (in_check : Bool) (static_eval : Score)
    (st : State B T) : Option (Score × State B T) :=
  if (E.GetMovesNonQuiescent st.board).length = 0 then
    if E.InCheck st.board then some (E.kMinScore + E.get_num_made_moves st.board, st)
    else some (0, st)
  else if ABSampling Mode NodeType depth = true
      ∧ st.sample_nodes + 1 = st.kNodeCountSampleAt then
    some (alpha, ABSampleCapture E NodeType alpha depth st)
  else
    ABMoves E search NodeType alpha beta depth valid_entry entry in_check static_eval
      (ABSampleCount Mode NodeType depth st)

/-- Lines 418-604 of `AlphaBeta`, after the table probe. -/
def ABBody
    (search : Nat → Score → Score → Depth → State B T → Option (Score × State B T))
    (Mode NodeType : Nat) (alpha beta : Score) (depth : Depth)
    (valid_entry : Bool) (entry : Entry) (st : State B T) : Option (Score × State B T) :=
  match ABPrelude E search NodeType alpha beta depth valid_entry entry (E.InCheck st.board)
      st with
  | none => none
  | some (Sum.inl r) => some r
  | some (Sum.inr (static_eval, st1)) =>
    ABNode E search Mode NodeType alpha beta depth valid_entry entry (E.InCheck st.board)
      static_eval st1

/-- The routine `AlphaBeta<NodeType, Mode>`. -/
def AlphaBeta (Mode : Nat) :
    Nat → Nat → Score → Score → Depth → State B T → Option (Score × State B T)
  | 0, _, _, _, _, _ => none
  | fuel + 1, NodeType, alpha, beta, depth, st =>
    if E.IsDraw st.board then some (0, st)
    else if depth ≤ 0 then QuiescentSearch E Mode fuel alpha beta st
    else if E.ValidateHash (E.GetEntry st.table (E.get_hash st.board)) (E.get_hash st.board) = true
        ∧ sufficient_bounds E st.board (E.GetEntry st.table (E.get_hash st.board))
            alpha beta depth = true then
      some (E.get_score (E.GetEntry st.table (E.get_hash st.board)) st.board, st)
    else
      ABBody E (AlphaBeta Mode fuel) Mode NodeType alpha beta depth
        (E.ValidateHash (E.GetEntry st.table (E.get_hash st.board)) (E.get_hash st.board))
        (E.GetEntry st.table (E.get_hash st.board)) st

/-- The rotation `std::rotate(it, it + 1, moves.rend())` with
`it = moves.rbegin() + moves.size() - i - 1`: the reversed range runs from
index `i` down to index 0 and is rotated left by one. -/
def rotate_to_front (moves : List Move) (i : Nat) : List Move :=
  let r := (moves.take (i + 1)).reverse
  (r.drop 1 ++ r.take 1).reverse ++ moves.drop (i + 1)

/-- Sub-search of a root move with index `i > 0` (lines 621-624), on the board
after `Make`; returns the negated score. -/
def RootChild
    (search : Nat → Score → Score → Depth → State B T → Option (Score × State B T))
    (alpha beta : Score) (current_depth : Depth) (st : State B T) :
    Option (Score × State B T) :=
  match search kNW (-(alpha + 1)) (-alpha) (current_depth - 1) st with
  | none => none
  | some (r, st1) =>
    if -r > alpha then
      match search kPV (-beta) (-alpha) (current_depth - 1) st1 with
      | none => none
      | some (r2, st2) => some (-r2, st2)
    else some (-r, st1)

/-- Loop of `RootSearchLoop<Mode>` from index `i` on, with `n` iterations left,
and the final save; returns the score and the move list, which the routine
rotates in place. -/
def RootSearchLoopFrom
    (search : Nat → Score → Score → Depth → State B T → Option (Score × State B T))
    (beta : Score) (current_depth : Depth) :
    Nat → Nat → List Move → Score → State B T → Option (Score × List Move × State B T)
  | 0, _, moves, alpha, st =>
    some (alpha, moves,
      SavePVEntry E (SaveEntry E st (moves.getD 0 0) alpha E.kExactBound current_depth)
        (moves.getD 0 0))
  | n + 1, i, moves, alpha, st =>
    if i = 0 then
      match search kPV (-beta) (-alpha) (current_depth - 1) (Make E st (moves.getD i 0)) with
      | none => none
      | some (r, st1) =>
        if -r ≤ alpha ∨ -r ≥ beta then some (-r, moves, UnMake E st1)
        else RootSearchLoopFrom search beta current_depth n (i + 1) moves (-r) (UnMake E st1)
    else
      match RootChild search alpha beta current_depth (Make E st (moves.getD i 0)) with
      | none => none
      | some (score, st1) =>
        if (finished E (UnMake E st1)).1 then some (alpha, moves, (finished E (UnMake E st1)).2)
        else if score ≥ beta then
          some (beta, rotate_to_front moves i, (finished E (UnMake E st1)).2)
        else if score > alpha then
          RootSearchLoopFrom search beta current_depth n (i + 1) (rotate_to_front moves i)
            score (finished E (UnMake E st1)).2
        else
          RootSearchLoopFrom search beta current_depth n (i + 1) moves alpha
            (finished E (UnMake E st1)).2

/-- The routine `RootSearchLoop<Mode>`; `search` is `AlphaBeta<·, Mode>`. -/
def RootSearchLoop
    (search : Nat → Score → Score → Depth → State B T → Option (Score × State B T))
    (alpha beta : Score) (current_depth : Depth) (moves : List Move) (st : State B T) :
    Option (Score × List Move × State B T) :=
  RootSearchLoopFrom E search beta current_depth moves.length 0 moves alpha st

/-- The routine `build_pv`; the recursion is on `depth`. -/
def build_pv : Nat → List Move → State B T → List Move × State B T
  | 0, pv, st => (pv, st)
  | depth + 1, pv, st =>
    let entry := E.GetEntry st.table (E.get_hash st.board)
    let entry_verified := E.ValidateHash entry (E.get_hash st.board)
    let pv_entry := E.GetPVEntry st.table (E.get_hash st.board)
    let pv_entry_verified := E.ValidateHashPV pv_entry (E.get_hash st.board)
    if entry_verified ∨ pv_entry_verified then
      match (E.GetMovesNonQuiescent st.board).find? (fun move =>
          (decide (move = entry.best_move) && entry_verified)
            || (decide (move = pv_entry.best_move) && pv_entry_verified)) with
      | some move =>
        let r := build_pv depth (pv ++ [move]) (Make E st move)
        (r.1, UnMake E r.2)
      | none => (pv, st)
    else (pv, st)

/-- Window after a failed aspiration search (lines 675-680): the failing side
is moved by `delta`, in the 32-bit arithmetic of `Score`. -/
def widen (delta alpha beta score : Score) : Score × Score :=
  if score ≤ alpha then (max (toI32 (alpha - delta)) E.kMinScore, beta)
  else if score ≥ beta then (alpha, min (toI32 (beta + delta)) E.kMaxScore)
  else (alpha, beta)

/-- The aspiration `while` loop of `RootSearch` (lines 674-683); `loop` is
`RootSearchLoop<Mode>` at the current depth, `k` bounds the number of
re-searches. `delta *= 2` is a 32-bit `Score` multiplication. -/
def AspirationLoop
    (loop : Score → Score → List Move → State B T → Option (Score × List Move × State B T)) :
    Nat → Score → Score → Score → Score → List Move → State B T →
      Option (Score × List Move × State B T)
  | 0, _, _, _, _, _, _ => none
  | k + 1, delta, alpha, beta, score, moves, st =>
    if (finished E st).1 = false ∧ (score ≤ alpha ∨ score ≥ beta) then
      match loop (widen E delta alpha beta score).1 (widen E delta alpha beta score).2 moves
          (finished E st).2 with
      | none => none
      | some (score1, moves1, st1) =>
        AspirationLoop loop k (toI32 (delta * 2)) (widen E delta alpha beta score).1
          (widen E delta alpha beta score).2 score1 moves1 st1
    else some (score, moves, (finished E st).2)

/-- The info line of lines 691-715. -/
def info_line (board : B) (current_depth : Depth) (max_ply : Nat) (time_used : Int)
    (nodes : Int) (score : Score) (pv : List Move) : InfoLine :=
  { depth := current_depth
    seldepth := max_ply - E.get_num_made_moves board
    time := time_used
    nodes := nodes
    score :=
      if is_mate_score E score = false then InfoScore.cp (Int.tdiv score 8)
      else if score < 0 then
        InfoScore.mate (Int.tdiv (-(score - E.kMinScore - E.get_num_made_moves board)) 2)
      else InfoScore.mate (Int.tdiv (E.kMaxScore - score - E.get_num_made_moves board + 2) 2)
    pv := pv }

/-- Lines 686-715 of `RootSearch`, run when the iteration ended in time:
`last_search_score`, the principal variation, the info line. -/
def RootInfo (begin : Time) (current_depth : Depth) (score : Score)
    (st : State B T) : State B T :=
  let pv := build_pv E current_depth.toNat [] { st with last_search_score := score }
  let t := now E pv.2
  if t.2.print_info then
    { t.2 with out := t.2.out ++
        [info_line E t.2.board current_depth t.2.max_ply
          (Int.tdiv (t.1 - begin) E.kTicksPerMillisecond) t.2.nodes score pv.1] }
  else t.2

/-- Report after an iteration (lines 685-716). -/
def RootReport (begin : Time) (current_depth : Depth) (score : Score)
    (st : State B T) : State B T :=
  if (finished E st).1 = false then RootInfo E begin current_depth score (finished E st).2
  else (finished E st).2

/-- Search of one depth in `RootSearch` (lines 665-684): the full window at
depth 1, the aspiration window (`score - delta` and `score + delta` in the
32-bit arithmetic of `Score`) and its re-searches from depth 2 on. -/
def RootDepthSearch
    (search : Nat → Score → Score → Depth → State B T → Option (Score × State B T))
    (k : Nat) (current_depth : Depth) (score : Score) (moves : List Move)
    (st : State B T) : Option (Score × List Move × State B T) :=
  if current_depth = 1 then
    RootSearchLoop E search E.kMinScore E.kMaxScore current_depth moves st
  else
    match RootSearchLoop E search (max (toI32 (score - 500)) E.kMinScore)
        (min (toI32 (score + 500)) E.kMaxScore) current_depth
        (SortMovesML E st moves (moves.getD 0 0)) st with
    | none => none
    | some (score1, moves1, st1) =>
      AspirationLoop E (fun a b => RootSearchLoop E search a b current_depth)
        k 500 (max (toI32 (score - 500)) E.kMinScore) (min (toI32 (score + 500)) E.kMaxScore)
        score1 moves1 st1

/-- The iterative-deepening `for` loop of `RootSearch` (lines 661-717), with
`n` depths left; `search` is `AlphaBeta<·, Mode>`, `k` bounds the aspiration
re-searches of one depth. -/
def RootIterate
    (search : Nat → Score → Score → Depth → State B T → Option (Score × State B T))
    (k : Nat) (begin : Time) :
    Nat → Depth → Score → List Move → State B T → Option (List Move × State B T)
  | 0, _, _, moves, st => some (moves, st)
  | n + 1, current_depth, score, moves, st =>
    if (finished E st).1 then some (moves, (finished E st).2)
    else
      match RootDepthSearch E search k current_depth score moves (finished E st).2 with
      | none => none
      | some (score1, moves1, st1) =>
        RootIterate search k begin n (current_depth + 1) score1 moves1
          (RootReport E begin current_depth score1 st1)

/-- Lines 650-660 of `RootSearch`: the counters, the root moves and their
first ordering. -/
def RootEnter (st : State B T) : State B T :=
  { (now E st).2 with max_ply := E.get_num_made_moves st.board, nodes := 0 }

/-- Root move list after the first `SortMovesML` (lines 654-660). -/
def RootMoves (st : State B T) : List Move :=
  SortMovesML E st (E.GetMovesNonQuiescent st.board)
    (if E.ValidateHash (E.GetEntry st.table (E.get_hash st.board)) (E.get_hash st.board) then
      (E.GetEntry st.table (E.get_hash st.board)).best_move
     else E.kNullMove)

/-- The routine `RootSearch<Mode>` over `search = AlphaBeta<·, Mode>`. -/
def RootSearchWith
    (search : Nat → Score → Score → Depth → State B T → Option (Score × State B T))
    (k : Nat) (depth : Depth) (st : State B T) : Option (Move × State B T) :=
  match RootIterate E search k (now E st).1 (min depth E.kMaxDepth).toNat 1 0
      (RootMoves E (RootEnter E st)) (RootEnter E st) with
  | none => none
  | some (moves, st1) => some (moves.getD 0 0, st1)

/-- The routine `RootSearch<Mode>`; `fuel` bounds both the nesting of the
`AlphaBeta` calls and the aspiration re-searches of one depth. -/
def RootSearch (Mode : Nat) (fuel : Nat) (depth : Depth) (st : State B T) :
    Option (Move × State B T) :=
  RootSearchWith E (AlphaBeta E Mode fuel) fuel depth st

/-- The routine `DepthSearch`; the board passed by value is the board of `st`. -/
def DepthSearch (fuel : Nat) (depth : Depth) (st : State B T) : Option (Move × State B T) :=
  let t := get_infinite_time E st
  RootSearch E kNormalSearchMode fuel depth { t.2 with end_time := t.1 }

/-- The routine `TimeSearch`; `duration` is in clock ticks. -/
def TimeSearch (fuel : Nat) (duration : Time) (st : State B T) : Option (Move × State B T) :=
  let t := now E st
  RootSearch E kNormalSearchMode fuel 1000 { t.2 with end_time := t.1 + duration }

/-- The routine `clear_killers`. -/
def clear_killers (st : State B T) : State B T :=
  { st with killers := fun _ _ => 0 }

end

/-! ## A small concrete instance -/

/-- Table of the concrete instance: the saved entries, most recent first. -/
structure ToyTable where
  entries : List Entry
  pv_entries : List PVEntry
deriving DecidableEq, Repr

/-- Hash of a toy board: the list of made moves read as digits. -/
def toyHash (b : List Move) : HashType :=
  b.foldr (fun m h => h * 65536 + m + 1) 0

/-- Concrete `Env`: a board is the list of its made moves (latest first), the
game tree is given by `moves`, `qmoves`, `inCheck`, `isDraw` and `eval`; the
tables keep every saved entry; `std::sort` is an insertion sort. -/
def toyEnv (moves qmoves : List Move → List Move) (inCheck isDraw : List Move → Bool)
    (eval : List Move → Score) (clock : Nat → Time) : Env (List Move) ToyTable :=
  { kMaxScore := 100000
    kMinScore := -100000
    kExactBound := 3
    kLowerBound := 1
    kUpperBound := 2
    kNullMove := 0
    kNormalMove := 0
    kDoublePawnMove := 1
    kEnPassant := 2
    kCapture := 3
    kNoPiece := 6
    kKing := 5
    kQueen := 4
    piece_phases := fun _ => 0
    kUseNullMoves := true
    kUseScoreBasedPruning := true
    R := 2
    kMaxDepth := 128
    GetMoveType := fun m => (m >>> 12) &&& 15
    GetMoveSource := fun m => m &&& 63
    GetMoveDestination := fun m => (m >>> 6) &&& 63
    GetPieceType := fun p => p
    GetSquareBitBoard := fun sq => 2 ^ sq
    IsMoveForcing := fun m => decide ((m >>> 12) &&& 15 ≥ 3)
    kNumMoveProbabilityFeatures := 16
    kPWIHashMove := 0
    kPWIKiller := 1
    kPWISEE := 3
    kPWIPieceTypeXTargetPieceType := 5
    kPWIMoveType := 6
    kPWIMoveSource := 7
    kPWIMoveDestination := 8
    kPWICaptureLastMoved := 9
    kPWIGivesCheck := 10
    kPWITabooDestination := 11
    kPWIForcingChanges := 12
    kPSTindex := fun _ => 0
    Make := fun b m => m :: b
    UnMake := fun b => b.tail
    get_hash := toyHash
    get_num_made_moves := fun b => b.length
    get_last_move := fun b => b.headD 0
    GetMovesQuiescent := qmoves
    GetMovesNonQuiescent := moves
    InCheck := inCheck
    IsDraw := isDraw
    NonNegativeSEE := fun _ _ => true
    GetDirectCheckingSquares := fun _ _ => 0
    GetTabooSquares := fun _ _ => 0
    get_phase := fun _ => 1
    get_piece := fun _ _ => 0
    ScoreBoard := eval
    GetEntry := fun t h =>
      (t.entries.find? fun e => e.hash = h).getD
        { hash := h + 1, best_move := 0, score := 0, depth := 0, bound := 0 }
    GetPVEntry := fun t h =>
      (t.pv_entries.find? fun e => e.hash = h).getD { hash := h + 1, best_move := 0 }
    ValidateHash := fun e h => e.hash = h
    ValidateHashPV := fun e h => e.hash = h
    get_score := fun e _ => e.score
    SaveEntry := fun t b m s bound d =>
      { t with entries :=
          { hash := toyHash b, best_move := m, score := s, depth := d, bound := bound }
            :: t.entries }
    SavePVEntry := fun t b m =>
      { t with pv_entries := { hash := toyHash b, best_move := m } :: t.pv_entries }
    score_margin := fun _ _ => 0
    sort := fun lt l => l.insertionSort fun a b => lt b a = false
    now := clock
    kTicksPerMillisecond := 1 }

/-- Initial state of the concrete instance on board `b`: empty tables, cleared
killers, zero weights, deadline `deadline`. -/
def toyState (b : List Move) (deadline : Time) : State (List Move) ToyTable :=
  { board := b
    table := { entries := [], pv_entries := [] }
    killers := fun _ _ => 0
    search_weights := fun _ => 0
    clock := 0
    end_time := deadline
    max_ply := 0
    nodes := 0
    sample_nodes := 0
    evaluation_nodes := 0
    kNodeCountSampleAt := 1000
    kNodeCountSampleEvalAt := 400
    sampled_board := []
    sampled_alpha := 0
    sampled_node_type := 0
    sampled_depth := 0
    last_search_score := 0
    print_info := true
    out := []
    errors := 0 }

/-! ## Specification vocabulary -/

section
variable {B T : Type} (E : Env B T)

/-- States reachable from `st` by the elementary updates the search routines
perform on the file-scope variables and the board. -/
inductive Reach : State B T → State B T → Prop
  | refl (st : State B T) : Reach st st
  | board {st st1 : State B T} (b : B) : Reach st st1 → Reach st { st1 with board := b }
  | table {st st1 : State B T} (t : T) : Reach st st1 → Reach st { st1 with table := t }
  | tick {st st1 : State B T} : Reach st st1 → Reach st { st1 with clock := st1.clock + 1 }
  | stop {st st1 : State B T} : Reach st st1 → Reach st (end_search_time E st1)
  | killer {st st1 : State B T} (move : Move) :
      Reach st st1 → Reach st (update_killers E st1 move)
  | max_ply {st st1 : State B T} (n : Nat) : Reach st st1 → Reach st { st1 with max_ply := n }
  | nodes {st st1 : State B T} (n : Int) : Reach st st1 → Reach st { st1 with nodes := n }
  | sample_nodes {st st1 : State B T} (n : Int) :
      Reach st st1 → Reach st { st1 with sample_nodes := n }
  | evaluation_nodes {st st1 : State B T} (n : Int) :
      Reach st st1 → Reach st { st1 with evaluation_nodes := n }
  | sampled_board {st st1 : State B T} (b : B) :
      Reach st st1 → Reach st { st1 with sampled_board := b }
  | sampled {st st1 : State B T} (b : B) (d : Depth) (nt : Nat) (a : Score) :
      Reach st st1 → Reach st { st1 with sampled_board := b, sampled_depth := d,
                                         sampled_node_type := nt, sampled_alpha := a }
  | last_search_score {st st1 : State B T} (s : Score) :
      Reach st st1 → Reach st { st1 with last_search_score := s }
  | out {st st1 : State B T} (o : List InfoLine) : Reach st st1 → Reach st { st1 with out := o }
  | errors {st st1 : State B T} (n : Nat) : Reach st st1 → Reach st { st1 with errors := n }

/-- A search routine whose every returning call ends in a state reachable
from its start state. -/
def ReachSearch
    (search : Nat → Score → Score → Depth → State B T → Option (Score × State B T)) : Prop :=
  ∀ nt a b d st r st1, search nt a b d st = some (r, st1) → Reach E st st1

/-- Assumptions on the collaborators under which every search returns:
`UnMake` undoes `Make`, `std::sort` permutes its input, generated moves fit the
low 16 bits, and `rank` bounds the length of every line the search can follow
(quiescent moves from any position, generated moves and the null move from a
position that is not a draw). -/
structure Lawful (rank : B → Nat) : Prop where
  unmake_make : ∀ b m, E.UnMake (E.Make b m) = b
  sort_perm : ∀ lt l, (E.sort lt l).Perm l
  moves16 : ∀ b m, m ∈ E.GetMovesNonQuiescent b → m < 65536
  qmoves16 : ∀ b m, m ∈ E.GetMovesQuiescent b → m < 65536
  rank_q : ∀ b m, m ∈ E.GetMovesQuiescent b → rank (E.Make b m) < rank b
  rank_nq : ∀ b m, E.IsDraw b = false → m ∈ E.GetMovesNonQuiescent b →
    rank (E.Make b m) < rank b
  rank_null : ∀ b, E.IsDraw b = false → rank (E.Make b E.kNullMove) < rank b

/-- A search routine that returns, with the board restored, on every state
whose board satisfies `P`. -/
def TotalOn
    (search : Nat → Score → Score → Depth → State B T → Option (Score × State B T))
    (P : B → Prop) : Prop :=
  ∀ nt a b d st, P st.board → ∃ r st1, search nt a b d st = some (r, st1) ∧ st1.board = st.board

end

/-- Score of a returned search, `0` if it did not return. -/
def resultScore {B T : Type} (o : Option (Score × State B T)) : Score :=
  match o with
  | some r => r.1
  | none => 0

/-- State of a returned search, `d` if it did not return. -/
def resultState {B T : Type} (d : State B T) (o : Option (Score × State B T)) : State B T :=
  match o with
  | some r => r.2
  | none => d

/-- Killer-table invariant: at every ply the two slots differ unless both are
zero, and a non-zero slot holds a move of type below `kCapture`. -/
def KillerInv {B T : Type} (E : Env B T) (killers : Nat → Nat → Move) : Prop :=
  ∀ p, (killers p 0 ≠ killers p 1 ∨ (killers p 0 = 0 ∧ killers p 1 = 0))
    ∧ (killers p 0 ≠ 0 → E.GetMoveType (killers p 0) < E.kCapture)
    ∧ (killers p 1 ≠ 0 → E.GetMoveType (killers p 1) < E.kCapture)

/-- From clock reading `K` on, every reading of the clock finds the deadline
of the state passed. -/
def TimeInv {B T : Type} (E : Env B T) (K : Nat) (st : State B T) : Prop :=
  ∀ k, K ≤ k → st.clock ≤ k → st.end_time ≤ E.now k

/-! ## Further concrete instances -/

/-- Game tree of the concrete instance `toyGame`: three root moves, two replies
to each. -/
def toyMoves : List Move → List Move
  | [] => [1, 2, 3]
  | [1] => [4, 5]
  | [2] => [6, 7]
  | [3] => [8, 9]
  | _ => []

/-- Evaluator of `toyGame`, from the point of view of the side to move. -/
def toyEval : List Move → Score
  | [1] => -50
  | [2] => -10
  | [3] => 0
  | [4, 1] => -100
  | [5, 1] => 60
  | [6, 2] => 10
  | [7, 2] => 20
  | [8, 3] => -200
  | [9, 3] => -200
  | _ => 0

/-- A game of at most two plies without checks and without quiescent moves; a
position after three made moves counts as a draw; the clock advances by one
tick at every reading. -/
def toyGame : Env (List Move) ToyTable :=
  toyEnv toyMoves (fun _ => []) (fun _ => false) (fun b => decide (2 < b.length)) toyEval
    (fun k => k)

/-- Length of the longest line of `toyGame` from a board. -/
def toyRank (b : List Move) : Nat := 3 - b.length

/-- An instance in which every position is a checkmate: the side to move is in
check and no generator returns a move. -/
def toyMated : Env (List Move) ToyTable :=
  toyEnv (fun _ => []) (fun _ => []) (fun _ => true) (fun _ => false) (fun _ => 0) (fun k => k)

/-- An instance in which every position is a stalemate with static evaluation
`500`. -/
def toyStalemate : Env (List Move) ToyTable :=
  toyEnv (fun _ => []) (fun _ => []) (fun _ => false) (fun _ => false) (fun _ => 500)
    (fun k => k)

/-- State on the empty board whose table holds one exact entry of score `77`
for that board. -/
def toyStoredState : State (List Move) ToyTable :=
  { toyState [] 1000 with
    table := { entries := [{ hash := toyHash [], best_move := 0, score := 77, depth := 5,
                             bound := 3 }],
               pv_entries := [] } }

/-- State left by the child search of move `4` on the board after move `1`, in
a run of `toyGame` whose deadline has already passed. -/
def toyChildState : State (List Move) ToyTable :=
  resultState (toyState [1] 0)
    (ABChild (AlphaBeta toyGame kNormalSearchMode 3) kPV 0 (-100) 100 1 0
      (Make toyGame (toyState [1] 0) 4))

/-- First `RootSearchLoop` call of a depth-1 iteration of `toyGame` on the root
list `[2, 1, 3]`, with the deadline at tick 2. -/
def toyRootRun : Option (Score × List Move × State (List Move) ToyTable) :=
  RootSearchLoop toyGame (AlphaBeta toyGame kNormalSearchMode 4) toyGame.kMinScore
    toyGame.kMaxScore 1 [2, 1, 3] (finished toyGame (toyState [] 2)).2

/-! ## Perft, records of the loops, priorities in the words of the specification -/

section
variable {B T : Type} (E : Env B T)

/-- The `for` loop of `Perft` (lines 315-319): `perft` is the recursive call
`Perft(board, depth-1)`, the sum is a `uint64_t`. -/
def PerftLoop (perft : State B T → Nat × State B T) :
    List Move → Nat → State B T → Nat × State B T
  | [], perft_sum, st => (perft_sum, st)
  | move :: rest, perft_sum, st =>
    PerftLoop perft rest ((perft_sum + (perft (Make E st move)).1) % 18446744073709551616)
      (UnMake E (perft (Make E st move)).2)

/-- The routine `Perft` for a depth `d ≥ 0`; the recursion is on the depth. -/
def PerftFrom : Nat → State B T → Nat × State B T
  | 0, st => (1, st)
  | d + 1, st =>
    if d = 0 then ((E.GetMovesNonQuiescent st.board).length % 18446744073709551616, st)
    else PerftLoop E (PerftFrom d) (E.GetMovesNonQuiescent st.board) 0 st

/-- The routine `Perft`: a depth `≤ 0` returns 1. -/
def Perft (depth : Depth) (st : State B T) : Nat × State B T :=
  PerftFrom E depth.toNat st

/-- Number of leaf positions at depth `d` in the words of the specification:
the number of sequences of `d` successive generated moves from the board, 1
for `d = 0`. -/
def leafCount : Nat → B → Nat
  | 0, _ => 1
  | d + 1, b => ((E.GetMovesNonQuiescent b).map fun m => leafCount d (E.Make b m)).sum

/-- Fail-hard result in the words of the specification: beta if some score is
at least beta, otherwise the best score above the original alpha, otherwise
the original alpha. -/
def fail_hard (original_alpha beta : Score) (scores : List Score) : Score :=
  if scores.any (fun s => decide (s ≥ beta)) then beta else scores.foldl max original_alpha

/-- Scores of a record of child searches that returned before the deadline. -/
def in_time (record : List (Score × Bool)) : List Score :=
  (record.filter fun x => !x.2).map Prod.fst

/-- Record of the move loop of `AlphaBeta` (lines 530-593): the loop of `ABLoop`
with, as result, the score of every child search it performs, in order, paired
with the value of `finished()` read after it. -/
def ABLoopScores
    (search : Nat → Score → Score → Depth → State B T → Option (Score × State B T))
    (NodeType : Nat) (beta : Score) (depth : Depth) (in_check : Bool)
    (static_eval : Score) (tt_entry : Move) (checking_squares : Nat → BitBoard) :
    Nat → Nat → List Move → Bool → Score → State B T → Option (List (Score × Bool))
  | 0, _, _, _, _, _ => some []
  | n + 1, i, moves0, moves_sorted0, alpha, st =>
    let moves := ABResort E st tt_entry i moves_sorted0 moves0
    let moves_sorted := ABSortedFlag i moves_sorted0
    let move := moves.getD i 0
    let reduction := ABReduction E NodeType in_check depth i checking_squares st.board move
    if ABFutile E NodeType in_check depth reduction static_eval alpha checking_squares
        st.board move then
      ABLoopScores search NodeType beta depth in_check static_eval tt_entry
        checking_squares n (i + 1) moves moves_sorted alpha st
    else
      match ABChild search NodeType i alpha beta depth reduction (Make E st move) with
      | none => none
      | some (score, st1) =>
        if (finished E (UnMake E st1)).1 then some [(score, true)]
        else if score ≥ beta then some [(score, false)]
        else if score > alpha then
          (ABLoopScores search NodeType beta depth in_check static_eval tt_entry
            checking_squares n (i + 1) moves moves_sorted score
            (finished E (UnMake E st1)).2).map (List.cons (score, false))
        else
          (ABLoopScores search NodeType beta depth in_check static_eval tt_entry
            checking_squares n (i + 1) moves moves_sorted alpha
            (finished E (UnMake E st1)).2).map (List.cons (score, false))

/-- Record of `ABMoves`: the scores of the child searches of the move loop
entered from its start. -/
def ABMovesScores
    (search : Nat → Score → Score → Depth → State B T → Option (Score × State B T))
    (NodeType : Nat) (alpha beta : Score) (depth : Depth)
    (valid_entry : Bool) (entry : Entry) (in_check : Bool) (static_eval : Score)
    (st : State B T) : Option (List (Score × Bool)) :=
  let tt_entry := ABHashMove E valid_entry entry st
  let moves0 := E.GetMovesNonQuiescent st.board
  let st1 := ABSwapCheck E st moves0 tt_entry
  let moves := ABOrder E st1 moves0 tt_entry
  ABLoopScores E search NodeType beta (ABExtend NodeType moves depth) in_check static_eval
    tt_entry (E.GetDirectCheckingSquares st.board) moves.length 0 moves
    (!(ABSwap E moves0 tt_entry).1) alpha st1

/-- Record of `RootSearchLoop` from index `i` on: the loop of
`RootSearchLoopFrom` with, as result, every root move it searches paired with
the score of its search, in order, and whether the loop ran to the final save
(no early return). -/
def RootSearchLoopLog
    (search : Nat → Score → Score → Depth → State B T → Option (Score × State B T))
    (beta : Score) (current_depth : Depth) :
    Nat → Nat → List Move → Score → State B T → Option (List (Move × Score) × Bool)
  | 0, _, _, _, _ => some ([], true)
  | n + 1, i, moves, alpha, st =>
    if i = 0 then
      match search kPV (-beta) (-alpha) (current_depth - 1) (Make E st (moves.getD i 0)) with
      | none => none
      | some (r, st1) =>
        if -r ≤ alpha ∨ -r ≥ beta then some ([(moves.getD i 0, -r)], false)
        else
          (RootSearchLoopLog search beta current_depth n (i + 1) moves (-r) (UnMake E st1)).map
            fun l => ((moves.getD i 0, -r) :: l.1, l.2)
    else
      match RootChild search alpha beta current_depth (Make E st (moves.getD i 0)) with
      | none => none
      | some (score, st1) =>
        if (finished E (UnMake E st1)).1 then some ([(moves.getD i 0, score)], false)
        else if score ≥ beta then some ([(moves.getD i 0, score)], false)
        else if score > alpha then
          (RootSearchLoopLog search beta current_depth n (i + 1) (rotate_to_front moves i)
            score (finished E (UnMake E st1)).2).map
            fun l => ((moves.getD i 0, score) :: l.1, l.2)
        else
          (RootSearchLoopLog search beta current_depth n (i + 1) moves alpha
            (finished E (UnMake E st1)).2).map
            fun l => ((moves.getD i 0, score) :: l.1, l.2)

/-- Heuristic priority of quiescence in the words of the specification: 20000
for the table move, 11000 for a move type above capture, `1000 + 10 * victim -
attacker` for a capture, 10 otherwise. -/
def quiescent_priority (board : B) (best : Move) (move : Move) : Int :=
  if move = best then 20000
  else if E.GetMoveType move > E.kCapture then 11000
  else if E.GetMoveType move = E.kCapture then
    1000 + 10 * (E.GetPieceType (E.get_piece board (E.GetMoveDestination move)) : Int)
      - (E.GetPieceType (E.get_piece board (E.GetMoveSource move)) : Int)
  else 10

/-- Linear score of a move as `SortMovesML` computes it (lines 220-230): the
value of `GetMoveWeight<int>` with the last move and the bitboards of the
board. -/
def linear_score (st : State B T) (best_move : Move) (move : Move) : Int :=
  GetMoveWeightInt E st.search_weights st.killers move st.board best_move
    (if E.get_num_made_moves st.board > 0 then E.get_last_move st.board else E.kNullMove)
    (E.GetDirectCheckingSquares st.board) (E.GetTabooSquares st.board)

end

/-- Game tree with a single root move and two replies to it. -/
def toySingleMoves : List Move → List Move
  | [] => [1]
  | [1] => [2, 3]
  | _ => []

/-- Evaluator of `toySingle`, from the point of view of the side to move. -/
def toySingleEval : List Move → Score
  | [2, 1] => 10
  | [3, 1] => -50
  | _ => 0

/-- A game in which the root has a single move. -/
def toySingle : Env (List Move) ToyTable :=
  toyEnv toySingleMoves (fun _ => []) (fun _ => false) (fun _ => false) toySingleEval
    (fun k => k)

/-- A game in which every position has two moves. -/
def toyBinary : Env (List Move) ToyTable :=
  toyEnv (fun _ => [1, 2]) (fun _ => []) (fun _ => false) (fun _ => false) (fun _ => 0)
    (fun k => k)

/-- State of `toyGame` on the empty board in which move `2` is the first killer
of the ply and the killer feature has weight `w`. -/
def toyWeightState (w : Int) : State (List Move) ToyTable :=
  { toyState [] 1000 with search_weights := fun i => if i = 1 then w else 0,
                          killers := fun _ k => if k = 0 then 2 else 0 }

/-! ## The feature indexes of `GetMoveWeight` -/

section
variable {B T : Type} (E : Env B T)

/-- Instance of `GetMoveWeight` that records, in order, the index of every
`AddFeature` call it makes. -/
def GetMoveWeightIndexes (killers : Nat → Nat → Move)
    (move : Move) (board : B) (tt_entry last_move : Move)
    (direct_checks taboo_squares : Nat → BitBoard) : List Nat :=
  GetMoveWeight E ([] : List Nat) (fun s index => s ++ [index])
    killers move board tt_entry last_move direct_checks taboo_squares

/-- Dot product of the weights with a feature vector of
`kNumMoveProbabilityFeatures` entries, in the words of the specification:
the sum over `i` of `weight[i] * feature[i]`. -/
def dot_product (search_weights : Nat → Int) (features : List Int) : Int :=
  ((List.range E.kNumMoveProbabilityFeatures).map fun i =>
    search_weights i * features.getD i 0).sum

end

/-! ## Record of the aspiration re-searches -/

/-- One aspiration re-search: `delta` and the window `(alpha, beta)` before it,
the `score` that failed, and the window `(new_alpha, new_beta)` it searches. -/
structure Widening where
  delta : Score
  alpha : Score
  beta : Score
  score : Score
  new_alpha : Score
  new_beta : Score
deriving DecidableEq, Repr

section
variable {B T : Type} (E : Env B T)

/-- Record of the aspiration `while` loop (lines 674-683): the loop of
`AspirationLoop` with, as result, the re-searches it makes, in order. -/
def AspirationWindows
    (loop : Score → Score → List Move → State B T → Option (Score × List Move × State B T)) :
    Nat → Score → Score → Score → Score → List Move → State B T → Option (List Widening)
  | 0, _, _, _, _, _, _ => none
  | k + 1, delta, alpha, beta, score, moves, st =>
    if (finished E st).1 = false ∧ (score ≤ alpha ∨ score ≥ beta) then
      match loop (widen E delta alpha beta score).1 (widen E delta alpha beta score).2 moves
          (finished E st).2 with
      | none => none
      | some (score1, moves1, st1) =>
        (AspirationWindows loop k (toI32 (delta * 2)) (widen E delta alpha beta score).1
          (widen E delta alpha beta score).2 score1 moves1 st1).map
          (List.cons
            { delta := delta, alpha := alpha, beta := beta, score := score,
              new_alpha := (widen E delta alpha beta score).1,
              new_beta := (widen E delta alpha beta score).2 })
    else some []

/-- Record of `RootDepthSearch`: the aspiration re-searches of one depth of
`RootSearch` (none at depth 1). -/
def RootDepthWindows
    (search : Nat → Score → Score → Depth → State B T → Option (Score × State B T))
    (k : Nat) (current_depth : Depth) (score : Score) (moves : List Move)
    (st : State B T) : Option (List Widening) :=
  if current_depth = 1 then some []
  else
    match RootSearchLoop E search (max (toI32 (score - 500)) E.kMinScore)
        (min (toI32 (score + 500)) E.kMaxScore) current_depth
        (SortMovesML E st moves (moves.getD 0 0)) st with
    | none => none
    | some (score1, moves1, st1) =>
      AspirationWindows E (fun a b => RootSearchLoop E search a b current_depth)
        k 500 (max (toI32 (score - 500)) E.kMinScore) (min (toI32 (score + 500)) E.kMaxScore)
        score1 moves1 st1

end

/-- State of `toyGame` on the empty board whose table holds, for the board
after move 1, an exact entry of depth 5 with the score `kMinScore`: every
search of the root move 1 returns `kMaxScore`. -/
def toyFailHighState (deadline : Time) : State (List Move) ToyTable :=
  { toyState [] deadline with
    table := { entries := [{ hash := toyHash [1], best_move := 0, score := -100000, depth := 5,
                             bound := 3 }],
               pv_entries := [] } }

/-! ## The weight vector of the trainers -/

/-- The double-precision operations that the trainers apply to the weights;
`F` stands for `double`, `ofInt` for the conversion of an `int`, and `isfinite`
for `std::isfinite` (the value is neither a NaN nor infinite), which only the
statements about the arithmetic use. -/
structure FloatOps (F : Type) where
  ofInt : Int → F
  add : F → F → F
  sub : F → F → F
  mul : F → F → F
  div : F → F → F
  neg : F → F
  exp : F → F
  isfinite : F → Bool

/-- Exact integer arithmetic as an instance of the operations, with a constant
in the place of the exponential. -/
def intOps : FloatOps Int :=
  { ofInt := fun x => x
    add := fun x y => x + y
    sub := fun x y => x - y
    mul := fun x y => x * y
    div := fun x y => x / y
    neg := fun x => -x
    exp := fun _ => 1
    isfinite := fun _ => true }

/-- Integer arithmetic with an absorbing NaN as an instance of the operations:
`none` stands for NaN, the only value that is not finite; every operation with
a NaN operand yields NaN, in particular `2000 - NaN * 0`, and so does a
division by zero; a constant stands in the place of the exponential of a
number. -/
def nanOps : FloatOps (Option Int) :=
  { ofInt := fun x => some x
    add := fun x y => x.bind fun a => y.map fun b => a + b
    sub := fun x y => x.bind fun a => y.map fun b => a - b
    mul := fun x y => x.bind fun a => y.map fun b => a * b
    div := fun x y => x.bind fun a => y.bind fun b => if b = 0 then none else some (a / b)
    neg := fun x => x.map fun a => -a
    exp := fun x => x.map fun _ => 1
    isfinite := fun x => x.isSome }

section
variable {B T : Type} (E : Env B T) {F : Type} (ops : FloatOps F)

/-- The vector `weights` at its declaration (lines 761-767, 969-975 and
1111-1117): zero, or the copy of `search_weights` when the training does not
start from scratch. -/
def TrainLoadWeights (from_scratch : Bool) (search_weights : Nat → Int) : Nat → F :=
  fun i => if from_scratch then ops.ofInt 0 else ops.ofInt (search_weights i)

/-- The assignment `weights[index] = value`. -/
def set_weight (weights : Nat → F) (index : Nat) (value : F) : Nat → F :=
  fun i => if i = index then value else weights i

/-- Weights of `TrainSearchParamsOrderBased` before its loop (lines 761-768). -/
def OrderBasedInit (from_scratch : Bool) (search_weights : Nat → Int) : Nat → F :=
  set_weight (TrainLoadWeights ops from_scratch search_weights) E.kPWIHashMove (ops.ofInt 2000)

/-- Weights of `TrainSearchParams` before its loop (lines 969-978); the move
types `kRookPromotion` and `kBishopPromotion` come from the headers. -/
def TrainSearchParamsInit (kRookPromotion kBishopPromotion : Nat) (from_scratch : Bool)
    (search_weights : Nat → Int) : Nat → F :=
  set_weight
    (set_weight
      (set_weight (TrainLoadWeights ops from_scratch search_weights) E.kPWIHashMove
        (ops.ofInt 2000))
      (E.kPWIMoveType + kRookPromotion) (ops.ofInt (-2000)))
    (E.kPWIMoveType + kBishopPromotion) (ops.ofInt (-2000))

/-- Weights of `TrainSearchParamsPairwise` before its loop (lines 1111-1117):
the routine assigns no entry after the declaration. -/
def PairwiseInit (from_scratch : Bool) (search_weights : Nat → Int) : Nat → F :=
  TrainLoadWeights ops from_scratch search_weights

/-- Feature row of a move of the sampled board in `TrainSearchParamsOrderBased`
and `TrainSearchParams` (lines 785-798 and 1005-1018): the hint passed to
`GetMoveWeight` is `kNullMove`. -/
def TrainFeatures (killers : Nat → Nat → Move) (board : B) (move : Move) : List Int :=
  GetMoveWeightVec E killers move board E.kNullMove
    (if E.get_num_made_moves board > 0 then E.get_last_move board else E.kNullMove)
    (E.GetDirectCheckingSquares board) (E.GetTabooSquares board)

/-- The scaled weighted sum `final_score` of lines 819-823 (`first = 1`) and
1062-1066 (`first = 0`). -/
def final_score (first : Nat) (scaling : Int) (features : List Int) (weights : Nat → F) : F :=
  ops.div
    ((List.range' first (E.kNumMoveProbabilityFeatures - first)).foldl
      (fun s idx => ops.add s (ops.mul (ops.ofInt (features.getD idx 0)) (weights idx)))
      (ops.ofInt 0))
    (ops.ofInt scaling)

/-- The value `gradient = sigmoid - target` of lines 824-825 and 1067-1068. -/
def gradient (first : Nat) (scaling : Int) (features : List Int) (weights : Nat → F)
    (target : F) : F :=
  ops.sub
    (ops.div (ops.ofInt 1)
      (ops.add (ops.ofInt 1) (ops.exp (ops.neg (final_score E ops first scaling features weights)))))
    target

/-- Weight update of `TrainSearchParamsOrderBased` for one move (lines 819-828):
the indexes from 1 on are updated. -/
def OrderBasedUpdate (nu target : F) (features : List Int) (weights : Nat → F) : Nat → F :=
  fun idx =>
    if 1 ≤ idx ∧ idx < E.kNumMoveProbabilityFeatures then
      ops.sub (weights idx)
        (ops.mul (ops.mul nu (gradient E ops 1 128 features weights target))
          (ops.ofInt (features.getD idx 0)))
    else weights idx

/-- Weight update of `TrainSearchParams` for one move (lines 1062-1071): all
indexes are updated. -/
def TrainSearchParamsUpdate (nu target : F) (features : List Int) (weights : Nat → F) :
    Nat → F :=
  fun idx =>
    if idx < E.kNumMoveProbabilityFeatures then
      ops.sub (weights idx)
        (ops.div
          (ops.mul (ops.mul nu (gradient E ops 0 128 features weights target))
            (ops.ofInt (features.getD idx 0)))
          (ops.ofInt 1))
    else weights idx

/-- The three assignments of the gauge fix (lines 836-838 and 1077-1079). -/
def GaugePins (weights : Nat → F) : Nat → F :=
  set_weight
    (set_weight
      (set_weight weights (E.kPWIMoveType + E.kEnPassant) (ops.ofInt 0))
      (E.kPWIPieceTypeXTargetPieceType + E.kKing * 6 + E.kNoPiece - 1) (ops.ofInt 0))
    E.kPWIMoveSource (ops.ofInt 0)

/-- Weight vectors that `TrainSearchParamsOrderBased` can hold as long as the
step `nu * gradient` of every update is finite: the initial vector, and what a
weight update for a move of a sampled board with a finite step, or the gauge
fix, makes of such a vector. -/
inductive OrderBasedWeights : (Nat → F) → Prop
  | init (from_scratch : Bool) (search_weights : Nat → Int) :
      OrderBasedWeights (OrderBasedInit E ops from_scratch search_weights)
  | update {w : Nat → F} (nu target : F) (killers : Nat → Nat → Move) (board : B)
      (move : Move) : move ∈ E.GetMovesNonQuiescent board →
      ops.isfinite (ops.mul nu
        (gradient E ops 1 128 (TrainFeatures E killers board move) w target)) = true →
      OrderBasedWeights w →
      OrderBasedWeights (OrderBasedUpdate E ops nu target (TrainFeatures E killers board move) w)
  | gauge {w : Nat → F} : OrderBasedWeights w → OrderBasedWeights (GaugePins E ops w)

/-- Weight vectors that `TrainSearchParams` can hold as long as the step
`nu * gradient` of every update is finite: the initial vector, and what a
weight update for a move of a sampled board with a finite step, or the gauge
fix, makes of such a vector. -/
inductive TrainSearchParamsWeights (kRookPromotion kBishopPromotion : Nat) : (Nat → F) → Prop
  | init (from_scratch : Bool) (search_weights : Nat → Int) :
      TrainSearchParamsWeights kRookPromotion kBishopPromotion
        (TrainSearchParamsInit E ops kRookPromotion kBishopPromotion from_scratch search_weights)
  | update {w : Nat → F} (nu target : F) (killers : Nat → Nat → Move) (board : B)
      (move : Move) : move ∈ E.GetMovesNonQuiescent board →
      ops.isfinite (ops.mul nu
        (gradient E ops 0 128 (TrainFeatures E killers board move) w target)) = true →
      TrainSearchParamsWeights kRookPromotion kBishopPromotion w →
      TrainSearchParamsWeights kRookPromotion kBishopPromotion
        (TrainSearchParamsUpdate E ops nu target (TrainFeatures E killers board move) w)
  | gauge {w : Nat → F} : TrainSearchParamsWeights kRookPromotion kBishopPromotion w →
      TrainSearchParamsWeights kRookPromotion kBishopPromotion (GaugePins E ops w)

/-- The index `kPWIHashMove` lies below every other feature group of the
catalogue. -/
def HashMoveFirst : Prop :=
  E.kPWIHashMove < E.kPWIKiller ∧ E.kPWIHashMove < E.kPWISEE
    ∧ E.kPWIHashMove < E.kPWIPieceTypeXTargetPieceType ∧ E.kPWIHashMove < E.kPWIMoveType
    ∧ E.kPWIHashMove < E.kPWIMoveSource ∧ E.kPWIHashMove < E.kPWIMoveDestination
    ∧ E.kPWIHashMove < E.kPWICaptureLastMoved ∧ E.kPWIHashMove < E.kPWIGivesCheck
    ∧ E.kPWIHashMove < E.kPWITabooDestination ∧ E.kPWIHashMove < E.kPWIForcingChanges

end

/-! ## Record of the moves of the move loop -/

section
variable {B T : Type} (E : Env B T)

/-- Record of the move loop of `AlphaBeta` (lines 530-593): the loop of `ABLoop`
with, as result, the move `moves[i]` of every iteration it runs, in order, and
the number of calls of `SortMovesML` made by lines 531-534. -/
def ABLoopMoves
    (search : Nat → Score → Score → Depth → State B T → Option (Score × State B T))
    (NodeType : Nat) (beta : Score) (depth : Depth) (in_check : Bool)
    (static_eval : Score) (tt_entry : Move) (checking_squares : Nat → BitBoard) :
    Nat → Nat → List Move → Bool → Score → State B T → Option (List Move × Nat)
  | 0, _, _, _, _, _ => some ([], 0)
  | n + 1, i, moves0, moves_sorted0, alpha, st =>
    let moves := ABResort E st tt_entry i moves_sorted0 moves0
    let moves_sorted := ABSortedFlag i moves_sorted0
    let move := moves.getD i 0
    let sorts := if i = 1 ∧ moves_sorted0 = false then 1 else 0
    let reduction := ABReduction E NodeType in_check depth i checking_squares st.board move
    if ABFutile E NodeType in_check depth reduction static_eval alpha checking_squares
        st.board move then
      (ABLoopMoves search NodeType beta depth in_check static_eval tt_entry
        checking_squares n (i + 1) moves moves_sorted alpha st).map
        fun r => (move :: r.1, sorts + r.2)
    else
      match ABChild search NodeType i alpha beta depth reduction (Make E st move) with
      | none => none
      | some (score, st1) =>
        if (finished E (UnMake E st1)).1 then some ([move], sorts)
        else if score ≥ beta then some ([move], sorts)
        else if score > alpha then
          (ABLoopMoves search NodeType beta depth in_check static_eval tt_entry
            checking_squares n (i + 1) moves moves_sorted score
            (finished E (UnMake E st1)).2).map
            fun r => (move :: r.1, sorts + r.2)
        else
          (ABLoopMoves search NodeType beta depth in_check static_eval tt_entry
            checking_squares n (i + 1) moves moves_sorted alpha
            (finished E (UnMake E st1)).2).map
            fun r => (move :: r.1, sorts + r.2)

/-- Record of `ABMoves`: the moves of the iterations of the move loop entered
from its start, and the number of calls of `SortMovesML` of the node (the
call of line 521 and the call of line 532). -/
def ABMovesRecord
    (search : Nat → Score → Score → Depth → State B T → Option (Score × State B T))
    (NodeType : Nat) (alpha beta : Score) (depth : Depth)
    (valid_entry : Bool) (entry : Entry) (in_check : Bool) (static_eval : Score)
    (st : State B T) : Option (List Move × Nat) :=
  let tt_entry := ABHashMove E valid_entry entry st
  let moves0 := E.GetMovesNonQuiescent st.board
  let st1 := ABSwapCheck E st moves0 tt_entry
  let moves := ABOrder E st1 moves0 tt_entry
  (ABLoopMoves E search NodeType beta (ABExtend NodeType moves depth) in_check static_eval
    tt_entry (E.GetDirectCheckingSquares st.board) moves.length 0 moves
    (!(ABSwap E moves0 tt_entry).1) alpha st1).map
    fun r => (r.1, (if (ABSwap E moves0 tt_entry).1 = false then 1 else 0) + r.2)

end

/-- State of `toyGame` on the empty board in which the hash-move feature has
weight 2000 and every other feature weight 0. -/
def toyHashState : State (List Move) ToyTable :=
  { toyState [] 1000 with search_weights := fun i => if i = 0 then 2000 else 0 }

/-- State of `toyGame` on the empty board in which `killer` is the first killer
of every ply and the killer feature has weight `w`; every other weight is 0. -/
def toyKillerState (killer : Move) (w : Int) : State (List Move) ToyTable :=
  { toyState [] 1000 with search_weights := fun i => if i = 1 then w else 0,
                          killers := fun _ k => if k = 0 then killer else 0 }

/-! ## The search with tested call arguments -/

section
variable {B T : Type} (E : Env B T)

/-- The three entry assertions of `AlphaBeta` (lines 398-400), as a test of the
arguments of a call. -/
def entry_assertions (NodeType : Nat) (alpha beta : Score) (_depth : Depth) (board : B) :
    Bool :=
  decide (E.get_num_made_moves board > 0) && decide (beta > alpha)
    && (decide (beta = alpha + 1) || decide (NodeType ≠ kNW))

/-- The test `depth ≥ bound` of the arguments of a call. -/
def depth_at_least (bound : Depth) (_NodeType : Nat) (_alpha _beta : Score) (depth : Depth)
    (_board : B) : Bool :=
  decide (bound ≤ depth)

/-- A search routine behind a test of its arguments: a call whose arguments
fail the test returns nothing. -/
def checked (ok : Nat → Score → Score → Depth → B → Bool)
    (search : Nat → Score → Score → Depth → State B T → Option (Score × State B T)) :
    Nat → Score → Score → Depth → State B T → Option (Score × State B T) :=
  fun nt a b d st => if ok nt a b d st.board then search nt a b d st else none

/-- The routine `AlphaBeta` in which every call, the outermost one and every
recursive one, first tests its arguments with `ok` and returns nothing when
the test fails. -/
def AlphaBetaChecked (ok : Nat → Score → Score → Depth → B → Bool) (Mode : Nat) :
    Nat → Nat → Score → Score → Depth → State B T → Option (Score × State B T)
  | 0, _, _, _, _, _ => none
  | fuel + 1, NodeType, alpha, beta, depth, st =>
    if ok NodeType alpha beta depth st.board = false then none
    else if E.IsDraw st.board then some (0, st)
    else if depth ≤ 0 then QuiescentSearch E Mode fuel alpha beta st
    else if E.ValidateHash (E.GetEntry st.table (E.get_hash st.board)) (E.get_hash st.board) = true
        ∧ sufficient_bounds E st.board (E.GetEntry st.table (E.get_hash st.board))
            alpha beta depth = true then
      some (E.get_score (E.GetEntry st.table (E.get_hash st.board)) st.board, st)
    else
      ABBody E (AlphaBetaChecked ok Mode fuel) Mode NodeType alpha beta depth
        (E.ValidateHash (E.GetEntry st.table (E.get_hash st.board)) (E.get_hash st.board))
        (E.GetEntry st.table (E.get_hash st.board)) st

end

/-- The arguments `(nt, a, b, d)` with which `ABChild` calls the search for the
move of index `i` of a node of type `NodeType` with the window `(alpha, beta)`,
the depth `depth` and the reduction `reduction` (lines 552-567). -/
def ChildCall (NodeType i : Nat) (alpha beta : Score) (depth reduction : Depth)
    (nt : Nat) (a b : Score) (d : Depth) : Prop :=
  (NodeType = kNW ∧ nt = kNW ∧ a = -beta ∧ b = -alpha
      ∧ (d = depth - 1 - reduction ∨ (reduction > 0 ∧ d = depth - 1)))
  ∨ (NodeType ≠ kNW ∧ i = 0 ∧ nt = kPV ∧ a = -beta ∧ b = -alpha ∧ d = depth - 1)
  ∨ (NodeType ≠ kNW ∧ i ≠ 0 ∧ d = depth - 1
      ∧ ((nt = kNW ∧ a = -(alpha + 1) ∧ b = -alpha) ∨ (nt = kPV ∧ a = -beta ∧ b = -alpha)))

/-! ## Board restoration -/

/-- A search routine that leaves the board as it found it whenever it returns. -/
def KeepsBoard {B T : Type}
    (search : Nat → Score → Score → Depth → State B T → Option (Score × State B T)) : Prop :=
  ∀ nt a b d st r st1, search nt a b d st = some (r, st1) → st1.board = st.board

/-! ## Record of the moves skipped by the futility test -/

section
variable {B T : Type} (E : Env B T)

/-- The move loop of `AlphaBeta` (lines 530-604) returning the moves that the
move-level futility test (lines 544-550) skipped, in the order of the loop. -/
def ABLoopSkipped
    (search : Nat → Score → Score → Depth → State B T → Option (Score × State B T))
    (NodeType : Nat) (beta : Score) (depth : Depth) (in_check : Bool)
    (static_eval : Score) (tt_entry : Move) (checking_squares : Nat → BitBoard) :
    Nat → Nat → List Move → Bool → Score → State B T → Option (List Move)
  | 0, _, _, _, _, _ => some []
  | n + 1, i, moves0, moves_sorted0, alpha, st =>
    let moves := ABResort E st tt_entry i moves_sorted0 moves0
    let moves_sorted := ABSortedFlag i moves_sorted0
    let move := moves.getD i 0
    let reduction := ABReduction E NodeType in_check depth i checking_squares st.board move
    if ABFutile E NodeType in_check depth reduction static_eval alpha checking_squares
        st.board move then
      (ABLoopSkipped search NodeType beta depth in_check static_eval tt_entry
        checking_squares n (i + 1) moves moves_sorted alpha st).map (fun l => move :: l)
    else
      match ABChild search NodeType i alpha beta depth reduction (Make E st move) with
      | none => none
      | some (score, st1) =>
        if (finished E (UnMake E st1)).1 then some []
        else if score ≥ beta then some []
        else if score > alpha then
          ABLoopSkipped search NodeType beta depth in_check static_eval tt_entry
            checking_squares n (i + 1) moves moves_sorted score
            (finished E (UnMake E st1)).2
        else
          ABLoopSkipped search NodeType beta depth in_check static_eval tt_entry
            checking_squares n (i + 1) moves moves_sorted alpha
            (finished E (UnMake E st1)).2

/-- Lines 503-604 of `AlphaBeta` returning the moves skipped by the move-level
futility test. -/
def ABMovesSkipped
    (search : Nat → Score → Score → Depth → State B T → Option (Score × State B T))
    (NodeType : Nat) (alpha beta : Score) (depth : Depth)
    (valid_entry : Bool) (entry : Entry) (in_check : Bool) (static_eval : Score)
    (st : State B T) : Option (List Move) :=
  let tt_entry := ABHashMove E valid_entry entry st
  let moves0 := E.GetMovesNonQuiescent st.board
  let st1 := ABSwapCheck E st moves0 tt_entry
  let moves := ABOrder E st1 moves0 tt_entry
  ABLoopSkipped E search NodeType beta (ABExtend NodeType moves depth) in_check static_eval
    tt_entry (E.GetDirectCheckingSquares st.board) moves.length 0 moves
    (!(ABSwap E moves0 tt_entry).1) alpha st1

end

/-! ## The scoring loop of the trainers -/

/-- Outcome of the scoring loop of `TrainSearchParams` and
`CreateSearchParamDataset`: the entries of `scores` written so far (in the order
of the moves), the counters `low` and `high`, whether the loop was left by the
`break`, and the state. -/
structure Scoring (B T : Type) where
  scores : List Score
  low : Nat
  high : Nat
  broke : Bool
  st : State B T

section
variable {B T : Type} (E : Env B T)

/-- The scoring loop over the moves of the sampled position (lines 903-921 and
1021-1039, the same text in both routines), on the state whose board is
`sampled_board`; `size` is `moves.size()` and `search` is
`AlphaBeta<·, kNormalSearchMode>`. -/
def TrainScoreLoop
    (search : Nat → Score → Score → Depth → State B T → Option (Score × State B T))
    (size : Nat) :
    List Move → List Score → Nat → Nat → State B T → Option (Scoring B T)
  | [], scores, low, high, st => some ⟨scores, low, high, false, st⟩
  | move :: rest, scores, low, high, st =>
    match search kNW (-(st.sampled_alpha + 1)) (-st.sampled_alpha) (st.sampled_depth - 1)
        (Make E st move) with
    | none => none
    | some (r, st1) =>
      if -r > (UnMake E st1).sampled_alpha then
        if high + 1 > size / 2 then some ⟨scores ++ [-r], low, high + 1, true, UnMake E st1⟩
        else TrainScoreLoop search size rest (scores ++ [-r]) low (high + 1) (UnMake E st1)
      else TrainScoreLoop search size rest (scores ++ [-r]) (low + 1) high (UnMake E st1)

/-- The scoring loop from its start (`low = 0, high = 0`, no score written). -/
def TrainScores
    (search : Nat → Score → Score → Depth → State B T → Option (Score × State B T))
    (moves : List Move) (st : State B T) : Option (Scoring B T) :=
  TrainScoreLoop E search moves.length moves [] 0 0 st

end

/-- The three tests after the scoring loop (lines 922-933 and 1040-1051) that
discard the iteration: all moves below, all moves above, too easy. -/
def TrainDiscarded (low high : Nat) : Bool :=
  decide (high = 0) || decide (low = 0) || decide (high > low)

/-- State of `toyGame` after a sampling search that captured the empty board
with `sampled_alpha = a` at depth 1. -/
def toySampledState (a : Score) : State (List Move) ToyTable :=
  { toyState [] 1000 with sampled_alpha := a, sampled_depth := 1 }

/-! ## Tests of the node type and of the depth of a call -/

/-- The test `NodeType = kNW ∧ depth < bound` of the arguments of a call. -/
def nw_below {B : Type} (bound : Depth) (NodeType : Nat) (_alpha _beta : Score)
    (depth : Depth) (_board : B) : Bool :=
  decide (NodeType = kNW ∧ depth < bound)

/-- The test `NodeType = kNW` of the arguments of a call. -/
def only_nw {B : Type} (NodeType : Nat) (_alpha _beta : Score) (_depth : Depth)
    (_board : B) : Bool :=
  decide (NodeType = kNW)

/-! ## Record of the root move lists -/

section
variable {B T : Type} (E : Env B T)

/-- The aspiration `while` loop (lines 674-683) returning the move lists that
its calls of `RootSearchLoop` leave, in the order of the calls. -/
def AspirationLists
    (loop : Score → Score → List Move → State B T → Option (Score × List Move × State B T)) :
    Nat → Score → Score → Score → Score → List Move → State B T → Option (List (List Move))
  | 0, _, _, _, _, _, _ => none
  | k + 1, delta, alpha, beta, score, moves, st =>
    if (finished E st).1 = false ∧ (score ≤ alpha ∨ score ≥ beta) then
      match loop (widen E delta alpha beta score).1 (widen E delta alpha beta score).2 moves
          (finished E st).2 with
      | none => none
      | some (score1, moves1, st1) =>
        (AspirationLists loop k (toI32 (delta * 2)) (widen E delta alpha beta score).1
          (widen E delta alpha beta score).2 score1 moves1 st1).map (List.cons moves1)
    else some []

/-- The search of one depth (lines 665-684) returning the move lists that its
calls of `RootSearchLoop` leave: the first call, then the re-searches. -/
def RootDepthLists
    (search : Nat → Score → Score → Depth → State B T → Option (Score × State B T))
    (k : Nat) (current_depth : Depth) (score : Score) (moves : List Move)
    (st : State B T) : Option (List (List Move)) :=
  if current_depth = 1 then
    (RootSearchLoop E search E.kMinScore E.kMaxScore current_depth moves st).map
      fun r => [r.2.1]
  else
    match RootSearchLoop E search (max (toI32 (score - 500)) E.kMinScore)
        (min (toI32 (score + 500)) E.kMaxScore) current_depth
        (SortMovesML E st moves (moves.getD 0 0)) st with
    | none => none
    | some (score1, moves1, st1) =>
      (AspirationLists E (fun a b => RootSearchLoop E search a b current_depth)
        k 500 (max (toI32 (score - 500)) E.kMinScore) (min (toI32 (score + 500)) E.kMaxScore)
        score1 moves1 st1).map (List.cons moves1)

/-- The iterative-deepening loop (lines 661-717) returning the move lists that
all its calls of `RootSearchLoop` leave, in the order of the calls. -/
def RootIterateLists
    (search : Nat → Score → Score → Depth → State B T → Option (Score × State B T))
    (k : Nat) (begin : Time) :
    Nat → Depth → Score → List Move → State B T → Option (List (List Move))
  | 0, _, _, _, _ => some []
  | n + 1, current_depth, score, moves, st =>
    if (finished E st).1 then some []
    else
      match RootDepthSearch E search k current_depth score moves (finished E st).2,
          RootDepthLists E search k current_depth score moves (finished E st).2 with
      | some (score1, moves1, st1), some lists =>
        (RootIterateLists search k begin n (current_depth + 1) score1 moves1
          (RootReport E begin current_depth score1 st1)).map (fun rest => lists ++ rest)
      | _, _ => none

/-- The routine `RootSearch<Mode>` returning the move lists that its calls of
`RootSearchLoop` leave, in the order of the calls. -/
def RootSearchLists
    (search : Nat → Score → Score → Depth → State B T → Option (Score × State B T))
    (k : Nat) (depth : Depth) (st : State B T) : Option (List (List Move)) :=
  RootIterateLists E search k (now E st).1 (min depth E.kMaxDepth).toNat 1 0
    (RootMoves E (RootEnter E st)) (RootEnter E st)

end

/-! ## The library sort

`SortMoves` and `SortMovesML` call `std::sort` of the C++ library.  These are
the routines of its GNU implementation (`bits/stl_algo.h`, `bits/stl_heap.h`)
over a vector held as a list; an iterator is an index into it. -/

/-- The call `std::iter_swap(a, b)`. -/
def iter_swap (v : List Move) (a b : Nat) : List Move :=
  (v.set a (v.getD b 0)).set b (v.getD a 0)

/-- The function `std::__lg`: the position of the highest set bit. -/
def lg : Nat → Nat → Nat
  | 0, _ => 0
  | fuel + 1, n => if n < 2 then 0 else lg fuel (n / 2) + 1

/-- The loop of `__unguarded_linear_insert`: `next + 1` is the iterator `__last`;
the loop stops at the front of the vector, which it reaches only when the
caller did not guard it. -/
def unguarded_linear_insert_loop (comp : Move → Move → Bool) (val : Move) :
    Nat → List Move → List Move
  | 0, v => v.set 0 val
  | next + 1, v =>
    if comp val (v.getD next 0) then
      unguarded_linear_insert_loop comp val next (v.set (next + 1) (v.getD next 0))
    else v.set (next + 1) val

/-- The routine `__unguarded_linear_insert(__last, __comp)`. -/
def unguarded_linear_insert (comp : Move → Move → Bool) (v : List Move) (last : Nat) :
    List Move :=
  unguarded_linear_insert_loop comp (v.getD last 0) last v

/-- The body of the `for` loop of `__insertion_sort` at the iterator `i`: an
element that goes before the first one is put in front by `move_backward`, any
other is inserted by `__unguarded_linear_insert`. -/
def insertion_sort_step (comp : Move → Move → Bool) (first i : Nat) (v : List Move) :
    List Move :=
  if comp (v.getD i 0) (v.getD first 0) then
    v.take first ++ v.getD i 0 :: (v.drop first).take (i - first) ++ v.drop (i + 1)
  else unguarded_linear_insert comp v i

/-- The `for` loop of `__insertion_sort`: `n` iterators are left from `i` on. -/
def insertion_sort_loop (comp : Move → Move → Bool) (first : Nat) :
    Nat → Nat → List Move → List Move
  | 0, _, v => v
  | n + 1, i, v => insertion_sort_loop comp first n (i + 1) (insertion_sort_step comp first i v)

/-- The routine `__insertion_sort(__first, __last, __comp)`. -/
def insertion_sort (comp : Move → Move → Bool) (v : List Move) (first last : Nat) :
    List Move :=
  if first = last then v else insertion_sort_loop comp first (last - (first + 1)) (first + 1) v

/-- The routine `__unguarded_insertion_sort(__first, __last, __comp)`: `n`
iterators are left from `i` on. -/
def unguarded_insertion_sort (comp : Move → Move → Bool) : Nat → Nat → List Move → List Move
  | 0, _, v => v
  | n + 1, i, v => unguarded_insertion_sort comp n (i + 1) (unguarded_linear_insert comp v i)

/-- The routine `__final_insertion_sort(__first, __last, __comp)`. -/
def final_insertion_sort (comp : Move → Move → Bool) (v : List Move) (first last : Nat) :
    List Move :=
  if last - first > 16 then
    unguarded_insertion_sort comp (last - (first + 16)) (first + 16)
      (insertion_sort comp v first (first + 16))
  else insertion_sort comp v first last

/-- The routine `__move_median_to_first(__result, __a, __b, __c, __comp)`. -/
def move_median_to_first (comp : Move → Move → Bool) (v : List Move) (result a b c : Nat) :
    List Move :=
  if comp (v.getD a 0) (v.getD b 0) then
    if comp (v.getD b 0) (v.getD c 0) then iter_swap v result b
    else if comp (v.getD a 0) (v.getD c 0) then iter_swap v result c
    else iter_swap v result a
  else if comp (v.getD a 0) (v.getD c 0) then iter_swap v result a
  else if comp (v.getD b 0) (v.getD c 0) then iter_swap v result c
  else iter_swap v result b

/-- The loop `while (__comp(__first, __pivot)) ++__first` of
`__unguarded_partition`; it stops at the end of the vector at the latest. -/
def partition_up (comp : Move → Move → Bool) (v : List Move) (pivot : Nat) :
    Nat → Nat → Nat
  | 0, first => first
  | fuel + 1, first =>
    if comp (v.getD first 0) (v.getD pivot 0) then partition_up comp v pivot fuel (first + 1)
    else first

/-- The loop `while (__comp(__pivot, __last)) --__last` of
`__unguarded_partition`; it stops at the front of the vector at the latest. -/
def partition_down (comp : Move → Move → Bool) (v : List Move) (pivot : Nat) : Nat → Nat
  | 0 => 0
  | last + 1 =>
    if comp (v.getD pivot 0) (v.getD (last + 1) 0) then partition_down comp v pivot last
    else last + 1

/-- The routine `__unguarded_partition(__first, __last, __pivot, __comp)`; every
round but the last moves `__first` up, so that `fuel` rounds are enough when
`fuel` is the length of the range. -/
def unguarded_partition (comp : Move → Move → Bool) (pivot : Nat) :
    Nat → List Move → Nat → Nat → List Move × Nat
  | 0, v, first, _ => (v, first)
  | fuel + 1, v, first, last =>
    let first1 := partition_up comp v pivot (v.length - first) first
    let last1 := partition_down comp v pivot (last - 1)
    if first1 < last1 then
      unguarded_partition comp pivot fuel (iter_swap v first1 last1) (first1 + 1) last1
    else (v, first1)

/-- The routine `__unguarded_partition_pivot(__first, __last, __comp)`. -/
def unguarded_partition_pivot (comp : Move → Move → Bool) (v : List Move)
    (first last : Nat) : List Move × Nat :=
  let mid := first + (last - first) / 2
  unguarded_partition comp first (last - first)
    (move_median_to_first comp v first (first + 1) mid (last - 1)) (first + 1) last

/-- The routine `__push_heap(__first, __holeIndex, __topIndex, __value, __comp)`;
the hole moves to its parent in every round, so that `fuel` rounds are enough
when `fuel` is the hole index. -/
def push_heap (comp : Move → Move → Bool) (first topIndex : Nat) (value : Move) :
    Nat → List Move → Nat → List Move
  | 0, v, holeIndex => v.set (first + holeIndex) value
  | fuel + 1, v, holeIndex =>
    if holeIndex > topIndex ∧ comp (v.getD (first + (holeIndex - 1) / 2) 0) value = true then
      push_heap comp first topIndex value fuel
        (v.set (first + holeIndex) (v.getD (first + (holeIndex - 1) / 2) 0))
        ((holeIndex - 1) / 2)
    else v.set (first + holeIndex) value

/-- The `while` loop of `__adjust_heap`; the hole index equals `__secondChild`
at the start of every round. -/
def adjust_heap_loop (comp : Move → Move → Bool) (first len : Nat) :
    Nat → List Move → Nat → List Move × Nat
  | 0, v, secondChild => (v, secondChild)
  | fuel + 1, v, secondChild =>
    if secondChild < (len - 1) / 2 then
      let child := 2 * (secondChild + 1)
      let child1 :=
        if comp (v.getD (first + child) 0) (v.getD (first + (child - 1)) 0) then child - 1
        else child
      adjust_heap_loop comp first len fuel
        (v.set (first + secondChild) (v.getD (first + child1) 0)) child1
    else (v, secondChild)

/-- The routine `__adjust_heap(__first, __holeIndex, __len, __value, __comp)`. -/
def adjust_heap (comp : Move → Move → Bool) (v : List Move) (first holeIndex len : Nat)
    (value : Move) : List Move :=
  let r := adjust_heap_loop comp first len len v holeIndex
  if len % 2 = 0 ∧ r.2 = (len - 2) / 2 then
    push_heap comp first holeIndex value (2 * (r.2 + 1) - 1)
      (r.1.set (first + r.2) (r.1.getD (first + (2 * (r.2 + 1) - 1)) 0))
      (2 * (r.2 + 1) - 1)
  else push_heap comp first holeIndex value r.2 r.1 r.2

/-- The routine `__pop_heap(__first, __last, __result, __comp)`. -/
def pop_heap (comp : Move → Move → Bool) (v : List Move) (first last result : Nat) :
    List Move :=
  adjust_heap comp (v.set result (v.getD first 0)) first 0 (last - first) (v.getD result 0)

/-- The loop of `__make_heap` from the index `parent` down to 0. -/
def make_heap_loop (comp : Move → Move → Bool) (first len : Nat) : Nat → List Move → List Move
  | 0, v => adjust_heap comp v first 0 len (v.getD first 0)
  | parent + 1, v =>
    make_heap_loop comp first len parent
      (adjust_heap comp v first (parent + 1) len (v.getD (first + (parent + 1)) 0))

/-- The routine `__make_heap(__first, __last, __comp)`. -/
def make_heap (comp : Move → Move → Bool) (v : List Move) (first last : Nat) : List Move :=
  if last - first < 2 then v
  else make_heap_loop comp first (last - first) ((last - first - 2) / 2) v

/-- The `for` loop of `__heap_select`: `n` iterators are left from `i` on. -/
def heap_select_loop (comp : Move → Move → Bool) (first middle : Nat) :
    Nat → Nat → List Move → List Move
  | 0, _, v => v
  | n + 1, i, v =>
    heap_select_loop comp first middle n (i + 1)
      (if comp (v.getD i 0) (v.getD first 0) then pop_heap comp v first middle i else v)

/-- The routine `__heap_select(__first, __middle, __last, __comp)`. -/
def heap_select (comp : Move → Move → Bool) (v : List Move) (first middle last : Nat) :
    List Move :=
  heap_select_loop comp first middle (last - middle) middle (make_heap comp v first middle)

/-- The loop of `__sort_heap`: `n + 1` elements are left in the heap. -/
def sort_heap_loop (comp : Move → Move → Bool) (first : Nat) : Nat → List Move → List Move
  | 0, v => v
  | n + 1, v =>
    sort_heap_loop comp first n (pop_heap comp v first (first + (n + 1)) (first + (n + 1)))

/-- The routine `__sort_heap(__first, __last, __comp)`. -/
def sort_heap (comp : Move → Move → Bool) (v : List Move) (first last : Nat) : List Move :=
  sort_heap_loop comp first (last - first - 1) v

/-- The routine `__partial_sort(__first, __middle, __last, __comp)`. -/
def heap_partial_sort (comp : Move → Move → Bool) (v : List Move) (first middle last : Nat) :
    List Move :=
  sort_heap comp (heap_select comp v first middle last) first middle

/-- The routine `__introsort_loop(__first, __last, __depth_limit, __comp)`; the
recursion is on `__depth_limit`, which every round of the loop lowers. -/
def introsort_loop (comp : Move → Move → Bool) :
    Nat → List Move → Nat → Nat → List Move
  | 0, v, first, last =>
    if last - first > 16 then heap_partial_sort comp v first last last else v
  | depth_limit + 1, v, first, last =>
    if last - first > 16 then
      let r := unguarded_partition_pivot comp v first last
      introsort_loop comp depth_limit (introsort_loop comp depth_limit r.1 r.2 last)
        first r.2
    else v

/-- The routine `std::sort(__first, __last, __comp)` on a whole vector. -/
def std_sort (comp : Move → Move → Bool) (v : List Move) : List Move :=
  if v.length = 0 then v
  else
    final_insertion_sort comp
      (introsort_loop comp (lg v.length v.length * 2) v 0 v.length) 0 v.length

/-- The instance `toyGame` with the library sort `std_sort`. -/
def toyStdSort : Env (List Move) ToyTable :=
  { toyGame with sort := std_sort }

/-! ## Lemmas -/

section
variable {B T : Type} {E : Env B T}

theorem Reach.trans {s1 s2 s3 : State B T} (h12 : Reach E s1 s2) (h23 : Reach E s2 s3) :
    Reach E s1 s3 := by
  induction h23 with
  | refl => exact h12
  | board b _ ih => exact Reach.board b ih
  | table t _ ih => exact Reach.table t ih
  | tick _ ih => exact Reach.tick ih
  | stop _ ih => exact Reach.stop ih
  | killer m _ ih => exact Reach.killer m ih
  | max_ply n _ ih => exact Reach.max_ply n ih
  | nodes n _ ih => exact Reach.nodes n ih
  | sample_nodes n _ ih => exact Reach.sample_nodes n ih
  | evaluation_nodes n _ ih => exact Reach.evaluation_nodes n ih
  | sampled_board b _ ih => exact Reach.sampled_board b ih
  | sampled b d nt a _ ih => exact Reach.sampled b d nt a ih
  | last_search_score s _ ih => exact Reach.last_search_score s ih
  | out o _ ih => exact Reach.out o ih
  | errors n _ ih => exact Reach.errors n ih

theorem reach_Make (st : State B T) (m : Move) : Reach E st (Make E st m) :=
  Reach.board _ (Reach.refl st)

theorem reach_UnMake (st : State B T) : Reach E st (UnMake E st) :=
  Reach.board _ (Reach.refl st)

theorem reach_SaveEntry (st : State B T) (m : Move) (s : Score) (bd : Nat) (d : Depth) :
    Reach E st (SaveEntry E st m s bd d) :=
  Reach.table _ (Reach.refl st)

theorem reach_SavePVEntry (st : State B T) (m : Move) : Reach E st (SavePVEntry E st m) :=
  Reach.table _ (Reach.refl st)

theorem reach_finished (st : State B T) : Reach E st (finished E st).2 :=
  Reach.tick (Reach.refl st)

theorem reach_now (st : State B T) : Reach E st (now E st).2 :=
  Reach.tick (Reach.refl st)

theorem QuiescentSample_reach (Mode : Nat) (st : State B T) :
    Reach E st (QuiescentSample E Mode st) := by
  unfold QuiescentSample
  split
  · split
    · exact Reach.stop (Reach.sampled_board st.board
        (Reach.evaluation_nodes (st.evaluation_nodes + 1) (Reach.refl st)))
    · exact Reach.evaluation_nodes (st.evaluation_nodes + 1) (Reach.refl st)
  · exact Reach.refl st

theorem QuiescentStandPat_reach {Mode : Nat} {in_check valid_hash : Bool} {entry : Entry}
    {alpha beta : Score} {st : State B T} :
    (∀ r, QuiescentStandPat E Mode in_check valid_hash entry alpha beta st = Sum.inl r →
      Reach E st r.2) ∧
    (∀ r, QuiescentStandPat E Mode in_check valid_hash entry alpha beta st = Sum.inr r →
      Reach E st r.2) := by
  unfold QuiescentStandPat
  constructor
  · intro r hr
    split at hr
    · cases hr
    · split at hr
      · cases hr; exact QuiescentSample_reach Mode st
      · split at hr <;> cases hr
  · intro r hr
    split at hr
    · cases hr; exact Reach.refl st
    · split at hr
      · cases hr
      · split at hr <;> cases hr <;> exact QuiescentSample_reach Mode st

theorem QuiescentLoop_reach
    {search : Score → Score → State B T → Option (Score × State B T)}
    (hs : ∀ a b st r st1, search a b st = some (r, st1) → Reach E st st1)
    (in_check : Bool) (beta : Score) :
    ∀ (moves : List Move) (alpha : Score) (st : State B T) (r : Score) (st1 : State B T),
      QuiescentLoop E search in_check beta moves alpha st = some (r, st1) → Reach E st st1 := by
  intro moves
  induction moves with
  | nil =>
    intro alpha st r st1 h
    simp only [QuiescentLoop, Option.some.injEq, Prod.mk.injEq] at h
    rw [← h.2]; exact Reach.refl st
  | cons move rest ih =>
    intro alpha st r st1 h
    rw [QuiescentLoop] at h
    split at h
    · exact ih _ _ _ _ h
    · split at h
      · cases h
      · rename_i r0 st0 heq
        have h0 : Reach E st (UnMake E st0) :=
          ((reach_Make st move).trans (hs _ _ _ _ _ heq)).trans (reach_UnMake st0)
        split at h
        · simp only [Option.some.injEq, Prod.mk.injEq] at h
          rw [← h.2]; exact h0
        · split at h
          · exact h0.trans (ih _ _ _ _ h)
          · exact h0.trans (ih _ _ _ _ h)

theorem QuiescentNode_reach
    {search : Score → Score → State B T → Option (Score × State B T)}
    (hs : ∀ a b st r st1, search a b st = some (r, st1) → Reach E st st1)
    {Mode : Nat} {valid_hash : Bool} {entry : Entry} {alpha beta : Score}
    {st : State B T} {r : Score} {st1 : State B T}
    (h : QuiescentNode E search Mode valid_hash entry alpha beta st = some (r, st1)) :
    Reach E st st1 := by
  unfold QuiescentNode at h
  split at h
  · rename_i r0 heq
    cases h
    exact QuiescentStandPat_reach.1 _ heq
  · rename_i a0 st0 heq
    have h0 : Reach E st st0 := QuiescentStandPat_reach.2 _ heq
    split at h
    · cases h; exact h0
    · exact h0.trans (QuiescentLoop_reach hs _ _ _ _ _ _ _ h)

theorem QuiescentSearch_reach (Mode : Nat) :
    ∀ (fuel : Nat) (alpha beta : Score) (st : State B T) (r : Score) (st1 : State B T),
      QuiescentSearch E Mode fuel alpha beta st = some (r, st1) → Reach E st st1 := by
  intro fuel
  induction fuel with
  | zero => intro alpha beta st r st1 h; simp [QuiescentSearch] at h
  | succ fuel ih =>
    intro alpha beta st r st1 h
    rw [QuiescentSearch] at h
    have h0 : Reach E st (QuiescentEnter E st) := Reach.max_ply _ (Reach.refl st)
    split at h
    · cases h; exact h0
    · exact h0.trans (QuiescentNode_reach (ih) h)

theorem ABPrelude_reach
    {search : Nat → Score → Score → Depth → State B T → Option (Score × State B T)}
    (hs : ReachSearch E search)
    {NodeType : Nat} {alpha beta : Score} {depth : Depth} {valid_entry : Bool}
    {entry : Entry} {in_check : Bool} {st : State B T} :
    (∀ r, ABPrelude E search NodeType alpha beta depth valid_entry entry in_check st
        = some (Sum.inl r) → Reach E st r.2) ∧
    (∀ r, ABPrelude E search NodeType alpha beta depth valid_entry entry in_check st
        = some (Sum.inr r) → Reach E st r.2) := by
  unfold ABPrelude
  constructor
  · intro r h
    split at h
    · split at h
      · cases h; exact Reach.refl st
      · split at h
        · split at h
          · cases h
          · rename_i r0 st0 heq
            have h0 : Reach E st (UnMake E st0) :=
              ((reach_Make st _).trans (hs _ _ _ _ _ _ _ heq)).trans (reach_UnMake st0)
            split at h <;> cases h
            exact h0
        · cases h
    · cases h
  · intro r h
    split at h
    · split at h
      · cases h
      · split at h
        · split at h
          · cases h
          · rename_i r0 st0 heq
            have h0 : Reach E st (UnMake E st0) :=
              ((reach_Make st _).trans (hs _ _ _ _ _ _ _ heq)).trans (reach_UnMake st0)
            split at h <;> cases h
            exact h0
        · cases h; exact Reach.refl st
    · cases h; exact Reach.refl st

theorem ABChild_reach
    {search : Nat → Score → Score → Depth → State B T → Option (Score × State B T)}
    (hs : ReachSearch E search)
    {NodeType i : Nat} {alpha beta : Score} {depth reduction : Depth} {st : State B T}
    {r : Score} {st1 : State B T}
    (h : ABChild search NodeType i alpha beta depth reduction st = some (r, st1)) :
    Reach E st st1 := by
  unfold ABChild at h
  split at h
  · split at h
    · cases h
    · rename_i r0 st0 heq
      split at h
      · split at h
        · cases h
        · rename_i r2 st2 heq2
          cases h
          exact (hs _ _ _ _ _ _ _ heq).trans (hs _ _ _ _ _ _ _ heq2)
      · cases h; exact hs _ _ _ _ _ _ _ heq
  · split at h
    · split at h
      · cases h
      · rename_i r0 st0 heq
        cases h; exact hs _ _ _ _ _ _ _ heq
    · split at h
      · cases h
      · rename_i r0 st0 heq
        split at h
        · split at h
          · cases h
          · rename_i r2 st2 heq2
            cases h
            exact (hs _ _ _ _ _ _ _ heq).trans (hs _ _ _ _ _ _ _ heq2)
        · cases h; exact hs _ _ _ _ _ _ _ heq

theorem ABFinish_reach (original_alpha alpha : Score) (depth : Depth) (m : Move)
    (st : State B T) : Reach E st (ABFinish E original_alpha alpha depth m st) := by
  unfold ABFinish
  split
  · exact (reach_SaveEntry st _ _ _ _).trans (reach_SavePVEntry _ _)
  · exact Reach.refl st

theorem ABCutoff_reach (m : Move) (score : Score) (depth : Depth) (st : State B T) :
    Reach E st (ABCutoff E m score depth st) :=
  Reach.killer m (reach_SaveEntry st _ _ _ _)

theorem ABLoop_reach
    {search : Nat → Score → Score → Depth → State B T → Option (Score × State B T)}
    (hs : ReachSearch E search)
    (NodeType : Nat) (original_alpha beta : Score) (depth : Depth) (in_check : Bool)
    (static_eval : Score) (tt_entry : Move) (cs : Nat → BitBoard) :
    ∀ (n i : Nat) (moves : List Move) (sorted : Bool) (alpha : Score) (best : Move)
      (st : State B T) (r : Score) (st1 : State B T),
      ABLoop E search NodeType original_alpha beta depth in_check static_eval tt_entry cs
        n i moves sorted alpha best st = some (r, st1) → Reach E st st1 := by
  intro n
  induction n with
  | zero =>
    intro i moves sorted alpha best st r st1 h
    rw [ABLoop] at h
    cases h
    exact ABFinish_reach _ _ _ _ _
  | succ n ih =>
    intro i moves sorted alpha best st r st1 h
    rw [ABLoop] at h
    split at h
    · exact ih _ _ _ _ _ _ _ _ h
    · split at h
      · cases h
      · rename_i score st0 heq
        have h0 : Reach E st (finished E (UnMake E st0)).2 :=
          (((reach_Make st _).trans (ABChild_reach hs heq)).trans (reach_UnMake st0)).trans
            (reach_finished _)
        split at h
        · cases h; exact h0
        · split at h
          · cases h; exact h0.trans (ABCutoff_reach _ _ _ _)
          · split at h
            · exact h0.trans (ih _ _ _ _ _ _ _ _ h)
            · exact h0.trans (ih _ _ _ _ _ _ _ _ h)

theorem ABSwapCheck_reach (st : State B T) (moves : List Move) (tt_entry : Move) :
    Reach E st (ABSwapCheck E st moves tt_entry) := by
  unfold ABSwapCheck
  split
  · exact Reach.errors _ (Reach.refl st)
  · exact Reach.refl st

theorem ABSampleCount_reach (Mode NodeType : Nat) (depth : Depth) (st : State B T) :
    Reach E st (ABSampleCount Mode NodeType depth st) := by
  unfold ABSampleCount
  split
  · exact Reach.sample_nodes _ (Reach.refl st)
  · exact Reach.refl st

theorem ABSampleCapture_reach (NodeType : Nat) (alpha : Score) (depth : Depth)
    (st : State B T) : Reach E st (ABSampleCapture E NodeType alpha depth st) :=
  Reach.stop (Reach.sampled st.board depth NodeType alpha
    (Reach.sample_nodes (st.sample_nodes + 1) (Reach.refl st)))

theorem ABMoves_reach
    {search : Nat → Score → Score → Depth → State B T → Option (Score × State B T)}
    (hs : ReachSearch E search)
    {NodeType : Nat} {alpha beta : Score} {depth : Depth} {valid_entry : Bool}
    {entry : Entry} {in_check : Bool} {static_eval : Score} {st : State B T}
    {r : Score} {st1 : State B T}
    (h : ABMoves E search NodeType alpha beta depth valid_entry entry in_check static_eval st
      = some (r, st1)) : Reach E st st1 := by
  unfold ABMoves at h
  exact (ABSwapCheck_reach st _ _).trans (ABLoop_reach hs _ _ _ _ _ _ _ _ _ _ _ _ _ _ _ _ _ h)

theorem ABNode_reach
    {search : Nat → Score → Score → Depth → State B T → Option (Score × State B T)}
    (hs : ReachSearch E search)
    {Mode NodeType : Nat} {alpha beta : Score} {depth : Depth} {valid_entry : Bool}
    {entry : Entry} {in_check : Bool} {static_eval : Score} {st : State B T}
    {r : Score} {st1 : State B T}
    (h : ABNode E search Mode NodeType alpha beta depth valid_entry entry in_check
      static_eval st = some (r, st1)) : Reach E st st1 := by
  unfold ABNode at h
  split at h
  · split at h <;> cases h <;> exact Reach.refl st
  · split at h
    · cases h; exact ABSampleCapture_reach _ _ _ _
    · exact (ABSampleCount_reach _ _ _ st).trans (ABMoves_reach hs h)

theorem ABBody_reach
    {search : Nat → Score → Score → Depth → State B T → Option (Score × State B T)}
    (hs : ReachSearch E search)
    {Mode NodeType : Nat} {alpha beta : Score} {depth : Depth} {valid_entry : Bool}
    {entry : Entry} {st : State B T} {r : Score} {st1 : State B T}
    (h : ABBody E search Mode NodeType alpha beta depth valid_entry entry st = some (r, st1)) :
    Reach E st st1 := by
  unfold ABBody at h
  split at h
  · cases h
  · rename_i r0 heq
    cases h
    exact (ABPrelude_reach hs).1 _ heq
  · rename_i se st0 heq
    exact ((ABPrelude_reach hs).2 _ heq).trans (ABNode_reach hs h)

theorem AlphaBeta_reach (Mode : Nat) (fuel : Nat) : ReachSearch E (AlphaBeta E Mode fuel) := by
  induction fuel with
  | zero => intro nt a b d st r st1 h; simp [AlphaBeta] at h
  | succ fuel ih =>
    intro nt a b d st r st1 h
    rw [AlphaBeta] at h
    split at h
    · cases h; exact Reach.refl st
    · split at h
      · exact QuiescentSearch_reach Mode _ _ _ _ _ _ h
      · split at h
        · cases h; exact Reach.refl st
        · exact ABBody_reach ih h

theorem RootChild_reach
    {search : Nat → Score → Score → Depth → State B T → Option (Score × State B T)}
    (hs : ReachSearch E search)
    {alpha beta : Score} {cd : Depth} {st : State B T} {r : Score} {st1 : State B T}
    (h : RootChild search alpha beta cd st = some (r, st1)) : Reach E st st1 := by
  unfold RootChild at h
  split at h
  · cases h
  · rename_i r0 st0 heq
    split at h
    · split at h
      · cases h
      · rename_i r2 st2 heq2
        cases h
        exact (hs _ _ _ _ _ _ _ heq).trans (hs _ _ _ _ _ _ _ heq2)
    · cases h; exact hs _ _ _ _ _ _ _ heq

theorem RootSearchLoopFrom_reach
    {search : Nat → Score → Score → Depth → State B T → Option (Score × State B T)}
    (hs : ReachSearch E search) (beta : Score) (cd : Depth) :
    ∀ (n i : Nat) (moves : List Move) (alpha : Score) (st : State B T)
      (r : Score) (moves1 : List Move) (st1 : State B T),
      RootSearchLoopFrom E search beta cd n i moves alpha st = some (r, moves1, st1) →
        Reach E st st1 := by
  intro n
  induction n with
  | zero =>
    intro i moves alpha st r moves1 st1 h
    rw [RootSearchLoopFrom] at h
    cases h
    exact (reach_SaveEntry st _ _ _ _).trans (reach_SavePVEntry _ _)
  | succ n ih =>
    intro i moves alpha st r moves1 st1 h
    rw [RootSearchLoopFrom] at h
    split at h
    · split at h
      · cases h
      · rename_i r0 st0 heq
        have h0 : Reach E st (UnMake E st0) :=
          ((reach_Make st _).trans (hs _ _ _ _ _ _ _ heq)).trans (reach_UnMake st0)
        split at h
        · cases h; exact h0
        · exact h0.trans (ih _ _ _ _ _ _ _ h)
    · split at h
      · cases h
      · rename_i score st0 heq
        have h0 : Reach E st (finished E (UnMake E st0)).2 :=
          (((reach_Make st _).trans (RootChild_reach hs heq)).trans (reach_UnMake st0)).trans
            (reach_finished _)
        split at h
        · cases h; exact h0
        · split at h
          · cases h; exact h0
          · split at h
            · exact h0.trans (ih _ _ _ _ _ _ _ h)
            · exact h0.trans (ih _ _ _ _ _ _ _ h)

theorem RootSearchLoop_reach
    {search : Nat → Score → Score → Depth → State B T → Option (Score × State B T)}
    (hs : ReachSearch E search) {alpha beta : Score} {cd : Depth} {moves : List Move}
    {st : State B T} {r : Score} {moves1 : List Move} {st1 : State B T}
    (h : RootSearchLoop E search alpha beta cd moves st = some (r, moves1, st1)) :
    Reach E st st1 :=
  RootSearchLoopFrom_reach hs _ _ _ _ _ _ _ _ _ _ h

theorem build_pv_reach :
    ∀ (depth : Nat) (pv : List Move) (st : State B T), Reach E st (build_pv E depth pv st).2 := by
  intro depth
  induction depth with
  | zero => intro pv st; exact Reach.refl st
  | succ depth ih =>
    intro pv st
    rw [build_pv]
    simp only []
    split
    · split
      · exact ((reach_Make st _).trans (ih _ _)).trans (reach_UnMake _)
      · exact Reach.refl st
    · exact Reach.refl st

theorem RootInfo_reach (begin : Time) (cd : Depth) (score : Score) (st : State B T) :
    Reach E st (RootInfo E begin cd score st) := by
  unfold RootInfo
  have h0 : Reach E st (now E (build_pv E cd.toNat [] { st with last_search_score := score }).2).2 :=
    ((Reach.last_search_score score (Reach.refl st)).trans (build_pv_reach _ _ _)).trans
      (reach_now _)
  simp only []
  split
  · exact Reach.out _ h0
  · exact h0

theorem RootReport_reach (begin : Time) (cd : Depth) (score : Score) (st : State B T) :
    Reach E st (RootReport E begin cd score st) := by
  unfold RootReport
  split
  · exact (reach_finished st).trans (RootInfo_reach _ _ _ _)
  · exact reach_finished st

theorem AspirationLoop_reach
    {loop : Score → Score → List Move → State B T → Option (Score × List Move × State B T)}
    (hl : ∀ a b m st r m1 st1, loop a b m st = some (r, m1, st1) → Reach E st st1) :
    ∀ (k : Nat) (delta alpha beta score : Score) (moves : List Move) (st : State B T)
      (r : Score) (moves1 : List Move) (st1 : State B T),
      AspirationLoop E loop k delta alpha beta score moves st = some (r, moves1, st1) →
        Reach E st st1 := by
  intro k
  induction k with
  | zero => intro delta alpha beta score moves st r moves1 st1 h; simp [AspirationLoop] at h
  | succ k ih =>
    intro delta alpha beta score moves st r moves1 st1 h
    rw [AspirationLoop] at h
    split at h
    · split at h
      · cases h
      · rename_i s0 m0 st0 heq
        exact ((reach_finished st).trans (hl _ _ _ _ _ _ _ heq)).trans (ih _ _ _ _ _ _ _ _ _ h)
    · cases h; exact reach_finished st

theorem RootDepthSearch_reach
    {search : Nat → Score → Score → Depth → State B T → Option (Score × State B T)}
    (hs : ReachSearch E search) {k : Nat} {cd : Depth} {score : Score} {moves : List Move}
    {st : State B T} {r : Score} {moves1 : List Move} {st1 : State B T}
    (h : RootDepthSearch E search k cd score moves st = some (r, moves1, st1)) :
    Reach E st st1 := by
  unfold RootDepthSearch at h
  split at h
  · exact RootSearchLoop_reach hs h
  · split at h
    · cases h
    · rename_i s0 m0 st0 heq
      exact (RootSearchLoop_reach hs heq).trans
        (AspirationLoop_reach (fun _ _ _ _ _ _ _ hh => RootSearchLoop_reach hs hh)
          _ _ _ _ _ _ _ _ _ _ h)

theorem RootIterate_reach
    {search : Nat → Score → Score → Depth → State B T → Option (Score × State B T)}
    (hs : ReachSearch E search) (k : Nat) (begin : Time) :
    ∀ (n : Nat) (cd : Depth) (score : Score) (moves : List Move) (st : State B T)
      (moves1 : List Move) (st1 : State B T),
      RootIterate E search k begin n cd score moves st = some (moves1, st1) →
        Reach E st st1 := by
  intro n
  induction n with
  | zero =>
    intro cd score moves st moves1 st1 h
    rw [RootIterate] at h
    cases h; exact Reach.refl st
  | succ n ih =>
    intro cd score moves st moves1 st1 h
    rw [RootIterate] at h
    split at h
    · cases h; exact reach_finished st
    · split at h
      · cases h
      · rename_i s0 m0 st0 heq
        exact (((reach_finished st).trans (RootDepthSearch_reach hs heq)).trans
          (RootReport_reach _ _ _ _)).trans (ih _ _ _ _ _ _ h)

theorem RootEnter_reach (st : State B T) : Reach E st (RootEnter E st) :=
  Reach.nodes 0 (Reach.max_ply (E.get_num_made_moves st.board) (reach_now st))

theorem RootSearchWith_reach
    {search : Nat → Score → Score → Depth → State B T → Option (Score × State B T)}
    (hs : ReachSearch E search) {k : Nat} {depth : Depth} {st : State B T}
    {m : Move} {st1 : State B T}
    (h : RootSearchWith E search k depth st = some (m, st1)) : Reach E st st1 := by
  unfold RootSearchWith at h
  split at h
  · cases h
  · rename_i m0 st0 heq
    cases h
    exact (RootEnter_reach st).trans (RootIterate_reach hs _ _ _ _ _ _ _ _ _ heq)

theorem mask_key (m k : Nat) (h : m < 65536) : (m ||| 65536 * k) &&& 0xFFFF = m := by
  have h1 : (0xFFFF : Nat) = 2 ^ 16 - 1 := by norm_num
  have h2 : (65536 : Nat) = 2 ^ 16 := by norm_num
  rw [h1, Nat.and_pow_two_sub_one_eq_mod, Nat.lor_comm, h2, ← Nat.mul_add_lt_is_or (by omega) k]
  omega

theorem toU32_key (x : Int) : ∃ k : Nat, toU32 (x * 65536) = 65536 * k := by
  have : x * 65536 % 4294967296 = 65536 * (x % 65536) := by
    have := @Int.mul_emod_mul_of_pos 65536 x 65536 (by norm_num)
    rw [mul_comm x 65536]
    simpa using this
  unfold toU32
  rw [this]
  refine ⟨(x % 65536).toNat, ?_⟩
  have h0 : 0 ≤ x % 65536 := Int.emod_nonneg _ (by norm_num)
  omega

theorem mask_toU32 (m : Nat) (x : Int) (h : m < 65536) :
    (m ||| toU32 (x * 65536)) &&& 0xFFFF = m := by
  obtain ⟨k, hk⟩ := toU32_key x
  rw [hk]; exact mask_key m k h

theorem keyed_sort_perm (hsort : ∀ lt l, (E.sort lt l).Perm l) (key : Move → Int)
    (moves : List Move) (h16 : ∀ m ∈ moves, m < 65536) :
    ((E.sort Sorter (moves.map fun m => m ||| toU32 (key m * 65536))).map
      fun m => m &&& 0xFFFF).Perm moves := by
  have h1 := (hsort Sorter (moves.map fun m => m ||| toU32 (key m * 65536))).map
    (fun m => m &&& 0xFFFF)
  refine h1.trans ?_
  rw [List.map_map]
  have : moves.map ((fun m => m &&& 0xFFFF) ∘ fun m => m ||| toU32 (key m * 65536))
      = moves.map id := by
    apply List.map_congr_left
    intro m hm
    exact mask_toU32 m (key m) (h16 m hm)
  rw [this, List.map_id]

theorem SortMovesML_perm (hsort : ∀ lt l, (E.sort lt l).Perm l) (st : State B T)
    (moves : List Move) (hint : Move) (h16 : ∀ m ∈ moves, m < 65536) :
    (SortMovesML E st moves hint).Perm moves := by
  unfold SortMovesML
  exact keyed_sort_perm hsort _ moves h16

theorem SortMoves_perm (hsort : ∀ lt l, (E.sort lt l).Perm l) (q : Bool)
    (killers : Nat → Nat → Move) (moves : List Move) (board : B) (best : Move)
    (h16 : ∀ m ∈ moves, m < 65536) :
    (SortMoves E q killers moves board best).Perm moves := by
  unfold SortMoves
  exact keyed_sort_perm hsort _ moves h16

@[simp] theorem Make_board (st : State B T) (m : Move) :
    (Make E st m).board = E.Make st.board m := rfl

@[simp] theorem UnMake_board (st : State B T) : (UnMake E st).board = E.UnMake st.board := rfl

@[simp] theorem finished_board (st : State B T) : (finished E st).2.board = st.board := rfl

@[simp] theorem SaveEntry_board (st : State B T) (m : Move) (s : Score) (bd : Nat) (d : Depth) :
    (SaveEntry E st m s bd d).board = st.board := rfl

@[simp] theorem SavePVEntry_board (st : State B T) (m : Move) :
    (SavePVEntry E st m).board = st.board := rfl

@[simp] theorem update_killers_board (st : State B T) (m : Move) :
    (update_killers E st m).board = st.board := by
  unfold update_killers
  split
  · split <;> rfl
  · rfl

@[simp] theorem ABCutoff_board (m : Move) (s : Score) (d : Depth) (st : State B T) :
    (ABCutoff E m s d st).board = st.board := by
  unfold ABCutoff; simp

@[simp] theorem ABFinish_board (oa a : Score) (d : Depth) (m : Move) (st : State B T) :
    (ABFinish E oa a d m st).board = st.board := by
  unfold ABFinish; split <;> simp

@[simp] theorem QuiescentSample_board (Mode : Nat) (st : State B T) :
    (QuiescentSample E Mode st).board = st.board := by
  unfold QuiescentSample
  split
  · split <;> rfl
  · rfl

@[simp] theorem QuiescentEnter_board (st : State B T) :
    (QuiescentEnter E st).board = st.board := rfl

@[simp] theorem ABSampleCount_board (Mode nt : Nat) (d : Depth) (st : State B T) :
    (ABSampleCount Mode nt d st).board = st.board := by
  unfold ABSampleCount; split <;> rfl

@[simp] theorem ABSampleCapture_board (nt : Nat) (a : Score) (d : Depth) (st : State B T) :
    (ABSampleCapture E nt a d st).board = st.board := rfl

@[simp] theorem ABSwapCheck_board (st : State B T) (moves : List Move) (m : Move) :
    (ABSwapCheck E st moves m).board = st.board := by
  unfold ABSwapCheck; split <;> rfl

theorem QuiescentStandPat_board {Mode : Nat} {in_check valid_hash : Bool} {entry : Entry}
    {alpha beta : Score} {st : State B T} :
    (∀ r, QuiescentStandPat E Mode in_check valid_hash entry alpha beta st = Sum.inl r →
      r.2.board = st.board) ∧
    (∀ r, QuiescentStandPat E Mode in_check valid_hash entry alpha beta st = Sum.inr r →
      r.2.board = st.board) := by
  unfold QuiescentStandPat
  constructor
  · intro r hr
    split at hr
    · cases hr
    · split at hr
      · cases hr; simp
      · split at hr <;> cases hr
  · intro r hr
    split at hr
    · cases hr; rfl
    · split at hr
      · cases hr
      · split at hr <;> cases hr <;> simp

theorem QuiescentLoop_total (hum : ∀ b m, E.UnMake (E.Make b m) = b)
    {search : Score → Score → State B T → Option (Score × State B T)} {P : B → Prop}
    (hs : ∀ a b st, P st.board → ∃ r st1, search a b st = some (r, st1) ∧ st1.board = st.board)
    (in_check : Bool) (beta : Score) (b0 : B) :
    ∀ moves : List Move, (∀ m ∈ moves, P (E.Make b0 m)) →
      ∀ (alpha : Score) (st : State B T), st.board = b0 →
        ∃ r st1, QuiescentLoop E search in_check beta moves alpha st = some (r, st1)
          ∧ st1.board = b0 := by
  intro moves
  induction moves with
  | nil =>
    intro _ alpha st hb
    exact ⟨alpha, st, by simp [QuiescentLoop], hb⟩
  | cons move rest ih =>
    intro hP alpha st hb
    have hrest : ∀ m ∈ rest, P (E.Make b0 m) := fun m hm => hP m (List.mem_cons_of_mem _ hm)
    rw [QuiescentLoop]
    split
    · exact ih hrest alpha st hb
    · obtain ⟨r, st1, h1, hb1⟩ := hs (-beta) (-alpha) (Make E st move)
        (by rw [Make_board, hb]; exact hP move (List.mem_cons_self _ _))
      have hb2 : (UnMake E st1).board = b0 := by
        rw [UnMake_board, hb1, Make_board, hum, hb]
      rw [h1]
      simp only []
      split
      · exact ⟨_, _, rfl, hb2⟩
      · split
        · exact ih hrest _ _ hb2
        · exact ih hrest _ _ hb2

theorem QuiescentNode_total {rank : B → Nat} (hL : Lawful E rank)
    {search : Score → Score → State B T → Option (Score × State B T)} {P : B → Prop}
    (hs : ∀ a b st, P st.board → ∃ r st1, search a b st = some (r, st1) ∧ st1.board = st.board)
    (Mode : Nat) (valid_hash : Bool) (entry : Entry) (alpha beta : Score) (st : State B T)
    (hP : ∀ m ∈ E.GetMovesQuiescent st.board, P (E.Make st.board m)) :
    ∃ r st1, QuiescentNode E search Mode valid_hash entry alpha beta st = some (r, st1)
      ∧ st1.board = st.board := by
  unfold QuiescentNode
  split
  · rename_i r0 heq
    exact ⟨r0.1, r0.2, rfl, QuiescentStandPat_board.1 _ heq⟩
  · rename_i a0 st0 heq
    have hb0 : st0.board = st.board := QuiescentStandPat_board.2 _ heq
    split
    · exact ⟨_, _, rfl, hb0⟩
    · refine QuiescentLoop_total hL.unmake_make hs _ _ st.board _ ?_ _ _ hb0
      intro m hm
      apply hP
      have hperm : (QuiescentMoves E entry st0).Perm (E.GetMovesQuiescent st0.board) := by
        unfold QuiescentMoves
        split <;> exact SortMoves_perm hL.sort_perm _ _ _ _ _ (hL.qmoves16 _)
      rw [← hb0]
      exact hperm.mem_iff.1 hm

theorem QuiescentSearch_total {rank : B → Nat} (hL : Lawful E rank) (Mode : Nat) :
    ∀ (fuel : Nat) (alpha beta : Score) (st : State B T), rank st.board < fuel →
      ∃ r st1, QuiescentSearch E Mode fuel alpha beta st = some (r, st1)
        ∧ st1.board = st.board := by
  intro fuel
  induction fuel with
  | zero => intro alpha beta st h; omega
  | succ fuel ih =>
    intro alpha beta st h
    rw [QuiescentSearch]
    split
    · exact ⟨_, _, rfl, rfl⟩
    · have := @QuiescentNode_total B T E rank hL (QuiescentSearch E Mode fuel)
        (fun b => rank b < fuel) (fun a b st hP => ih a b st hP)
        Mode (E.ValidateHash (E.GetEntry (QuiescentEnter E st).table
          (E.get_hash (QuiescentEnter E st).board)) (E.get_hash (QuiescentEnter E st).board))
        (E.GetEntry (QuiescentEnter E st).table (E.get_hash (QuiescentEnter E st).board))
        alpha beta (QuiescentEnter E st)
        (by
          intro m hm
          have := hL.rank_q _ m hm
          simp only [QuiescentEnter_board] at this ⊢
          omega)
      simpa using this

theorem ABPrelude_total (hum : ∀ b m, E.UnMake (E.Make b m) = b)
    {search : Nat → Score → Score → Depth → State B T → Option (Score × State B T)}
    {P : B → Prop} (hs : TotalOn search P)
    (NodeType : Nat) (alpha beta : Score) (depth : Depth) (valid_entry : Bool)
    (entry : Entry) (in_check : Bool) (st : State B T)
    (hnull : P (E.Make st.board E.kNullMove)) :
    ∃ res, ABPrelude E search NodeType alpha beta depth valid_entry entry in_check st = some res
      ∧ (Sum.elim Prod.snd Prod.snd res).board = st.board := by
  unfold ABPrelude
  split
  · split
    · exact ⟨_, rfl, rfl⟩
    · split
      · obtain ⟨r, st1, h1, hb1⟩ := hs kNW (-beta) (-alpha) (depth - 1 - E.R)
          (Make E st E.kNullMove) hnull
        have hb2 : (UnMake E st1).board = st.board := by
          rw [UnMake_board, hb1, Make_board, hum]
        rw [h1]
        simp only []
        split
        · exact ⟨_, rfl, hb2⟩
        · exact ⟨_, rfl, hb2⟩
      · exact ⟨_, rfl, rfl⟩
  · exact ⟨_, rfl, rfl⟩

theorem ABChild_total
    {search : Nat → Score → Score → Depth → State B T → Option (Score × State B T)}
    {P : B → Prop} (hs : TotalOn search P)
    (NodeType i : Nat) (alpha beta : Score) (depth reduction : Depth) (st : State B T)
    (hP : P st.board) :
    ∃ r st1, ABChild search NodeType i alpha beta depth reduction st = some (r, st1)
      ∧ st1.board = st.board := by
  unfold ABChild
  split
  · obtain ⟨r, st1, h1, hb1⟩ := hs kNW (-beta) (-alpha) (depth - 1 - reduction) st hP
    rw [h1]
    simp only []
    split
    · obtain ⟨r2, st2, h2, hb2⟩ := hs kNW (-beta) (-alpha) (depth - 1) st1 (hb1 ▸ hP)
      rw [h2]
      exact ⟨_, _, rfl, hb2.trans hb1⟩
    · exact ⟨_, _, rfl, hb1⟩
  · split
    · obtain ⟨r, st1, h1, hb1⟩ := hs kPV (-beta) (-alpha) (depth - 1) st hP
      rw [h1]
      exact ⟨_, _, rfl, hb1⟩
    · obtain ⟨r, st1, h1, hb1⟩ := hs kNW (-(alpha + 1)) (-alpha) (depth - 1) st hP
      rw [h1]
      simp only []
      split
      · obtain ⟨r2, st2, h2, hb2⟩ := hs kPV (-beta) (-alpha) (depth - 1) st1 (hb1 ▸ hP)
        rw [h2]
        exact ⟨_, _, rfl, hb2.trans hb1⟩
      · exact ⟨_, _, rfl, hb1⟩

theorem ABResort_perm (hsort : ∀ lt l, (E.sort lt l).Perm l) (st : State B T) (tt : Move)
    (i : Nat) (sorted : Bool) (moves : List Move) (h16 : ∀ m ∈ moves, m < 65536) :
    (ABResort E st tt i sorted moves).Perm moves := by
  unfold ABResort
  split
  · exact SortMovesML_perm hsort _ _ _ h16
  · exact List.Perm.refl _

theorem getD_mem {moves : List Move} {i : Nat} (h : i < moves.length) :
    moves.getD i 0 ∈ moves := by
  rw [List.getD_eq_getElem _ _ h]
  exact List.getElem_mem h

theorem ABLoop_total (hum : ∀ b m, E.UnMake (E.Make b m) = b)
    (hsort : ∀ lt l, (E.sort lt l).Perm l)
    {search : Nat → Score → Score → Depth → State B T → Option (Score × State B T)}
    {P : B → Prop} (hs : TotalOn search P) (b0 : B) (legal : List Move)
    (h16 : ∀ m ∈ legal, m < 65536) (hP : ∀ m ∈ legal, P (E.Make b0 m))
    (NodeType : Nat) (original_alpha beta : Score) (depth : Depth) (in_check : Bool)
    (static_eval : Score) (tt_entry : Move) (cs : Nat → BitBoard) :
    ∀ (n i : Nat) (moves : List Move) (sorted : Bool) (alpha : Score) (best : Move)
      (st : State B T), st.board = b0 → (∀ m ∈ moves, m ∈ legal) → i + n = moves.length →
      ∃ r st1, ABLoop E search NodeType original_alpha beta depth in_check static_eval
        tt_entry cs n i moves sorted alpha best st = some (r, st1) ∧ st1.board = b0 := by
  intro n
  induction n with
  | zero =>
    intro i moves sorted alpha best st hb _ _
    rw [ABLoop]
    exact ⟨_, _, rfl, by simp [hb]⟩
  | succ n ih =>
    intro i moves sorted alpha best st hb hsub hlen
    rw [ABLoop]
    have hperm := ABResort_perm hsort st tt_entry i sorted moves
      (fun m hm => h16 m (hsub m hm))
    generalize ABResort E st tt_entry i sorted moves = moves1 at hperm ⊢
    have hsub1 : ∀ m ∈ moves1, m ∈ legal := fun m hm => hsub m (hperm.mem_iff.1 hm)
    have hlen1 : i + 1 + n = moves1.length := by rw [hperm.length_eq]; omega
    have hmove : moves1.getD i 0 ∈ legal := hsub1 _ (getD_mem (by omega))
    split
    · exact ih _ _ _ _ _ _ hb hsub1 hlen1
    · obtain ⟨score, st1, h1, hb1⟩ := ABChild_total hs NodeType i alpha beta depth
        (ABReduction E NodeType in_check depth i cs st.board (moves1.getD i 0))
        (Make E st (moves1.getD i 0)) (by rw [Make_board, hb]; exact hP _ hmove)
      have hb2 : (finished E (UnMake E st1)).2.board = b0 := by
        rw [finished_board, UnMake_board, hb1, Make_board, hum, hb]
      rw [h1]
      simp only []
      split
      · exact ⟨_, _, rfl, hb2⟩
      · split
        · exact ⟨_, _, rfl, by rw [ABCutoff_board, hb2]⟩
        · split
          · exact ih _ _ _ _ _ _ hb2 hsub1 hlen1
          · exact ih _ _ _ _ _ _ hb2 hsub1 hlen1

theorem SwapToFront_mem (moves : List Move) (m x : Move)
    (hx : x ∈ (SwapToFront moves m).2) : x ∈ moves := by
  unfold SwapToFront at hx
  simp only [] at hx
  split at hx
  · rename_i hi
    rcases List.mem_or_eq_of_mem_set hx with h | h
    · rcases List.mem_or_eq_of_mem_set h with h2 | h2
      · exact h2
      · rw [h2]; exact getD_mem (by omega)
    · rw [h]; exact getD_mem hi
  · exact hx

theorem SwapToFront_length (moves : List Move) (m : Move) :
    (SwapToFront moves m).2.length = moves.length := by
  unfold SwapToFront
  simp only []
  split <;> simp

theorem ABOrder_mem (hsort : ∀ lt l, (E.sort lt l).Perm l) (st : State B T)
    (moves : List Move) (tt : Move) (h16 : ∀ m ∈ moves, m < 65536) :
    (∀ x ∈ ABOrder E st moves tt, x ∈ moves) ∧ (ABOrder E st moves tt).length = moves.length := by
  have hswap : (∀ x ∈ (ABSwap E moves tt).2, x ∈ moves)
      ∧ (ABSwap E moves tt).2.length = moves.length := by
    unfold ABSwap
    split
    · exact ⟨fun x hx => SwapToFront_mem moves tt x hx, SwapToFront_length moves tt⟩
    · exact ⟨fun x hx => hx, rfl⟩
  unfold ABOrder
  split
  · have hp := SortMovesML_perm hsort st (ABSwap E moves tt).2 tt
      (fun m hm => h16 m (hswap.1 m hm))
    exact ⟨fun x hx => hswap.1 x (hp.mem_iff.1 hx), by rw [hp.length_eq, hswap.2]⟩
  · exact hswap

theorem ABMoves_total (hum : ∀ b m, E.UnMake (E.Make b m) = b)
    (hsort : ∀ lt l, (E.sort lt l).Perm l)
    {search : Nat → Score → Score → Depth → State B T → Option (Score × State B T)}
    {P : B → Prop} (hs : TotalOn search P)
    (NodeType : Nat) (alpha beta : Score) (depth : Depth) (valid_entry : Bool)
    (entry : Entry) (in_check : Bool) (static_eval : Score) (st : State B T)
    (h16 : ∀ m ∈ E.GetMovesNonQuiescent st.board, m < 65536)
    (hP : ∀ m ∈ E.GetMovesNonQuiescent st.board, P (E.Make st.board m)) :
    ∃ r st1, ABMoves E search NodeType alpha beta depth valid_entry entry in_check
      static_eval st = some (r, st1) ∧ st1.board = st.board := by
  unfold ABMoves
  have ho := ABOrder_mem hsort (ABSwapCheck E st (E.GetMovesNonQuiescent st.board)
    (ABHashMove E valid_entry entry st)) (E.GetMovesNonQuiescent st.board)
    (ABHashMove E valid_entry entry st) h16
  exact ABLoop_total hum hsort hs st.board (E.GetMovesNonQuiescent st.board) h16 hP
    _ _ _ _ _ _ _ _ _ _ _ _ _ _ _ (by simp) ho.1 (by simp)

theorem ABNode_total (hum : ∀ b m, E.UnMake (E.Make b m) = b)
    (hsort : ∀ lt l, (E.sort lt l).Perm l)
    {search : Nat → Score → Score → Depth → State B T → Option (Score × State B T)}
    {P : B → Prop} (hs : TotalOn search P)
    (Mode NodeType : Nat) (alpha beta : Score) (depth : Depth) (valid_entry : Bool)
    (entry : Entry) (in_check : Bool) (static_eval : Score) (st : State B T)
    (h16 : ∀ m ∈ E.GetMovesNonQuiescent st.board, m < 65536)
    (hP : ∀ m ∈ E.GetMovesNonQuiescent st.board, P (E.Make st.board m)) :
    ∃ r st1, ABNode E search Mode NodeType alpha beta depth valid_entry entry in_check
      static_eval st = some (r, st1) ∧ st1.board = st.board := by
  unfold ABNode
  split
  · split
    · exact ⟨_, _, rfl, rfl⟩
    · exact ⟨_, _, rfl, rfl⟩
  · split
    · exact ⟨_, _, rfl, rfl⟩
    · have := ABMoves_total hum hsort hs NodeType alpha beta depth valid_entry entry in_check
        static_eval (ABSampleCount Mode NodeType depth st)
        (by simpa using h16) (by simpa using hP)
      simpa using this

theorem ABBody_total (hum : ∀ b m, E.UnMake (E.Make b m) = b)
    (hsort : ∀ lt l, (E.sort lt l).Perm l)
    {search : Nat → Score → Score → Depth → State B T → Option (Score × State B T)}
    {P : B → Prop} (hs : TotalOn search P)
    (Mode NodeType : Nat) (alpha beta : Score) (depth : Depth) (valid_entry : Bool)
    (entry : Entry) (st : State B T)
    (h16 : ∀ m ∈ E.GetMovesNonQuiescent st.board, m < 65536)
    (hnull : P (E.Make st.board E.kNullMove))
    (hP : ∀ m ∈ E.GetMovesNonQuiescent st.board, P (E.Make st.board m)) :
    ∃ r st1, ABBody E search Mode NodeType alpha beta depth valid_entry entry st
      = some (r, st1) ∧ st1.board = st.board := by
  unfold ABBody
  obtain ⟨res, h1, hb1⟩ := ABPrelude_total hum hs NodeType alpha beta depth valid_entry entry
    (E.InCheck st.board) st hnull
  rw [h1]
  rcases res with ⟨r0, st0⟩ | ⟨se, st0⟩
  · exact ⟨_, _, rfl, hb1⟩
  · simp only [Sum.elim_inr] at hb1
    have := ABNode_total hum hsort hs Mode NodeType alpha beta depth valid_entry entry
      (E.InCheck st.board) se st0 (by rw [hb1]; exact h16) (by rw [hb1]; exact hP)
    simpa [hb1] using this

theorem AlphaBeta_total {rank : B → Nat} (hL : Lawful E rank) (Mode : Nat) :
    ∀ fuel : Nat, TotalOn (AlphaBeta E Mode fuel) (fun b => rank b + 1 < fuel) := by
  intro fuel
  induction fuel with
  | zero => intro nt a b d st h; simp at h
  | succ fuel ih =>
    intro nt a b d st h
    rw [AlphaBeta]
    split
    · exact ⟨_, _, rfl, rfl⟩
    · rename_i hdraw
      have hdraw : E.IsDraw st.board = false := by simpa using hdraw
      split
      · exact QuiescentSearch_total hL Mode fuel a b st (by omega)
      · split
        · exact ⟨_, _, rfl, rfl⟩
        · refine ABBody_total hL.unmake_make hL.sort_perm ih Mode nt a b d _ _ st
            (hL.moves16 _) ?_ ?_
          · have := hL.rank_null st.board hdraw
            show _ + 1 < fuel
            omega
          · intro m hm
            have := hL.rank_nq st.board m hdraw hm
            show _ + 1 < fuel
            omega

theorem ABLoop_window
    (search : Nat → Score → Score → Depth → State B T → Option (Score × State B T))
    (NodeType : Nat) (original_alpha beta : Score) (depth : Depth) (in_check : Bool)
    (static_eval : Score) (tt_entry : Move) (cs : Nat → BitBoard) :
    ∀ (n i : Nat) (moves : List Move) (sorted : Bool) (alpha : Score) (best : Move)
      (st : State B T) (r : Score) (st1 : State B T),
      ABLoop E search NodeType original_alpha beta depth in_check static_eval tt_entry cs
        n i moves sorted alpha best st = some (r, st1) →
      original_alpha ≤ alpha → alpha ≤ beta → original_alpha ≤ r ∧ r ≤ beta := by
  intro n
  induction n with
  | zero =>
    intro i moves sorted alpha best st r st1 h h1 h2
    rw [ABLoop] at h
    cases h
    exact ⟨h1, h2⟩
  | succ n ih =>
    intro i moves sorted alpha best st r st1 h h1 h2
    rw [ABLoop] at h
    split at h
    · exact ih _ _ _ _ _ _ _ _ h h1 h2
    · split at h
      · cases h
      · split at h
        · cases h; exact ⟨h1, h2⟩
        · split at h
          · cases h; exact ⟨le_trans h1 h2, le_refl _⟩
          · split at h
            · rename_i hlt hgt
              exact ih _ _ _ _ _ _ _ _ h (le_trans h1 (le_of_lt hgt)) (le_of_lt (not_le.1 hlt))
            · exact ih _ _ _ _ _ _ _ _ h h1 h2

theorem ABNode_window
    {search : Nat → Score → Score → Depth → State B T → Option (Score × State B T)}
    {Mode NodeType : Nat} {alpha beta : Score} {depth : Depth} {valid_entry : Bool}
    {entry : Entry} {in_check : Bool} {static_eval : Score} {st : State B T}
    {r : Score} {st1 : State B T}
    (h : ABNode E search Mode NodeType alpha beta depth valid_entry entry in_check
      static_eval st = some (r, st1))
    (hmoves : E.GetMovesNonQuiescent st.board ≠ []) (hab : alpha ≤ beta) :
    alpha ≤ r ∧ r ≤ beta := by
  unfold ABNode at h
  split at h
  · rename_i h0
    exact absurd (List.length_eq_zero.1 h0) hmoves
  · split at h
    · cases h; exact ⟨le_refl _, hab⟩
    · unfold ABMoves at h
      exact ABLoop_window _ _ _ _ _ _ _ _ _ _ _ _ _ _ _ _ _ _ h (le_refl _) hab

theorem ABPrelude_inl
    {search : Nat → Score → Score → Depth → State B T → Option (Score × State B T)}
    {NodeType : Nat} {alpha beta : Score} {depth : Depth} {valid_entry : Bool}
    {entry : Entry} {in_check : Bool} {st : State B T} {r : Score × State B T}
    (h : ABPrelude E search NodeType alpha beta depth valid_entry entry in_check st
      = some (Sum.inl r)) : r.1 = beta := by
  unfold ABPrelude at h
  split at h
  · split at h
    · cases h; rfl
    · split at h
      · split at h
        · cases h
        · split at h <;> cases h
          rfl
      · cases h
  · cases h

theorem ABBody_window (hum : ∀ b m, E.UnMake (E.Make b m) = b)
    (hsort : ∀ lt l, (E.sort lt l).Perm l)
    {search : Nat → Score → Score → Depth → State B T → Option (Score × State B T)}
    {P : B → Prop} (hs : TotalOn search P)
    (Mode NodeType : Nat) (alpha beta : Score) (depth : Depth) (valid_entry : Bool)
    (entry : Entry) (st : State B T)
    (h16 : ∀ m ∈ E.GetMovesNonQuiescent st.board, m < 65536)
    (hnull : P (E.Make st.board E.kNullMove))
    (hP : ∀ m ∈ E.GetMovesNonQuiescent st.board, P (E.Make st.board m))
    (hmoves : E.GetMovesNonQuiescent st.board ≠ []) (hab : alpha ≤ beta) :
    ∃ r st1, ABBody E search Mode NodeType alpha beta depth valid_entry entry st
      = some (r, st1) ∧ alpha ≤ r ∧ r ≤ beta := by
  unfold ABBody
  obtain ⟨res, h1, hb1⟩ := ABPrelude_total hum hs NodeType alpha beta depth valid_entry entry
    (E.InCheck st.board) st hnull
  rw [h1]
  rcases res with ⟨r0, st0⟩ | ⟨se, st0⟩
  · have := ABPrelude_inl h1
    simp only [] at this
    exact ⟨_, _, rfl, by rw [this]; exact hab, by rw [this]⟩
  · simp only [Sum.elim_inr] at hb1
    obtain ⟨r, st1, h2, _⟩ := ABNode_total hum hsort hs Mode NodeType alpha beta depth
      valid_entry entry (E.InCheck st.board) se st0 (by rw [hb1]; exact h16)
      (by rw [hb1]; exact hP)
    exact ⟨r, st1, h2, ABNode_window h2 (by rw [hb1]; exact hmoves) hab⟩

theorem QuiescentLoop_window
    (search : Score → Score → State B T → Option (Score × State B T))
    (in_check : Bool) (beta : Score) :
    ∀ (moves : List Move) (alpha : Score) (st : State B T) (r : Score) (st1 : State B T),
      QuiescentLoop E search in_check beta moves alpha st = some (r, st1) →
      alpha ≤ beta → alpha ≤ r ∧ r ≤ beta := by
  intro moves
  induction moves with
  | nil =>
    intro alpha st r st1 h hab
    simp only [QuiescentLoop, Option.some.injEq, Prod.mk.injEq] at h
    rw [← h.1]; exact ⟨le_refl _, hab⟩
  | cons move rest ih =>
    intro alpha st r st1 h hab
    rw [QuiescentLoop] at h
    split at h
    · exact ih _ _ _ _ h hab
    · split at h
      · cases h
      · split at h
        · simp only [Option.some.injEq, Prod.mk.injEq] at h
          rw [← h.1]; exact ⟨hab, le_refl _⟩
        · split at h
          · rename_i hlt hgt
            have := ih _ _ _ _ h (le_of_lt (not_le.1 hlt))
            exact ⟨le_trans (le_of_lt hgt) this.1, this.2⟩
          · exact ih _ _ _ _ h hab

theorem eq_some_result (d : State B T) (o : Option (Score × State B T))
    (h : o.isSome = true) : o = some (resultScore o, resultState d o) := by
  cases o with
  | none => simp at h
  | some r => rfl

theorem toyMoves_mem {b : List Move} {m : Nat} (h : m ∈ toyMoves b) :
    m < 65536 ∧ b.length < 2 := by
  revert m
  unfold toyMoves
  split <;> first | decide | simp

theorem toyGame_lawful : Lawful toyGame toyRank where
  unmake_make := fun _ _ => rfl
  sort_perm := fun _ l => List.perm_insertionSort _ l
  moves16 := fun _ _ h => (toyMoves_mem h).1
  qmoves16 := fun _ _ h => by cases h
  rank_q := fun _ _ h => by cases h
  rank_nq := fun b m _ h => by
    have := (toyMoves_mem h).2
    show 3 - (m :: b).length < 3 - b.length
    simp only [List.length_cons]
    omega
  rank_null := fun b h => by
    have h2 : ¬ 2 < b.length := by simpa [toyGame, toyEnv] using h
    show 3 - ((0 : Move) :: b).length < 3 - b.length
    simp only [List.length_cons]
    omega

theorem update_killers_inv (st : State B T) (m : Move) (h : KillerInv E st.killers) :
    KillerInv E (update_killers E st m).killers := by
  unfold update_killers
  split
  · rename_i hty
    split
    · rename_i hne
      intro p
      by_cases hp : p = E.get_num_made_moves st.board
      · subst hp
        have hq := h (E.get_num_made_moves st.board)
        simp only [if_true, if_false, one_ne_zero]
        refine ⟨Or.inl (fun heq => hne heq.symm), fun _ => hty, hq.2.1⟩
      · simp only [if_neg hp]
        exact h p
    · exact h
  · exact h

theorem Reach_killers {st st1 : State B T} (hr : Reach E st st1)
    (h : KillerInv E st.killers) : KillerInv E st1.killers := by
  induction hr with
  | refl => exact h
  | board b _ ih => exact ih
  | table t _ ih => exact ih
  | tick _ ih => exact ih
  | stop _ ih => exact ih
  | killer m _ ih => exact update_killers_inv _ m ih
  | max_ply n _ ih => exact ih
  | nodes n _ ih => exact ih
  | sample_nodes n _ ih => exact ih
  | evaluation_nodes n _ ih => exact ih
  | sampled_board b _ ih => exact ih
  | sampled b d nt a _ ih => exact ih
  | last_search_score s _ ih => exact ih
  | out o _ ih => exact ih
  | errors n _ ih => exact ih

theorem update_killers_clock (st : State B T) (m : Move) :
    (update_killers E st m).clock = st.clock ∧ (update_killers E st m).end_time = st.end_time := by
  unfold update_killers
  split
  · split
    · exact ⟨rfl, rfl⟩
    · exact ⟨rfl, rfl⟩
  · exact ⟨rfl, rfl⟩

theorem Reach_clock {st st1 : State B T} (hr : Reach E st st1) : st.clock ≤ st1.clock := by
  induction hr with
  | refl => exact le_refl _
  | board b _ ih => exact ih
  | table t _ ih => exact ih
  | tick _ ih => exact Nat.le_succ_of_le ih
  | stop _ ih => exact Nat.le_succ_of_le ih
  | killer m _ ih => rw [(update_killers_clock _ m).1]; exact ih
  | max_ply n _ ih => exact ih
  | nodes n _ ih => exact ih
  | sample_nodes n _ ih => exact ih
  | evaluation_nodes n _ ih => exact ih
  | sampled_board b _ ih => exact ih
  | sampled b d nt a _ ih => exact ih
  | last_search_score s _ ih => exact ih
  | out o _ ih => exact ih
  | errors n _ ih => exact ih

theorem now_mono (hmono : ∀ k, E.now k ≤ E.now (k + 1)) {a b : Nat} (h : a ≤ b) :
    E.now a ≤ E.now b := by
  induction h with
  | refl => exact le_refl _
  | step _ ih => exact le_trans ih (hmono _)

theorem Reach_TimeInv (hmono : ∀ k, E.now k ≤ E.now (k + 1)) (K : Nat)
    {st st1 : State B T} (hr : Reach E st st1) (h : TimeInv E K st) : TimeInv E K st1 := by
  induction hr with
  | refl => exact h
  | board b _ ih => exact ih
  | table t _ ih => exact ih
  | tick _ ih => exact fun k hK hk => ih k hK (Nat.le_of_succ_le hk)
  | stop _ ih => exact fun k _ hk => now_mono hmono (Nat.le_of_succ_le hk)
  | killer m _ ih =>
    intro k hK hk
    rw [(update_killers_clock _ m).1] at hk
    rw [(update_killers_clock _ m).2]
    exact ih k hK hk
  | max_ply n _ ih => exact ih
  | nodes n _ ih => exact ih
  | sample_nodes n _ ih => exact ih
  | evaluation_nodes n _ ih => exact ih
  | sampled_board b _ ih => exact ih
  | sampled b d nt a _ ih => exact ih
  | last_search_score s _ ih => exact ih
  | out o _ ih => exact ih
  | errors n _ ih => exact ih

theorem finished_of_TimeInv {K : Nat} {st : State B T} (h : TimeInv E K st)
    (hK : K ≤ st.clock) : (finished E st).1 = true := by
  unfold finished
  simp only [decide_eq_true_eq]
  exact h st.clock hK (le_refl _)

theorem rotate_to_front_perm (moves : List Move) (i : Nat) :
    (rotate_to_front moves i).Perm moves := by
  unfold rotate_to_front
  simp only []
  have h1 : ((List.drop 1 (List.take (i + 1) moves).reverse
      ++ List.take 1 (List.take (i + 1) moves).reverse).reverse).Perm
      (List.take (i + 1) moves) := by
    refine (List.reverse_perm _).trans ?_
    refine List.perm_append_comm.trans ?_
    rw [List.take_append_drop]
    exact List.reverse_perm _
  have h2 := h1.append_right (List.drop (i + 1) moves)
  rw [List.take_append_drop] at h2
  exact h2

theorem RootChild_total
    {search : Nat → Score → Score → Depth → State B T → Option (Score × State B T)}
    {P : B → Prop} (hs : TotalOn search P)
    (alpha beta : Score) (cd : Depth) (st : State B T) (hP : P st.board) :
    ∃ r st1, RootChild search alpha beta cd st = some (r, st1) ∧ st1.board = st.board := by
  unfold RootChild
  obtain ⟨r, st1, h1, hb1⟩ := hs kNW (-(alpha + 1)) (-alpha) (cd - 1) st hP
  rw [h1]
  simp only []
  split
  · obtain ⟨r2, st2, h2, hb2⟩ := hs kPV (-beta) (-alpha) (cd - 1) st1 (hb1 ▸ hP)
    rw [h2]
    exact ⟨_, _, rfl, hb2.trans hb1⟩
  · exact ⟨_, _, rfl, hb1⟩

theorem RootSearchLoopFrom_total (hum : ∀ b m, E.UnMake (E.Make b m) = b)
    {search : Nat → Score → Score → Depth → State B T → Option (Score × State B T)}
    {P : B → Prop} (hs : TotalOn search P) (b0 : B) (legal : List Move)
    (hP : ∀ m ∈ legal, P (E.Make b0 m)) (beta : Score) (cd : Depth) :
    ∀ (n i : Nat) (moves : List Move) (alpha : Score) (st : State B T),
      st.board = b0 → moves.Perm legal → i + n = moves.length →
      ∃ r moves1 st1, RootSearchLoopFrom E search beta cd n i moves alpha st
          = some (r, moves1, st1) ∧ st1.board = b0 ∧ moves1.Perm legal := by
  intro n
  induction n with
  | zero =>
    intro i moves alpha st hb hperm _
    rw [RootSearchLoopFrom]
    exact ⟨_, _, _, rfl, by simp [hb], hperm⟩
  | succ n ih =>
    intro i moves alpha st hb hperm hlen
    have hmove : moves.getD i 0 ∈ legal := hperm.mem_iff.1 (getD_mem (by omega))
    have hPm : P (Make E st (moves.getD i 0)).board := by
      rw [Make_board, hb]; exact hP _ hmove
    rw [RootSearchLoopFrom]
    split
    · obtain ⟨r, st1, h1, hb1⟩ := hs kPV (-beta) (-alpha) (cd - 1) _ hPm
      have hb2 : (UnMake E st1).board = b0 := by
        rw [UnMake_board, hb1, Make_board, hum, hb]
      rw [h1]
      simp only []
      split
      · exact ⟨_, _, _, rfl, hb2, hperm⟩
      · exact ih _ _ _ _ hb2 hperm (by omega)
    · obtain ⟨score, st1, h1, hb1⟩ := RootChild_total hs alpha beta cd _ hPm
      have hb2 : (finished E (UnMake E st1)).2.board = b0 := by
        rw [finished_board, UnMake_board, hb1, Make_board, hum, hb]
      have hrot : (rotate_to_front moves i).Perm legal :=
        (rotate_to_front_perm moves i).trans hperm
      rw [h1]
      simp only []
      split
      · exact ⟨_, _, _, rfl, hb2, hperm⟩
      · split
        · exact ⟨_, _, _, rfl, hb2, hrot⟩
        · split
          · exact ih _ _ _ _ hb2 hrot (by rw [hrot.length_eq, ← hperm.length_eq]; omega)
          · exact ih _ _ _ _ hb2 hperm (by omega)

theorem RootSearchLoop_total (hum : ∀ b m, E.UnMake (E.Make b m) = b)
    {search : Nat → Score → Score → Depth → State B T → Option (Score × State B T)}
    {P : B → Prop} (hs : TotalOn search P) (b0 : B) (legal : List Move)
    (hP : ∀ m ∈ legal, P (E.Make b0 m)) (alpha beta : Score) (cd : Depth)
    (moves : List Move) (st : State B T) (hb : st.board = b0) (hperm : moves.Perm legal) :
    ∃ r moves1 st1, RootSearchLoop E search alpha beta cd moves st = some (r, moves1, st1)
      ∧ st1.board = b0 ∧ moves1.Perm legal :=
  RootSearchLoopFrom_total hum hs b0 legal hP beta cd _ _ _ _ _ hb hperm (by simp)

theorem build_pv_board (hum : ∀ b m, E.UnMake (E.Make b m) = b) :
    ∀ (depth : Nat) (pv : List Move) (st : State B T),
      (build_pv E depth pv st).2.board = st.board := by
  intro depth
  induction depth with
  | zero => intro pv st; rfl
  | succ depth ih =>
    intro pv st
    rw [build_pv]
    simp only []
    split
    · split
      · rw [UnMake_board, ih, Make_board, hum]
      · rfl
    · rfl

theorem RootReport_board (hum : ∀ b m, E.UnMake (E.Make b m) = b) (begin : Time)
    (cd : Depth) (score : Score) (st : State B T) :
    (RootReport E begin cd score st).board = st.board := by
  unfold RootReport
  split
  · unfold RootInfo
    simp only []
    split
    · show (now E _).2.board = _
      show (build_pv E _ _ _).2.board = _
      rw [build_pv_board hum]
      rfl
    · show (build_pv E _ _ _).2.board = _
      rw [build_pv_board hum]
      rfl
  · rfl

theorem AspirationLoop_total (hmono : ∀ k, E.now k ≤ E.now (k + 1)) (K : Nat)
    (b0 : B) (legal : List Move)
    {loop : Score → Score → List Move → State B T → Option (Score × List Move × State B T)}
    (hl : ∀ a b moves st, st.board = b0 → moves.Perm legal →
      ∃ r moves1 st1, loop a b moves st = some (r, moves1, st1) ∧ st1.board = b0
        ∧ moves1.Perm legal ∧ Reach E st st1) :
    ∀ (k : Nat) (delta alpha beta score : Score) (moves : List Move) (st : State B T),
      st.board = b0 → moves.Perm legal → TimeInv E K st → K < st.clock + k → 0 < k →
      ∃ r moves1 st1, AspirationLoop E loop k delta alpha beta score moves st
          = some (r, moves1, st1) ∧ st1.board = b0 ∧ moves1.Perm legal := by
  intro k
  induction k with
  | zero =>
    intro delta alpha beta score moves st hb hperm hT hk hpos
    omega
  | succ k ih =>
    intro delta alpha beta score moves st hb hperm hT hk _
    rw [AspirationLoop]
    split
    · rename_i hcond
      have hlt : st.clock < K := by
        by_contra hge
        have := finished_of_TimeInv hT (not_lt.1 hge)
        rw [hcond.1] at this
        cases this
      obtain ⟨r, moves1, st1, h1, hb1, hp1, hr1⟩ := hl (widen E delta alpha beta score).1
        (widen E delta alpha beta score).2 moves (finished E st).2 hb hperm
      rw [h1]
      simp only []
      have hc : st.clock + 1 ≤ st1.clock := Reach_clock hr1
      exact ih _ _ _ _ _ _ hb1 hp1
        (Reach_TimeInv hmono K ((reach_finished st).trans hr1) hT) (by omega) (by omega)
    · exact ⟨_, _, _, rfl, hb, hperm⟩

theorem RootDepthSearch_total {rank : B → Nat} (hL : Lawful E rank)
    (hmono : ∀ k, E.now k ≤ E.now (k + 1)) (K : Nat)
    {search : Nat → Score → Score → Depth → State B T → Option (Score × State B T)}
    {P : B → Prop} (hs : TotalOn search P) (hreach : ReachSearch E search)
    (b0 : B) (hP : ∀ m ∈ E.GetMovesNonQuiescent b0, P (E.Make b0 m))
    (k : Nat) (cd : Depth) (score : Score) (moves : List Move) (st : State B T)
    (hb : st.board = b0) (hperm : moves.Perm (E.GetMovesNonQuiescent b0))
    (hT : TimeInv E K st) (hk : K < k) :
    ∃ r moves1 st1, RootDepthSearch E search k cd score moves st = some (r, moves1, st1)
      ∧ st1.board = b0 ∧ moves1.Perm (E.GetMovesNonQuiescent b0) := by
  unfold RootDepthSearch
  split
  · exact RootSearchLoop_total hL.unmake_make hs b0 _ hP _ _ _ _ _ hb hperm
  · have hsorted : (SortMovesML E st moves (moves.getD 0 0)).Perm (E.GetMovesNonQuiescent b0) :=
      (SortMovesML_perm hL.sort_perm st moves _
        (fun m hm => hL.moves16 b0 m (hperm.mem_iff.1 hm))).trans hperm
    obtain ⟨r, moves1, st1, h1, hb1, hp1⟩ := RootSearchLoop_total hL.unmake_make hs b0 _ hP
      (max (toI32 (score - 500)) E.kMinScore) (min (toI32 (score + 500)) E.kMaxScore) cd _ st hb hsorted
    rw [h1]
    simp only []
    refine AspirationLoop_total hmono K b0 _ ?_ k _ _ _ _ _ _ hb1 hp1
      (Reach_TimeInv hmono K (RootSearchLoop_reach hreach h1) hT) (by omega) (by omega)
    intro a b moves2 st2 hb2 hp2
    obtain ⟨r3, moves3, st3, h3, hb3, hp3⟩ := RootSearchLoop_total hL.unmake_make hs b0 _ hP
      a b cd moves2 st2 hb2 hp2
    exact ⟨r3, moves3, st3, h3, hb3, hp3, RootSearchLoop_reach hreach h3⟩

theorem RootIterate_total {rank : B → Nat} (hL : Lawful E rank)
    (hmono : ∀ k, E.now k ≤ E.now (k + 1)) (K : Nat)
    {search : Nat → Score → Score → Depth → State B T → Option (Score × State B T)}
    {P : B → Prop} (hs : TotalOn search P) (hreach : ReachSearch E search)
    (b0 : B) (hP : ∀ m ∈ E.GetMovesNonQuiescent b0, P (E.Make b0 m))
    (k : Nat) (hk : K < k) (begin : Time) :
    ∀ (n : Nat) (cd : Depth) (score : Score) (moves : List Move) (st : State B T),
      st.board = b0 → moves.Perm (E.GetMovesNonQuiescent b0) → TimeInv E K st →
      ∃ moves1 st1, RootIterate E search k begin n cd score moves st = some (moves1, st1)
        ∧ moves1.Perm (E.GetMovesNonQuiescent b0) := by
  intro n
  induction n with
  | zero =>
    intro cd score moves st _ hperm _
    rw [RootIterate]
    exact ⟨_, _, rfl, hperm⟩
  | succ n ih =>
    intro cd score moves st hb hperm hT
    rw [RootIterate]
    split
    · exact ⟨_, _, rfl, hperm⟩
    · have hT1 : TimeInv E K (finished E st).2 := Reach_TimeInv hmono K (reach_finished st) hT
      obtain ⟨r, moves1, st1, h1, hb1, hp1⟩ := RootDepthSearch_total hL hmono K hs hreach b0 hP
        k cd score moves (finished E st).2 hb hperm hT1 hk
      rw [h1]
      simp only []
      exact ih _ _ _ _ (by rw [RootReport_board hL.unmake_make, hb1]) hp1
        (Reach_TimeInv hmono K
          ((RootDepthSearch_reach hreach h1).trans (RootReport_reach _ _ _ _)) hT1)

theorem RootMoves_perm {rank : B → Nat} (hL : Lawful E rank) (st : State B T) :
    (RootMoves E st).Perm (E.GetMovesNonQuiescent st.board) := by
  unfold RootMoves
  exact SortMovesML_perm hL.sort_perm st _ _ (hL.moves16 _)

theorem RootSearch_total {rank : B → Nat} (hL : Lawful E rank) (Mode fuel : Nat)
    (depth : Depth) (st : State B T) (K : Nat)
    (hmoves : E.GetMovesNonQuiescent st.board ≠ [])
    (hclock : ∀ k, E.now k ≤ E.now (k + 1))
    (hfuel : ∀ m ∈ E.GetMovesNonQuiescent st.board, rank (E.Make st.board m) + 1 < fuel)
    (hK : K < fuel) (hT : TimeInv E K st) :
    ∃ m st1, RootSearch E Mode fuel depth st = some (m, st1)
      ∧ m ∈ E.GetMovesNonQuiescent st.board := by
  unfold RootSearch RootSearchWith
  have hb : (RootEnter E st).board = st.board := rfl
  obtain ⟨moves1, st1, h1, hp1⟩ := RootIterate_total hL hclock K (AlphaBeta_total hL Mode fuel)
    (AlphaBeta_reach Mode fuel) st.board hfuel fuel hK (now E st).1
    (min depth E.kMaxDepth).toNat 1 0 (RootMoves E (RootEnter E st)) (RootEnter E st) hb
    (by have := RootMoves_perm hL (RootEnter E st); rwa [hb] at this)
    (Reach_TimeInv hclock K (RootEnter_reach st) hT)
  rw [h1]
  refine ⟨_, _, rfl, hp1.mem_iff.1 (getD_mem ?_)⟩
  rw [hp1.length_eq]
  exact List.length_pos.2 hmoves

theorem toyGame_clock : ∀ k, toyGame.now k ≤ toyGame.now (k + 1) := by
  intro k
  show (k : Int) ≤ ((k + 1 : Nat) : Int)
  omega

theorem finished_after_deadline (hmono : ∀ k, E.now k ≤ E.now (k + 1)) (st : State B T)
    (h : st.end_time ≤ E.now st.clock) :
    (finished E st).1 = true
      ∧ (finished E st).2.end_time ≤ E.now (finished E st).2.clock
      ∧ (finished E st).2.out = st.out := by
  refine ⟨?_, le_trans h (hmono _), rfl⟩
  unfold finished
  simpa using h

theorem eq_some_run (d : Score × List Move × State B T)
    (o : Option (Score × List Move × State B T)) (h : o.isSome = true) :
    o = some ((o.getD d).1, (o.getD d).2.1, (o.getD d).2.2) := by
  cases o with
  | none => simp at h
  | some r => rfl

theorem toU32_key_eq (x : Int) : toU32 (x * 65536) = 65536 * (x % 65536).toNat := by
  have : x * 65536 % 4294967296 = 65536 * (x % 65536) := by
    have := @Int.mul_emod_mul_of_pos 65536 x 65536 (by norm_num)
    rw [mul_comm x 65536]
    simpa using this
  unfold toU32
  rw [this]
  have h0 : 0 ≤ x % 65536 := Int.emod_nonneg _ (by norm_num)
  omega

theorem shift_key (m : Nat) (k : Int) (hm : m < 65536) :
    (m ||| toU32 (k * 65536)) >>> 16 = (k % 65536).toNat := by
  have h2 : (65536 : Nat) = 2 ^ 16 := by norm_num
  rw [toU32_key_eq, Nat.lor_comm, h2, ← Nat.mul_add_lt_is_or (by omega) _,
    Nat.shiftRight_eq_div_pow]
  omega

theorem shift_key_range (m : Nat) (k : Int) (hm : m < 65536) (hk0 : 0 ≤ k)
    (hk1 : k < 65536) : (m ||| toU32 (k * 65536)) >>> 16 = k.toNat := by
  rw [shift_key m k hm, Int.emod_eq_of_lt hk0 hk1]

theorem keyed_sort_sorted (key : Move → Int) (moves : List Move)
    (hperm : (E.sort Sorter (moves.map fun m => m ||| toU32 (key m * 65536))).Perm
      (moves.map fun m => m ||| toU32 (key m * 65536)))
    (hsorted : (E.sort Sorter (moves.map fun m => m ||| toU32 (key m * 65536))).Pairwise
      fun a b => Sorter b a = false)
    (h16 : ∀ m ∈ moves, m < 65536)
    (hkey : ∀ m ∈ moves, 0 ≤ key m ∧ key m < 65536) :
    ((E.sort Sorter (moves.map fun m => m ||| toU32 (key m * 65536))).map
      fun m => m &&& 0xFFFF).Pairwise fun a b => key b ≤ key a := by
  rw [List.pairwise_map]
  rw [List.Pairwise.and_mem] at hsorted
  refine hsorted.imp ?_
  rintro a b ⟨ha, hb, hab⟩
  obtain ⟨ma, hma, rfl⟩ := List.mem_map.1 (hperm.mem_iff.1 ha)
  obtain ⟨mb, hmb, rfl⟩ := List.mem_map.1 (hperm.mem_iff.1 hb)
  rw [mask_toU32 ma _ (h16 ma hma), mask_toU32 mb _ (h16 mb hmb)]
  unfold Sorter at hab
  rw [shift_key_range ma _ (h16 ma hma) (hkey ma hma).1 (hkey ma hma).2,
    shift_key_range mb _ (h16 mb hmb) (hkey mb hmb).1 (hkey mb hmb).2] at hab
  have h1 := (hkey ma hma).1
  have h2 := (hkey mb hmb).1
  simp only [gt_iff_lt, decide_eq_false_iff_not, not_lt] at hab
  have h3 : ((key mb).toNat : Int) ≤ ((key ma).toNat : Int) := by exact_mod_cast hab
  rw [Int.toNat_of_nonneg h1, Int.toNat_of_nonneg h2] at h3
  exact h3

theorem get_move_priority_range (q : Bool) (killers : Nat → Nat → Move) (m : Move)
    (board : B) (best : Move) (hpiece : ∀ sq, E.GetPieceType (E.get_piece board sq) ≤ 1000) :
    0 ≤ get_move_priority E q killers m board best
    ∧ get_move_priority E q killers m board best < 65536 := by
  have h1 := hpiece (E.GetMoveDestination m)
  have h2 := hpiece (E.GetMoveSource m)
  unfold get_move_priority
  repeat' split
  all_goals omega

theorem Sorter_total : IsTotal Move (fun a b => Sorter b a = false) :=
  ⟨fun a b => by
    unfold Sorter
    simp only [decide_eq_false_iff_not, gt_iff_lt, not_lt]
    exact Nat.le_total _ _⟩

theorem Sorter_trans : IsTrans Move (fun a b => Sorter b a = false) :=
  ⟨fun a b c => by
    unfold Sorter
    simp only [decide_eq_false_iff_not, gt_iff_lt, not_lt]
    exact fun h1 h2 => Nat.le_trans h2 h1⟩

theorem toyGame_sort_sorted (l : List Move) :
    (toyGame.sort Sorter l).Pairwise fun a b => Sorter b a = false :=
  @List.sorted_insertionSort _ (fun a b => Sorter b a = false) _ Sorter_total Sorter_trans l

theorem PerftLoop_eq (hum : ∀ b m, E.UnMake (E.Make b m) = b)
    (perft : State B T → Nat × State B T) (f : B → Nat)
    (hperft : ∀ st, (perft st).1 = f st.board % 18446744073709551616
      ∧ (perft st).2.board = st.board)
    (moves : List Move) :
    ∀ (acc : Nat) (st : State B T), acc < 18446744073709551616 →
      (PerftLoop E perft moves acc st).1
          = (acc + (moves.map fun m => f (E.Make st.board m)).sum) % 18446744073709551616
        ∧ (PerftLoop E perft moves acc st).2.board = st.board := by
  induction moves with
  | nil =>
    intro acc st hacc
    rw [PerftLoop]
    refine ⟨?_, rfl⟩
    simp [Nat.mod_eq_of_lt hacc]
  | cons move rest ih =>
    intro acc st hacc
    have hb : (UnMake E (perft (Make E st move)).2).board = st.board := by
      rw [UnMake_board, (hperft _).2, Make_board, hum]
    have h := ih ((acc + (perft (Make E st move)).1) % 18446744073709551616)
      (UnMake E (perft (Make E st move)).2) (Nat.mod_lt _ (by norm_num))
    have hv := (hperft (Make E st move)).1
    rw [Make_board] at hv
    rw [hb] at h
    rw [PerftLoop]
    refine ⟨?_, h.2⟩
    rw [h.1, List.map_cons, List.sum_cons, hv]
    omega

theorem leafCount_one (b : B) : leafCount E 1 b = (E.GetMovesNonQuiescent b).length := by
  simp [leafCount]

theorem PerftFrom_eq (hum : ∀ b m, E.UnMake (E.Make b m) = b) :
    ∀ (d : Nat) (st : State B T),
      (PerftFrom E d st).1 = leafCount E d st.board % 18446744073709551616
        ∧ (PerftFrom E d st).2.board = st.board := by
  intro d
  induction d with
  | zero =>
    intro st
    exact ⟨rfl, rfl⟩
  | succ d ih =>
    intro st
    rw [PerftFrom]
    by_cases hd : d = 0
    · subst hd
      rw [if_pos rfl, leafCount_one]
      exact ⟨rfl, rfl⟩
    · rw [if_neg hd]
      have h := PerftLoop_eq hum (PerftFrom E d) (leafCount E d) ih
        (E.GetMovesNonQuiescent st.board) 0 st (by norm_num)
      rw [Nat.zero_add] at h
      exact h

theorem leafCount_toyBinary (d : Nat) : ∀ b, leafCount toyBinary d b = 2 ^ d := by
  induction d with
  | zero => intro b; rfl
  | succ d ih =>
    intro b
    have : leafCount toyBinary (d + 1) b
        = leafCount toyBinary d (toyBinary.Make b 1)
          + (leafCount toyBinary d (toyBinary.Make b 2) + 0) := rfl
    rw [this, ih, ih]
    ring

theorem fail_hard_nil (alpha beta : Score) : fail_hard alpha beta [] = alpha := by
  simp [fail_hard]

theorem fail_hard_cutoff (alpha beta s : Score) (l : List Score) (h : s ≥ beta) :
    fail_hard alpha beta (s :: l) = beta := by
  simp [fail_hard, h]

theorem fail_hard_raise (alpha beta s : Score) (l : List Score) (h1 : ¬ s ≥ beta)
    (h2 : s > alpha) : fail_hard alpha beta (s :: l) = fail_hard s beta l := by
  have h3 : max alpha s = s := max_eq_right (le_of_lt h2)
  simp [fail_hard, h1, h3]

theorem fail_hard_keep (alpha beta s : Score) (l : List Score) (h1 : ¬ s ≥ beta)
    (h2 : ¬ s > alpha) : fail_hard alpha beta (s :: l) = fail_hard alpha beta l := by
  have h3 : max alpha s = alpha := max_eq_left (not_lt.1 h2)
  simp [fail_hard, h1, h3]

theorem ABLoop_fail_hard
    (search : Nat → Score → Score → Depth → State B T → Option (Score × State B T))
    (NodeType : Nat) (original_alpha beta : Score) (depth : Depth) (in_check : Bool)
    (static_eval : Score) (tt_entry : Move) (cs : Nat → BitBoard) :
    ∀ (n i : Nat) (moves : List Move) (sorted : Bool) (alpha : Score) (best : Move)
      (st : State B T) (r : Score) (st1 : State B T),
      ABLoop E search NodeType original_alpha beta depth in_check static_eval tt_entry cs
        n i moves sorted alpha best st = some (r, st1) →
      ∃ record, ABLoopScores E search NodeType beta depth in_check static_eval tt_entry cs
          n i moves sorted alpha st = some record
        ∧ r = fail_hard alpha beta (in_time record) := by
  intro n
  induction n with
  | zero =>
    intro i moves sorted alpha best st r st1 h
    rw [ABLoop] at h
    cases h
    exact ⟨[], rfl, (fail_hard_nil _ _).symm⟩
  | succ n ih =>
    intro i moves sorted alpha best st r st1 h
    rw [ABLoop] at h
    rw [ABLoopScores]
    split at h
    · rename_i hf
      rw [if_pos hf]
      exact ih _ _ _ _ _ _ _ _ h
    · rename_i hf
      rw [if_neg hf]
      split at h
      · cases h
      · rename_i score st2 heq
        split at h
        · rename_i hfin
          rw [if_pos hfin]
          cases h
          exact ⟨_, rfl, (fail_hard_nil _ _).symm⟩
        · rename_i hfin
          rw [if_neg hfin]
          split at h
          · rename_i hcut
            rw [if_pos hcut]
            cases h
            exact ⟨_, rfl, (fail_hard_cutoff _ _ _ _ hcut).symm⟩
          · rename_i hcut
            rw [if_neg hcut]
            split at h
            · rename_i hgt
              rw [if_pos hgt]
              obtain ⟨record, h1, h2⟩ := ih _ _ _ _ _ _ _ _ h
              rw [h1]
              refine ⟨_, rfl, ?_⟩
              rw [h2]
              exact (fail_hard_raise _ _ _ _ hcut hgt).symm
            · rename_i hgt
              rw [if_neg hgt]
              obtain ⟨record, h1, h2⟩ := ih _ _ _ _ _ _ _ _ h
              rw [h1]
              refine ⟨_, rfl, ?_⟩
              rw [h2]
              exact (fail_hard_keep _ _ _ _ hcut hgt).symm

theorem rotate_to_front_eq (moves : List Move) (i : Nat) (hi : i < moves.length) :
    rotate_to_front moves i = moves.getD i 0 :: (moves.take i ++ moves.drop (i + 1)) := by
  unfold rotate_to_front
  have h1 : moves.take (i + 1) = moves.take i ++ [moves.getD i 0] := by
    rw [List.take_succ, List.getD_eq_getElem _ _ hi, List.getElem?_eq_getElem hi]
    rfl
  simp [h1]

theorem RootSearchLoopFrom_front
    (search : Nat → Score → Score → Depth → State B T → Option (Score × State B T))
    (beta : Score) (cd : Depth) :
    ∀ (n i : Nat) (moves : List Move) (alpha : Score) (st : State B T) (r : Score)
      (moves1 : List Move) (st1 : State B T) (log : List (Move × Score)),
      i + n = moves.length →
      RootSearchLoopFrom E search beta cd n i moves alpha st = some (r, moves1, st1) →
      RootSearchLoopLog E search beta cd n i moves alpha st = some (log, true) →
      (moves1.getD 0 0, r) ∈ log ∨ (moves1.getD 0 0 = moves.getD 0 0 ∧ r = alpha) := by
  intro n
  induction n with
  | zero =>
    intro i moves alpha st r moves1 st1 log _ hrun _
    rw [RootSearchLoopFrom] at hrun
    cases hrun
    exact Or.inr ⟨rfl, rfl⟩
  | succ n ih =>
    intro i moves alpha st r moves1 st1 log hlen hrun hlog
    rw [RootSearchLoopFrom] at hrun
    rw [RootSearchLoopLog] at hlog
    by_cases hi0 : i = 0
    · rw [if_pos hi0] at hrun hlog
      cases hc : search kPV (-beta) (-alpha) (cd - 1) (Make E st (moves.getD i 0)) with
      | none => rw [hc] at hrun; cases hrun
      | some x =>
        obtain ⟨r0, st2⟩ := x
        rw [hc] at hrun hlog
        simp only [] at hrun hlog
        by_cases hcond : -r0 ≤ alpha ∨ -r0 ≥ beta
        · rw [if_pos hcond] at hlog
          cases hlog
        · rw [if_neg hcond] at hrun hlog
          obtain ⟨l, hl, hl2⟩ := Option.map_eq_some'.1 hlog
          obtain ⟨l1, c⟩ := l
          cases hl2
          left
          rcases ih _ _ _ _ _ _ _ _ (by omega) hrun hl with h | ⟨h1, h2⟩
          · exact List.mem_cons_of_mem _ h
          · rw [h1, h2, hi0]
            exact List.mem_cons_self _ _
    · rw [if_neg hi0] at hrun hlog
      cases hc : RootChild search alpha beta cd (Make E st (moves.getD i 0)) with
      | none => rw [hc] at hrun; cases hrun
      | some x =>
        obtain ⟨score, st2⟩ := x
        rw [hc] at hrun hlog
        simp only [] at hrun hlog
        by_cases hfin : (finished E (UnMake E st2)).1 = true
        · rw [if_pos hfin] at hlog
          cases hlog
        · rw [if_neg hfin] at hrun hlog
          by_cases hcut : score ≥ beta
          · rw [if_pos hcut] at hlog
            cases hlog
          · rw [if_neg hcut] at hrun hlog
            by_cases hgt : score > alpha
            · rw [if_pos hgt] at hrun hlog
              obtain ⟨l, hl, hl2⟩ := Option.map_eq_some'.1 hlog
              obtain ⟨l1, c⟩ := l
              cases hl2
              left
              have hlen2 : i + 1 + n = (rotate_to_front moves i).length := by
                rw [(rotate_to_front_perm moves i).length_eq]
                omega
              rcases ih _ _ _ _ _ _ _ _ hlen2 hrun hl with h | ⟨h1, h2⟩
              · exact List.mem_cons_of_mem _ h
              · rw [h1, h2, rotate_to_front_eq moves i (by omega), List.getD_cons_zero]
                exact List.mem_cons_self _ _
            · rw [if_neg hgt] at hrun hlog
              obtain ⟨l, hl, hl2⟩ := Option.map_eq_some'.1 hlog
              obtain ⟨l1, c⟩ := l
              cases hl2
              rcases ih _ _ _ _ _ _ _ _ (by omega) hrun hl with h | h
              · exact Or.inl (List.mem_cons_of_mem _ h)
              · exact Or.inr h

theorem RootSearchLoopFrom_perm
    (search : Nat → Score → Score → Depth → State B T → Option (Score × State B T))
    (beta : Score) (cd : Depth) :
    ∀ (n i : Nat) (moves : List Move) (alpha : Score) (st : State B T) (r : Score)
      (moves1 : List Move) (st1 : State B T),
      RootSearchLoopFrom E search beta cd n i moves alpha st = some (r, moves1, st1) →
      moves1.Perm moves := by
  intro n
  induction n with
  | zero =>
    intro i moves alpha st r moves1 st1 hrun
    rw [RootSearchLoopFrom] at hrun
    cases hrun
    exact List.Perm.refl _
  | succ n ih =>
    intro i moves alpha st r moves1 st1 hrun
    rw [RootSearchLoopFrom] at hrun
    split at hrun
    · split at hrun
      · cases hrun
      · split at hrun
        · cases hrun
          exact List.Perm.refl _
        · exact ih _ _ _ _ _ _ _ hrun
    · split at hrun
      · cases hrun
      · split at hrun
        · cases hrun
          exact List.Perm.refl _
        · split at hrun
          · cases hrun
            exact rotate_to_front_perm _ _
          · split at hrun
            · exact (ih _ _ _ _ _ _ _ hrun).trans (rotate_to_front_perm _ _)
            · exact ih _ _ _ _ _ _ _ hrun

theorem GetMoveWeight_foldl {W : Type} (init : W) (add : W → Nat → W)
    (killers : Nat → Nat → Move) (move : Move) (board : B) (tt last : Move)
    (dc ts : Nat → BitBoard) :
    GetMoveWeight E init add killers move board tt last dc ts
      = (GetMoveWeightIndexes E killers move board tt last dc ts).foldl add init := by
  unfold GetMoveWeightIndexes GetMoveWeight
  simp only [apply_ite (List.foldl add init), List.foldl_append, List.foldl_cons,
    List.foldl_nil, List.nil_append]

theorem foldl_add_weights (w : Nat → Int) (l : List Nat) (s : Int) :
    l.foldl (fun s index => s + w index) s = s + (l.map w).sum := by
  induction l generalizing s with
  | nil => simp
  | cons a l ih => simp [ih, add_assoc]

theorem toI32_range (x : Int) : -2147483648 ≤ toI32 x ∧ toI32 x < 2147483648 := by
  unfold toI32
  omega

theorem toI32_eq (x : Int) (h1 : -2147483648 ≤ x) (h2 : x < 2147483648) : toI32 x = x := by
  unfold toI32
  omega

theorem toI32_add (a b : Int) : toI32 (toI32 a + b) = toI32 (a + b) := by
  unfold toI32
  omega

theorem foldl_add_wrap (w : Nat → Int) (l : List Nat) (s : Int) :
    l.foldl (fun s index => toI32 (s + w index)) (toI32 s) = toI32 (s + (l.map w).sum) := by
  induction l generalizing s with
  | nil => simp
  | cons a l ih =>
    rw [List.foldl_cons, toI32_add, ih, List.map_cons, List.sum_cons, add_assoc]

theorem foldl_set_getD (l : List Nat) (s : List Int) (j : Nat) :
    (l.foldl (fun s index => s.set index 1) s).getD j 0
      = if j ∈ l ∧ j < s.length then 1 else s.getD j 0 := by
  induction l generalizing s with
  | nil => simp
  | cons a l ih =>
    rw [List.foldl_cons, ih]
    simp only [List.length_set, List.mem_cons]
    by_cases h1 : j ∈ l ∧ j < s.length
    · rw [if_pos h1, if_pos ⟨Or.inr h1.1, h1.2⟩]
    · rw [if_neg h1]
      by_cases h2 : j = a
      · subst h2
        by_cases h3 : j < s.length
        · rw [if_pos ⟨Or.inl rfl, h3⟩]
          simp [List.getD_eq_getElem?_getD, List.getElem?_set, h3]
        · rw [if_neg (fun h => h3 h.2)]
          have h4 := List.getElem?_eq_none (Nat.le_of_not_lt h3)
          simp [List.getD_eq_getElem?_getD, List.getElem?_set, h3, h4]
      · have h4 : ¬ ((j = a ∨ j ∈ l) ∧ j < s.length) := by
          rintro ⟨h | h, h5⟩
          · exact h2 h
          · exact h1 ⟨h, h5⟩
        rw [if_neg h4]
        simp [List.getD_eq_getElem?_getD, List.getElem?_set, Ne.symm h2]

theorem sum_range_indicator (w : Nat → Int) (l : List Nat) (N : Nat) (hl : l.Nodup)
    (hr : ∀ i ∈ l, i < N) :
    ((List.range N).map fun j => w j * (if j ∈ l ∧ j < N then 1 else 0)).sum
      = (l.map w).sum := by
  have hrange : (List.range N).toFinset = Finset.range N := by
    ext j
    simp
  rw [← List.sum_toFinset _ (List.nodup_range N), hrange, ← List.sum_toFinset _ hl]
  have h : ∀ j ∈ Finset.range N,
      w j * (if j ∈ l ∧ j < N then (1 : Int) else 0) = if j ∈ l.toFinset then w j else 0 := by
    intro j hj
    have hj2 : j < N := Finset.mem_range.1 hj
    by_cases h1 : j ∈ l
    · simp [h1, hj2]
    · simp [h1]
  rw [Finset.sum_congr rfl h, Finset.sum_ite_mem, Finset.inter_eq_right.2]
  intro j hj
  exact Finset.mem_range.2 (hr j (List.mem_toFinset.1 hj))

theorem shiftRight16_eq_zero (m : Nat) : m >>> 16 = 0 ↔ m < 65536 := by
  rw [Nat.shiftRight_eq_div_pow]
  omega

theorem and_mask_lt (m : Nat) : m &&& 0xFFFF < 65536 := by
  have h1 : (0xFFFF : Nat) = 2 ^ 16 - 1 := by norm_num
  rw [h1, Nat.and_pow_two_sub_one_eq_mod]
  omega

theorem AspirationWindows_of_loop
    (loop : Score → Score → List Move → State B T → Option (Score × List Move × State B T)) :
    ∀ (k : Nat) (delta alpha beta score : Score) (moves : List Move) (st : State B T)
      (res : Score × List Move × State B T),
      AspirationLoop E loop k delta alpha beta score moves st = some res →
      ∃ record, AspirationWindows E loop k delta alpha beta score moves st = some record := by
  intro k
  induction k with
  | zero =>
    intro delta alpha beta score moves st res h
    rw [AspirationLoop] at h
    cases h
  | succ k ih =>
    intro delta alpha beta score moves st res h
    rw [AspirationLoop] at h
    rw [AspirationWindows]
    by_cases hc : (finished E st).1 = false ∧ (score ≤ alpha ∨ score ≥ beta)
    · rw [if_pos hc] at h ⊢
      cases hl : loop (widen E delta alpha beta score).1 (widen E delta alpha beta score).2
          moves (finished E st).2 with
      | none => rw [hl] at h; cases h
      | some x =>
        obtain ⟨score1, moves1, st1⟩ := x
        rw [hl] at h
        simp only [] at h ⊢
        obtain ⟨record, hr⟩ := ih _ _ _ _ _ _ _ h
        rw [hr]
        exact ⟨_, rfl⟩
    · rw [if_neg hc]
      exact ⟨_, rfl⟩

theorem toI32_sub_mul (y t : Int) : toI32 (y - 4294967296 * t) = toI32 y := by
  unfold toI32
  have h : y - 4294967296 * t + 2147483648 = y + 2147483648 + 4294967296 * (-t) := by ring
  rw [h, Int.add_mul_emod_self_left]

theorem toI32_mul (a c : Int) : toI32 (toI32 a * c) = toI32 (a * c) := by
  have h : toI32 a = a - 4294967296 * ((a + 2147483648) / 4294967296) := by
    unfold toI32
    have := Int.emod_add_ediv (a + 2147483648) 4294967296
    linarith
  rw [h]
  have h2 : (a - 4294967296 * ((a + 2147483648) / 4294967296)) * c
      = a * c - 4294967296 * (((a + 2147483648) / 4294967296) * c) := by ring
  rw [h2, toI32_sub_mul]

theorem widen_sides (delta alpha beta score : Score) (hd : 0 ≤ delta)
    (hfit : delta ≤ 2097152000) (hab : alpha < beta)
    (hlo : E.kMinScore ≤ alpha) (hhi : beta ≤ E.kMaxScore)
    (hmin : -50331648 ≤ E.kMinScore) (hmax : E.kMaxScore ≤ 50331647) :
    (score ≤ alpha → (widen E delta alpha beta score).2 = beta
        ∧ (widen E delta alpha beta score).1 ≤ alpha)
    ∧ (score ≥ beta → (widen E delta alpha beta score).1 = alpha
        ∧ beta ≤ (widen E delta alpha beta score).2)
    ∧ E.kMinScore ≤ (widen E delta alpha beta score).1
    ∧ (widen E delta alpha beta score).1 ≤ E.kMaxScore
    ∧ E.kMinScore ≤ (widen E delta alpha beta score).2
    ∧ (widen E delta alpha beta score).2 ≤ E.kMaxScore
    ∧ (widen E delta alpha beta score).1 < (widen E delta alpha beta score).2 := by
  have h3 : alpha ≤ E.kMaxScore := le_of_lt (lt_of_lt_of_le hab hhi)
  have h4 : E.kMinScore ≤ beta := le_of_lt (lt_of_le_of_lt hlo hab)
  have e1 : toI32 (alpha - delta) = alpha - delta :=
    toI32_eq _ (by linarith) (by linarith)
  have e2 : toI32 (beta + delta) = beta + delta :=
    toI32_eq _ (by linarith) (by linarith)
  have h1 : max (alpha - delta) E.kMinScore ≤ alpha := max_le (by linarith) hlo
  have h2 : beta ≤ min (beta + delta) E.kMaxScore := le_min (by linarith) hhi
  unfold widen
  rw [e1, e2]
  by_cases hs : score ≤ alpha
  · simp only [if_pos hs]
    refine ⟨fun _ => ⟨trivial, h1⟩, fun hb => absurd (lt_of_lt_of_le hab hb) (not_lt.2 hs),
      le_max_right _ _, le_trans h1 h3, h4, hhi, lt_of_le_of_lt h1 hab⟩
  · simp only [if_neg hs]
    by_cases hb : score ≥ beta
    · simp only [if_pos hb]
      exact ⟨fun h => absurd h hs, fun _ => ⟨trivial, h2⟩, hlo, h3, le_trans h4 h2,
        min_le_right _ _, lt_of_lt_of_le hab h2⟩
    · simp only [if_neg hb]
      exact ⟨fun h => absurd h hs, fun h => absurd h hb, hlo, h3, h4, hhi, hab⟩

theorem AspirationWindows_sides
    (loop : Score → Score → List Move → State B T → Option (Score × List Move × State B T))
    (hmin : -50331648 ≤ E.kMinScore) (hmax : E.kMaxScore ≤ 50331647) :
    ∀ (k : Nat) (delta alpha beta score : Score) (moves : List Move) (st : State B T)
      (record : List Widening),
      AspirationWindows E loop k delta alpha beta score moves st = some record →
      0 ≤ delta → alpha < beta → E.kMinScore ≤ alpha → beta ≤ E.kMaxScore →
      ∀ (n : Nat) (w : Widening), record[n]? = some w → delta * 2 ^ n ≤ 2097152000 →
        (w.score ≤ w.alpha ∨ w.score ≥ w.beta)
        ∧ (w.score ≤ w.alpha → w.new_beta = w.beta ∧ w.new_alpha ≤ w.alpha)
        ∧ (w.score ≥ w.beta → w.new_alpha = w.alpha ∧ w.beta ≤ w.new_beta)
        ∧ E.kMinScore ≤ w.new_alpha ∧ w.new_alpha ≤ E.kMaxScore
        ∧ E.kMinScore ≤ w.new_beta ∧ w.new_beta ≤ E.kMaxScore := by
  intro k
  induction k with
  | zero =>
    intro delta alpha beta score moves st record h
    rw [AspirationWindows] at h
    cases h
  | succ k ih =>
    intro delta alpha beta score moves st record h hd hab hlo hhi n w hn hfit
    rw [AspirationWindows] at h
    have hpow : (1 : Int) ≤ 2 ^ n := one_le_pow₀ (by norm_num)
    have hfit0 : delta ≤ 2097152000 := by nlinarith
    have hw := @widen_sides B T E delta alpha beta score hd hfit0 hab hlo hhi hmin hmax
    by_cases hc : (finished E st).1 = false ∧ (score ≤ alpha ∨ score ≥ beta)
    · rw [if_pos hc] at h
      cases hl : loop (widen E delta alpha beta score).1 (widen E delta alpha beta score).2
          moves (finished E st).2 with
      | none => rw [hl] at h; cases h
      | some x =>
        obtain ⟨score1, moves1, st1⟩ := x
        rw [hl] at h
        simp only [] at h
        obtain ⟨rest, hr, hrec⟩ := Option.map_eq_some'.1 h
        subst hrec
        cases n with
        | zero =>
          simp only [List.getElem?_cons_zero, Option.some.injEq] at hn
          subst hn
          exact ⟨hc.2, hw.1, hw.2.1, hw.2.2.1, hw.2.2.2.1, hw.2.2.2.2.1, hw.2.2.2.2.2.1⟩
        | succ n =>
          simp only [List.getElem?_cons_succ] at hn
          have hpow2 : (1 : Int) ≤ 2 ^ n := one_le_pow₀ (by norm_num)
          have hfit2 : delta * 2 * 2 ^ n ≤ 2097152000 := by
            rw [pow_succ] at hfit
            linarith [hfit, mul_assoc delta (2 ^ n) 2, mul_comm ((2 : Int) ^ n) 2,
              mul_assoc delta 2 ((2 : Int) ^ n)]
          have hfit1 : delta * 2 ≤ 2097152000 := by nlinarith
          have e : toI32 (delta * 2) = delta * 2 := toI32_eq _ (by linarith) (by linarith)
          rw [e] at hr
          exact ih _ _ _ _ _ _ _ hr (by linarith) hw.2.2.2.2.2.2 hw.2.2.1 hw.2.2.2.2.2.1
            n w hn hfit2
    · rw [if_neg hc] at h
      cases h
      simp at hn

theorem AspirationWindows_delta
    (loop : Score → Score → List Move → State B T → Option (Score × List Move × State B T)) :
    ∀ (k : Nat) (delta alpha beta score : Score) (moves : List Move) (st : State B T)
      (record : List Widening) (n : Nat) (w : Widening),
      AspirationWindows E loop k delta alpha beta score moves st = some record →
      toI32 delta = delta → record[n]? = some w →
      w.delta = toI32 (delta * 2 ^ n)
        ∧ w.new_alpha = (widen E w.delta w.alpha w.beta w.score).1
        ∧ w.new_beta = (widen E w.delta w.alpha w.beta w.score).2 := by
  intro k
  induction k with
  | zero =>
    intro delta alpha beta score moves st record n w h
    rw [AspirationWindows] at h
    cases h
  | succ k ih =>
    intro delta alpha beta score moves st record n w h hdelta hn
    rw [AspirationWindows] at h
    by_cases hc : (finished E st).1 = false ∧ (score ≤ alpha ∨ score ≥ beta)
    · rw [if_pos hc] at h
      cases hl : loop (widen E delta alpha beta score).1 (widen E delta alpha beta score).2
          moves (finished E st).2 with
      | none => rw [hl] at h; cases h
      | some x =>
        obtain ⟨score1, moves1, st1⟩ := x
        rw [hl] at h
        simp only [] at h
        obtain ⟨rest, hr, hrec⟩ := Option.map_eq_some'.1 h
        subst hrec
        cases n with
        | zero =>
          simp only [List.getElem?_cons_zero, Option.some.injEq] at hn
          subst hn
          exact ⟨by simp [hdelta], rfl, rfl⟩
        | succ n =>
          simp only [List.getElem?_cons_succ] at hn
          have hidem : toI32 (toI32 (delta * 2)) = toI32 (delta * 2) :=
            toI32_eq _ (toI32_range _).1 (toI32_range _).2
          obtain ⟨h1, h2, h3⟩ := ih _ _ _ _ _ _ _ n w hr hidem hn
          refine ⟨?_, h2, h3⟩
          rw [h1, toI32_mul, pow_succ]
          congr 1
          ring
    · rw [if_neg hc] at h
      cases h
      simp at hn

theorem GetMoveWeightIndexes_above_hash (hfirst : HashMoveFirst E)
    (killers : Nat → Nat → Move) (move : Move) (board : B) (tt last : Move)
    (dc ts : Nat → BitBoard) (hne : move ≠ tt) :
    ∀ i ∈ GetMoveWeightIndexes E killers move board tt last dc ts, E.kPWIHashMove < i := by
  obtain ⟨h1, h2, h3, h4, h5, h6, h7, h8, h9, h10⟩ := hfirst
  unfold GetMoveWeightIndexes GetMoveWeight
  rw [if_neg hne]
  simp only [apply_ite (fun l : List Nat => ∀ i ∈ l, E.kPWIHashMove < i),
    List.forall_mem_append, List.forall_mem_singleton, List.nil_append, List.not_mem_nil,
    false_implies, implies_true, true_and]
  have key : ∀ a b c : Nat, a < b → a < b + c := fun a b c h =>
    lt_of_lt_of_le h (Nat.le_add_right _ _)
  split_ifs <;> repeat' apply And.intro
  all_goals first
    | trivial
    | assumption
    | exact key _ _ _ (by assumption)
    | exact key _ _ _ (key _ _ _ (by assumption))

theorem TrainFeatures_hash (hfirst : HashMoveFirst E) (killers : Nat → Nat → Move)
    (board : B) (move : Move) (hne : move ≠ E.kNullMove) :
    (TrainFeatures E killers board move).getD E.kPWIHashMove 0 = 0 := by
  unfold TrainFeatures GetMoveWeightVec
  rw [GetMoveWeight_foldl, foldl_set_getD, if_neg]
  · simp
  · intro h
    exact absurd (GetMoveWeightIndexes_above_hash hfirst killers move board _ _ _ _ hne _ h.1)
      (lt_irrefl _)

theorem set_weight_ne {F : Type} (w : Nat → F) (index i : Nat) (v : F) (h : i ≠ index) :
    set_weight w index v i = w i := by
  unfold set_weight
  rw [if_neg h]

theorem GaugePins_hash {F : Type} (ops : FloatOps F) (hfirst : HashMoveFirst E)
    (hpiece : 0 < E.kNoPiece) (w : Nat → F) :
    GaugePins E ops w E.kPWIHashMove = w E.kPWIHashMove := by
  obtain ⟨h1, h2, h3, h4, h5, h6, h7, h8, h9, h10⟩ := hfirst
  unfold GaugePins
  rw [set_weight_ne _ _ _ _ (by omega), set_weight_ne _ _ _ _ (by omega),
    set_weight_ne _ _ _ _ (by omega)]

theorem toyMoves_ne_zero (b : List Move) : (0 : Move) ∉ toyMoves b := by
  unfold toyMoves
  split <;> decide

theorem Reach_weights {st st1 : State B T} (hr : Reach E st st1) :
    st1.search_weights = st.search_weights := by
  induction hr with
  | refl => rfl
  | board b _ ih => exact ih
  | table t _ ih => exact ih
  | tick _ ih => exact ih
  | stop _ ih => exact ih
  | killer m _ ih =>
    rw [← ih]
    unfold update_killers
    split
    · split <;> rfl
    · rfl
  | max_ply n _ ih => exact ih
  | nodes n _ ih => exact ih
  | sample_nodes n _ ih => exact ih
  | evaluation_nodes n _ ih => exact ih
  | sampled_board b _ ih => exact ih
  | sampled b d nt a _ ih => exact ih
  | last_search_score s _ ih => exact ih
  | out o _ ih => exact ih
  | errors n _ ih => exact ih

theorem set_perm_cons (l : List Move) :
    ∀ (j : Nat) (a : Move), j < l.length → (l.getD j 0 :: l.set j a).Perm (a :: l) := by
  induction l with
  | nil => intro j a h; simp at h
  | cons x t ih =>
    intro j a h
    cases j with
    | zero => exact List.Perm.swap _ _ _
    | succ k =>
      rw [List.getD_cons_succ, List.set_cons_succ]
      have h1 := ih k a (by simpa using h)
      exact (List.Perm.swap _ _ _).trans (((h1.cons x)).trans (List.Perm.swap _ _ _))

theorem SwapToFront_perm (moves : List Move) (m : Move) :
    (SwapToFront moves m).2.Perm moves := by
  unfold SwapToFront
  simp only []
  split
  · rename_i hi
    cases moves with
    | nil => simp at hi
    | cons x t =>
      cases hk : List.indexOf m (x :: t) with
      | zero => simp
      | succ k =>
        rw [hk] at hi
        rw [List.getD_cons_zero, List.getD_cons_succ, List.set_cons_succ, List.set_cons_zero]
        exact set_perm_cons t k x (by simpa using hi)
  · exact List.Perm.refl _

theorem SwapToFront_front (moves : List Move) (m : Move)
    (h : (SwapToFront moves m).1 = true) : (SwapToFront moves m).2.getD 0 0 = m := by
  unfold SwapToFront at h ⊢
  simp only [] at h ⊢
  split
  · rename_i hi
    have h0 : 0 < (moves.set (List.indexOf m moves) (moves.getD 0 0)).length := by
      rw [List.length_set]; omega
    rw [List.getD_eq_getElem _ _ (by rw [List.length_set]; exact h0), List.getElem_set_self,
      List.getD_eq_getElem _ _ hi, List.getElem_indexOf]
  · rename_i hi
    rw [if_neg hi] at h
    cases h

theorem SortMovesML_front (st : State B T) (moves : List Move) (tt : Move)
    (hperm : ∀ lt l, (E.sort lt l).Perm l)
    (hsorted : ∀ l, (E.sort Sorter l).Pairwise fun a b => Sorter b a = false)
    (h16 : ∀ m ∈ moves, m < 65536)
    (hrange : ∀ m ∈ moves, 0 ≤ 10000 + linear_score E st tt m
      ∧ 10000 + linear_score E st tt m < 65536)
    (hdom : ∀ m ∈ moves, m ≠ tt → linear_score E st tt m < linear_score E st tt tt)
    (htt : tt ∈ moves) :
    (SortMovesML E st moves tt).getD 0 0 = tt := by
  have hp := SortMovesML_perm hperm st moves tt h16
  have hs : (SortMovesML E st moves tt).Pairwise
      fun a b => linear_score E st tt b ≤ linear_score E st tt a := by
    have h := keyed_sort_sorted (fun m => 10000 + linear_score E st tt m) moves
      (hperm _ _) (hsorted _) h16 hrange
    unfold SortMovesML
    refine h.imp ?_
    intro a b hab
    exact le_of_add_le_add_left hab
  generalize SortMovesML E st moves tt = sorted at hp hs
  cases sorted with
  | nil => exact absurd (hp.mem_iff.2 htt) (List.not_mem_nil _)
  | cons x t =>
    rw [List.getD_cons_zero]
    by_contra hx
    have hx1 : x ∈ moves := hp.mem_iff.1 (List.mem_cons_self _ _)
    have h1 := hdom x hx1 hx
    rcases List.mem_cons.1 (hp.mem_iff.2 htt) with h2 | h2
    · exact hx h2.symm
    · have h3 := (List.pairwise_cons.1 hs).1 tt h2
      exact absurd (lt_of_le_of_lt h3 h1) (lt_irrefl _)

theorem ABLoopMoves_sorted (hum : ∀ b m, E.UnMake (E.Make b m) = b)
    {search : Nat → Score → Score → Depth → State B T → Option (Score × State B T)}
    {P : B → Prop} (hs : TotalOn search P) (b0 : B) (legal : List Move)
    (hP : ∀ m ∈ legal, P (E.Make b0 m))
    (NodeType : Nat) (beta : Score) (depth : Depth) (in_check : Bool)
    (static_eval : Score) (tt_entry : Move) (cs : Nat → BitBoard) :
    ∀ (n i : Nat) (moves : List Move) (alpha : Score) (st : State B T),
      st.board = b0 → (∀ m ∈ moves, m ∈ legal) → i + n = moves.length →
      ∃ record, ABLoopMoves E search NodeType beta depth in_check static_eval tt_entry cs
          n i moves true alpha st = some record
        ∧ record.1 <+: moves.drop i ∧ record.2 = 0 := by
  intro n
  induction n with
  | zero =>
    intro i moves alpha st _ _ _
    rw [ABLoopMoves]
    exact ⟨_, rfl, List.nil_prefix, rfl⟩
  | succ n ih =>
    intro i moves alpha st hb hsub hlen
    have hi : i < moves.length := by omega
    have hres : ABResort E st tt_entry i true moves = moves := by
      unfold ABResort
      rw [if_neg (by simp)]
    have hflag : ABSortedFlag i true = true := by
      unfold ABSortedFlag
      rw [if_neg (by simp)]
    have hsorts : (if i = 1 ∧ true = false then 1 else 0) = 0 := by
      rw [if_neg (by simp)]
    have hmove : moves.getD i 0 ∈ legal := hsub _ (getD_mem hi)
    have hdrop : moves.drop i = moves.getD i 0 :: moves.drop (i + 1) := by
      rw [List.drop_eq_getElem_cons hi, List.getD_eq_getElem _ _ hi]
    rw [ABLoopMoves, hres, hflag, hsorts, hdrop]
    split
    · obtain ⟨record, h1, h2, h3⟩ := ih (i + 1) moves alpha st hb hsub (by omega)
      rw [h1]
      exact ⟨_, rfl, (List.prefix_cons_inj _).2 h2, by simp [h3]⟩
    · obtain ⟨score, st1, h1, hb1⟩ := ABChild_total hs NodeType i alpha beta depth
        (ABReduction E NodeType in_check depth i cs st.board (moves.getD i 0))
        (Make E st (moves.getD i 0)) (by rw [Make_board, hb]; exact hP _ hmove)
      have hb2 : (finished E (UnMake E st1)).2.board = b0 := by
        rw [finished_board, UnMake_board, hb1, Make_board, hum, hb]
      rw [h1]
      simp only []
      split
      · exact ⟨_, rfl, (List.prefix_cons_inj _).2 List.nil_prefix, rfl⟩
      · split
        · exact ⟨_, rfl, (List.prefix_cons_inj _).2 List.nil_prefix, rfl⟩
        · split
          · obtain ⟨record, h2, h3, h4⟩ := ih (i + 1) moves score _ hb2 hsub (by omega)
            rw [h2]
            exact ⟨_, rfl, (List.prefix_cons_inj _).2 h3, by simp [h4]⟩
          · obtain ⟨record, h2, h3, h4⟩ := ih (i + 1) moves alpha _ hb2 hsub (by omega)
            rw [h2]
            exact ⟨_, rfl, (List.prefix_cons_inj _).2 h3, by simp [h4]⟩

theorem ABLoopMoves_deferred (hum : ∀ b m, E.UnMake (E.Make b m) = b)
    (hsort : ∀ lt l, (E.sort lt l).Perm l)
    {search : Nat → Score → Score → Depth → State B T → Option (Score × State B T)}
    {P : B → Prop} (hs : TotalOn search P) (b0 : B) (legal : List Move)
    (h16 : ∀ m ∈ legal, m < 65536) (hP : ∀ m ∈ legal, P (E.Make b0 m))
    (NodeType : Nat) (beta : Score) (depth : Depth) (in_check : Bool)
    (static_eval : Score) (tt_entry : Move) (cs : Nat → BitBoard)
    (n : Nat) (moves : List Move) (alpha : Score) (st : State B T)
    (hb : st.board = b0) (hsub : ∀ m ∈ moves, m ∈ legal) (hlen : 1 + n = moves.length) :
    ∃ record, ABLoopMoves E search NodeType beta depth in_check static_eval tt_entry cs
        n 1 moves false alpha st = some record
      ∧ record.1 <+: (SortMovesML E st moves tt_entry).drop 1 ∧ record.2 ≤ 1 := by
  cases n with
  | zero =>
    rw [ABLoopMoves]
    exact ⟨_, rfl, List.nil_prefix, Nat.zero_le _⟩
  | succ n =>
    have hres : ABResort E st tt_entry 1 false moves = SortMovesML E st moves tt_entry := by
      unfold ABResort
      rw [if_pos ⟨rfl, rfl⟩]
    have hflag : ABSortedFlag 1 false = true := by
      unfold ABSortedFlag
      rw [if_pos ⟨rfl, rfl⟩]
    have hsorts : (if 1 = 1 ∧ false = false then 1 else 0) = 1 := by
      rw [if_pos ⟨rfl, rfl⟩]
    have hperm := SortMovesML_perm hsort st moves tt_entry (fun m hm => h16 m (hsub m hm))
    rw [ABLoopMoves, hres, hflag, hsorts]
    generalize SortMovesML E st moves tt_entry = sorted at hperm ⊢
    have hsub1 : ∀ m ∈ sorted, m ∈ legal := fun m hm => hsub m (hperm.mem_iff.1 hm)
    have hlen1 : 2 + n = sorted.length := by rw [hperm.length_eq]; omega
    have hi : 1 < sorted.length := by omega
    have hmove : sorted.getD 1 0 ∈ legal := hsub1 _ (getD_mem hi)
    have hdrop : sorted.drop 1 = sorted.getD 1 0 :: sorted.drop 2 := by
      rw [List.drop_eq_getElem_cons hi, List.getD_eq_getElem _ _ hi]
    rw [hdrop]
    split
    · obtain ⟨record, h1, h2, h3⟩ := ABLoopMoves_sorted hum hs b0 legal hP NodeType beta depth
        in_check static_eval tt_entry cs n 2 sorted alpha st hb hsub1 hlen1
      rw [h1]
      exact ⟨_, rfl, (List.prefix_cons_inj _).2 h2, by simp [h3]⟩
    · obtain ⟨score, st1, h1, hb1⟩ := ABChild_total hs NodeType 1 alpha beta depth
        (ABReduction E NodeType in_check depth 1 cs st.board (sorted.getD 1 0))
        (Make E st (sorted.getD 1 0)) (by rw [Make_board, hb]; exact hP _ hmove)
      have hb2 : (finished E (UnMake E st1)).2.board = b0 := by
        rw [finished_board, UnMake_board, hb1, Make_board, hum, hb]
      rw [h1]
      simp only []
      split
      · exact ⟨_, rfl, (List.prefix_cons_inj _).2 List.nil_prefix, le_refl _⟩
      · split
        · exact ⟨_, rfl, (List.prefix_cons_inj _).2 List.nil_prefix, le_refl _⟩
        · split
          · obtain ⟨record, h2, h3, h4⟩ := ABLoopMoves_sorted hum hs b0 legal hP NodeType beta
              depth in_check static_eval tt_entry cs n 2 sorted score _ hb2 hsub1 hlen1
            rw [h2]
            exact ⟨_, rfl, (List.prefix_cons_inj _).2 h3, by simp [h4]⟩
          · obtain ⟨record, h2, h3, h4⟩ := ABLoopMoves_sorted hum hs b0 legal hP NodeType beta
              depth in_check static_eval tt_entry cs n 2 sorted alpha _ hb2 hsub1 hlen1
            rw [h2]
            exact ⟨_, rfl, (List.prefix_cons_inj _).2 h3, by simp [h4]⟩

theorem ABLoopMoves_first (hum : ∀ b m, E.UnMake (E.Make b m) = b)
    (hsort : ∀ lt l, (E.sort lt l).Perm l)
    {search : Nat → Score → Score → Depth → State B T → Option (Score × State B T)}
    {P : B → Prop} (hs : TotalOn search P) (hr : ReachSearch E search)
    (b0 : B) (legal : List Move)
    (h16 : ∀ m ∈ legal, m < 65536) (hP : ∀ m ∈ legal, P (E.Make b0 m))
    (NodeType : Nat) (beta : Score) (depth : Depth) (in_check : Bool)
    (static_eval : Score) (tt_entry : Move) (cs : Nat → BitBoard)
    (n : Nat) (moves : List Move) (alpha : Score) (st : State B T)
    (hb : st.board = b0) (hsub : ∀ m ∈ moves, m ∈ legal) (hlen : n + 1 = moves.length) :
    ∃ record st1, ABLoopMoves E search NodeType beta depth in_check static_eval tt_entry cs
        (n + 1) 0 moves false alpha st = some record
      ∧ st1.board = b0 ∧ st1.search_weights = st.search_weights
      ∧ record.1 <+: moves.getD 0 0 :: (SortMovesML E st1 moves tt_entry).drop 1
      ∧ record.2 ≤ 1 := by
  have hres : ABResort E st tt_entry 0 false moves = moves := by
    unfold ABResort
    rw [if_neg (by simp)]
  have hflag : ABSortedFlag 0 false = false := by
    unfold ABSortedFlag
    rw [if_neg (by simp)]
  have hsorts : (if 0 = 1 ∧ false = false then 1 else 0) = 0 := by
    rw [if_neg (by simp)]
  have hmove : moves.getD 0 0 ∈ legal := hsub _ (getD_mem (by omega))
  rw [ABLoopMoves, hres, hflag, hsorts]
  split
  · obtain ⟨record, h1, h2, h3⟩ := ABLoopMoves_deferred hum hsort hs b0 legal h16 hP NodeType
      beta depth in_check static_eval tt_entry cs n moves alpha st hb hsub (by omega)
    rw [h1]
    exact ⟨_, st, rfl, hb, rfl, (List.prefix_cons_inj _).2 h2, by simpa using h3⟩
  · obtain ⟨score, st1, h1, hb1⟩ := ABChild_total hs NodeType 0 alpha beta depth
      (ABReduction E NodeType in_check depth 0 cs st.board (moves.getD 0 0))
      (Make E st (moves.getD 0 0)) (by rw [Make_board, hb]; exact hP _ hmove)
    have hb2 : (finished E (UnMake E st1)).2.board = b0 := by
      rw [finished_board, UnMake_board, hb1, Make_board, hum, hb]
    have hw2 : (finished E (UnMake E st1)).2.search_weights = st.search_weights := by
      have hw1 : st1.search_weights = (Make E st (moves.getD 0 0)).search_weights :=
        Reach_weights (ABChild_reach hr h1)
      exact hw1
    rw [h1]
    simp only []
    split
    · exact ⟨_, st, rfl, hb, rfl, (List.prefix_cons_inj _).2 List.nil_prefix, Nat.zero_le _⟩
    · split
      · exact ⟨_, st, rfl, hb, rfl, (List.prefix_cons_inj _).2 List.nil_prefix, Nat.zero_le _⟩
      · split
        · obtain ⟨record, h2, h3, h4⟩ := ABLoopMoves_deferred hum hsort hs b0 legal h16 hP
            NodeType beta depth in_check static_eval tt_entry cs n moves score _ hb2 hsub
            (by omega)
          rw [h2]
          exact ⟨_, _, rfl, hb2, hw2, (List.prefix_cons_inj _).2 h3, by simpa using h4⟩
        · obtain ⟨record, h2, h3, h4⟩ := ABLoopMoves_deferred hum hsort hs b0 legal h16 hP
            NodeType beta depth in_check static_eval tt_entry cs n moves alpha _ hb2 hsub
            (by omega)
          rw [h2]
          exact ⟨_, _, rfl, hb2, hw2, (List.prefix_cons_inj _).2 h3, by simpa using h4⟩

theorem ABSwap_perm (moves : List Move) (tt : Move) : (ABSwap E moves tt).2.Perm moves := by
  unfold ABSwap
  split
  · exact SwapToFront_perm moves tt
  · exact List.Perm.refl _

theorem ABSwap_front (moves : List Move) (tt : Move) (h : (ABSwap E moves tt).1 = true) :
    (ABSwap E moves tt).2.getD 0 0 = tt := by
  unfold ABSwap at h ⊢
  split
  · rename_i hne
    rw [if_pos hne] at h
    exact SwapToFront_front moves tt h
  · rename_i hne
    rw [if_neg hne] at h
    cases h

theorem ABSwap_nonempty (moves : List Move) (tt : Move) (h : (ABSwap E moves tt).1 = true) :
    0 < (ABSwap E moves tt).2.length := by
  rw [(ABSwap_perm moves tt).length_eq]
  unfold ABSwap at h
  split at h
  · unfold SwapToFront at h
    simp only [] at h
    split at h
    · omega
    · cases h
  · cases h

theorem ABSwapCheck_weights (st : State B T) (moves : List Move) (tt : Move) :
    (ABSwapCheck E st moves tt).search_weights = st.search_weights := by
  unfold ABSwapCheck
  split <;> rfl

theorem linear_score_hash_only (hfirst : HashMoveFirst E) (st : State B T) (tt m : Move)
    (hw : ∀ i, i ≠ E.kPWIHashMove → st.search_weights i = 0)
    (hint : -2147483648 ≤ st.search_weights E.kPWIHashMove
      ∧ st.search_weights E.kPWIHashMove < 2147483648) :
    linear_score E st tt m = if m = tt then st.search_weights E.kPWIHashMove else 0 := by
  unfold linear_score GetMoveWeightInt
  by_cases h : m = tt
  · rw [if_pos h]
    unfold GetMoveWeight
    simp only [h, if_true, zero_add]
    exact toI32_eq _ hint.1 hint.2
  · have h0 : (0 : Int) = toI32 0 := by decide
    rw [if_neg h, GetMoveWeight_foldl]
    conv_lhs => rw [h0]
    rw [foldl_add_wrap, zero_add]
    have hsum : ((GetMoveWeightIndexes E st.killers m st.board tt
        (if E.get_num_made_moves st.board > 0 then E.get_last_move st.board else E.kNullMove)
        (E.GetDirectCheckingSquares st.board) (E.GetTabooSquares st.board)).map
        st.search_weights).sum = 0 := by
      apply List.sum_eq_zero
      intro x hx
      obtain ⟨i, hi, rfl⟩ := List.mem_map.1 hx
      exact hw i (Nat.ne_of_gt (GetMoveWeightIndexes_above_hash hfirst _ _ _ _ _ _ _ h i hi))
    rw [hsum]
    decide

theorem ABPrelude_agree
    {s1 s2 : Nat → Score → Score → Depth → State B T → Option (Score × State B T)}
    (NodeType : Nat) (alpha beta : Score) (depth : Depth) (valid_entry : Bool)
    (entry : Entry) (in_check : Bool) (st : State B T)
    (hcall : NodeType = kNW → is_null_move_allowed E st.board depth = true →
      s1 kNW (-beta) (-alpha) (depth - 1 - E.R) (Make E st E.kNullMove)
        = s2 kNW (-beta) (-alpha) (depth - 1 - E.R) (Make E st E.kNullMove)) :
    ABPrelude E s1 NodeType alpha beta depth valid_entry entry in_check st
      = ABPrelude E s2 NodeType alpha beta depth valid_entry entry in_check st := by
  unfold ABPrelude
  by_cases h1 : NodeType = kNW ∧ beta > E.kMinScore + 2000 ∧ alpha < E.kMaxScore - 2000
      ∧ in_check = false
  · rw [if_pos h1, if_pos h1]
    by_cases h2 : ABScorePrune E NodeType beta depth (ABStaticEval E valid_entry entry st.board)
        st.board = true
    · rw [if_pos h2, if_pos h2]
    · rw [if_neg h2, if_neg h2]
      by_cases h3 : ABStaticEval E valid_entry entry st.board ≥ beta
          ∧ is_null_move_allowed E st.board depth = true
      · rw [if_pos h3, if_pos h3, hcall h1.1 h3.2]
      · rw [if_neg h3, if_neg h3]
  · rw [if_neg h1, if_neg h1]

theorem ABChild_agree
    {s1 s2 : Nat → Score → Score → Depth → State B T → Option (Score × State B T)}
    {P : B → Prop} (hs : TotalOn s2 P)
    (NodeType i : Nat) (alpha beta : Score) (depth reduction : Depth) (st : State B T)
    (hP : P st.board)
    (hag : ∀ (nt : Nat) (a b : Score) (d : Depth) (st1 : State B T), st1.board = st.board →
      ChildCall NodeType i alpha beta depth reduction nt a b d →
      s1 nt a b d st1 = s2 nt a b d st1) :
    ABChild s1 NodeType i alpha beta depth reduction st
      = ABChild s2 NodeType i alpha beta depth reduction st := by
  unfold ABChild
  by_cases h1 : NodeType = kNW
  · rw [if_pos h1, if_pos h1,
      hag kNW (-beta) (-alpha) (depth - 1 - reduction) st rfl
        (Or.inl ⟨h1, rfl, rfl, rfl, Or.inl rfl⟩)]
    obtain ⟨r, st1, h2, hb1⟩ := hs kNW (-beta) (-alpha) (depth - 1 - reduction) st hP
    rw [h2]
    simp only []
    by_cases h3 : reduction > 0 ∧ -r ≥ beta
    · rw [if_pos h3, if_pos h3,
        hag kNW (-beta) (-alpha) (depth - 1) st1 hb1 (Or.inl ⟨h1, rfl, rfl, rfl, Or.inr ⟨h3.1, rfl⟩⟩)]
    · rw [if_neg h3, if_neg h3]
  · rw [if_neg h1, if_neg h1]
    by_cases h2 : i = 0
    · rw [if_pos h2, if_pos h2,
        hag kPV (-beta) (-alpha) (depth - 1) st rfl
          (Or.inr (Or.inl ⟨h1, h2, rfl, rfl, rfl, rfl⟩))]
    · rw [if_neg h2, if_neg h2,
        hag kNW (-(alpha + 1)) (-alpha) (depth - 1) st rfl
          (Or.inr (Or.inr ⟨h1, h2, rfl, Or.inl ⟨rfl, rfl, rfl⟩⟩))]
      obtain ⟨r, st1, h3, hb1⟩ := hs kNW (-(alpha + 1)) (-alpha) (depth - 1) st hP
      rw [h3]
      simp only []
      by_cases h4 : -r ≥ alpha + 1
      · rw [if_pos h4, if_pos h4,
          hag kPV (-beta) (-alpha) (depth - 1) st1 hb1
            (Or.inr (Or.inr ⟨h1, h2, rfl, Or.inr ⟨rfl, rfl, rfl⟩⟩))]
      · rw [if_neg h4, if_neg h4]

theorem ABReduction_range (NodeType : Nat) (in_check : Bool) (depth : Depth) (i : Nat)
    (cs : Nat → BitBoard) (board : B) (move : Move) :
    ABReduction E NodeType in_check depth i cs board move = 0
      ∨ (0 < ABReduction E NodeType in_check depth i cs board move
          ∧ ABReduction E NodeType in_check depth i cs board move ≤ 2 ∧ 3 ≤ depth) := by
  unfold ABReduction
  split
  · rename_i h
    right
    split
    · exact ⟨by norm_num, le_refl _, h.2.2.1⟩
    · exact ⟨by norm_num, by norm_num, h.2.2.1⟩
  · left
    rfl

theorem ABLoop_agree (hum : ∀ b m, E.UnMake (E.Make b m) = b)
    (hsort : ∀ lt l, (E.sort lt l).Perm l)
    {s1 s2 : Nat → Score → Score → Depth → State B T → Option (Score × State B T)}
    {P : B → Prop} (hs : TotalOn s2 P) (b0 : B) (legal : List Move)
    (h16 : ∀ m ∈ legal, m < 65536) (hP : ∀ m ∈ legal, P (E.Make b0 m))
    (NodeType : Nat) (original_alpha beta : Score) (depth : Depth) (in_check : Bool)
    (static_eval : Score) (tt_entry : Move) (cs : Nat → BitBoard)
    (Inv : Score → Prop)
    (hraise : ∀ a s, Inv a → s > a → ¬ s ≥ beta → Inv s)
    (hag : ∀ (a : Score) (i : Nat) (m : Move) (nt : Nat) (a1 b1 : Score) (d1 : Depth)
      (st1 : State B T), Inv a → m ∈ legal → st1.board = E.Make b0 m →
      ChildCall NodeType i a beta depth (ABReduction E NodeType in_check depth i cs b0 m)
        nt a1 b1 d1 →
      s1 nt a1 b1 d1 st1 = s2 nt a1 b1 d1 st1) :
    ∀ (n i : Nat) (moves : List Move) (sorted : Bool) (alpha : Score) (best : Move)
      (st : State B T), st.board = b0 → (∀ m ∈ moves, m ∈ legal) → i + n = moves.length →
      Inv alpha →
      ABLoop E s1 NodeType original_alpha beta depth in_check static_eval tt_entry cs
          n i moves sorted alpha best st
        = ABLoop E s2 NodeType original_alpha beta depth in_check static_eval tt_entry cs
          n i moves sorted alpha best st := by
  intro n
  induction n with
  | zero =>
    intro i moves sorted alpha best st _ _ _ _
    rw [ABLoop, ABLoop]
  | succ n ih =>
    intro i moves sorted alpha best st hb hsub hlen hinv
    conv_lhs => rw [ABLoop]
    conv_rhs => rw [ABLoop]
    have hperm := ABResort_perm hsort st tt_entry i sorted moves
      (fun m hm => h16 m (hsub m hm))
    generalize ABResort E st tt_entry i sorted moves = moves1 at hperm ⊢
    have hsub1 : ∀ m ∈ moves1, m ∈ legal := fun m hm => hsub m (hperm.mem_iff.1 hm)
    have hlen1 : i + 1 + n = moves1.length := by rw [hperm.length_eq]; omega
    have hmove : moves1.getD i 0 ∈ legal := hsub1 _ (getD_mem (by omega))
    by_cases hf : ABFutile E NodeType in_check depth
        (ABReduction E NodeType in_check depth i cs st.board (moves1.getD i 0)) static_eval
        alpha cs st.board (moves1.getD i 0) = true
    · rw [if_pos hf, if_pos hf]
      exact ih _ _ _ _ _ _ hb hsub1 hlen1 hinv
    · rw [if_neg hf, if_neg hf]
      have hPm : P (Make E st (moves1.getD i 0)).board := by
        rw [Make_board, hb]; exact hP _ hmove
      have hchild := @ABChild_agree B T s1 s2 P hs NodeType i alpha beta depth
        (ABReduction E NodeType in_check depth i cs st.board (moves1.getD i 0))
        (Make E st (moves1.getD i 0)) hPm (by
          intro nt a1 b1 d1 st1 hb1 hc
          rw [hb] at hc
          exact hag alpha i (moves1.getD i 0) nt a1 b1 d1 st1 hinv hmove
            (by rw [hb1, Make_board, hb]) hc)
      rw [hchild]
      obtain ⟨score, st1, h1, hb1⟩ := ABChild_total hs NodeType i alpha beta depth
        (ABReduction E NodeType in_check depth i cs st.board (moves1.getD i 0))
        (Make E st (moves1.getD i 0)) hPm
      have hb2 : (finished E (UnMake E st1)).2.board = b0 := by
        rw [finished_board, UnMake_board, hb1, Make_board, hum, hb]
      rw [h1]
      simp only []
      by_cases hfin : (finished E (UnMake E st1)).1 = true
      · rw [if_pos hfin, if_pos hfin]
      · rw [if_neg hfin, if_neg hfin]
        by_cases hcut : score ≥ beta
        · rw [if_pos hcut, if_pos hcut]
        · rw [if_neg hcut, if_neg hcut]
          by_cases hgt : score > alpha
          · rw [if_pos hgt, if_pos hgt]
            exact ih _ _ _ _ _ _ hb2 hsub1 hlen1 (hraise alpha score hinv hgt hcut)
          · rw [if_neg hgt, if_neg hgt]
            exact ih _ _ _ _ _ _ hb2 hsub1 hlen1 hinv

theorem ABExtend_cases (NodeType : Nat) (moves : List Move) (depth : Depth) :
    ABExtend NodeType moves depth = depth ∨ ABExtend NodeType moves depth = depth + 1 := by
  unfold ABExtend
  split
  · exact Or.inr rfl
  · exact Or.inl rfl

theorem ABMoves_agree (hum : ∀ b m, E.UnMake (E.Make b m) = b)
    (hsort : ∀ lt l, (E.sort lt l).Perm l)
    {s1 s2 : Nat → Score → Score → Depth → State B T → Option (Score × State B T)}
    {P : B → Prop} (hs : TotalOn s2 P)
    (NodeType : Nat) (alpha beta : Score) (depth : Depth) (valid_entry : Bool)
    (entry : Entry) (in_check : Bool) (static_eval : Score) (st : State B T)
    (h16 : ∀ m ∈ E.GetMovesNonQuiescent st.board, m < 65536)
    (hP : ∀ m ∈ E.GetMovesNonQuiescent st.board, P (E.Make st.board m))
    (Inv : Score → Prop) (hinv : Inv alpha)
    (hraise : ∀ a s, Inv a → s > a → ¬ s ≥ beta → Inv s)
    (hag : ∀ (d0 red : Depth) (a : Score) (i : Nat) (m : Move) (nt : Nat) (a1 b1 : Score)
      (d1 : Depth) (st1 : State B T), (d0 = depth ∨ d0 = depth + 1) →
      (red = 0 ∨ (0 < red ∧ red ≤ 2 ∧ 3 ≤ d0)) → Inv a →
      m ∈ E.GetMovesNonQuiescent st.board → st1.board = E.Make st.board m →
      ChildCall NodeType i a beta d0 red nt a1 b1 d1 →
      s1 nt a1 b1 d1 st1 = s2 nt a1 b1 d1 st1) :
    ABMoves E s1 NodeType alpha beta depth valid_entry entry in_check static_eval st
      = ABMoves E s2 NodeType alpha beta depth valid_entry entry in_check static_eval st := by
  unfold ABMoves
  have ho := ABOrder_mem hsort (ABSwapCheck E st (E.GetMovesNonQuiescent st.board)
    (ABHashMove E valid_entry entry st)) (E.GetMovesNonQuiescent st.board)
    (ABHashMove E valid_entry entry st) h16
  exact ABLoop_agree hum hsort hs st.board (E.GetMovesNonQuiescent st.board) h16 hP
    NodeType alpha beta _ in_check static_eval _ _ Inv hraise
    (fun a i m nt a1 b1 d1 st1 ha hm hb hc =>
      hag _ _ a i m nt a1 b1 d1 st1 (ABExtend_cases _ _ _) (ABReduction_range _ _ _ _ _ _ _)
        ha hm hb hc)
    _ _ _ _ _ _ _ (by simp) ho.1 (by simp) hinv

theorem ABNode_agree (hum : ∀ b m, E.UnMake (E.Make b m) = b)
    (hsort : ∀ lt l, (E.sort lt l).Perm l)
    {s1 s2 : Nat → Score → Score → Depth → State B T → Option (Score × State B T)}
    {P : B → Prop} (hs : TotalOn s2 P)
    (Mode NodeType : Nat) (alpha beta : Score) (depth : Depth) (valid_entry : Bool)
    (entry : Entry) (in_check : Bool) (static_eval : Score) (st : State B T)
    (h16 : ∀ m ∈ E.GetMovesNonQuiescent st.board, m < 65536)
    (hP : ∀ m ∈ E.GetMovesNonQuiescent st.board, P (E.Make st.board m))
    (Inv : Score → Prop) (hinv : Inv alpha)
    (hraise : ∀ a s, Inv a → s > a → ¬ s ≥ beta → Inv s)
    (hag : ∀ (d0 red : Depth) (a : Score) (i : Nat) (m : Move) (nt : Nat) (a1 b1 : Score)
      (d1 : Depth) (st1 : State B T), (d0 = depth ∨ d0 = depth + 1) →
      (red = 0 ∨ (0 < red ∧ red ≤ 2 ∧ 3 ≤ d0)) → Inv a →
      m ∈ E.GetMovesNonQuiescent st.board → st1.board = E.Make st.board m →
      ChildCall NodeType i a beta d0 red nt a1 b1 d1 →
      s1 nt a1 b1 d1 st1 = s2 nt a1 b1 d1 st1) :
    ABNode E s1 Mode NodeType alpha beta depth valid_entry entry in_check static_eval st
      = ABNode E s2 Mode NodeType alpha beta depth valid_entry entry in_check static_eval st := by
  unfold ABNode
  rw [ABMoves_agree hum hsort hs NodeType alpha beta depth valid_entry entry in_check
    static_eval (ABSampleCount Mode NodeType depth st) (by simpa using h16)
    (by simpa using hP) Inv hinv hraise (by simpa using hag)]

theorem ABBody_agree (hum : ∀ b m, E.UnMake (E.Make b m) = b)
    (hsort : ∀ lt l, (E.sort lt l).Perm l)
    {s1 s2 : Nat → Score → Score → Depth → State B T → Option (Score × State B T)}
    {P : B → Prop} (hs : TotalOn s2 P)
    (Mode NodeType : Nat) (alpha beta : Score) (depth : Depth) (valid_entry : Bool)
    (entry : Entry) (st : State B T)
    (h16 : ∀ m ∈ E.GetMovesNonQuiescent st.board, m < 65536)
    (hnull : P (E.Make st.board E.kNullMove))
    (hP : ∀ m ∈ E.GetMovesNonQuiescent st.board, P (E.Make st.board m))
    (Inv : Score → Prop) (hinv : Inv alpha)
    (hraise : ∀ a s, Inv a → s > a → ¬ s ≥ beta → Inv s)
    (hcall : NodeType = kNW → is_null_move_allowed E st.board depth = true →
      s1 kNW (-beta) (-alpha) (depth - 1 - E.R) (Make E st E.kNullMove)
        = s2 kNW (-beta) (-alpha) (depth - 1 - E.R) (Make E st E.kNullMove))
    (hag : ∀ (d0 red : Depth) (a : Score) (i : Nat) (m : Move) (nt : Nat) (a1 b1 : Score)
      (d1 : Depth) (st1 : State B T), (d0 = depth ∨ d0 = depth + 1) →
      (red = 0 ∨ (0 < red ∧ red ≤ 2 ∧ 3 ≤ d0)) → Inv a →
      m ∈ E.GetMovesNonQuiescent st.board → st1.board = E.Make st.board m →
      ChildCall NodeType i a beta d0 red nt a1 b1 d1 →
      s1 nt a1 b1 d1 st1 = s2 nt a1 b1 d1 st1) :
    ABBody E s1 Mode NodeType alpha beta depth valid_entry entry st
      = ABBody E s2 Mode NodeType alpha beta depth valid_entry entry st := by
  unfold ABBody
  rw [ABPrelude_agree NodeType alpha beta depth valid_entry entry (E.InCheck st.board) st hcall]
  obtain ⟨res, h1, hb1⟩ := ABPrelude_total hum hs NodeType alpha beta depth valid_entry entry
    (E.InCheck st.board) st hnull
  rw [h1]
  rcases res with ⟨r0, st0⟩ | ⟨se, st0⟩
  · rfl
  · simp only [Sum.elim_inr] at hb1
    simp only []
    exact ABNode_agree hum hsort hs Mode NodeType alpha beta depth valid_entry entry
      (E.InCheck st.board) se st0 (by rw [hb1]; exact h16) (by rw [hb1]; exact hP) Inv hinv
      hraise (by rw [hb1]; exact hag)

theorem is_null_move_allowed_depth {board : B} {depth : Depth}
    (h : is_null_move_allowed E board depth = true) : 1 < depth := by
  unfold is_null_move_allowed at h
  simp only [Bool.and_eq_true, decide_eq_true_eq] at h
  exact h.1.2

theorem AlphaBetaChecked_eq {rank : B → Nat} (hL : Lawful E rank)
    (ok : Nat → Score → Score → Depth → B → Bool) (Mode : Nat)
    (Inv : Nat → Score → Score → Prop)
    (hinv : ∀ nt a b d bd, ok nt a b d bd = true → Inv nt a b)
    (hraise : ∀ nt a b s, Inv nt a b → s > a → ¬ s ≥ b → Inv nt s b)
    (hnull : ∀ a b d bd, ok kNW a b d bd = true → 1 < d →
      ok kNW (-b) (-a) (d - 1 - E.R) (E.Make bd E.kNullMove) = true)
    (hchild : ∀ nt a b d bd, ok nt a b d bd = true → 0 < d →
      ∀ (d0 red : Depth) (a0 : Score) (i : Nat) (m : Move) (nt1 : Nat) (a1 b1 : Score)
        (d1 : Depth), (d0 = d ∨ d0 = d + 1) → (red = 0 ∨ (0 < red ∧ red ≤ 2 ∧ 3 ≤ d0)) →
        Inv nt a0 b → ChildCall nt i a0 b d0 red nt1 a1 b1 d1 →
        ok nt1 a1 b1 d1 (E.Make bd m) = true) :
    ∀ (fuel nt : Nat) (a b : Score) (d : Depth) (st : State B T), rank st.board + 1 < fuel →
      ok nt a b d st.board = true →
      AlphaBetaChecked E ok Mode fuel nt a b d st = AlphaBeta E Mode fuel nt a b d st := by
  intro fuel
  induction fuel with
  | zero => intro nt a b d st h; simp at h
  | succ fuel ih =>
    intro nt a b d st h hok
    rw [AlphaBetaChecked, AlphaBeta, if_neg (by rw [hok]; simp)]
    by_cases hdraw : E.IsDraw st.board = true
    · rw [if_pos hdraw, if_pos hdraw]
    · rw [if_neg hdraw, if_neg hdraw]
      have hdraw : E.IsDraw st.board = false := by simpa using hdraw
      by_cases hd : d ≤ 0
      · rw [if_pos hd, if_pos hd]
      · rw [if_neg hd, if_neg hd]
        have hd : 0 < d := not_le.1 hd
        split
        · rfl
        · have hrn := hL.rank_null st.board hdraw
          refine ABBody_agree hL.unmake_make hL.sort_perm (AlphaBeta_total hL Mode fuel) Mode nt
            a b d _ _ st (hL.moves16 _) ?_ ?_ (Inv nt · b) (hinv nt a b d _ hok)
            (fun a0 s => hraise nt a0 b s) ?_ ?_
          · show _ + 1 < fuel
            omega
          · intro m hm
            have := hL.rank_nq st.board m hdraw hm
            show _ + 1 < fuel
            omega
          · intro hnt hallowed
            subst hnt
            exact ih kNW (-b) (-a) (d - 1 - E.R) (Make E st E.kNullMove)
              (by rw [Make_board]; omega)
              (by rw [Make_board]
                  exact hnull a b d _ hok (is_null_move_allowed_depth hallowed))
          · intro d0 red a0 i m nt1 a1 b1 d1 st1 hd0 hred ha0 hm hb1 hc
            have := hL.rank_nq st.board m hdraw hm
            exact ih nt1 a1 b1 d1 st1 (by rw [hb1]; omega)
              (by rw [hb1]; exact hchild nt a b d _ hok hd d0 red a0 i m nt1 a1 b1 d1 hd0 hred
                    ha0 hc)

theorem checked_agree
    (ok : Nat → Score → Score → Depth → B → Bool)
    (search : Nat → Score → Score → Depth → State B T → Option (Score × State B T))
    (nt : Nat) (a b : Score) (d : Depth) (st : State B T) (h : ok nt a b d st.board = true) :
    checked ok search nt a b d st = search nt a b d st := by
  unfold checked
  rw [if_pos h]

theorem RootChild_agree
    {s1 s2 : Nat → Score → Score → Depth → State B T → Option (Score × State B T)}
    {P : B → Prop} (hs : TotalOn s2 P)
    (alpha beta : Score) (cd : Depth) (st : State B T) (hP : P st.board)
    (hag : ∀ (nt : Nat) (a1 b1 : Score) (st1 : State B T), st1.board = st.board →
      ((nt = kPV ∧ a1 = -beta ∧ b1 = -alpha) ∨ (nt = kNW ∧ a1 = -(alpha + 1) ∧ b1 = -alpha)) →
      s1 nt a1 b1 (cd - 1) st1 = s2 nt a1 b1 (cd - 1) st1) :
    RootChild s1 alpha beta cd st = RootChild s2 alpha beta cd st := by
  unfold RootChild
  rw [hag kNW (-(alpha + 1)) (-alpha) st rfl (Or.inr ⟨rfl, rfl, rfl⟩)]
  obtain ⟨r, st1, h1, hb1⟩ := hs kNW (-(alpha + 1)) (-alpha) (cd - 1) st hP
  rw [h1]
  simp only []
  by_cases h2 : -r > alpha
  · rw [if_pos h2, if_pos h2, hag kPV (-beta) (-alpha) st1 hb1 (Or.inl ⟨rfl, rfl, rfl⟩)]
  · rw [if_neg h2, if_neg h2]

theorem RootSearchLoopFrom_agree (hum : ∀ b m, E.UnMake (E.Make b m) = b)
    {s1 s2 : Nat → Score → Score → Depth → State B T → Option (Score × State B T)}
    {P : B → Prop} (hs : TotalOn s2 P) (b0 : B) (legal : List Move)
    (hP : ∀ m ∈ legal, P (E.Make b0 m)) (beta : Score) (cd : Depth)
    (hag : ∀ (a : Score) (m : Move) (nt : Nat) (a1 b1 : Score) (st1 : State B T), a < beta →
      m ∈ legal → st1.board = E.Make b0 m →
      ((nt = kPV ∧ a1 = -beta ∧ b1 = -a) ∨ (nt = kNW ∧ a1 = -(a + 1) ∧ b1 = -a)) →
      s1 nt a1 b1 (cd - 1) st1 = s2 nt a1 b1 (cd - 1) st1) :
    ∀ (n i : Nat) (moves : List Move) (alpha : Score) (st : State B T),
      st.board = b0 → moves.Perm legal → i + n = moves.length → alpha < beta →
      RootSearchLoopFrom E s1 beta cd n i moves alpha st
        = RootSearchLoopFrom E s2 beta cd n i moves alpha st := by
  intro n
  induction n with
  | zero =>
    intro i moves alpha st _ _ _ _
    rw [RootSearchLoopFrom, RootSearchLoopFrom]
  | succ n ih =>
    intro i moves alpha st hb hperm hlen hab
    have hmove : moves.getD i 0 ∈ legal := hperm.mem_iff.1 (getD_mem (by omega))
    have hPm : P (Make E st (moves.getD i 0)).board := by
      rw [Make_board, hb]; exact hP _ hmove
    have hbm : (Make E st (moves.getD i 0)).board = E.Make b0 (moves.getD i 0) := by
      rw [Make_board, hb]
    conv_lhs => rw [RootSearchLoopFrom]
    conv_rhs => rw [RootSearchLoopFrom]
    by_cases hi : i = 0
    · rw [if_pos hi, if_pos hi,
        hag alpha _ kPV (-beta) (-alpha) _ hab hmove hbm (Or.inl ⟨rfl, rfl, rfl⟩)]
      obtain ⟨r, st1, h1, hb1⟩ := hs kPV (-beta) (-alpha) (cd - 1) _ hPm
      have hb2 : (UnMake E st1).board = b0 := by
        rw [UnMake_board, hb1, Make_board, hum, hb]
      rw [h1]
      simp only []
      by_cases hc : -r ≤ alpha ∨ -r ≥ beta
      · rw [if_pos hc, if_pos hc]
      · rw [if_neg hc, if_neg hc]
        exact ih _ _ _ _ hb2 hperm (by omega) (not_le.1 (fun h => hc (Or.inr h)))
    · rw [if_neg hi, if_neg hi,
        RootChild_agree hs alpha beta cd _ hPm (fun nt a1 b1 st1 hb1 hw =>
          hag alpha _ nt a1 b1 st1 hab hmove (hb1.trans hbm) hw)]
      obtain ⟨score, st1, h1, hb1⟩ := RootChild_total hs alpha beta cd _ hPm
      have hb2 : (finished E (UnMake E st1)).2.board = b0 := by
        rw [finished_board, UnMake_board, hb1, Make_board, hum, hb]
      have hrot : (rotate_to_front moves i).Perm legal :=
        (rotate_to_front_perm moves i).trans hperm
      rw [h1]
      simp only []
      by_cases hfin : (finished E (UnMake E st1)).1 = true
      · rw [if_pos hfin, if_pos hfin]
      · rw [if_neg hfin, if_neg hfin]
        by_cases hcut : score ≥ beta
        · rw [if_pos hcut, if_pos hcut]
        · rw [if_neg hcut, if_neg hcut]
          by_cases hgt : score > alpha
          · rw [if_pos hgt, if_pos hgt]
            exact ih _ _ _ _ hb2 hrot (by rw [hrot.length_eq, ← hperm.length_eq]; omega)
              (not_le.1 hcut)
          · rw [if_neg hgt, if_neg hgt]
            exact ih _ _ _ _ hb2 hperm (by omega) hab

theorem entry_assertions_iff (nt : Nat) (a b : Score) (d : Depth) (bd : B) :
    entry_assertions E nt a b d bd = true
      ↔ 0 < E.get_num_made_moves bd ∧ a < b ∧ (nt = kNW → b = a + 1) := by
  unfold entry_assertions
  simp only [Bool.and_eq_true, Bool.or_eq_true, decide_eq_true_eq, gt_iff_lt, ne_eq]
  constructor
  · rintro ⟨⟨h1, h2⟩, h3⟩
    exact ⟨h1, h2, fun h => h3.resolve_right (fun hn => hn h)⟩
  · rintro ⟨h1, h2, h3⟩
    refine ⟨⟨h1, h2⟩, ?_⟩
    by_cases h : nt = kNW
    · exact Or.inl (h3 h)
    · exact Or.inr h

theorem window_raise (nt : Nat) (a b s : Score) (h : a < b ∧ (nt = kNW → b = a + 1))
    (hgt : s > a) (hcut : ¬ s ≥ b) : s < b ∧ (nt = kNW → b = s + 1) := by
  refine ⟨not_le.1 hcut, fun hnt => ?_⟩
  have h1 := h.2 hnt
  have h2 : s < a + 1 := by rw [← h1]; exact not_le.1 hcut
  exact absurd (Int.lt_add_one_iff.1 h2) (not_le.2 hgt)

theorem entry_assertions_child (hmade : ∀ b m, 0 < E.get_num_made_moves (E.Make b m))
    (nt i : Nat) (a0 b : Score) (d0 red : Depth) (m : Move) (bd : B) (nt1 : Nat)
    (a1 b1 : Score) (d1 : Depth) (hinv : a0 < b ∧ (nt = kNW → b = a0 + 1))
    (hc : ChildCall nt i a0 b d0 red nt1 a1 b1 d1) :
    entry_assertions E nt1 a1 b1 d1 (E.Make bd m) = true := by
  rw [entry_assertions_iff]
  refine ⟨hmade _ _, ?_⟩
  have hpv : kPV ≠ kNW := by decide
  rcases hc with ⟨h1, h2, h3, h4, _⟩ | ⟨_, _, h2, h3, h4, _⟩ | ⟨_, _, _, h5⟩
  · subst h2 h3 h4
    have := hinv.2 h1
    exact ⟨by linarith [hinv.1], fun _ => by linarith⟩
  · subst h2 h3 h4
    exact ⟨by linarith [hinv.1], fun h => absurd h hpv⟩
  · rcases h5 with ⟨h2, h3, h4⟩ | ⟨h2, h3, h4⟩
    · subst h2 h3 h4
      exact ⟨by linarith, fun _ => by ring⟩
    · subst h2 h3 h4
      exact ⟨by linarith [hinv.1], fun h => absurd h hpv⟩

theorem depth_child (nt i : Nat) (a0 b : Score) (d d0 red : Depth) (nt1 : Nat)
    (a1 b1 : Score) (d1 : Depth) (hd : 0 < d) (hd0 : d0 = d ∨ d0 = d + 1)
    (hred : red = 0 ∨ (0 < red ∧ red ≤ 2 ∧ 3 ≤ d0))
    (hc : ChildCall nt i a0 b d0 red nt1 a1 b1 d1) : 0 ≤ d1 := by
  have h0 : 1 ≤ d0 := by
    rcases hd0 with h | h
    · rw [h]; exact hd
    · rw [h]; linarith
  have h1 : 0 ≤ d0 - 1 - red := by
    rcases hred with h | ⟨_, h, h3⟩
    · rw [h]; linarith
    · linarith
  rcases hc with ⟨_, _, _, _, h | ⟨_, h⟩⟩ | ⟨_, _, _, _, _, h⟩ | ⟨_, _, h, _⟩
  · rw [h]; exact h1
  · rw [h]; linarith
  · rw [h]; linarith
  · rw [h]; linarith

theorem QuiescentLoop_board (hum : ∀ b m, E.UnMake (E.Make b m) = b)
    {search : Score → Score → State B T → Option (Score × State B T)}
    (hs : ∀ a b st r st1, search a b st = some (r, st1) → st1.board = st.board)
    (in_check : Bool) (beta : Score) :
    ∀ (moves : List Move) (alpha : Score) (st : State B T) (r : Score) (st1 : State B T),
      QuiescentLoop E search in_check beta moves alpha st = some (r, st1) →
      st1.board = st.board := by
  intro moves
  induction moves with
  | nil =>
    intro alpha st r st1 h
    simp only [QuiescentLoop, Option.some.injEq, Prod.mk.injEq] at h
    rw [← h.2]
  | cons move rest ih =>
    intro alpha st r st1 h
    rw [QuiescentLoop] at h
    split at h
    · exact ih _ _ _ _ h
    · split at h
      · cases h
      · rename_i r0 st0 h0
        have hb : (UnMake E st0).board = st.board := by
          rw [UnMake_board, hs _ _ _ _ _ h0, Make_board, hum]
        split at h
        · simp only [Option.some.injEq, Prod.mk.injEq] at h
          rw [← h.2]; exact hb
        · split at h
          · exact (ih _ _ _ _ h).trans hb
          · exact (ih _ _ _ _ h).trans hb

theorem QuiescentNode_board (hum : ∀ b m, E.UnMake (E.Make b m) = b)
    {search : Score → Score → State B T → Option (Score × State B T)}
    (hs : ∀ a b st r st1, search a b st = some (r, st1) → st1.board = st.board)
    (Mode : Nat) (valid_hash : Bool) (entry : Entry) (alpha beta : Score) (st : State B T)
    (r : Score) (st1 : State B T)
    (h : QuiescentNode E search Mode valid_hash entry alpha beta st = some (r, st1)) :
    st1.board = st.board := by
  unfold QuiescentNode at h
  split at h
  · rename_i r0 heq
    simp only [Option.some.injEq] at h
    have := QuiescentStandPat_board.1 _ heq
    rw [h] at this
    exact this
  · rename_i a0 st0 heq
    have hb0 : st0.board = st.board := QuiescentStandPat_board.2 _ heq
    split at h
    · simp only [Option.some.injEq, Prod.mk.injEq] at h
      rw [← h.2]; exact hb0
    · exact (QuiescentLoop_board hum hs _ _ _ _ _ _ _ h).trans hb0

theorem QuiescentSearch_board (hum : ∀ b m, E.UnMake (E.Make b m) = b) (Mode : Nat) :
    ∀ (fuel : Nat) (alpha beta : Score) (st : State B T) (r : Score) (st1 : State B T),
      QuiescentSearch E Mode fuel alpha beta st = some (r, st1) → st1.board = st.board := by
  intro fuel
  induction fuel with
  | zero => intro alpha beta st r st1 h; simp [QuiescentSearch] at h
  | succ fuel ih =>
    intro alpha beta st r st1 h
    rw [QuiescentSearch] at h
    split at h
    · simp only [Option.some.injEq, Prod.mk.injEq] at h
      rw [← h.2]; rfl
    · exact QuiescentNode_board hum ih Mode _ _ _ _ (QuiescentEnter E st) _ _ h

theorem ABPrelude_board (hum : ∀ b m, E.UnMake (E.Make b m) = b)
    {search : Nat → Score → Score → Depth → State B T → Option (Score × State B T)}
    (hs : KeepsBoard search)
    (NodeType : Nat) (alpha beta : Score) (depth : Depth) (valid_entry : Bool)
    (entry : Entry) (in_check : Bool) (st : State B T)
    (res : Sum (Score × State B T) (Score × State B T))
    (h : ABPrelude E search NodeType alpha beta depth valid_entry entry in_check st
      = some res) :
    (Sum.elim Prod.snd Prod.snd res).board = st.board := by
  unfold ABPrelude at h
  split at h
  · split at h
    · cases h; rfl
    · split at h
      · split at h
        · cases h
        · rename_i r0 st0 h0
          have hb : (UnMake E st0).board = st.board := by
            rw [UnMake_board, hs _ _ _ _ _ _ _ h0, Make_board, hum]
          split at h
          · cases h; exact hb
          · cases h; exact hb
      · cases h; rfl
  · cases h; rfl

theorem ABChild_board
    {search : Nat → Score → Score → Depth → State B T → Option (Score × State B T)}
    (hs : KeepsBoard search)
    (NodeType i : Nat) (alpha beta : Score) (depth reduction : Depth) (st : State B T)
    (r : Score) (st1 : State B T)
    (h : ABChild search NodeType i alpha beta depth reduction st = some (r, st1)) :
    st1.board = st.board := by
  unfold ABChild at h
  split at h
  · split at h
    · cases h
    · rename_i r0 st0 h0
      have hb0 := hs _ _ _ _ _ _ _ h0
      split at h
      · split at h
        · cases h
        · rename_i r2 st2 h2
          cases h
          exact (hs _ _ _ _ _ _ _ h2).trans hb0
      · cases h; exact hb0
  · split at h
    · split at h
      · cases h
      · rename_i r0 st0 h0
        cases h
        exact hs _ _ _ _ _ _ _ h0
    · split at h
      · cases h
      · rename_i r0 st0 h0
        have hb0 := hs _ _ _ _ _ _ _ h0
        split at h
        · split at h
          · cases h
          · rename_i r2 st2 h2
            cases h
            exact (hs _ _ _ _ _ _ _ h2).trans hb0
        · cases h; exact hb0

theorem ABLoop_board (hum : ∀ b m, E.UnMake (E.Make b m) = b)
    {search : Nat → Score → Score → Depth → State B T → Option (Score × State B T)}
    (hs : KeepsBoard search)
    (NodeType : Nat) (original_alpha beta : Score) (depth : Depth) (in_check : Bool)
    (static_eval : Score) (tt_entry : Move) (cs : Nat → BitBoard) :
    ∀ (n i : Nat) (moves : List Move) (sorted : Bool) (alpha : Score) (best : Move)
      (st : State B T) (r : Score) (st1 : State B T),
      ABLoop E search NodeType original_alpha beta depth in_check static_eval tt_entry cs
        n i moves sorted alpha best st = some (r, st1) → st1.board = st.board := by
  intro n
  induction n with
  | zero =>
    intro i moves sorted alpha best st r st1 h
    rw [ABLoop] at h
    cases h
    simp
  | succ n ih =>
    intro i moves sorted alpha best st r st1 h
    rw [ABLoop] at h
    split at h
    · exact ih _ _ _ _ _ _ _ _ h
    · split at h
      · cases h
      · rename_i score st0 h0
        have hb : (finished E (UnMake E st0)).2.board = st.board := by
          rw [finished_board, UnMake_board, ABChild_board hs _ _ _ _ _ _ _ _ _ h0, Make_board,
            hum]
        split at h
        · cases h; exact hb
        · split at h
          · cases h; rw [ABCutoff_board]; exact hb
          · split at h
            · exact (ih _ _ _ _ _ _ _ _ h).trans hb
            · exact (ih _ _ _ _ _ _ _ _ h).trans hb

theorem ABNode_board (hum : ∀ b m, E.UnMake (E.Make b m) = b)
    {search : Nat → Score → Score → Depth → State B T → Option (Score × State B T)}
    (hs : KeepsBoard search)
    (Mode NodeType : Nat) (alpha beta : Score) (depth : Depth) (valid_entry : Bool)
    (entry : Entry) (in_check : Bool) (static_eval : Score) (st : State B T)
    (r : Score) (st1 : State B T)
    (h : ABNode E search Mode NodeType alpha beta depth valid_entry entry in_check
      static_eval st = some (r, st1)) :
    st1.board = st.board := by
  unfold ABNode at h
  split at h
  · split at h
    · cases h; rfl
    · cases h; rfl
  · split at h
    · cases h; rfl
    · unfold ABMoves at h
      have := ABLoop_board hum hs _ _ _ _ _ _ _ _ _ _ _ _ _ _ _ _ _ h
      simpa using this

theorem ABBody_board (hum : ∀ b m, E.UnMake (E.Make b m) = b)
    {search : Nat → Score → Score → Depth → State B T → Option (Score × State B T)}
    (hs : KeepsBoard search)
    (Mode NodeType : Nat) (alpha beta : Score) (depth : Depth) (valid_entry : Bool)
    (entry : Entry) (st : State B T) (r : Score) (st1 : State B T)
    (h : ABBody E search Mode NodeType alpha beta depth valid_entry entry st = some (r, st1)) :
    st1.board = st.board := by
  unfold ABBody at h
  split at h
  · cases h
  · rename_i r0 h0
    cases h
    exact ABPrelude_board hum hs _ _ _ _ _ _ _ _ _ h0
  · rename_i se st0 h0
    have hb0 : st0.board = st.board := ABPrelude_board hum hs _ _ _ _ _ _ _ _ _ h0
    exact (ABNode_board hum hs _ _ _ _ _ _ _ _ _ _ _ _ h).trans hb0

theorem AlphaBeta_board (hum : ∀ b m, E.UnMake (E.Make b m) = b) (Mode : Nat) :
    ∀ fuel : Nat, KeepsBoard (AlphaBeta E Mode fuel) := by
  intro fuel
  induction fuel with
  | zero => intro nt a b d st r st1 h; simp [AlphaBeta] at h
  | succ fuel ih =>
    intro nt a b d st r st1 h
    rw [AlphaBeta] at h
    split at h
    · cases h; rfl
    · split at h
      · exact QuiescentSearch_board hum Mode fuel _ _ _ _ _ h
      · split at h
        · cases h; rfl
        · exact ABBody_board hum ih _ _ _ _ _ _ _ _ _ _ h

theorem RootChild_board
    {search : Nat → Score → Score → Depth → State B T → Option (Score × State B T)}
    (hs : KeepsBoard search)
    (alpha beta : Score) (cd : Depth) (st : State B T) (r : Score) (st1 : State B T)
    (h : RootChild search alpha beta cd st = some (r, st1)) : st1.board = st.board := by
  unfold RootChild at h
  split at h
  · cases h
  · rename_i r0 st0 h0
    have hb0 := hs _ _ _ _ _ _ _ h0
    split at h
    · split at h
      · cases h
      · rename_i r2 st2 h2
        cases h
        exact (hs _ _ _ _ _ _ _ h2).trans hb0
    · cases h; exact hb0

theorem RootSearchLoopFrom_board (hum : ∀ b m, E.UnMake (E.Make b m) = b)
    {search : Nat → Score → Score → Depth → State B T → Option (Score × State B T)}
    (hs : KeepsBoard search) (beta : Score) (cd : Depth) :
    ∀ (n i : Nat) (moves : List Move) (alpha : Score) (st : State B T)
      (res : Score × List Move × State B T),
      RootSearchLoopFrom E search beta cd n i moves alpha st = some res →
      res.2.2.board = st.board := by
  intro n
  induction n with
  | zero =>
    intro i moves alpha st res h
    rw [RootSearchLoopFrom] at h
    cases h
    simp
  | succ n ih =>
    intro i moves alpha st res h
    rw [RootSearchLoopFrom] at h
    split at h
    · split at h
      · cases h
      · rename_i r0 st0 h0
        have hb : (UnMake E st0).board = st.board := by
          rw [UnMake_board, hs _ _ _ _ _ _ _ h0, Make_board, hum]
        split at h
        · cases h; exact hb
        · exact (ih _ _ _ _ _ h).trans hb
    · split at h
      · cases h
      · rename_i score st0 h0
        have hb : (finished E (UnMake E st0)).2.board = st.board := by
          rw [finished_board, UnMake_board, RootChild_board hs _ _ _ _ _ _ h0, Make_board, hum]
        split at h
        · cases h; exact hb
        · split at h
          · cases h; exact hb
          · split at h
            · exact (ih _ _ _ _ _ h).trans hb
            · exact (ih _ _ _ _ _ h).trans hb

theorem QuiescentStaticEval_ge (valid_hash : Bool) (entry : Entry) (board : B) :
    E.ScoreBoard board ≤ QuiescentStaticEval E valid_hash entry board := by
  unfold QuiescentStaticEval
  split
  · rename_i h
    exact le_of_lt h.2.2
  · exact le_refl _

theorem QuiescentLoop_lower
    (search : Score → Score → State B T → Option (Score × State B T))
    (in_check : Bool) (beta : Score) :
    ∀ (moves : List Move) (alpha : Score) (st : State B T) (r : Score) (st1 : State B T),
      QuiescentLoop E search in_check beta moves alpha st = some (r, st1) →
      alpha ≤ r ∨ r = beta := by
  intro moves
  induction moves with
  | nil =>
    intro alpha st r st1 h
    simp only [QuiescentLoop, Option.some.injEq, Prod.mk.injEq] at h
    rw [← h.1]; exact Or.inl (le_refl _)
  | cons move rest ih =>
    intro alpha st r st1 h
    rw [QuiescentLoop] at h
    split at h
    · exact ih _ _ _ _ h
    · split at h
      · cases h
      · split at h
        · simp only [Option.some.injEq, Prod.mk.injEq] at h
          exact Or.inr h.1.symm
        · split at h
          · rename_i hlt hgt
            rcases ih _ _ _ _ h with h1 | h1
            · exact Or.inl (le_trans (le_of_lt hgt) h1)
            · exact Or.inr h1
          · exact ih _ _ _ _ h

theorem kFutileMargin_nonneg (d : Depth) : 0 ≤ kFutileMargin d := by
  unfold kFutileMargin
  rcases d.toNat with _ | _ | _ | _ | _ | n <;> simp

theorem ABFutile_static_alpha (NodeType : Nat) (in_check : Bool) (depth reduction : Depth)
    (alpha : Score) (cs : Nat → BitBoard) (board : B) (move : Move) :
    ABFutile E NodeType in_check depth reduction alpha alpha cs board move = false := by
  unfold ABFutile get_futility_margin
  have h := kFutileMargin_nonneg (depth - reduction)
  rw [decide_eq_false_iff_not]
  intro hc
  have h2 := hc.2.2.2.1
  linarith

theorem isSome_map_option {α β : Type} (f : α → β) (o : Option α) :
    (o.map f).isSome = o.isSome := by
  cases o <;> rfl

theorem ABLoopSkipped_isSome
    (search : Nat → Score → Score → Depth → State B T → Option (Score × State B T))
    (NodeType : Nat) (original_alpha beta : Score) (depth : Depth) (in_check : Bool)
    (static_eval : Score) (tt_entry : Move) (cs : Nat → BitBoard) :
    ∀ (n i : Nat) (moves : List Move) (sorted : Bool) (alpha : Score) (best : Move)
      (st : State B T),
      (ABLoopSkipped E search NodeType beta depth in_check static_eval tt_entry cs
          n i moves sorted alpha st).isSome
        = (ABLoop E search NodeType original_alpha beta depth in_check static_eval tt_entry cs
          n i moves sorted alpha best st).isSome := by
  intro n
  induction n with
  | zero =>
    intro i moves sorted alpha best st
    rw [ABLoopSkipped, ABLoop]
    rfl
  | succ n ih =>
    intro i moves sorted alpha best st
    rw [ABLoopSkipped, ABLoop]
    split
    · rw [← ih _ _ _ _ best _]
      exact isSome_map_option _ _
    · cases ABChild search NodeType i alpha beta depth
          (ABReduction E NodeType in_check depth i cs st.board
            ((ABResort E st tt_entry i sorted moves).getD i 0))
          (Make E st ((ABResort E st tt_entry i sorted moves).getD i 0)) with
      | none => rfl
      | some x =>
        obtain ⟨score, st1⟩ := x
        simp only []
        split
        · rfl
        · split
          · rfl
          · split
            · exact ih _ _ _ _ _ _
            · exact ih _ _ _ _ _ _

theorem ABLoopSkipped_nw (hum : ∀ b m, E.UnMake (E.Make b m) = b)
    (hsort : ∀ lt l, (E.sort lt l).Perm l)
    {search : Nat → Score → Score → Depth → State B T → Option (Score × State B T)}
    {P : B → Prop} (hs : TotalOn search P) (b0 : B) (legal : List Move)
    (h16 : ∀ m ∈ legal, m < 65536) (hP : ∀ m ∈ legal, P (E.Make b0 m))
    (alpha beta : Score) (depth : Depth) (in_check : Bool) (tt_entry : Move)
    (cs : Nat → BitBoard) (hnw : beta = alpha + 1) :
    ∀ (n i : Nat) (moves : List Move) (sorted : Bool) (st : State B T),
      st.board = b0 → (∀ m ∈ moves, m ∈ legal) → i + n = moves.length →
      ABLoopSkipped E search kNW beta depth in_check alpha tt_entry cs n i moves sorted alpha st
        = some [] := by
  intro n
  induction n with
  | zero =>
    intro i moves sorted st _ _ _
    rw [ABLoopSkipped]
  | succ n ih =>
    intro i moves sorted st hb hsub hlen
    rw [ABLoopSkipped]
    have hperm := ABResort_perm hsort st tt_entry i sorted moves
      (fun m hm => h16 m (hsub m hm))
    generalize ABResort E st tt_entry i sorted moves = moves1 at hperm ⊢
    have hsub1 : ∀ m ∈ moves1, m ∈ legal := fun m hm => hsub m (hperm.mem_iff.1 hm)
    have hlen1 : i + 1 + n = moves1.length := by rw [hperm.length_eq]; omega
    have hmove : moves1.getD i 0 ∈ legal := hsub1 _ (getD_mem (by omega))
    rw [ABFutile_static_alpha]
    simp only [Bool.false_eq_true, if_false]
    obtain ⟨score, st1, h1, hb1⟩ := ABChild_total hs kNW i alpha beta depth
      (ABReduction E kNW in_check depth i cs st.board (moves1.getD i 0))
      (Make E st (moves1.getD i 0)) (by rw [Make_board, hb]; exact hP _ hmove)
    have hb2 : (finished E (UnMake E st1)).2.board = b0 := by
      rw [finished_board, UnMake_board, hb1, Make_board, hum, hb]
    rw [h1]
    simp only []
    split
    · rfl
    · split
      · rfl
      · rename_i hcut
        split
        · rename_i hgt
          have h2 : score < alpha + 1 := by rw [← hnw]; exact not_le.1 hcut
          exact absurd (Int.lt_add_one_iff.1 h2) (not_le.2 hgt)
        · exact ih _ _ _ _ hb2 hsub1 hlen1

theorem TrainScoreLoop_inv
    (search : Nat → Score → Score → Depth → State B T → Option (Score × State B T))
    (size : Nat) :
    ∀ (rest : List Move) (scores : List Score) (low high : Nat) (st : State B T)
      (res : Scoring B T),
      TrainScoreLoop E search size rest scores low high st = some res →
      low + high = scores.length → scores.length + rest.length = size → high ≤ size / 2 →
      res.low + res.high = res.scores.length ∧ res.scores.length ≤ size
        ∧ (res.broke = true → res.high = size / 2 + 1)
        ∧ (res.broke = false → res.scores.length = size ∧ res.high ≤ size / 2) := by
  intro rest
  induction rest with
  | nil =>
    intro scores low high st res h h1 h2 h3
    simp only [TrainScoreLoop, Option.some.injEq] at h
    subst h
    simp only [List.length_nil, Nat.add_zero] at h2
    refine ⟨h1, le_of_eq h2, ?_, fun _ => ⟨h2, h3⟩⟩
    intro hb
    exact absurd hb (by simp)
  | cons move rest ih =>
    intro scores low high st res h h1 h2 h3
    rw [TrainScoreLoop] at h
    simp only [List.length_cons] at h2
    split at h
    · cases h
    · split at h
      · split at h
        · rename_i hbreak
          simp only [Option.some.injEq] at h
          subst h
          simp only [List.length_append, List.length_singleton]
          refine ⟨by omega, by omega, fun _ => by omega, ?_⟩
          intro hb
          exact absurd hb (by simp)
        · rename_i hbreak
          exact ih _ _ _ _ _ h (by simp only [List.length_append, List.length_singleton]; omega)
            (by simp only [List.length_append, List.length_singleton]; omega) (by omega)
      · exact ih _ _ _ _ _ h (by simp only [List.length_append, List.length_singleton]; omega)
          (by simp only [List.length_append, List.length_singleton]; omega) h3

theorem ABExtend_nw (moves : List Move) (depth : Depth) : ABExtend kNW moves depth = depth := by
  unfold ABExtend
  rw [if_neg]
  rintro ⟨h, _⟩
  exact absurd h (by decide)

theorem ABBody_agree_ext (hum : ∀ b m, E.UnMake (E.Make b m) = b)
    (hsort : ∀ lt l, (E.sort lt l).Perm l)
    {s1 s2 : Nat → Score → Score → Depth → State B T → Option (Score × State B T)}
    {P : B → Prop} (hs : TotalOn s2 P)
    (Mode NodeType : Nat) (alpha beta : Score) (depth : Depth) (valid_entry : Bool)
    (entry : Entry) (st : State B T)
    (h16 : ∀ m ∈ E.GetMovesNonQuiescent st.board, m < 65536)
    (hnull : P (E.Make st.board E.kNullMove))
    (hP : ∀ m ∈ E.GetMovesNonQuiescent st.board, P (E.Make st.board m))
    (Inv : Score → Prop) (hinv : Inv alpha)
    (hraise : ∀ a s, Inv a → s > a → ¬ s ≥ beta → Inv s)
    (hcall : NodeType = kNW → is_null_move_allowed E st.board depth = true →
      s1 kNW (-beta) (-alpha) (depth - 1 - E.R) (Make E st E.kNullMove)
        = s2 kNW (-beta) (-alpha) (depth - 1 - E.R) (Make E st E.kNullMove))
    (hag : ∀ (moves : List Move) (red : Depth) (a : Score) (i : Nat) (m : Move) (nt : Nat)
      (a1 b1 : Score) (d1 : Depth) (st1 : State B T),
      (red = 0 ∨ (0 < red ∧ red ≤ 2 ∧ 3 ≤ ABExtend NodeType moves depth)) → Inv a →
      m ∈ E.GetMovesNonQuiescent st.board → st1.board = E.Make st.board m →
      ChildCall NodeType i a beta (ABExtend NodeType moves depth) red nt a1 b1 d1 →
      s1 nt a1 b1 d1 st1 = s2 nt a1 b1 d1 st1) :
    ABBody E s1 Mode NodeType alpha beta depth valid_entry entry st
      = ABBody E s2 Mode NodeType alpha beta depth valid_entry entry st := by
  unfold ABBody
  rw [ABPrelude_agree NodeType alpha beta depth valid_entry entry (E.InCheck st.board) st hcall]
  obtain ⟨res, h1, hb1⟩ := ABPrelude_total hum hs NodeType alpha beta depth valid_entry entry
    (E.InCheck st.board) st hnull
  rw [h1]
  rcases res with ⟨r0, st0⟩ | ⟨se, st0⟩
  · rfl
  · simp only [Sum.elim_inr] at hb1
    simp only []
    unfold ABNode
    by_cases h0 : (E.GetMovesNonQuiescent st0.board).length = 0
    · rw [if_pos h0, if_pos h0]
    · rw [if_neg h0, if_neg h0]
      by_cases hsamp : ABSampling Mode NodeType depth = true
          ∧ st0.sample_nodes + 1 = st0.kNodeCountSampleAt
      · rw [if_pos hsamp, if_pos hsamp]
      · rw [if_neg hsamp, if_neg hsamp]
        unfold ABMoves
        have hbc : (ABSampleCount Mode NodeType depth st0).board = st.board := by
          rw [ABSampleCount_board, hb1]
        have ho := ABOrder_mem hsort
          (ABSwapCheck E (ABSampleCount Mode NodeType depth st0)
            (E.GetMovesNonQuiescent (ABSampleCount Mode NodeType depth st0).board)
            (ABHashMove E valid_entry entry (ABSampleCount Mode NodeType depth st0)))
          (E.GetMovesNonQuiescent (ABSampleCount Mode NodeType depth st0).board)
          (ABHashMove E valid_entry entry (ABSampleCount Mode NodeType depth st0))
          (by rw [hbc]; exact h16)
        exact ABLoop_agree hum hsort hs st.board (E.GetMovesNonQuiescent st.board) h16 hP
          NodeType alpha beta _ (E.InCheck st.board) se _ _ Inv hraise
          (fun a i m nt a1 b1 d1 st1 ha hm hb hc =>
            hag _ _ a i m nt a1 b1 d1 st1 (ABReduction_range _ _ _ _ _ _ _) ha hm hb hc)
          _ _ _ _ _ _ _ (by simp [hb1]) (by rw [← hbc]; exact ho.1) (by simp) hinv

theorem getLast_cons_getD {α : Type} (a d : α) (l : List α) :
    ((a :: l).getLast?).getD d = (l.getLast?).getD a := by
  cases l with
  | nil => rfl
  | cons b l =>
    rw [List.getLast?_cons_cons]
    cases h : (b :: l).getLast? with
    | none => simp at h
    | some x => rfl

theorem getLast_append_getD {α : Type} (d : α) (l1 l2 : List α) :
    ((l1 ++ l2).getLast?).getD d = (l2.getLast?).getD ((l1.getLast?).getD d) := by
  induction l1 generalizing d with
  | nil => simp
  | cons a l1 ih =>
    rw [List.cons_append, getLast_cons_getD, getLast_cons_getD, ih]

theorem AspirationLoop_last
    (loop : Score → Score → List Move → State B T → Option (Score × List Move × State B T)) :
    ∀ (k : Nat) (delta alpha beta score : Score) (moves : List Move) (st : State B T)
      (res : Score × List Move × State B T),
      AspirationLoop E loop k delta alpha beta score moves st = some res →
      ∃ lists, AspirationLists E loop k delta alpha beta score moves st = some lists
        ∧ res.2.1 = (lists.getLast?).getD moves := by
  intro k
  induction k with
  | zero =>
    intro delta alpha beta score moves st res h
    rw [AspirationLoop] at h
    cases h
  | succ k ih =>
    intro delta alpha beta score moves st res h
    rw [AspirationLoop] at h
    rw [AspirationLists]
    by_cases hc : (finished E st).1 = false ∧ (score ≤ alpha ∨ score ≥ beta)
    · rw [if_pos hc] at h ⊢
      cases hl : loop (widen E delta alpha beta score).1 (widen E delta alpha beta score).2
          moves (finished E st).2 with
      | none => rw [hl] at h; cases h
      | some x =>
        obtain ⟨score1, moves1, st1⟩ := x
        rw [hl] at h
        simp only [] at h ⊢
        obtain ⟨lists, hr, hlast⟩ := ih _ _ _ _ _ _ _ h
        rw [hr]
        exact ⟨_, rfl, by rw [hlast, getLast_cons_getD]⟩
    · rw [if_neg hc] at h ⊢
      cases h
      exact ⟨_, rfl, rfl⟩

theorem RootDepthSearch_last
    (search : Nat → Score → Score → Depth → State B T → Option (Score × State B T))
    (k : Nat) (current_depth : Depth) (score : Score) (moves : List Move) (st : State B T)
    (res : Score × List Move × State B T)
    (h : RootDepthSearch E search k current_depth score moves st = some res) :
    ∃ lists, RootDepthLists E search k current_depth score moves st = some lists
      ∧ lists ≠ [] ∧ res.2.1 = (lists.getLast?).getD moves := by
  unfold RootDepthSearch at h
  unfold RootDepthLists
  by_cases hd : current_depth = 1
  · rw [if_pos hd] at h ⊢
    rw [h]
    exact ⟨_, rfl, by simp, rfl⟩
  · rw [if_neg hd] at h ⊢
    cases hl : RootSearchLoop E search (max (toI32 (score - 500)) E.kMinScore)
        (min (toI32 (score + 500)) E.kMaxScore) current_depth
        (SortMovesML E st moves (moves.getD 0 0)) st with
    | none => rw [hl] at h; cases h
    | some x =>
      obtain ⟨score1, moves1, st1⟩ := x
      rw [hl] at h
      simp only [] at h ⊢
      obtain ⟨lists, hr, hlast⟩ := AspirationLoop_last _ _ _ _ _ _ _ _ _ h
      rw [hr]
      exact ⟨_, rfl, by simp, by rw [hlast, getLast_cons_getD]⟩

theorem RootIterate_last
    (search : Nat → Score → Score → Depth → State B T → Option (Score × State B T))
    (k : Nat) (begin : Time) :
    ∀ (n : Nat) (cd : Depth) (score : Score) (moves : List Move) (st : State B T)
      (res : List Move × State B T),
      RootIterate E search k begin n cd score moves st = some res →
      ∃ lists, RootIterateLists E search k begin n cd score moves st = some lists
        ∧ res.1 = (lists.getLast?).getD moves := by
  intro n
  induction n with
  | zero =>
    intro cd score moves st res h
    rw [RootIterate] at h
    cases h
    exact ⟨[], by rw [RootIterateLists], rfl⟩
  | succ n ih =>
    intro cd score moves st res h
    rw [RootIterate] at h
    rw [RootIterateLists]
    by_cases hf : (finished E st).1 = true
    · rw [if_pos hf] at h ⊢
      cases h
      exact ⟨[], rfl, rfl⟩
    · rw [if_neg hf] at h ⊢
      cases hl : RootDepthSearch E search k cd score moves (finished E st).2 with
      | none => rw [hl] at h; cases h
      | some x =>
        obtain ⟨score1, moves1, st1⟩ := x
        rw [hl] at h
        simp only [] at h
        obtain ⟨lists, hr, _, hlast⟩ := RootDepthSearch_last search k cd score moves _ _ hl
        obtain ⟨rest, hrest, hlast2⟩ := ih _ _ _ _ _ h
        rw [hr]
        simp only []
        rw [hrest]
        refine ⟨_, rfl, ?_⟩
        simp only [Option.map_some']
        rw [getLast_append_getD, hlast2]
        simp only [] at hlast
        rw [hlast]

theorem set_length_append (P : List Move) (x y : Move) (S : List Move) :
    (P ++ x :: S).set P.length y = P ++ y :: S := by
  induction P with
  | nil => rfl
  | cons a P ih => simp [List.set, ih]

theorem getD_length_append (P : List Move) (x : Move) (S : List Move) :
    (P ++ x :: S).getD P.length 0 = x := by
  induction P with
  | nil => rfl
  | cons a P ih => simpa using ih

theorem unguarded_linear_insert_loop_spec (comp : Move → Move → Bool) (val : Move) :
    ∀ (n : Nat) (P : List Move) (x : Move) (S : List Move), P.length = n →
      ∃ A C, P = A ++ C
        ∧ unguarded_linear_insert_loop comp val n (P ++ x :: S) = A ++ val :: C ++ S
        ∧ (∀ c ∈ C, comp val c = true)
        ∧ (∀ a, A.getLast? = some a → comp val a = false) := by
  intro n
  induction n with
  | zero =>
    intro P x S hP
    have : P = [] := List.length_eq_zero.1 hP
    subst this
    exact ⟨[], [], rfl, rfl, by simp, by simp⟩
  | succ n ih =>
    intro P x S hP
    rcases List.eq_nil_or_concat P with h | ⟨P0, y, h⟩
    · subst h; simp at hP
    · rw [List.concat_eq_append] at h
      subst h
      have hP0 : P0.length = n := by simpa using hP
      have hget : (P0 ++ [y] ++ x :: S).getD n 0 = y := by
        rw [List.append_assoc, ← hP0]
        exact getD_length_append P0 y _
      have hset : ∀ z, (P0 ++ [y] ++ x :: S).set (n + 1) z = P0 ++ y :: z :: S := by
        intro z
        have := set_length_append (P0 ++ [y]) x z S
        rw [List.length_append, hP0] at this
        simpa using this
      rw [unguarded_linear_insert_loop, hget]
      by_cases hc : comp val y = true
      · rw [if_pos hc, hset]
        obtain ⟨A, C, hAC, hrun, hC, hA⟩ := ih P0 y (y :: S) hP0
        refine ⟨A, C ++ [y], by rw [hAC, List.append_assoc], ?_, ?_, hA⟩
        · rw [hrun]; simp
        · intro c hc1
          rcases List.mem_append.1 hc1 with h1 | h1
          · exact hC c h1
          · rw [List.mem_singleton.1 h1]; exact hc
      · rw [if_neg hc, hset]
        refine ⟨P0 ++ [y], [], by simp, by simp, by simp, ?_⟩
        intro a ha
        rw [List.getLast?_append, List.getLast?_singleton] at ha
        simp at ha
        rw [← ha]
        simpa using hc

theorem Sorter_iff (a b : Move) : Sorter a b = true ↔ b >>> 16 < a >>> 16 := by
  simp [Sorter]

theorem filter_key_nil (k : Nat) (x : Move) (hx : x >>> 16 = k) (C : List Move)
    (hC : ∀ c ∈ C, c >>> 16 < x >>> 16) :
    C.filter (fun m => m >>> 16 == k) = [] := by
  rw [List.filter_eq_nil_iff]
  intro c hc
  have := hC c hc
  intro h
  simp only [beq_iff_eq] at h
  rw [h, hx] at this
  exact lt_irrefl _ this

theorem insertion_sort_step_spec (i : Nat) (P : List Move) (x : Move) (S : List Move)
    (hP : P.length = i) (hne : P ≠ [])
    (hsorted : P.Pairwise fun a b => b >>> 16 ≤ a >>> 16) :
    ∃ Q, insertion_sort_step Sorter 0 i (P ++ x :: S) = Q ++ S
      ∧ Q.length = i + 1 ∧ Q ≠ []
      ∧ Q.Pairwise (fun a b => b >>> 16 ≤ a >>> 16)
      ∧ Q.Perm (P ++ [x])
      ∧ ∀ k, Q.filter (fun m => m >>> 16 == k) = (P ++ [x]).filter fun m => m >>> 16 == k := by
  obtain ⟨p0, Pt, rfl⟩ := List.exists_cons_of_ne_nil hne
  have hgi : (p0 :: Pt ++ x :: S).getD i 0 = x := by
    rw [← hP]; exact getD_length_append _ _ _
  have hg0 : (p0 :: Pt ++ x :: S).getD 0 0 = p0 := rfl
  unfold insertion_sort_step
  rw [hgi, hg0]
  by_cases hc : Sorter x p0 = true
  · rw [if_pos hc]
    have hlt := (Sorter_iff x p0).1 hc
    have hall : ∀ a ∈ p0 :: Pt, a >>> 16 < x >>> 16 := by
      intro a ha
      rcases List.mem_cons.1 ha with h | h
      · rw [h]; exact hlt
      · exact lt_of_le_of_lt (List.rel_of_pairwise_cons hsorted h) hlt
    refine ⟨x :: p0 :: Pt, ?_, by simp [hP], by simp, ?_, ?_, ?_⟩
    · have ht : (p0 :: Pt ++ x :: S).take i = p0 :: Pt := by
        rw [← hP]; exact List.take_left _ _
      have hd : (p0 :: Pt ++ x :: S).drop (i + 1) = S := by
        have : (p0 :: Pt ++ x :: S) = (p0 :: Pt ++ [x]) ++ S := by simp
        rw [this]
        have hl : (p0 :: Pt ++ [x]).length = i + 1 := by simp [← hP]
        rw [← hl]; exact List.drop_left _ _
      simp only [List.take_zero, List.drop_zero, Nat.sub_zero, List.nil_append]
      rw [ht, hd]
    · exact List.Pairwise.cons (fun a ha => le_of_lt (hall a ha)) hsorted
    · exact (List.perm_append_singleton x (p0 :: Pt)).symm
    · intro k
      rw [List.filter_append, List.filter_cons]
      by_cases hk : x >>> 16 = k
      · rw [filter_key_nil k x hk (p0 :: Pt) hall]
        simp [hk]
      · simp [hk]
  · rw [if_neg hc]
    unfold unguarded_linear_insert
    rw [hgi]
    obtain ⟨A, C, hAC, hrun, hC, hA⟩ :=
      unguarded_linear_insert_loop_spec Sorter x i (p0 :: Pt) x S hP
    rw [hrun]
    have hCl : ∀ c ∈ C, c >>> 16 < x >>> 16 := fun c h => (Sorter_iff x c).1 (hC c h)
    rw [hAC] at hsorted
    have hs := List.pairwise_append.1 hsorted
    have hAl : ∀ a ∈ A, x >>> 16 ≤ a >>> 16 := by
      rcases List.eq_nil_or_concat A with h | ⟨A0, a1, h⟩
      · subst h
        have : p0 ∈ C := by
          rw [List.nil_append] at hAC
          rw [← hAC]; exact List.mem_cons_self _ _
        exact absurd (hC p0 this) hc
      · rw [List.concat_eq_append] at h
        subst h
        have h1 : ¬ (a1 >>> 16 < x >>> 16) := by
          have := hA a1 (by simp)
          intro hlt
          rw [(Sorter_iff x a1).2 hlt] at this
          cases this
        intro a ha
        rcases List.mem_append.1 ha with h2 | h2
        · exact le_trans (not_lt.1 h1) ((List.pairwise_append.1 hs.1).2.2 a h2 a1 (by simp))
        · rw [List.mem_singleton.1 h2]; exact not_lt.1 h1
    refine ⟨A ++ x :: C, by simp, ?_, by simp, ?_, ?_, ?_⟩
    · have := congrArg List.length hAC
      rw [hP, List.length_append] at this
      simp only [List.length_append, List.length_cons]
      omega
    · rw [List.pairwise_append]
      refine ⟨hs.1, List.Pairwise.cons (fun c h => le_of_lt (hCl c h)) hs.2.1, ?_⟩
      intro a ha b hb
      rcases List.mem_cons.1 hb with h | h
      · rw [h]; exact hAl a ha
      · exact hs.2.2 a ha b h
    · rw [hAC]
      exact List.perm_middle.trans
        ((List.perm_append_singleton x (A ++ C)).symm)
    · intro k
      rw [hAC]
      simp only [List.filter_append, List.filter_cons, List.filter_nil]
      by_cases hk : x >>> 16 = k
      · rw [filter_key_nil k x hk C hCl]
        simp [hk]
      · simp [hk]

theorem insertion_sort_loop_spec :
    ∀ (n i : Nat) (P S : List Move), P.length = i → S.length = n → P ≠ [] →
      P.Pairwise (fun a b => b >>> 16 ≤ a >>> 16) →
      (insertion_sort_loop Sorter 0 n i (P ++ S)).Perm (P ++ S)
      ∧ (insertion_sort_loop Sorter 0 n i (P ++ S)).Pairwise (fun a b => b >>> 16 ≤ a >>> 16)
      ∧ ∀ k, (insertion_sort_loop Sorter 0 n i (P ++ S)).filter (fun m => m >>> 16 == k)
          = (P ++ S).filter fun m => m >>> 16 == k := by
  intro n
  induction n with
  | zero =>
    intro i P S _ hS _ hsorted
    have : S = [] := List.length_eq_zero.1 hS
    subst this
    rw [insertion_sort_loop, List.append_nil]
    exact ⟨List.Perm.refl _, hsorted, fun _ => rfl⟩
  | succ n ih =>
    intro i P S hP hS hne hsorted
    obtain ⟨x, St, rfl⟩ : ∃ x St, S = x :: St := by
      cases S with
      | nil => simp at hS
      | cons x St => exact ⟨x, St, rfl⟩
    rw [insertion_sort_loop]
    obtain ⟨Q, hstep, hQl, hQne, hQs, hQp, hQf⟩ :=
      insertion_sort_step_spec i P x St hP hne hsorted
    rw [hstep]
    obtain ⟨h1, h2, h3⟩ := ih (i + 1) Q St hQl (by simpa using hS) hQne hQs
    refine ⟨h1.trans ?_, h2, ?_⟩
    · have := List.Perm.append_right St hQp
      simpa using this
    · intro k
      rw [h3 k, List.filter_append, hQf k, List.filter_append, List.append_assoc,
        ← List.filter_append, ← List.filter_append]
      rfl

theorem std_sort_short (v : List Move) (hlen : v.length ≤ 16) :
    (std_sort Sorter v).Perm v
    ∧ (std_sort Sorter v).Pairwise (fun a b => b >>> 16 ≤ a >>> 16)
    ∧ ∀ k, (std_sort Sorter v).filter (fun m => m >>> 16 == k)
        = v.filter fun m => m >>> 16 == k := by
  cases v with
  | nil => exact ⟨List.Perm.refl _, List.Pairwise.nil, fun _ => rfl⟩
  | cons x S =>
    have hintro : ∀ d, introsort_loop Sorter d (x :: S) 0 (x :: S).length = x :: S := by
      intro d
      cases d with
      | zero => rw [introsort_loop, if_neg (by simpa using hlen)]
      | succ d => rw [introsort_loop, if_neg (by simpa using hlen)]
    unfold std_sort
    rw [if_neg (by simp), hintro]
    unfold final_insertion_sort
    rw [if_neg (by simpa using hlen)]
    unfold insertion_sort
    rw [if_neg (by simp)]
    have h := insertion_sort_loop_spec S.length 1 [x] S rfl rfl (by simp)
      (List.pairwise_singleton _ _)
    simpa using h

/-! ## The claims -/

/-- C1, as stated, fails: at depth 1 with the window `[100, 200]`, `AlphaBeta`
returns 0 on a drawn position, the stored score `77` when the table probe cuts
off, 0 on a stalemate and `kMinScore + num_made_moves` on a mate; none of them
lies in the window. -/
theorem AlphaBeta_window_counterexample :
    (toyGame.IsDraw (toyState [4, 1, 9] 1000).board = true
      ∧ (AlphaBeta toyGame kNormalSearchMode 4 kPV 100 200 1 (toyState [4, 1, 9] 1000)).map
          (fun r => r.1) = some 0)
    ∧ (AlphaBeta toyGame kNormalSearchMode 4 kPV 100 200 1 toyStoredState).map
          (fun r => r.1) = some 77
    ∧ (AlphaBeta toyStalemate kNormalSearchMode 4 kPV 100 200 1 (toyState [7] 1000)).map
          (fun r => r.1) = some 0
    ∧ (AlphaBeta toyMated kNormalSearchMode 4 kPV 100 200 1 (toyState [7] 1000)).map
          (fun r => r.1) = some (-99999)
    ∧ ¬ ((100 : Score) ≤ 0) ∧ ¬ ((100 : Score) ≤ 77) ∧ ¬ ((100 : Score) ≤ -99999) := by
  decide

/-- C1, amended: for every board that is not a draw and has at least one
generated move, every table state without a cutting entry for it, every depth
> 0 and every window alpha < beta, `AlphaBeta` returns a score `s` with
`alpha ≤ s ≤ beta`.  The search returns once the fuel exceeds the rank of the
board by more than one. -/
theorem AlphaBeta_window {rank : B → Nat} (hL : Lawful E rank) (Mode fuel NodeType : Nat)
    (alpha beta : Score) (depth : Depth) (st : State B T)
    (hfuel : rank st.board + 1 < fuel)
    (hdepth : 0 < depth)
    (hwindow : alpha < beta)
    (hdraw : E.IsDraw st.board = false)
    (htt : ¬ (E.ValidateHash (E.GetEntry st.table (E.get_hash st.board)) (E.get_hash st.board)
        = true
      ∧ sufficient_bounds E st.board (E.GetEntry st.table (E.get_hash st.board)) alpha beta
        depth = true))
    (hmoves : E.GetMovesNonQuiescent st.board ≠ []) :
    ∃ s st1, AlphaBeta E Mode fuel NodeType alpha beta depth st = some (s, st1)
      ∧ alpha ≤ s ∧ s ≤ beta := by
  obtain ⟨f, rfl⟩ : ∃ f, fuel = f + 1 := ⟨fuel - 1, by omega⟩
  rw [AlphaBeta, if_neg (by simp [hdraw]), if_neg (not_le.2 hdepth), if_neg htt]
  refine ABBody_window hL.unmake_make hL.sort_perm (AlphaBeta_total hL Mode f) Mode NodeType
    alpha beta depth _ _ st (hL.moves16 _) ?_ ?_ hmoves (le_of_lt hwindow)
  · have := hL.rank_null st.board hdraw
    show _ + 1 < f
    omega
  · intro m hm
    have := hL.rank_nq st.board m hdraw hm
    show _ + 1 < f
    omega

theorem AlphaBeta_window_witness :
    ∃ s st1, AlphaBeta toyGame kNormalSearchMode 4 kNW (-21) (-20) 1 (toyState [1] 1000)
        = some (s, st1) ∧ -21 ≤ s ∧ s ≤ -20 :=
  AlphaBeta_window toyGame_lawful kNormalSearchMode 4 kNW (-21) (-20) 1 (toyState [1] 1000)
    (by decide) (by decide) (by decide) (by decide) (by decide) (by decide)

/-- C2, as stated, fails: `QuiescentSearch` returns the static evaluation `60`
above beta with the window `[0, 50]` (stand-pat), the stored score `77` below
alpha with the window `[100, 200]` when the table probe cuts off, and
`kMinScore + num_made_moves` below alpha on a mate. -/
theorem QuiescentSearch_window_counterexample :
    (QuiescentSearch toyGame kNormalSearchMode 1 0 50 (toyState [5, 1] 1000)).map
        (fun r => r.1) = some 60
    ∧ (QuiescentSearch toyGame kNormalSearchMode 1 100 200 toyStoredState).map
        (fun r => r.1) = some 77
    ∧ (QuiescentSearch toyMated kNormalSearchMode 1 100 200 (toyState [7] 1000)).map
        (fun r => r.1) = some (-99999)
    ∧ ¬ ((60 : Score) ≤ 50) ∧ ¬ ((100 : Score) ≤ 77) ∧ ¬ ((100 : Score) ≤ -99999) := by
  decide

/-- C2, amended: for every board, every table state and every window
alpha < beta, `QuiescentSearch` returns a score `s` with `alpha ≤ s ≤ beta`,
provided the table probe does not cut off, the side to move is not mated (in
check without a quiescent move) and, when it is not in check, the static
evaluation is below beta.  The search returns once the fuel exceeds the rank
of the board. -/
theorem QuiescentSearch_window {rank : B → Nat} (hL : Lawful E rank) (Mode fuel : Nat)
    (alpha beta : Score) (st : State B T)
    (hfuel : rank st.board < fuel)
    (hwindow : alpha < beta)
    (htt : ¬ (E.ValidateHash (E.GetEntry st.table (E.get_hash st.board)) (E.get_hash st.board)
        = true
      ∧ sufficient_bounds E st.board (E.GetEntry st.table (E.get_hash st.board)) alpha beta 0
        = true))
    (hmate : ¬ (E.InCheck st.board = true ∧ E.GetMovesQuiescent st.board = []))
    (hstand : E.InCheck st.board = true
      ∨ QuiescentStaticEval E
          (E.ValidateHash (E.GetEntry st.table (E.get_hash st.board)) (E.get_hash st.board))
          (E.GetEntry st.table (E.get_hash st.board)) st.board < beta) :
    ∃ s st1, QuiescentSearch E Mode fuel alpha beta st = some (s, st1)
      ∧ alpha ≤ s ∧ s ≤ beta := by
  obtain ⟨r, st1, hrun, _⟩ := QuiescentSearch_total hL Mode fuel alpha beta st hfuel
  refine ⟨r, st1, hrun, ?_⟩
  obtain ⟨f, rfl⟩ : ∃ f, fuel = f + 1 := ⟨fuel - 1, by omega⟩
  rw [QuiescentSearch] at hrun
  have hb : (QuiescentEnter E st).board = st.board := rfl
  have ht : (QuiescentEnter E st).table = st.table := rfl
  simp only [hb, ht] at hrun
  rw [if_neg htt] at hrun
  unfold QuiescentNode at hrun
  split at hrun
  · rename_i r0 heq
    unfold QuiescentStandPat at heq
    simp only [hb] at heq
    split at heq
    · cases heq
    · rename_i hnc
      rcases hstand with h | h
      · exact absurd h hnc
      · rw [if_neg (not_le.2 h)] at heq
        split at heq <;> cases heq
  · rename_i a0 st0 heq
    have hb0 : st0.board = st.board := by
      have := QuiescentStandPat_board.2 _ heq
      simpa using this
    have ha : alpha ≤ a0 ∧ a0 ≤ beta := by
      unfold QuiescentStandPat at heq
      simp only [hb] at heq
      split at heq
      · cases heq; exact ⟨le_refl _, le_of_lt hwindow⟩
      · split at heq
        · cases heq
        · rename_i hlt
          split at heq
          · rename_i hgt
            cases heq
            exact ⟨le_of_lt hgt, le_of_lt (not_le.1 hlt)⟩
          · cases heq; exact ⟨le_refl _, le_of_lt hwindow⟩
    simp only [hb] at hrun
    split at hrun
    · rename_i hm
      rw [hb0, List.length_eq_zero] at hm
      exact absurd hm hmate
    · have := QuiescentLoop_window _ _ _ _ _ _ _ _ hrun ha.2
      exact ⟨le_trans ha.1 this.1, this.2⟩

theorem QuiescentSearch_window_witness :
    ∃ s st1, QuiescentSearch toyGame kNormalSearchMode 4 0 100 (toyState [5, 1] 1000)
        = some (s, st1) ∧ 0 ≤ s ∧ s ≤ 100 :=
  QuiescentSearch_window toyGame_lawful kNormalSearchMode 4 0 100 (toyState [5, 1] 1000)
    (by decide) (by decide) (by decide) (by decide) (by decide)

/-- C3: on a position with at least one generated move, all generated moves
fitting the low 16 bits, the move returned by `RootSearch`, by `DepthSearch` and
by `TimeSearch` is one of the moves `GetMoves<kNonQuiescent>` generates for the
root, for every depth and every deadline.  The routines return provided the
collaborators are lawful, the clock is monotone and reaches the deadline at its
`K`-th reading, and the fuel exceeds `K` and the rank of the positions after
the root moves by more than one. -/
theorem RootSearch_returns_legal_move {rank : B → Nat} (hL : Lawful E rank) (Mode fuel : Nat)
    (depth : Depth) (duration : Time) (st : State B T) (K : Nat)
    (hmoves : E.GetMovesNonQuiescent st.board ≠ [])
    (hclock : ∀ k, E.now k ≤ E.now (k + 1))
    (hfuel : ∀ m ∈ E.GetMovesNonQuiescent st.board, rank (E.Make st.board m) + 1 < fuel)
    (hK : K < fuel) :
    ((∀ k, K ≤ k → st.end_time ≤ E.now k) →
      ∃ m st1, RootSearch E Mode fuel depth st = some (m, st1)
        ∧ m ∈ E.GetMovesNonQuiescent st.board)
    ∧ ((∀ k, K ≤ k → (get_infinite_time E st).1 ≤ E.now k) →
      ∃ m st1, DepthSearch E fuel depth st = some (m, st1)
        ∧ m ∈ E.GetMovesNonQuiescent st.board)
    ∧ ((∀ k, K ≤ k → (now E st).1 + duration ≤ E.now k) →
      ∃ m st1, TimeSearch E fuel duration st = some (m, st1)
        ∧ m ∈ E.GetMovesNonQuiescent st.board) := by
  refine ⟨fun hd => ?_, fun hd => ?_, fun hd => ?_⟩
  · exact RootSearch_total hL Mode fuel depth st K hmoves hclock hfuel hK
      (fun k hk _ => hd k hk)
  · unfold DepthSearch
    exact RootSearch_total hL kNormalSearchMode fuel depth
      { (get_infinite_time E st).2 with end_time := (get_infinite_time E st).1 } K hmoves hclock
      hfuel hK (fun k hk _ => hd k hk)
  · unfold TimeSearch
    exact RootSearch_total hL kNormalSearchMode fuel 1000
      { (now E st).2 with end_time := (now E st).1 + duration } K hmoves hclock
      hfuel hK (fun k hk _ => hd k hk)

theorem RootSearch_returns_legal_move_witness :
    (∃ m st1, RootSearch toyGame kNormalSearchMode 16 2 (toyState [] 15) = some (m, st1)
        ∧ m ∈ toyGame.GetMovesNonQuiescent (toyState [] 15).board)
    ∧ (∃ m st1, TimeSearch toyGame 16 15 (toyState [] 0) = some (m, st1)
        ∧ m ∈ toyGame.GetMovesNonQuiescent (toyState [] 0).board) :=
  have h := RootSearch_returns_legal_move toyGame_lawful kNormalSearchMode 16 2 15
    (toyState [] 15) 15 (by decide) toyGame_clock (by decide) (by decide)
  have h2 := RootSearch_returns_legal_move toyGame_lawful kNormalSearchMode 16 2 15
    (toyState [] 0) 15 (by decide) toyGame_clock (by decide) (by decide)
  ⟨h.1 (fun k hk => by show (15 : Int) ≤ (k : Int); omega),
   h2.2.2 (fun k hk => by show (0 : Int) + 15 ≤ (k : Int); omega)⟩

/-- C4, as stated, fails: with the deadline at tick 15 the depth-1 iteration
completes with move `1` in front (it is what `RootSearch` returns at depth 1,
and the only info line is that of depth 1), the depth-2 iteration is cut short
by the deadline, and `RootSearch` returns move `2`, which that unfinished
iteration rotated to the front. -/
theorem RootSearch_unfinished_iteration_counterexample :
    (RootSearch toyGame kNormalSearchMode 4 1 (toyState [] 15)).map (fun r => r.1) = some 1
    ∧ (RootSearch toyGame kNormalSearchMode 4 2 (toyState [] 15)).map
        (fun r => (r.1, r.2.out.map fun l => (l.depth, l.pv))) = some (2, [(1, [1])]) := by
  decide

/-- C4, amended: the move returned by `RootSearch` is the front of the root list
as the last call of `RootSearchLoop` left it, the aspiration re-searches
included (the front of the generated and sorted root list when no call was
made).  When the deadline has passed by the time the first `RootSearchLoop`
call of an iteration returns, the iterative deepening stops with exactly the
list of that call, which is its only call, and writes no info line: the
rotations the unfinished iteration made before the deadline are kept. -/
theorem RootSearch_deadline_keeps_list
    (search : Nat → Score → Score → Depth → State B T → Option (Score × State B T))
    (k : Nat) :
    (∀ (depth : Depth) (st : State B T) (m : Move) (st1 : State B T),
      RootSearchWith E search k depth st = some (m, st1) →
      ∃ lists, RootSearchLists E search k depth st = some lists
        ∧ m = ((lists.getLast?).getD (RootMoves E (RootEnter E st))).getD 0 0)
    ∧ (∀ (n : Nat) (begin : Time) (current_depth : Depth) (score : Score)
        (moves : List Move) (st : State B T) (score1 : Score) (moves1 : List Move)
        (st1 : State B T),
      (∀ j, E.now j ≤ E.now (j + 1)) →
      0 < k →
      (finished E st).1 = false →
      RootSearchLoop E search
        (if current_depth = 1 then E.kMinScore else max (toI32 (score - 500)) E.kMinScore)
        (if current_depth = 1 then E.kMaxScore else min (toI32 (score + 500)) E.kMaxScore)
        current_depth
        (if current_depth = 1 then moves
         else SortMovesML E (finished E st).2 moves (moves.getD 0 0))
        (finished E st).2 = some (score1, moves1, st1) →
      st1.end_time ≤ E.now st1.clock →
      ∃ st2, RootIterate E search k begin (n + 1) current_depth score moves st
          = some (moves1, st2) ∧ st2.out = st1.out
        ∧ RootIterateLists E search k begin (n + 1) current_depth score moves st
          = some [moves1]) := by
  refine ⟨?_, ?_⟩
  · intro depth st m st1 h
    unfold RootSearchWith at h
    cases hr : RootIterate E search k (now E st).1 (min depth E.kMaxDepth).toNat 1 0
        (RootMoves E (RootEnter E st)) (RootEnter E st) with
    | none => rw [hr] at h; cases h
    | some x =>
      obtain ⟨moves, st2⟩ := x
      rw [hr] at h
      simp only [Option.some.injEq, Prod.mk.injEq] at h
      obtain ⟨lists, hl, hlast⟩ := RootIterate_last search k _ _ _ _ _ _ _ hr
      refine ⟨lists, hl, ?_⟩
      simp only [] at hlast
      rw [← hlast, h.1]
  · intro n begin current_depth score moves st score1 moves1 st1 hclock hk hstart hloop
      hdeadline
    obtain ⟨k0, rfl⟩ : ∃ k0, k = k0 + 1 := ⟨k - 1, by omega⟩
    -- the search of this depth ends with the list of the first call
    have hdepth : ∃ st3, RootDepthSearch E search (k0 + 1) current_depth score moves
        (finished E st).2 = some (score1, moves1, st3)
        ∧ st3.end_time ≤ E.now st3.clock ∧ st3.out = st1.out
        ∧ RootDepthLists E search (k0 + 1) current_depth score moves
          (finished E st).2 = some [moves1] := by
      unfold RootDepthSearch RootDepthLists
      by_cases hcd : current_depth = 1
      · simp only [hcd, if_true] at hloop ⊢
        exact ⟨st1, hloop, hdeadline, rfl, by rw [hloop]; rfl⟩
      · simp only [hcd, if_false] at hloop ⊢
        rw [hloop]
        simp only []
        rw [AspirationLoop, AspirationLists]
        have hf := finished_after_deadline hclock st1 hdeadline
        simp only [hf.1]
        exact ⟨_, by simp, hf.2.1, hf.2.2, by simp⟩
    obtain ⟨st3, h3, hd3, ho3, hl3⟩ := hdepth
    rw [RootIterate, RootIterateLists]
    simp only [hstart, h3, hl3]
    have hf3 := finished_after_deadline hclock st3 hd3
    have hrep : RootReport E begin current_depth score1 st3 = (finished E st3).2 := by
      unfold RootReport
      simp [hf3.1]
    simp only [hrep]
    have hf4 := finished_after_deadline hclock _ hf3.2.1
    cases n with
    | zero =>
      rw [RootIterate, RootIterateLists]
      exact ⟨_, rfl, by rw [hf3.2.2, ho3], by simp⟩
    | succ n =>
      rw [RootIterate, RootIterateLists, if_pos hf4.1, if_pos hf4.1]
      exact ⟨_, rfl, by rw [hf4.2.2, hf3.2.2, ho3], by simp⟩

/-- C4, instance: in the run with the deadline at tick 15 the calls of
`RootSearchLoop` leave the lists `[1, 2, 3]` (depth 1) and `[2, 1, 3]` (depth 2,
cut short), and the move returned is 2; with the deadline at tick 2 the
depth-1 call on `[2, 1, 3]` returns after the deadline with `[1, 2, 3]`, which
the iterative deepening keeps, writing no info line. -/
theorem RootSearch_deadline_keeps_list_witness :
    (RootSearchLists toyGame (AlphaBeta toyGame kNormalSearchMode 4) 4 2 (toyState [] 15)
        = some [[1, 2, 3], [2, 1, 3]]
      ∧ (RootSearch toyGame kNormalSearchMode 4 2 (toyState [] 15)).map (fun r => r.1)
        = some 2)
    ∧ ∃ st2, RootIterate toyGame (AlphaBeta toyGame kNormalSearchMode 4) 1 0 2 1 0 [2, 1, 3]
        (toyState [] 2) = some ([1, 2, 3], st2) ∧ st2.out = [] := by
  refine ⟨by decide, ?_⟩
  obtain ⟨st2, h, ho, _⟩ := (RootSearch_deadline_keeps_list
    (AlphaBeta toyGame kNormalSearchMode 4) 1).2 1 0 1 0 [2, 1, 3] (toyState [] 2) _ _ _
    toyGame_clock (by decide) (by decide)
    (eq_some_run (0, [], toyState [] 2) toyRootRun (by decide)) (by decide)
  have hm : (toyRootRun.getD (0, [], toyState [] 2)).2.1 = [1, 2, 3] := by decide
  have hout : (toyRootRun.getD (0, [], toyState [] 2)).2.2.out = [] := by decide
  rw [hm] at h
  exact ⟨st2, h, ho.trans hout⟩

/-- C5: `sufficient_bounds` is true exactly when the entry is deep enough and
its bound is exact, or lower with score at least beta, or upper with score at
most alpha. -/
theorem sufficient_bounds_iff (board : B) (entry : Entry) (alpha beta : Score)
    (depth : Depth) :
    sufficient_bounds E board entry alpha beta depth = true ↔
      entry.depth ≥ depth ∧
        (entry.bound = E.kExactBound
          ∨ (entry.bound = E.kLowerBound ∧ E.get_score entry board ≥ beta)
          ∨ (entry.bound = E.kUpperBound ∧ E.get_score entry board ≤ alpha)) := by
  simp [sufficient_bounds, or_assoc]

/-- C6, as stated, fails: in check, no moves, yet the table probe answers first
and returns the stored score `77` instead of `kMinScore + num_made_moves`. -/
theorem QuiescentSearch_mate_counterexample :
    toyMated.InCheck toyStoredState.board = true
    ∧ toyMated.GetMovesQuiescent toyStoredState.board = []
    ∧ toyMated.GetMovesNonQuiescent toyStoredState.board = []
    ∧ (QuiescentSearch toyMated kNormalSearchMode 1 (-100) 100 toyStoredState).map
        (fun r => r.1) = some 77
    ∧ (77 : Score) ≠ toyMated.kMinScore + toyMated.get_num_made_moves toyStoredState.board := by
  decide

/-- C6, amended: on a position where the side to move is in check and the
quiescent generator returns no moves, `QuiescentSearch` returns
`kMinScore + num_made_moves` for every window, provided the table probe does
not cut off (no valid entry with sufficient bounds at depth 0). -/
theorem QuiescentSearch_mate (Mode fuel : Nat) (alpha beta : Score) (st : State B T)
    (hcheck : E.InCheck st.board = true)
    (hmoves : E.GetMovesQuiescent st.board = [])
    (htt : ¬ (E.ValidateHash (E.GetEntry st.table (E.get_hash st.board)) (E.get_hash st.board)
        = true
      ∧ sufficient_bounds E st.board (E.GetEntry st.table (E.get_hash st.board)) alpha beta 0
        = true)) :
    QuiescentSearch E Mode (fuel + 1) alpha beta st
      = some (E.kMinScore + E.get_num_made_moves st.board, QuiescentEnter E st) := by
  rw [QuiescentSearch]
  have hb : (QuiescentEnter E st).board = st.board := rfl
  have ht : (QuiescentEnter E st).table = st.table := rfl
  simp only [hb, ht]
  rw [if_neg htt]
  unfold QuiescentNode QuiescentStandPat
  simp [hb, hcheck, hmoves]

theorem QuiescentSearch_mate_witness :
    QuiescentSearch toyMated kNormalSearchMode 1 (-100) 100 (toyState [7] 1000)
      = some (-99999, QuiescentEnter toyMated (toyState [7] 1000)) :=
  QuiescentSearch_mate kNormalSearchMode 0 (-100) 100 (toyState [7] 1000)
    (by decide) (by decide) (by decide)

/-- C7, as stated, fails: on a stalemate position (no moves, not in check)
`AlphaBeta` returns the stand-pat score `500` at depth 0, the stored score `77`
when the table probe cuts off, and `beta = 1` at an NW node whose score-based
pruning fires; none of them is 0. -/
theorem AlphaBeta_stalemate_counterexample :
    toyStalemate.GetMovesNonQuiescent (toyState [] 1000).board = []
    ∧ toyStalemate.InCheck (toyState [] 1000).board = false
    ∧ (AlphaBeta toyStalemate kNormalSearchMode 2 kPV (-100) 100 0 (toyState [] 1000)).map
        (fun r => r.1) = some 500
    ∧ (AlphaBeta toyStalemate kNormalSearchMode 2 kPV (-100) 100 1 toyStoredState).map
        (fun r => r.1) = some 77
    ∧ (AlphaBeta toyStalemate kNormalSearchMode 2 kNW 0 1 1 (toyState [] 1000)).map
        (fun r => r.1) = some 1 := by
  decide

/-- C7, amended: on a position where the non-quiescent generator returns no
moves and the side to move is not in check, `AlphaBeta` returns 0 at every
depth > 0, for every node type and window, provided the table probe does not
cut off and the selectivity prelude (which runs at NW nodes only) does not
return beta. -/
theorem AlphaBeta_stalemate {rank : B → Nat} (hL : Lawful E rank) (Mode fuel NodeType : Nat)
    (alpha beta : Score) (depth : Depth) (st : State B T)
    (hfuel : rank st.board < fuel)
    (hdepth : 0 < depth)
    (hmoves : E.GetMovesNonQuiescent st.board = [])
    (hcheck : E.InCheck st.board = false)
    (htt : ¬ (E.ValidateHash (E.GetEntry st.table (E.get_hash st.board)) (E.get_hash st.board)
        = true
      ∧ sufficient_bounds E st.board (E.GetEntry st.table (E.get_hash st.board)) alpha beta
        depth = true))
    (hprune : ∀ r, ABPrelude E (AlphaBeta E Mode fuel) NodeType alpha beta depth
        (E.ValidateHash (E.GetEntry st.table (E.get_hash st.board)) (E.get_hash st.board))
        (E.GetEntry st.table (E.get_hash st.board)) (E.InCheck st.board) st
      ≠ some (Sum.inl r)) :
    ∃ st1, AlphaBeta E Mode (fuel + 1) NodeType alpha beta depth st = some (0, st1) := by
  rw [AlphaBeta]
  by_cases hd : E.IsDraw st.board = true
  · rw [if_pos hd]; exact ⟨_, rfl⟩
  · rw [if_neg hd, if_neg (not_le.2 hdepth), if_neg htt]
    have hdraw : E.IsDraw st.board = false := by simpa using hd
    unfold ABBody
    obtain ⟨res, h1, hb1⟩ := ABPrelude_total hL.unmake_make (AlphaBeta_total hL Mode fuel)
      NodeType alpha beta depth
      (E.ValidateHash (E.GetEntry st.table (E.get_hash st.board)) (E.get_hash st.board))
      (E.GetEntry st.table (E.get_hash st.board)) (E.InCheck st.board) st
      (by have := hL.rank_null st.board hdraw; show _ + 1 < fuel; omega)
    rcases res with r0 | ⟨se, st0⟩
    · exact absurd h1 (hprune r0)
    · rw [h1]
      simp only [Sum.elim_inr] at hb1
      unfold ABNode
      simp [hb1, hmoves, hcheck]

theorem AlphaBeta_stalemate_witness :
    ∃ st1, AlphaBeta toyGame kNormalSearchMode 4 kPV (-100) 100 1 (toyState [4, 1] 1000)
      = some (0, st1) :=
  AlphaBeta_stalemate toyGame_lawful kNormalSearchMode 3 kPV (-100) 100 1
    (toyState [4, 1] 1000) (by decide) (by decide) (by decide) (by decide) (by decide)
    (by intro r; simp [ABPrelude, kPV, kNW])

/-- C8: the table produced by `clear_killers` satisfies the killer invariant
(per ply the two slots differ unless both are zero, and every non-zero slot
holds a move of type below `kCapture`), and every returning call of
`AlphaBeta`, with all the cutoff updates it and its sub-searches perform,
preserves it. -/
theorem killers_invariant (Mode fuel NodeType : Nat) (alpha beta : Score) (depth : Depth)
    (st st1 : State B T) (r : Score)
    (hinv : KillerInv E st.killers)
    (hrun : AlphaBeta E Mode fuel NodeType alpha beta depth st = some (r, st1)) :
    KillerInv E (clear_killers st).killers ∧ KillerInv E st1.killers := by
  refine ⟨?_, Reach_killers (AlphaBeta_reach Mode fuel _ _ _ _ _ _ _ hrun) hinv⟩
  intro p
  exact ⟨Or.inr ⟨rfl, rfl⟩, fun h => absurd rfl h, fun h => absurd rfl h⟩

theorem killers_invariant_witness :
    (KillerInv toyGame (clear_killers (toyState [1] 1000)).killers
      ∧ KillerInv toyGame (resultState (toyState [1] 1000)
          (AlphaBeta toyGame kNormalSearchMode 4 kNW (-21) (-20) 1
            (clear_killers (toyState [1] 1000)))).killers)
    ∧ (resultState (toyState [1] 1000)
          (AlphaBeta toyGame kNormalSearchMode 4 kNW (-21) (-20) 1
            (clear_killers (toyState [1] 1000)))).killers 1 0 = 4 :=
  ⟨killers_invariant kNormalSearchMode 4 kNW (-21) (-20) 1 (clear_killers (toyState [1] 1000))
    _ _ (fun _ => ⟨Or.inr ⟨rfl, rfl⟩, fun h => absurd rfl h, fun h => absurd rfl h⟩)
    (eq_some_result _ _ (by decide)), by decide⟩

/-- C9, as stated, fails: two states with the same board, move list, hint and
weights, differing only in the killer table, are sorted differently by
`SortMovesML`. -/
theorem SortMovesML_killers_counterexample :
    SortMovesML toyGame
        { toyState [] 1000 with search_weights := fun i => if i = 1 then 50 else 0 }
        [1, 2] 0 = [1, 2]
    ∧ SortMovesML toyGame
        { toyState [] 1000 with search_weights := fun i => if i = 1 then 50 else 0,
                                killers := fun _ k => if k = 0 then 2 else 0 }
        [1, 2] 0 = [2, 1] := by
  decide

/-- C9, amended: `SortMovesML` is a function of the board, the move list, the
hint, the weights and the two killer slots of the current ply: two states that
agree on these produce the same order, whatever the rest of the state holds. -/
theorem SortMovesML_deterministic (st1 st2 : State B T) (moves : List Move) (hint : Move)
    (hboard : st1.board = st2.board)
    (hweights : ∀ i, st1.search_weights i = st2.search_weights i)
    (hk0 : st1.killers (E.get_num_made_moves st1.board) 0
      = st2.killers (E.get_num_made_moves st1.board) 0)
    (hk1 : st1.killers (E.get_num_made_moves st1.board) 1
      = st2.killers (E.get_num_made_moves st1.board) 1) :
    SortMovesML E st1 moves hint = SortMovesML E st2 moves hint := by
  have hw : st1.search_weights = st2.search_weights := funext hweights
  unfold SortMovesML GetMoveWeightInt GetMoveWeight
  rw [← hboard, ← hw]
  simp only [hk0, hk1]

theorem SortMovesML_deterministic_witness :
    SortMovesML toyGame
        { toyState [] 1000 with search_weights := fun i => if i = 1 then 50 else 0,
                                killers := fun _ k => if k = 0 then 2 else 0 }
        [1, 2] 0
      = SortMovesML toyGame
        { toyState [] 1000 with search_weights := fun i => if i = 1 then 50 else 0,
                                killers := fun p k => if k = 0 then 2 else p, nodes := 7 }
        [1, 2] 0 :=
  SortMovesML_deterministic _ _ [1, 2] 0 rfl (fun _ => rfl) rfl rfl

/-- C10: inside the move loop of `AlphaBeta`, if the deadline has passed when the
child search of a move returns, the node returns its current alpha at once: the
transposition tables and the killer table are those the child search left (no
`SaveEntry`, no `SavePVEntry`, no killer update at this node). -/
theorem AlphaBeta_deadline_frame (Mode fuel NodeType : Nat) (original_alpha beta : Score)
    (depth : Depth) (in_check : Bool) (static_eval : Score) (tt_entry : Move)
    (cs : Nat → BitBoard) (n i : Nat) (moves : List Move) (moves_sorted : Bool)
    (alpha : Score) (best : Move) (st st1 : State B T) (score : Score)
    (hsearched : ABFutile E NodeType in_check depth
        (ABReduction E NodeType in_check depth i cs st.board
          ((ABResort E st tt_entry i moves_sorted moves).getD i 0))
        static_eval alpha cs st.board
        ((ABResort E st tt_entry i moves_sorted moves).getD i 0) = false)
    (hchild : ABChild (AlphaBeta E Mode fuel) NodeType i alpha beta depth
        (ABReduction E NodeType in_check depth i cs st.board
          ((ABResort E st tt_entry i moves_sorted moves).getD i 0))
        (Make E st ((ABResort E st tt_entry i moves_sorted moves).getD i 0))
      = some (score, st1))
    (hdeadline : (finished E (UnMake E st1)).1 = true) :
    ∃ st2, ABLoop E (AlphaBeta E Mode fuel) NodeType original_alpha beta depth in_check
        static_eval tt_entry cs (n + 1) i moves moves_sorted alpha best st = some (alpha, st2)
      ∧ st2.table = st1.table ∧ st2.killers = st1.killers := by
  rw [ABLoop]
  simp only [hsearched, hchild, hdeadline]
  exact ⟨_, rfl, rfl, rfl⟩

theorem AlphaBeta_deadline_frame_witness :
    ∃ st2, ABLoop toyGame (AlphaBeta toyGame kNormalSearchMode 3) kPV (-100) 100 1 false
        (-100) 0 (fun _ => 0) 2 0 [4, 5] true (-100) 4 (toyState [1] 0) = some (-100, st2)
      ∧ st2.table = toyChildState.table ∧ st2.killers = toyChildState.killers :=
  AlphaBeta_deadline_frame kNormalSearchMode 3 kPV (-100) 100 1 false (-100) 0 (fun _ => 0)
    1 0 [4, 5] true (-100) 4 (toyState [1] 0) toyChildState _ (by decide)
    (eq_some_result _ _ (by decide)) (by decide)

/-- C11, failing input: on a root list with the single move `1`, window
`(-100, 100)`, depth 2 and the deadline at tick 1, the child search of the
first move is cut short by the deadline after its first reply (it returns -10
where the full search returns 50), the deadline has passed when it returns,
and `RootSearchLoop` still stores the exact entry `(move 1, score 10, depth 2)`
in the general table and the move in the PV table; the search that runs to the
end has the score -50. -/
theorem RootSearchLoop_single_move_deadline :
    (toyState [] 1).table = { entries := [], pv_entries := [] }
    ∧ (RootSearchLoop toySingle (AlphaBeta toySingle kNormalSearchMode 4) (-100) 100 2 [1]
        (toyState [] 1)).map
        (fun r => (r.1, r.2.2.table.entries, r.2.2.table.pv_entries,
          (finished toySingle r.2.2).1))
      = some (10, [{ hash := 0, best_move := 1, score := 10, depth := 2, bound := 3 }],
          [{ hash := 0, best_move := 1 }], true)
    ∧ (RootSearchLoop toySingle (AlphaBeta toySingle kNormalSearchMode 4) (-100) 100 2 [1]
        (toyState [] 1000)).map (fun r => r.1) = some (-50) := by
  decide

/-- C12: the info line prints a winning mate score `kMaxScore - n - p` with `p`
odd as `mate (p+1)/2` and a losing mate score `kMinScore + n + q` with `q` even
as `mate -(q/2)`, where `n` is the number of made moves of the root and the
scores are mate scores (`n + p`, `n + q` below 2000). -/
theorem info_line_mate (board : B) (current_depth : Depth) (max_ply : Nat)
    (time_used nodes : Int) (pv : List Move) (p q : Nat)
    (hmax : 2000 ≤ E.kMaxScore) (hmin : E.kMinScore ≤ -2000)
    (hp : p % 2 = 1) (hq : q % 2 = 0)
    (hpn : E.get_num_made_moves board + p < 2000)
    (hqn : E.get_num_made_moves board + q < 2000) :
    (info_line E board current_depth max_ply time_used nodes
        (E.kMaxScore - E.get_num_made_moves board - p) pv).score
      = InfoScore.mate (((p + 1) / 2 : Nat) : Int)
    ∧ (info_line E board current_depth max_ply time_used nodes
        (E.kMinScore + E.get_num_made_moves board + q) pv).score
      = InfoScore.mate (-((q / 2 : Nat) : Int)) := by
  have hpz : (E.get_num_made_moves board : Int) + (p : Int) < 2000 := by exact_mod_cast hpn
  have hqz : (E.get_num_made_moves board : Int) + (q : Int) < 2000 := by exact_mod_cast hqn
  constructor
  · have h1 : is_mate_score E (E.kMaxScore - E.get_num_made_moves board - p) = true := by
      unfold is_mate_score
      simp only [Bool.or_eq_true, decide_eq_true_eq]
      right
      linarith
    have h2 : ¬ (E.kMaxScore - (E.get_num_made_moves board : Int) - (p : Int) < 0) := by
      linarith
    have h3 : E.kMaxScore - (E.kMaxScore - (E.get_num_made_moves board : Int) - (p : Int))
        - (E.get_num_made_moves board : Int) + 2 = ((p + 2 : Nat) : Int) := by
      push_cast
      ring
    unfold info_line
    simp only [h1, if_neg h2, h3, Bool.true_eq_false, if_false]
    rw [Int.tdiv_eq_ediv (by omega) (by omega)]
    congr 1
    omega
  · have h1 : is_mate_score E (E.kMinScore + E.get_num_made_moves board + q) = true := by
      unfold is_mate_score
      simp only [Bool.or_eq_true, decide_eq_true_eq]
      left
      linarith
    have h2 : E.kMinScore + (E.get_num_made_moves board : Int) + (q : Int) < 0 := by
      linarith
    have h3 : E.kMinScore + (E.get_num_made_moves board : Int) + (q : Int) - E.kMinScore
        - (E.get_num_made_moves board : Int) = ((q : Nat) : Int) := by
      ring
    unfold info_line
    simp only [h1, if_pos h2, h3, Bool.true_eq_false, if_false]
    rw [Int.neg_tdiv, Int.tdiv_eq_ediv (by omega) (by omega)]
    congr 1

/-- C12, instance: in `toyGame` (scores up to 100000) on the board after one
move, the scores 99996 and -99995 are printed as mate 2 and mate -2. -/
theorem info_line_mate_witness :
    (2000 ≤ toyGame.kMaxScore ∧ toyGame.kMinScore ≤ -2000 ∧ 3 % 2 = 1 ∧ 4 % 2 = 0
      ∧ toyGame.get_num_made_moves [1] + 3 < 2000 ∧ toyGame.get_num_made_moves [1] + 4 < 2000)
    ∧ (info_line toyGame [1] 5 7 0 0 99996 []).score = InfoScore.mate 2
    ∧ (info_line toyGame [1] 5 7 0 0 (-99995) []).score = InfoScore.mate (-2) :=
  ⟨by decide,
   @info_line_mate _ _ toyGame [1] 5 7 0 0 [] 3 4 (by decide) (by decide) (by decide)
     (by decide) (by decide) (by decide)⟩

/-- C13: given `kMinScore = -kMaxScore`, `is_mate_score s` holds exactly when
`|s| > kMaxScore - 2000`. -/
theorem is_mate_score_iff (s : Score) (hsym : E.kMinScore = -E.kMaxScore) :
    is_mate_score E s = true ↔ |s| > E.kMaxScore - 2000 := by
  unfold is_mate_score
  simp only [Bool.or_eq_true, decide_eq_true_eq, hsym, gt_iff_lt, lt_abs]
  constructor
  · rintro (h | h)
    · right
      linarith
    · left
      exact h
  · rintro (h | h)
    · right
      exact h
    · left
      linarith

/-- C13, instance: `toyGame` has `kMinScore = -kMaxScore`. -/
theorem is_mate_score_iff_witness :
    toyGame.kMinScore = -toyGame.kMaxScore
    ∧ (is_mate_score toyGame 99000 = true ↔ |(99000 : Score)| > toyGame.kMaxScore - 2000) :=
  ⟨by decide, @is_mate_score_iff _ _ toyGame 99000 (by decide)⟩

/-- C14, as stated, fails: in a game in which every position has two moves the
number of leaf positions at depth 64 is 2^64, and `Perft`, whose sum is a
`uint64_t`, returns 0. -/
theorem Perft_leafCount_counterexample :
    (Perft toyBinary 64 (toyState [] 0)).1 = 0
    ∧ leafCount toyBinary 64 [] = 18446744073709551616 := by
  have h := @PerftFrom_eq _ _ toyBinary (fun _ _ => rfl) 64 (toyState [] 0)
  refine ⟨?_, ?_⟩
  · unfold Perft
    rw [show (64 : Depth).toNat = 64 from rfl, h.1, leafCount_toyBinary]
    norm_num
  · rw [leafCount_toyBinary]
    norm_num

/-- C14, amended: for every board and every depth, `Perft` returns the number
of leaf positions at that depth modulo 2^64, hence the number itself when it
is below 2^64, and leaves the board as it found it; the number of leaf
positions at depth 1 is the size of the move list, so the depth-1 shortcut
returns what the general recursion returns. A depth at most 0 counts as 0. -/
theorem Perft_leafCount (depth : Depth) (st : State B T)
    (hum : ∀ b m, E.UnMake (E.Make b m) = b) :
    (Perft E depth st).1 = leafCount E depth.toNat st.board % 18446744073709551616
    ∧ (leafCount E depth.toNat st.board < 18446744073709551616 →
        (Perft E depth st).1 = leafCount E depth.toNat st.board)
    ∧ (Perft E depth st).2.board = st.board
    ∧ leafCount E 0 st.board = 1
    ∧ leafCount E 1 st.board = (E.GetMovesNonQuiescent st.board).length := by
  have h := PerftFrom_eq hum depth.toNat st
  refine ⟨h.1, ?_, h.2, rfl, leafCount_one _⟩
  intro hlt
  unfold Perft
  rw [h.1, Nat.mod_eq_of_lt hlt]

/-- C14, instance: `toyGame` has 6 leaf positions at depth 2 from the empty
board. -/
theorem Perft_leafCount_witness :
    (Perft toyGame 2 (toyState [] 0)).1 = 6 :=
  ((@Perft_leafCount _ _ toyGame 2 (toyState [] 0) toyGame_lawful.unmake_make).2.1
    (by decide)).trans (by decide)

/-- C15, as stated, fails: (1) in `toyGame` on the board `[1]` with the window
`(-21, -20)` and the deadline at tick 0 the first move of the loop is searched
and scores -20, which is beta, the deadline has passed when its search
returns, and the loop returns the original alpha -21, not beta; (2) with the inverted
window `(30, 20)` the loop returns beta 20, below the original alpha. -/
theorem ABMoves_fail_hard_counterexample :
    ABMovesScores toyGame (AlphaBeta toyGame kNormalSearchMode 3) kPV (-21) (-20) 1 false
        { hash := 0, best_move := 0, score := 0, depth := 0, bound := 0 } false 0
        (toyState [1] 0) = some [(-20, true)]
    ∧ (ABMoves toyGame (AlphaBeta toyGame kNormalSearchMode 3) kPV (-21) (-20) 1 false
        { hash := 0, best_move := 0, score := 0, depth := 0, bound := 0 } false 0
        (toyState [1] 0)).map (fun r => r.1) = some (-21)
    ∧ (ABMoves toyGame (AlphaBeta toyGame kNormalSearchMode 3) kPV 30 20 1 false
        { hash := 0, best_move := 0, score := 0, depth := 0, bound := 0 } false 0
        (toyState [1] 1000)).map (fun r => r.1) = some 20 := by
  decide

/-- C15, amended: on a board that is not a draw and for a window with
`alpha ≤ beta`, the move loop of `AlphaBeta` returns, and its value is beta if
some move whose search returned before the deadline scored at least beta,
otherwise the best score above the original alpha among the moves whose search
returned before the deadline, otherwise the original alpha; the value lies in
`[original alpha, beta]`. The child searches return once the fuel exceeds the
rank of the board. -/
theorem ABMoves_fail_hard {rank : B → Nat} (hL : Lawful E rank) (Mode fuel NodeType : Nat)
    (alpha beta : Score) (depth : Depth) (valid_entry : Bool) (entry : Entry)
    (in_check : Bool) (static_eval : Score) (st : State B T)
    (hfuel : rank st.board < fuel)
    (hdraw : E.IsDraw st.board = false)
    (hwindow : alpha ≤ beta) :
    ∃ r st1 record,
      ABMoves E (AlphaBeta E Mode fuel) NodeType alpha beta depth valid_entry entry in_check
        static_eval st = some (r, st1)
      ∧ ABMovesScores E (AlphaBeta E Mode fuel) NodeType alpha beta depth valid_entry entry
        in_check static_eval st = some record
      ∧ r = fail_hard alpha beta (in_time record)
      ∧ alpha ≤ r ∧ r ≤ beta := by
  obtain ⟨r, st1, h, _⟩ := ABMoves_total hL.unmake_make hL.sort_perm
    (AlphaBeta_total hL Mode fuel) NodeType alpha beta depth valid_entry entry in_check
    static_eval st (hL.moves16 _) (by
      intro m hm
      have := hL.rank_nq st.board m hdraw hm
      show _ + 1 < fuel
      omega)
  have hw : alpha ≤ r ∧ r ≤ beta := by
    have h2 := h
    unfold ABMoves at h2
    exact ABLoop_window _ _ _ _ _ _ _ _ _ _ _ _ _ _ _ _ _ _ h2 (le_refl _) hwindow
  have h3 := h
  unfold ABMoves at h3
  obtain ⟨record, h4, h5⟩ := ABLoop_fail_hard _ _ _ _ _ _ _ _ _ _ _ _ _ _ _ _ _ _ h3
  exact ⟨r, st1, record, h, h4, h5, hw⟩

/-- C15, instance: the loop of `toyGame` on the board `[1]` with the window
`(-100, 100)`. -/
theorem ABMoves_fail_hard_witness :
    ∃ r st1 record,
      ABMoves toyGame (AlphaBeta toyGame kNormalSearchMode 3) kPV (-100) 100 1 false
        { hash := 0, best_move := 0, score := 0, depth := 0, bound := 0 } false 0
        (toyState [1] 1000) = some (r, st1)
      ∧ ABMovesScores toyGame (AlphaBeta toyGame kNormalSearchMode 3) kPV (-100) 100 1 false
        { hash := 0, best_move := 0, score := 0, depth := 0, bound := 0 } false 0
        (toyState [1] 1000) = some record
      ∧ r = fail_hard (-100) 100 (in_time record)
      ∧ -100 ≤ r ∧ r ≤ 100 :=
  ABMoves_fail_hard toyGame_lawful kNormalSearchMode 3 kPV (-100) 100 1 false
    { hash := 0, best_move := 0, score := 0, depth := 0, bound := 0 } false 0
    (toyState [1] 1000) (by decide) (by decide) (by decide)

/-- C16, counterexample: (1) in `toyGame` on the board `[4, 1]` with the window
`(-100, -10)` the first root move `7` leads to a drawn position, its search
yields the score 0, which is above beta, and `RootSearchLoop` returns 0, not
beta; (2) on the empty board with the window `(-100, 40)` and the deadline at
tick 0 the second root move `1` yields the score 40, which is beta, and
`RootSearchLoop` returns alpha (10, the score of the first move), not beta. -/
theorem RootSearchLoop_cutoff_counterexample :
    (RootSearchLoop toyGame (AlphaBeta toyGame kNormalSearchMode 4) (-100) (-10) 1 [7, 8]
        (toyState [4, 1] 1000)).map (fun r => (r.1, r.2.1)) = some (0, [7, 8])
    ∧ (RootSearchLoopLog toyGame (AlphaBeta toyGame kNormalSearchMode 4) (-10) 1 2 0 [7, 8]
        (-100) (toyState [4, 1] 1000)) = some ([(7, 0)], false)
    ∧ (RootSearchLoop toyGame (AlphaBeta toyGame kNormalSearchMode 4) (-100) 40 1 [2, 1, 3]
        (toyState [] 0)).map (fun r => (r.1, r.2.1)) = some (10, [2, 1, 3])
    ∧ (RootSearchLoopLog toyGame (AlphaBeta toyGame kNormalSearchMode 4) 40 1 3 0 [2, 1, 3]
        (-100) (toyState [] 0)) = some ([(2, 10), (1, 40)], false) := by
  decide

/-- C16, amended: when the search of the first root move yields a score at
least beta, `RootSearchLoop` returns that score; when the search of a later
root move yields a score at least beta and the deadline has not passed when it
returns, `RootSearchLoop` returns exactly beta with that move rotated to the
front. In both cases no further root move is searched: the record of the loop
ends with that move, and the state returned is the one left by its search. -/
theorem RootSearchLoop_cutoff
    (search : Nat → Score → Score → Depth → State B T → Option (Score × State B T))
    (beta : Score) (current_depth : Depth) (n : Nat) (moves : List Move) (alpha : Score)
    (st : State B T) (r : Score) (st1 : State B T)
    (i : Nat) (moves2 : List Move) (alpha2 : Score) (st2 : State B T) (score : Score)
    (st3 : State B T)
    (hfirst : search kPV (-beta) (-alpha) (current_depth - 1) (Make E st (moves.getD 0 0))
      = some (r, st1))
    (hcut : -r ≥ beta)
    (hi : i ≠ 0)
    (hlater : RootChild search alpha2 beta current_depth (Make E st2 (moves2.getD i 0))
      = some (score, st3))
    (hcut2 : score ≥ beta)
    (hlive : (finished E (UnMake E st3)).1 = false) :
    RootSearchLoopFrom E search beta current_depth (n + 1) 0 moves alpha st
      = some (-r, moves, UnMake E st1)
    ∧ RootSearchLoopLog E search beta current_depth (n + 1) 0 moves alpha st
      = some ([(moves.getD 0 0, -r)], false)
    ∧ RootSearchLoopFrom E search beta current_depth (n + 1) i moves2 alpha2 st2
      = some (beta, rotate_to_front moves2 i, (finished E (UnMake E st3)).2)
    ∧ RootSearchLoopLog E search beta current_depth (n + 1) i moves2 alpha2 st2
      = some ([(moves2.getD i 0, score)], false) := by
  refine ⟨?_, ?_, ?_, ?_⟩
  · rw [RootSearchLoopFrom, if_pos rfl, hfirst]
    simp only []
    rw [if_pos (Or.inr hcut)]
  · rw [RootSearchLoopLog, if_pos rfl, hfirst]
    simp only []
    rw [if_pos (Or.inr hcut)]
  · rw [RootSearchLoopFrom, if_neg hi, hlater]
    simp only []
    rw [if_neg (by simp [hlive]), if_pos hcut2]
  · rw [RootSearchLoopLog, if_neg hi, hlater]
    simp only []
    rw [if_neg (by simp [hlive]), if_pos hcut2]

/-- C16, instance: in `toyGame` the first root move `7` on the board `[4, 1]`
scores 0 against beta -10, and the second root move `1` on the empty board
scores -10 against beta -10 before the deadline. -/
theorem RootSearchLoop_cutoff_witness :
    (RootSearchLoopFrom toyGame (AlphaBeta toyGame kNormalSearchMode 4) (-10) 1 2 0 [7, 8]
        (-100) (toyState [4, 1] 1000)).map (fun x => (x.1, x.2.1)) = some (0, [7, 8])
    ∧ (RootSearchLoopFrom toyGame (AlphaBeta toyGame kNormalSearchMode 4) (-10) 1 2 1
        [2, 1, 3] (-100) (toyState [] 1000)).map (fun x => (x.1, x.2.1))
        = some (-10, [1, 2, 3]) := by
  have h := @RootSearchLoop_cutoff _ _ toyGame (AlphaBeta toyGame kNormalSearchMode 4) (-10) 1 1
    [7, 8] (-100) (toyState [4, 1] 1000) _ _ 1 [2, 1, 3] (-100) (toyState [] 1000) _ _
    (eq_some_result (toyState [] 0) _ (by decide)) (by decide) (by decide)
    (eq_some_result (toyState [] 0) _ (by decide)) (by decide) (by decide)
  refine ⟨?_, ?_⟩
  · rw [h.1]
    decide
  · rw [h.2.2.1]
    decide

/-- C17: the rotation at an index `i` inside the list puts the move of index
`i` at index 0, followed by the moves formerly at indices `0..i-1` in their
order, followed by the moves after index `i` unchanged; the list that
`RootSearchLoop` returns is a permutation of its input; and when the loop runs
to its final save, the move at index 0 of the returned list was searched with
the returned alpha as its score. -/
theorem RootSearchLoop_rotation
    (search : Nat → Score → Score → Depth → State B T → Option (Score × State B T))
    (alpha beta : Score) (current_depth : Depth) (moves : List Move) (st : State B T)
    (i : Nat) (r : Score) (moves1 : List Move) (st1 : State B T) (log : List (Move × Score))
    (hi : i < moves.length)
    (hrun : RootSearchLoop E search alpha beta current_depth moves st = some (r, moves1, st1))
    (hlog : RootSearchLoopLog E search beta current_depth moves.length 0 moves alpha st
      = some (log, true)) :
    rotate_to_front moves i = moves.getD i 0 :: (moves.take i ++ moves.drop (i + 1))
    ∧ (rotate_to_front moves i).Perm moves
    ∧ moves1.Perm moves
    ∧ (moves1.getD 0 0, r) ∈ log := by
  refine ⟨rotate_to_front_eq moves i hi, rotate_to_front_perm moves i,
    RootSearchLoopFrom_perm _ _ _ _ _ _ _ _ _ _ _ hrun, ?_⟩
  unfold RootSearchLoop at hrun
  obtain ⟨n, hn⟩ : ∃ n, moves.length = n + 1 := ⟨moves.length - 1, by omega⟩
  rw [hn] at hrun hlog
  rw [RootSearchLoopFrom, if_pos rfl] at hrun
  rw [RootSearchLoopLog, if_pos rfl] at hlog
  cases hc : search kPV (-beta) (-alpha) (current_depth - 1) (Make E st (moves.getD 0 0)) with
  | none => rw [hc] at hrun; cases hrun
  | some x =>
    obtain ⟨r0, st2⟩ := x
    rw [hc] at hrun hlog
    simp only [] at hrun hlog
    by_cases hcond : -r0 ≤ alpha ∨ -r0 ≥ beta
    · rw [if_pos hcond] at hlog
      cases hlog
    · rw [if_neg hcond] at hrun hlog
      obtain ⟨l, hl, hl2⟩ := Option.map_eq_some'.1 hlog
      obtain ⟨l1, c⟩ := l
      cases hl2
      rcases RootSearchLoopFrom_front search beta current_depth _ _ _ _ _ _ _ _ _
        (by omega) hrun hl with h | ⟨h1, h2⟩
      · exact List.mem_cons_of_mem _ h
      · rw [h1, h2]
        exact List.mem_cons_self _ _

/-- C17, instance: the depth-1 loop of `toyGame` on the root list `[2, 1, 3]`
searches the moves with the scores 10, 50, 0 and returns 50 with the list
`[1, 2, 3]`. -/
theorem RootSearchLoop_rotation_witness :
    rotate_to_front [2, 1, 3] 1 = [1, 2, 3]
    ∧ (RootSearchLoop toyGame (AlphaBeta toyGame kNormalSearchMode 4) (-100000) 100000 1
        [2, 1, 3] (toyState [] 1000)).map (fun x => (x.1, x.2.1)) = some (50, [1, 2, 3])
    ∧ ((1 : Move), (50 : Score)) ∈ [((2 : Move), (10 : Score)), (1, 50), (3, 0)] := by
  have h := @RootSearchLoop_rotation _ _ toyGame (AlphaBeta toyGame kNormalSearchMode 4)
    (-100000) 100000 1 [2, 1, 3] (toyState [] 1000) 1 _ _ _ [(2, 10), (1, 50), (3, 0)]
    (by decide) (eq_some_run (0, [], toyState [] 0) _ (by decide)) (by decide)
  exact ⟨h.1, by decide, by decide⟩

/-- C18: `get_move_priority<kQuiescent>` is the priority of the specification
(20000 for the table move, 11000 for a move type above capture,
`1000 + 10 * victim - attacker` for a capture, 10 otherwise), and
`SortMoves<kQuiescent>` returns the moves it was given, each as often as in the
input, in non-increasing order of that priority, given that `std::sort`
returns a permutation sorted by `Sorter`, that the moves are 16-bit and that
the piece types on the board are at most 1000. -/
theorem SortMoves_quiescent_sorted (killers : Nat → Nat → Move) (moves : List Move)
    (board : B) (best : Move)
    (hperm : ∀ lt l, (E.sort lt l).Perm l)
    (hsorted : ∀ l, (E.sort Sorter l).Pairwise fun a b => Sorter b a = false)
    (h16 : ∀ m ∈ moves, m < 65536)
    (hpiece : ∀ sq, E.GetPieceType (E.get_piece board sq) ≤ 1000) :
    (∀ m, get_move_priority E true killers m board best = quiescent_priority E board best m)
    ∧ (SortMoves E true killers moves board best).Perm moves
    ∧ (SortMoves E true killers moves board best).Pairwise
        fun a b => quiescent_priority E board best b ≤ quiescent_priority E board best a := by
  have heq : ∀ m, get_move_priority E true killers m board best
      = quiescent_priority E board best m := by
    intro m
    unfold get_move_priority quiescent_priority
    simp only [if_true]
  refine ⟨heq, SortMoves_perm hperm true killers moves board best h16, ?_⟩
  have h := keyed_sort_sorted (fun m => get_move_priority E true killers m board best) moves
    (hperm _ _) (hsorted _) h16
    (fun m _ => get_move_priority_range true killers m board best hpiece)
  unfold SortMoves
  refine h.imp ?_
  intro a b hab
  rw [← heq a, ← heq b]
  exact hab

/-- C18, instance: `toyGame` (insertion sort, piece type the identity on the
piece code 0) on the quiescent sort of `[1, 12291, 2]` with table move 2: the
output is `[2, 12291, 1]`, with the priorities 20000, 1000, 10. -/
theorem SortMoves_quiescent_sorted_witness :
    SortMoves toyGame true (fun _ _ => 0) [1, 12291, 2] [] 2 = [2, 12291, 1]
    ∧ (SortMoves toyGame true (fun _ _ => 0) [1, 12291, 2] [] 2).Perm [1, 12291, 2]
    ∧ (SortMoves toyGame true (fun _ _ => 0) [1, 12291, 2] [] 2).Pairwise
      fun a b => quiescent_priority toyGame [] 2 b ≤ quiescent_priority toyGame [] 2 a :=
  ⟨by decide,
   (@SortMoves_quiescent_sorted _ _ toyGame (fun _ _ => 0) [1, 12291, 2] [] 2
    toyGame_lawful.sort_perm toyGame_sort_sorted (by decide) (fun _ => Nat.zero_le 1000)).2⟩

/-- C19, as stated, fails: with the library sort `std_sort`, the seventeen
moves 1 to 17, all of priority 10, come out of `SortMoves` in another order,
move 9 first. -/
theorem SortMoves_stable_counterexample :
    SortMoves toyStdSort true (fun _ _ => 0)
        [1, 2, 3, 4, 5, 6, 7, 8, 9, 10, 11, 12, 13, 14, 15, 16, 17] [] 0
      = [9, 17, 16, 15, 14, 13, 12, 11, 10, 1, 8, 7, 6, 5, 4, 3, 2]
    ∧ ∀ m ∈ [1, 2, 3, 4, 5, 6, 7, 8, 9, 10, 11, 12, 13, 14, 15, 16, 17],
        get_move_priority toyStdSort true (fun _ _ => 0) m [] 0 = 10 := by
  refine ⟨?_, by decide⟩
  set_option maxRecDepth 100000 in decide

/-- C19, amended: on a list of at most 16 moves the heuristic sort is stable.
When `std::sort` is the library sort `std_sort`, the moves of every priority
appear in the output of `SortMoves` in the same order as in the input list
(moves 16-bit, piece types on the board at most 1000). -/
theorem SortMoves_stable (q : Bool) (killers : Nat → Nat → Move) (moves : List Move)
    (board : B) (best : Move)
    (hsort : ∀ l, E.sort Sorter l = std_sort Sorter l)
    (hlen : moves.length ≤ 16)
    (h16 : ∀ m ∈ moves, m < 65536)
    (hpiece : ∀ sq, E.GetPieceType (E.get_piece board sq) ≤ 1000) (p : Int) :
    (SortMoves E q killers moves board best).filter
        (fun m => get_move_priority E q killers m board best == p)
      = moves.filter fun m => get_move_priority E q killers m board best == p := by
  have hr := fun m => get_move_priority_range q killers m board best hpiece
  have hshort := std_sort_short (moves.map fun m =>
    m ||| toU32 (get_move_priority E q killers m board best * 65536))
    (by rw [List.length_map]; exact hlen)
  by_cases hp : 0 ≤ p ∧ p < 65536
  · have hkey : ∀ m ∈ moves,
        (((m ||| toU32 (get_move_priority E q killers m board best * 65536)) >>> 16
          == p.toNat) = (get_move_priority E q killers m board best == p)) := by
      intro m hm
      rw [shift_key_range m _ (h16 m hm) (hr m).1 (hr m).2]
      have h0 := (hr m).1
      rw [Bool.eq_iff_iff]
      simp only [beq_iff_eq]
      constructor
      · intro h
        have := congrArg (fun n : Nat => (n : Int)) h
        simpa [Int.toNat_of_nonneg h0, Int.toNat_of_nonneg hp.1] using this
      · intro h
        rw [h]
    unfold SortMoves
    simp only []
    rw [hsort, List.filter_map]
    have hcongr : (std_sort Sorter (moves.map fun m =>
          m ||| toU32 (get_move_priority E q killers m board best * 65536))).filter
          ((fun m => get_move_priority E q killers m board best == p) ∘ fun m => m &&& 0xFFFF)
        = (std_sort Sorter (moves.map fun m =>
          m ||| toU32 (get_move_priority E q killers m board best * 65536))).filter
          fun x => x >>> 16 == p.toNat := by
      apply List.filter_congr
      intro x hx
      obtain ⟨m, hm, rfl⟩ := List.mem_map.1 (hshort.1.mem_iff.1 hx)
      simp only [Function.comp]
      rw [mask_toU32 m _ (h16 m hm), hkey m hm]
    rw [hcongr, hshort.2.2, List.filter_map, List.map_map]
    have hcongr2 : moves.filter ((fun x => x >>> 16 == p.toNat) ∘ fun m =>
          m ||| toU32 (get_move_priority E q killers m board best * 65536))
        = moves.filter fun m => get_move_priority E q killers m board best == p := by
      apply List.filter_congr
      intro m hm
      simp only [Function.comp]
      exact hkey m hm
    rw [hcongr2]
    conv_rhs => rw [← List.map_id (moves.filter fun m =>
      get_move_priority E q killers m board best == p)]
    apply List.map_congr_left
    intro m hm
    exact mask_toU32 m _ (h16 m (List.mem_filter.1 hm).1)
  · have hne : ∀ m, (get_move_priority E q killers m board best == p) = false := by
      intro m
      rw [beq_eq_false_iff_ne]
      intro h
      exact hp (h ▸ hr m)
    simp only [hne, List.filter_false]

/-- C19, instance: of the sixteen moves 1, 12291, 2, 3, ..., 15 the fifteen of
priority 10 stay in their order under the library sort. -/
theorem SortMoves_stable_witness :
    (SortMoves toyStdSort true (fun _ _ => 0)
        [1, 12291, 2, 3, 4, 5, 6, 7, 8, 9, 10, 11, 12, 13, 14, 15] [] 0).filter
        (fun m => get_move_priority toyStdSort true (fun _ _ => 0) m [] 0 == 10)
      = [1, 2, 3, 4, 5, 6, 7, 8, 9, 10, 11, 12, 13, 14, 15] :=
  (@SortMoves_stable _ _ toyStdSort true (fun _ _ => 0)
    [1, 12291, 2, 3, 4, 5, 6, 7, 8, 9, 10, 11, 12, 13, 14, 15] [] 0
    (fun _ => rfl) (by decide) (by decide) (fun _ => Nat.zero_le 1000) 10).trans
    (by decide)

/-- C21: for a list of moves whose bits above the low 16 are zero, `SortMoves`
and `SortMovesML` each return a permutation of the list in which every move
again has all bits above the low 16 equal to zero, whatever the priorities,
the killer table and the weights are (`std::sort` returning a permutation). -/
theorem SortMoves_clears_key (quiescent : Bool) (killers : Nat → Nat → Move)
    (st : State B T) (moves : List Move) (board : B) (best_move : Move)
    (hsort : ∀ lt l, (E.sort lt l).Perm l)
    (h16 : ∀ m ∈ moves, m >>> 16 = 0) :
    (SortMoves E quiescent killers moves board best_move).Perm moves
    ∧ (∀ m ∈ SortMoves E quiescent killers moves board best_move, m >>> 16 = 0)
    ∧ (SortMovesML E st moves best_move).Perm moves
    ∧ (∀ m ∈ SortMovesML E st moves best_move, m >>> 16 = 0) := by
  have h : ∀ m ∈ moves, m < 65536 := fun m hm => (shiftRight16_eq_zero m).1 (h16 m hm)
  have h1 := SortMoves_perm hsort quiescent killers moves board best_move h
  have h2 := SortMovesML_perm hsort st moves best_move h
  exact ⟨h1, fun m hm => h16 m (h1.mem_iff.1 hm), h2, fun m hm => h16 m (h2.mem_iff.1 hm)⟩

/-- C21, instance: the two sorts of `toyGame` on the list `[1, 12291, 2]`. -/
theorem SortMoves_clears_key_witness :
    (SortMoves toyGame false (fun _ _ => 0) [1, 12291, 2] [] 2).Perm [1, 12291, 2]
    ∧ (∀ m ∈ SortMoves toyGame false (fun _ _ => 0) [1, 12291, 2] [] 2, m >>> 16 = 0)
    ∧ (SortMovesML toyGame (toyWeightState 500) [1, 12291, 2] 2).Perm [1, 12291, 2]
    ∧ (∀ m ∈ SortMovesML toyGame (toyWeightState 500) [1, 12291, 2] 2, m >>> 16 = 0) :=
  @SortMoves_clears_key _ _ toyGame false (fun _ _ => 0) (toyWeightState 500) [1, 12291, 2]
    [] 2 toyGame_lawful.sort_perm (by decide)

/-- C22: short-circuit of the learned model. With a killer table that satisfies
the invariant `KillerInv` (the two slots of a ply differ unless both hold the
cleared value 0), a move other than the word 0 and 32-bit weights: for a move
equal to the hint, `GetMoveWeight` yields exactly the weight of index
`kPWIHashMove` and the zero vector with entry `kPWIHashMove` set to 1; for a
move that is not the hint but equals `killers[ply][0]` (resp.
`killers[ply][1]`), the weight and the single entry of index `kPWIKiller`
(resp. `kPWIKiller + 1`). -/
theorem GetMoveWeight_short_circuit (search_weights : Nat → Int)
    (killers : Nat → Nat → Move) (move : Move) (board : B) (tt_entry last_move : Move)
    (direct_checks taboo_squares : Nat → BitBoard)
    (hinv : KillerInv E killers)
    (hmove : move ≠ 0)
    (hint : ∀ i, -2147483648 ≤ search_weights i ∧ search_weights i < 2147483648) :
    (move = tt_entry →
      GetMoveWeightInt E search_weights killers move board tt_entry last_move direct_checks
          taboo_squares = search_weights E.kPWIHashMove
      ∧ GetMoveWeightVec E killers move board tt_entry last_move direct_checks taboo_squares
          = (List.replicate E.kNumMoveProbabilityFeatures 0).set E.kPWIHashMove 1)
    ∧ (move ≠ tt_entry → move = killers (E.get_num_made_moves board) 0 →
      GetMoveWeightInt E search_weights killers move board tt_entry last_move direct_checks
          taboo_squares = search_weights E.kPWIKiller
      ∧ GetMoveWeightVec E killers move board tt_entry last_move direct_checks taboo_squares
          = (List.replicate E.kNumMoveProbabilityFeatures 0).set E.kPWIKiller 1)
    ∧ (move ≠ tt_entry → move = killers (E.get_num_made_moves board) 1 →
      GetMoveWeightInt E search_weights killers move board tt_entry last_move direct_checks
          taboo_squares = search_weights (E.kPWIKiller + 1)
      ∧ GetMoveWeightVec E killers move board tt_entry last_move direct_checks taboo_squares
          = (List.replicate E.kNumMoveProbabilityFeatures 0).set (E.kPWIKiller + 1) 1) := by
  refine ⟨?_, ?_, ?_⟩
  · intro h
    unfold GetMoveWeightInt GetMoveWeightVec GetMoveWeight
    simp only [h, if_true, zero_add]
    exact ⟨toI32_eq _ (hint _).1 (hint _).2, trivial⟩
  · intro h1 h2
    unfold GetMoveWeightInt GetMoveWeightVec GetMoveWeight
    simp only [if_neg h1, if_pos h2, zero_add]
    exact ⟨toI32_eq _ (hint _).1 (hint _).2, trivial⟩
  · intro h1 h3
    have h2 : move ≠ killers (E.get_num_made_moves board) 0 := by
      intro h2
      rcases (hinv (E.get_num_made_moves board)).1 with hne | ⟨h0, _⟩
      · exact hne (h2.symm.trans h3)
      · exact hmove (h2.trans h0)
    unfold GetMoveWeightInt GetMoveWeightVec GetMoveWeight
    simp only [if_neg h1, if_neg h2, if_pos h3, zero_add]
    exact ⟨toI32_eq _ (hint _).1 (hint _).2, trivial⟩

/-- C22, instance: in `toyGame` with the killers 2 and 3 of the ply and the
hint 5, the move 3 gets the weight 9 of index `kPWIKiller + 1 = 2`. -/
theorem GetMoveWeight_short_circuit_witness :
    GetMoveWeightInt toyGame (fun i => if i = 1 then 7 else if i = 2 then 9 else 0)
        (fun _ k => if k = 0 then 2 else 3) 3 [] 5 0 (fun _ => 0) (fun _ => 0)
      = (fun i => if i = 1 then (7 : Int) else if i = 2 then 9 else 0) (toyGame.kPWIKiller + 1)
    ∧ GetMoveWeightVec toyGame (fun _ k => if k = 0 then 2 else 3) 3 [] 5 0 (fun _ => 0)
        (fun _ => 0) = (List.replicate toyGame.kNumMoveProbabilityFeatures 0).set
          (toyGame.kPWIKiller + 1) 1 :=
  (@GetMoveWeight_short_circuit _ _ toyGame
    (fun i => if i = 1 then 7 else if i = 2 then 9 else 0) (fun _ k => if k = 0 then 2 else 3)
    3 [] 5 0 (fun _ => 0) (fun _ => 0)
    (fun _ => ⟨Or.inl (show (2 : Move) ≠ 3 by decide),
      fun _ => (show toyGame.GetMoveType 2 < toyGame.kCapture by decide),
      fun _ => (show toyGame.GetMoveType 3 < toyGame.kCapture by decide)⟩) (by decide)
    (fun i => by dsimp only; split_ifs <;> decide)).2.2 (by decide) (by decide)

/-- C23, as stated, fails: `GetMoveWeight<int>` accumulates in a 32-bit `int`.
In `toyGame` the quiet move 1 after the last move 130 adds the five distinct
features 5, 6, 7, 8, 12, all inside the vector of 16 entries; with every
weight 1000000000 the dot product is 5000000000 and the routine returns
5000000000 - 2^32 = 705032704. -/
theorem GetMoveWeight_dot_product_counterexample :
    GetMoveWeightIndexes toyGame (fun _ _ => 0) 1 [] 9 130 (fun _ => 0) (fun _ => 0)
      = [5, 6, 7, 8, 12]
    ∧ toyGame.kNumMoveProbabilityFeatures = 16
    ∧ GetMoveWeightInt toyGame (fun _ => 1000000000) (fun _ _ => 0) 1 [] 9 130 (fun _ => 0)
        (fun _ => 0) = 705032704
    ∧ dot_product toyGame (fun _ => 1000000000)
        (GetMoveWeightVec toyGame (fun _ _ => 0) 1 [] 9 130 (fun _ => 0) (fun _ => 0))
      = 5000000000 := by
  decide

/-- C23, amended: `GetMoveWeight<int>` is the dot product of `search_weights`
with the vector of `GetMoveWeight<std::vector<int>>` for the same arguments,
reduced to the 32-bit range of the `int` that accumulates it, and is the dot
product itself when that lies in `[-2^31, 2^31)`; provided the indexes of the
features added for the move are pairwise distinct (what disjoint index ranges
of the feature groups give) and lie inside the vector. -/
theorem GetMoveWeight_dot_product (search_weights : Nat → Int)
    (killers : Nat → Nat → Move) (move : Move) (board : B) (tt_entry last_move : Move)
    (direct_checks taboo_squares : Nat → BitBoard)
    (hdisjoint : (GetMoveWeightIndexes E killers move board tt_entry last_move
      direct_checks taboo_squares).Nodup)
    (hrange : ∀ i ∈ GetMoveWeightIndexes E killers move board tt_entry last_move
      direct_checks taboo_squares, i < E.kNumMoveProbabilityFeatures) :
    GetMoveWeightInt E search_weights killers move board tt_entry last_move direct_checks
        taboo_squares
      = toI32 (dot_product E search_weights
          (GetMoveWeightVec E killers move board tt_entry last_move direct_checks
            taboo_squares))
    ∧ (-2147483648 ≤ dot_product E search_weights
          (GetMoveWeightVec E killers move board tt_entry last_move direct_checks
            taboo_squares)
        ∧ dot_product E search_weights
          (GetMoveWeightVec E killers move board tt_entry last_move direct_checks
            taboo_squares) < 2147483648 →
      GetMoveWeightInt E search_weights killers move board tt_entry last_move direct_checks
          taboo_squares
        = dot_product E search_weights
          (GetMoveWeightVec E killers move board tt_entry last_move direct_checks
            taboo_squares)) := by
  have hmain : GetMoveWeightInt E search_weights killers move board tt_entry last_move
      direct_checks taboo_squares
      = toI32 (dot_product E search_weights
          (GetMoveWeightVec E killers move board tt_entry last_move direct_checks
            taboo_squares)) := by
    have h0 : (0 : Int) = toI32 0 := by decide
    unfold GetMoveWeightInt GetMoveWeightVec dot_product
    rw [GetMoveWeight_foldl, GetMoveWeight_foldl]
    conv_lhs => rw [h0]
    rw [foldl_add_wrap, zero_add]
    have h : ∀ j, ((GetMoveWeightIndexes E killers move board tt_entry last_move direct_checks
          taboo_squares).foldl (fun s index => s.set index 1)
          (List.replicate E.kNumMoveProbabilityFeatures (0 : Int))).getD j 0
        = if j ∈ GetMoveWeightIndexes E killers move board tt_entry last_move direct_checks
            taboo_squares ∧ j < E.kNumMoveProbabilityFeatures then 1 else 0 := by
      intro j
      rw [foldl_set_getD]
      simp
    simp only [h]
    rw [(sum_range_indicator search_weights _ _ hdisjoint hrange).symm]
  exact ⟨hmain, fun hr => hmain.trans (toI32_eq _ hr.1 hr.2)⟩

/-- C23, instance: the quiet move 1 of `toyGame` after the last move 130 adds
the features 5, 6, 7, 8, 12; with the weights `i ↦ i + 1` both sides are 43. -/
theorem GetMoveWeight_dot_product_witness :
    GetMoveWeightIndexes toyGame (fun _ _ => 0) 1 [] 9 130 (fun _ => 0) (fun _ => 0)
      = [5, 6, 7, 8, 12]
    ∧ GetMoveWeightInt toyGame (fun i => i + 1) (fun _ _ => 0) 1 [] 9 130 (fun _ => 0)
        (fun _ => 0) = 43
    ∧ dot_product toyGame (fun i => i + 1)
        (GetMoveWeightVec toyGame (fun _ _ => 0) 1 [] 9 130 (fun _ => 0) (fun _ => 0)) = 43 := by
  have h := (@GetMoveWeight_dot_product _ _ toyGame (fun i => i + 1) (fun _ _ => 0) 1 [] 9 130
    (fun _ => 0) (fun _ => 0) (by decide) (by decide)).2 (by decide)
  exact ⟨by decide, by decide, h ▸ by decide⟩

/-- C24, concrete run: the search of `toyGame` from the board after move 1, in
which every call tests the three entry assertions, returns the score -50. -/
theorem entry_assertions_toyGame :
    entry_assertions toyGame kNW (-51) (-50) 2 [1] = true
      ∧ (AlphaBetaChecked toyGame (entry_assertions toyGame) kNormalSearchMode 5 kNW (-51)
          (-50) 2 (toyState [1] 1000)).map Prod.fst = some (-50) := by
  decide

/-- C24: no assertion of `AlphaBeta` fails below a valid call.  When `Make`
leaves a positive number of made moves and a call satisfies the three entry
assertions (lines 398-400), the search in which every call tests the three
assertions returns, with the result of the untested search; the same holds for
`RootSearchLoop` entered with `alpha < beta`; and at every node of positive
depth the assertion `reduction < depth` of the move loop (line 543) holds at
every iteration, so that `depth - 1 - reduction` is not negative. -/
theorem AlphaBeta_assertions_hold {rank : B → Nat} (hL : Lawful E rank)
    (hmade : ∀ b m, 0 < E.get_num_made_moves (E.Make b m))
    (Mode fuel NodeType : Nat) (alpha beta : Score) (depth : Depth) (st : State B T)
    (hfuel : rank st.board + 1 < fuel)
    (hentry : entry_assertions E NodeType alpha beta depth st.board = true) :
    (∃ r st1, AlphaBetaChecked E (entry_assertions E) Mode fuel NodeType alpha beta depth st
          = some (r, st1)
        ∧ AlphaBeta E Mode fuel NodeType alpha beta depth st = some (r, st1))
      ∧ (∀ (a b : Score) (cd : Depth) (moves : List Move) (root : State B T), a < b →
          (∀ m ∈ moves, rank (E.Make root.board m) + 1 < fuel) →
          ∃ res, RootSearchLoop E (AlphaBetaChecked E (entry_assertions E) Mode fuel) a b cd
              moves root = some res
            ∧ RootSearchLoop E (AlphaBeta E Mode fuel) a b cd moves root = some res)
      ∧ (∀ (nt : Nat) (d : Depth) (moves : List Move) (in_check : Bool) (i : Nat)
          (cs : Nat → BitBoard) (board : B) (move : Move), 0 < d →
          ABReduction E nt in_check (ABExtend nt moves d) i cs board move
              < ABExtend nt moves d
            ∧ 0 ≤ ABExtend nt moves d - 1
                - ABReduction E nt in_check (ABExtend nt moves d) i cs board move) := by
  have heq := AlphaBetaChecked_eq hL (entry_assertions E) Mode
    (fun nt a b => a < b ∧ (nt = kNW → b = a + 1))
    (fun nt a b d bd h => ((entry_assertions_iff nt a b d bd).1 h).2)
    window_raise
    (fun a b d bd h _ => by
      have h1 := (entry_assertions_iff kNW a b d bd).1 h
      have h2 := h1.2.2 rfl
      rw [entry_assertions_iff]
      exact ⟨hmade _ _, by linarith [h1.2.1], fun _ => by linarith⟩)
    (fun nt a b d bd _ _ d0 red a0 i m nt1 a1 b1 d1 _ _ hinv hc =>
      entry_assertions_child hmade nt i a0 b d0 red m bd nt1 a1 b1 d1 hinv hc)
  refine ⟨?_, ?_, ?_⟩
  · obtain ⟨r, st1, h1, _⟩ := AlphaBeta_total hL Mode fuel NodeType alpha beta depth st hfuel
    exact ⟨r, st1, by rw [heq fuel NodeType alpha beta depth st hfuel hentry, h1], h1⟩
  · intro a b cd moves root hab hroot
    obtain ⟨r, moves1, st1, h1, _⟩ := RootSearchLoop_total hL.unmake_make
      (AlphaBeta_total hL Mode fuel) root.board moves hroot a b cd moves root rfl
      (List.Perm.refl _)
    refine ⟨_, ?_, h1⟩
    rw [← h1]
    unfold RootSearchLoop
    refine RootSearchLoopFrom_agree hL.unmake_make (AlphaBeta_total hL Mode fuel) root.board
      moves hroot b cd ?_ _ _ _ _ _ rfl (List.Perm.refl _) (by simp) hab
    intro a0 m nt a1 b1 st0 ha0 hm hb0 hw
    refine heq fuel nt a1 b1 (cd - 1) st0 (by rw [hb0]; exact hroot m hm) ?_
    rw [hb0, entry_assertions_iff]
    refine ⟨hmade _ _, ?_⟩
    rcases hw with ⟨h2, h3, h4⟩ | ⟨h2, h3, h4⟩
    · subst h2 h3 h4
      exact ⟨by linarith, fun h => absurd h (by decide)⟩
    · subst h2 h3 h4
      exact ⟨by linarith, fun _ => by ring⟩
  · intro nt d moves in_check i cs board move hd
    have h0 : 1 ≤ ABExtend nt moves d := by
      rcases ABExtend_cases nt moves d with h | h
      · rw [h]; exact hd
      · rw [h]; linarith
    rcases @ABReduction_range B T E nt in_check (ABExtend nt moves d) i cs board move
      with h | ⟨_, h, h3⟩
    · rw [h]
      exact ⟨by linarith, by linarith⟩
    · exact ⟨by linarith, by linarith⟩

/-- C24, instance: the run of `toyGame` from the board after move 1. -/
theorem AlphaBeta_assertions_hold_witness :
    (∃ r st1, AlphaBetaChecked toyGame (entry_assertions toyGame) kNormalSearchMode 5 kNW
          (-51) (-50) 2 (toyState [1] 1000) = some (r, st1)
        ∧ AlphaBeta toyGame kNormalSearchMode 5 kNW (-51) (-50) 2 (toyState [1] 1000)
            = some (r, st1))
      ∧ (∀ (a b : Score) (cd : Depth) (moves : List Move)
          (root : State (List Move) ToyTable), a < b →
          (∀ m ∈ moves, toyRank (toyGame.Make root.board m) + 1 < 5) →
          ∃ res, RootSearchLoop toyGame
              (AlphaBetaChecked toyGame (entry_assertions toyGame) kNormalSearchMode 5) a b cd
              moves root = some res
            ∧ RootSearchLoop toyGame (AlphaBeta toyGame kNormalSearchMode 5) a b cd moves root
              = some res)
      ∧ (∀ (nt : Nat) (d : Depth) (moves : List Move) (in_check : Bool) (i : Nat)
          (cs : Nat → BitBoard) (board : List Move) (move : Move), 0 < d →
          ABReduction toyGame nt in_check (ABExtend nt moves d) i cs board move
              < ABExtend nt moves d
            ∧ 0 ≤ ABExtend nt moves d - 1
                - ABReduction toyGame nt in_check (ABExtend nt moves d) i cs board move) :=
  AlphaBeta_assertions_hold toyGame_lawful (fun b m => Nat.succ_pos b.length)
    kNormalSearchMode 5 kNW (-51) (-50) 2 (toyState [1] 1000) (by decide) (by decide)

/-- C25 as stated fails: in `toyGame`, where `R = 2`, the null-window node of
depth 2 on the board after move 1 with the window `(-51, -50)` has the static
evaluation -50 and makes the null-move search with the depth `2 - 1 - 2 = -1`:
the search whose calls test `depth ≥ 0` returns nothing, already in the
null-move step, while the search whose calls test `depth ≥ -1` returns -50 as
the untested search does. -/
theorem AlphaBeta_call_depths_counterexample :
    toyGame.R = 2
      ∧ is_null_move_allowed toyGame (toyState [1] 1000).board 2 = true
      ∧ ABStaticEval toyGame false ⟨0, 0, 0, 0, 0⟩ (toyState [1] 1000).board = -50
      ∧ (2 : Depth) - 1 - toyGame.R = -1
      ∧ (ABPrelude toyGame (checked (depth_at_least 0) (AlphaBeta toyGame kNormalSearchMode 4))
          kNW (-51) (-50) 2 false ⟨0, 0, 0, 0, 0⟩ false (toyState [1] 1000)).isSome = false
      ∧ (AlphaBetaChecked toyGame (depth_at_least 0) kNormalSearchMode 5 kNW (-51) (-50) 2
          (toyState [1] 1000)).isSome = false
      ∧ (AlphaBetaChecked toyGame (depth_at_least (-1)) kNormalSearchMode 5 kNW (-51) (-50) 2
          (toyState [1] 1000)).map Prod.fst = some (-50)
      ∧ (AlphaBeta toyGame kNormalSearchMode 5 kNW (-51) (-50) 2
          (toyState [1] 1000)).map Prod.fst = some (-50) := by
  decide

/-- C25, amended: with `R = 2`, at a node entered with `depth ≥ 1` on a board
that is not a draw, every call that `AlphaBeta` makes to itself passes a depth
of at least -1, the calls of the move loop (reduced search, re-search, PV
search) pass a depth of at least 0, and so does the null-move search unless
`depth = 2`: the node whose calls test the bound returns what the untested
node returns, and the whole search below the node passes the test
`depth ≥ -1`. -/
theorem AlphaBeta_call_depths {rank : B → Nat} (hL : Lawful E rank) (hR : E.R = 2)
    (Mode fuel NodeType : Nat) (alpha beta : Score) (depth : Depth) (valid_entry : Bool)
    (entry : Entry) (st : State B T) (hfuel : rank st.board < fuel)
    (hdraw : E.IsDraw st.board = false) (hdepth : 1 ≤ depth) :
    (∃ r st1, ABBody E (AlphaBeta E Mode fuel) Mode NodeType alpha beta depth valid_entry
        entry st = some (r, st1))
      ∧ ABBody E (checked (depth_at_least (-1)) (AlphaBeta E Mode fuel)) Mode NodeType alpha
          beta depth valid_entry entry st
        = ABBody E (AlphaBeta E Mode fuel) Mode NodeType alpha beta depth valid_entry entry st
      ∧ (∀ (in_check : Bool) (static_eval : Score),
          ABNode E (checked (depth_at_least 0) (AlphaBeta E Mode fuel)) Mode NodeType alpha
              beta depth valid_entry entry in_check static_eval st
            = ABNode E (AlphaBeta E Mode fuel) Mode NodeType alpha beta depth valid_entry
              entry in_check static_eval st)
      ∧ (depth ≠ 2 →
          ABBody E (checked (depth_at_least 0) (AlphaBeta E Mode fuel)) Mode NodeType alpha
              beta depth valid_entry entry st
            = ABBody E (AlphaBeta E Mode fuel) Mode NodeType alpha beta depth valid_entry
              entry st)
      ∧ AlphaBetaChecked E (depth_at_least (-1)) Mode (fuel + 1) NodeType alpha beta depth st
        = AlphaBeta E Mode (fuel + 1) NodeType alpha beta depth st := by
  have hs := AlphaBeta_total hL Mode fuel
  have hnullP : rank (E.Make st.board E.kNullMove) + 1 < fuel := by
    have := hL.rank_null st.board hdraw
    omega
  have hP : ∀ m ∈ E.GetMovesNonQuiescent st.board, rank (E.Make st.board m) + 1 < fuel := by
    intro m hm
    have := hL.rank_nq st.board m hdraw hm
    omega
  have hchild : ∀ (bound : Depth), bound ≤ 0 → ∀ (d0 red : Depth) (a : Score) (i : Nat)
      (m : Move) (nt : Nat) (a1 b1 : Score) (d1 : Depth) (st1 : State B T),
      (d0 = depth ∨ d0 = depth + 1) → (red = 0 ∨ (0 < red ∧ red ≤ 2 ∧ 3 ≤ d0)) → True →
      m ∈ E.GetMovesNonQuiescent st.board → st1.board = E.Make st.board m →
      ChildCall NodeType i a beta d0 red nt a1 b1 d1 →
      checked (depth_at_least bound) (AlphaBeta E Mode fuel) nt a1 b1 d1 st1
        = AlphaBeta E Mode fuel nt a1 b1 d1 st1 := by
    intro bound hbound d0 red a i m nt a1 b1 d1 st1 hd0 hred _ _ _ hc
    have := depth_child NodeType i a beta depth d0 red nt a1 b1 d1 (by linarith) hd0 hred hc
    exact checked_agree _ _ _ _ _ _ _ (by
      unfold depth_at_least
      exact decide_eq_true (le_trans hbound this))
  refine ⟨?_, ?_, ?_, ?_, ?_⟩
  · obtain ⟨r, st1, h1, _⟩ := ABBody_total hL.unmake_make hL.sort_perm hs Mode NodeType alpha
      beta depth valid_entry entry st (hL.moves16 _) hnullP hP
    exact ⟨r, st1, h1⟩
  · refine ABBody_agree hL.unmake_make hL.sort_perm hs Mode NodeType alpha beta depth
      valid_entry entry st (hL.moves16 _) hnullP hP (fun _ => True) trivial
      (fun _ _ _ _ _ => trivial) ?_ (hchild (-1) (by norm_num))
    intro _ hallowed
    have h2 : (1 : Depth) + 1 ≤ depth :=
      Int.add_one_le_iff.2 (is_null_move_allowed_depth hallowed)
    exact checked_agree _ _ _ _ _ _ _ (by
      unfold depth_at_least
      rw [hR]
      exact decide_eq_true (by linarith))
  · intro in_check static_eval
    exact ABNode_agree hL.unmake_make hL.sort_perm hs Mode NodeType alpha beta depth
      valid_entry entry in_check static_eval st (hL.moves16 _) hP (fun _ => True) trivial
      (fun _ _ _ _ _ => trivial) (hchild 0 (le_refl _))
  · intro hne
    refine ABBody_agree hL.unmake_make hL.sort_perm hs Mode NodeType alpha beta depth
      valid_entry entry st (hL.moves16 _) hnullP hP (fun _ => True) trivial
      (fun _ _ _ _ _ => trivial) ?_ (hchild 0 (le_refl _))
    intro _ hallowed
    have h1 := is_null_move_allowed_depth hallowed
    have h2 : 3 ≤ depth := by
      rcases lt_or_eq_of_le (Int.add_one_le_iff.2 h1) with h | h
      · exact Int.add_one_le_iff.2 h
      · exact absurd h.symm hne
    exact checked_agree _ _ _ _ _ _ _ (by
      unfold depth_at_least
      rw [hR]
      exact decide_eq_true (by linarith))
  · refine AlphaBetaChecked_eq hL (depth_at_least (-1)) Mode (fun _ _ _ => True)
      (fun _ _ _ _ _ _ => trivial) (fun _ _ _ _ _ _ _ => trivial) ?_ ?_ (fuel + 1) NodeType
      alpha beta depth st (by omega) ?_
    · intro a b d bd _ hd
      have h2 : (1 : Depth) + 1 ≤ d := Int.add_one_le_iff.2 hd
      unfold depth_at_least
      rw [hR]
      exact decide_eq_true (by linarith)
    · intro nt a b d bd _ hd d0 red a0 i m nt1 a1 b1 d1 hd0 hred _ hc
      have := depth_child nt i a0 b d d0 red nt1 a1 b1 d1 hd hd0 hred hc
      unfold depth_at_least
      exact decide_eq_true (by linarith)
    · unfold depth_at_least
      exact decide_eq_true (by linarith)

/-- C25, instance: the null-window node of depth 3 of `toyGame` on the board
after move 1. -/
theorem AlphaBeta_call_depths_witness :
    (∃ r st1, ABBody toyGame (AlphaBeta toyGame kNormalSearchMode 4) kNormalSearchMode kNW
        (-51) (-50) 3 false ⟨0, 0, 0, 0, 0⟩ (toyState [1] 1000) = some (r, st1))
      ∧ ABBody toyGame (checked (depth_at_least (-1)) (AlphaBeta toyGame kNormalSearchMode 4))
          kNormalSearchMode kNW (-51) (-50) 3 false ⟨0, 0, 0, 0, 0⟩ (toyState [1] 1000)
        = ABBody toyGame (AlphaBeta toyGame kNormalSearchMode 4) kNormalSearchMode kNW
          (-51) (-50) 3 false ⟨0, 0, 0, 0, 0⟩ (toyState [1] 1000)
      ∧ (∀ (in_check : Bool) (static_eval : Score),
          ABNode toyGame (checked (depth_at_least 0) (AlphaBeta toyGame kNormalSearchMode 4))
              kNormalSearchMode kNW (-51) (-50) 3 false ⟨0, 0, 0, 0, 0⟩ in_check static_eval
              (toyState [1] 1000)
            = ABNode toyGame (AlphaBeta toyGame kNormalSearchMode 4) kNormalSearchMode kNW
              (-51) (-50) 3 false ⟨0, 0, 0, 0, 0⟩ in_check static_eval (toyState [1] 1000))
      ∧ ((3 : Depth) ≠ 2 →
          ABBody toyGame (checked (depth_at_least 0) (AlphaBeta toyGame kNormalSearchMode 4))
              kNormalSearchMode kNW (-51) (-50) 3 false ⟨0, 0, 0, 0, 0⟩ (toyState [1] 1000)
            = ABBody toyGame (AlphaBeta toyGame kNormalSearchMode 4) kNormalSearchMode kNW
              (-51) (-50) 3 false ⟨0, 0, 0, 0, 0⟩ (toyState [1] 1000))
      ∧ AlphaBetaChecked toyGame (depth_at_least (-1)) kNormalSearchMode (4 + 1) kNW (-51)
          (-50) 3 (toyState [1] 1000)
        = AlphaBeta toyGame kNormalSearchMode (4 + 1) kNW (-51) (-50) 3 (toyState [1] 1000) :=
  AlphaBeta_call_depths toyGame_lawful rfl kNormalSearchMode 4 kNW (-51) (-50) 3 false
    ⟨0, 0, 0, 0, 0⟩ (toyState [1] 1000) (by decide) (by decide) (by decide)

/-- C29: at every depth > 0, on a position that is not a draw, for which the
table holds no valid entry with sufficient bounds, whose side to move is in
check and has no generated move, `AlphaBeta` returns
`kMinScore + num_made_moves` and leaves the state as it found it, for every
node type and window; one unit of fuel is enough. -/
theorem AlphaBeta_mate (Mode fuel NodeType : Nat) (alpha beta : Score) (depth : Depth)
    (st : State B T)
    (hdepth : 0 < depth)
    (hdraw : E.IsDraw st.board = false)
    (htt : ¬ (E.ValidateHash (E.GetEntry st.table (E.get_hash st.board)) (E.get_hash st.board)
        = true
      ∧ sufficient_bounds E st.board (E.GetEntry st.table (E.get_hash st.board)) alpha beta
        depth = true))
    (hcheck : E.InCheck st.board = true)
    (hmoves : E.GetMovesNonQuiescent st.board = []) :
    AlphaBeta E Mode (fuel + 1) NodeType alpha beta depth st
      = some (E.kMinScore + E.get_num_made_moves st.board, st) := by
  rw [AlphaBeta, if_neg (by simp [hdraw]), if_neg (not_le.2 hdepth), if_neg htt]
  unfold ABBody ABPrelude
  rw [if_neg (by simp [hcheck])]
  simp only []
  unfold ABNode
  rw [if_pos (by simp [hmoves]), if_pos hcheck]

/-- C29, instance: a mated position of `toyMated` after one move, at depth 3
with the window `(-5, 5)`. -/
theorem AlphaBeta_mate_witness :
    AlphaBeta toyMated kNormalSearchMode 1 kNW (-5) 5 3 (toyState [7] 1000)
      = some (-99999, toyState [7] 1000) :=
  @AlphaBeta_mate _ _ toyMated kNormalSearchMode 0 kNW (-5) 5 3 (toyState [7] 1000)
    (by decide) (by decide) (by decide) (by decide) (by decide)

/-- C30, as stated, fails for `TrainSearchParamsPairwise`, which never assigns
`weights[kPWIHashMove]`: after the initialisation the weight is 0 when the
training starts from scratch, and the loaded value (here 7) otherwise. -/
theorem trainers_pin_hash_weight_counterexample :
    PairwiseInit intOps true (fun _ => 0) toyGame.kPWIHashMove = 0
    ∧ PairwiseInit intOps false (fun i => if i = 0 then 7 else 0) toyGame.kPWIHashMove = 7
    ∧ intOps.ofInt 2000 = 2000 := by
  decide

/-- C30, amended: in `TrainSearchParamsOrderBased` and in `TrainSearchParams`
the entry `weights[kPWIHashMove]` equals 2000 after the initialisation and
after every weight update with a finite step `nu * gradient` and every gauge
fix, given that `kPWIHashMove` lies below the other feature groups, that
`kNoPiece` is positive, that no generated move is `kNullMove` (the hint that the
two trainers pass), and that subtracting the product of a finite step with the
feature value 0 leaves 2000 unchanged (as in double precision, where that
product is a zero). -/
theorem trainers_pin_hash_weight {F : Type} (ops : FloatOps F)
    (kRookPromotion kBishopPromotion : Nat)
    (hfirst : HashMoveFirst E)
    (hpiece : 0 < E.kNoPiece)
    (hnull : ∀ b, E.kNullMove ∉ E.GetMovesNonQuiescent b)
    (hsub : ∀ c, ops.isfinite c = true →
      ops.sub (ops.ofInt 2000) (ops.mul c (ops.ofInt 0)) = ops.ofInt 2000)
    (hsubdiv : ∀ c, ops.isfinite c = true →
      ops.sub (ops.ofInt 2000) (ops.div (ops.mul c (ops.ofInt 0)) (ops.ofInt 1))
        = ops.ofInt 2000) :
    (∀ w, OrderBasedWeights E ops w → w E.kPWIHashMove = ops.ofInt 2000)
    ∧ (∀ w, TrainSearchParamsWeights E ops kRookPromotion kBishopPromotion w →
        w E.kPWIHashMove = ops.ofInt 2000) := by
  have h4 : E.kPWIHashMove < E.kPWIMoveType := hfirst.2.2.2.1
  constructor
  · intro w hw
    induction hw with
    | init from_scratch sw =>
      unfold OrderBasedInit set_weight
      rw [if_pos rfl]
    | update nu target killers board move hm hfin _ ih =>
      have hne : move ≠ E.kNullMove := fun h => hnull board (h ▸ hm)
      unfold OrderBasedUpdate
      split
      · rw [TrainFeatures_hash hfirst killers board move hne, ih, hsub _ hfin]
      · exact ih
    | gauge _ ih => rw [GaugePins_hash ops hfirst hpiece, ih]
  · intro w hw
    induction hw with
    | init from_scratch sw =>
      unfold TrainSearchParamsInit
      rw [set_weight_ne _ _ _ _ (by omega), set_weight_ne _ _ _ _ (by omega)]
      unfold set_weight
      rw [if_pos rfl]
    | update nu target killers board move hm hfin _ ih =>
      have hne : move ≠ E.kNullMove := fun h => hnull board (h ▸ hm)
      unfold TrainSearchParamsUpdate
      split
      · rw [TrainFeatures_hash hfirst killers board move hne, ih, hsubdiv _ hfin]
      · exact ih
    | gauge _ ih => rw [GaugePins_hash ops hfirst hpiece, ih]

/-- C30, instance: in `toyGame` with the arithmetic `nanOps`, in which
`2000 - c * 0` is 2000 for every finite `c` and NaN for the NaN, the hash-move
weight after an update with a finite step for the root move 1 of either
trainer is 2000. -/
theorem trainers_pin_hash_weight_witness :
    OrderBasedUpdate toyGame nanOps (some 8) (some 1)
        (TrainFeatures toyGame (fun _ _ => 0) [] 1)
        (OrderBasedInit toyGame nanOps true (fun _ => 0)) toyGame.kPWIHashMove = some 2000
    ∧ TrainSearchParamsUpdate toyGame nanOps (some 4) (some 1)
        (TrainFeatures toyGame (fun _ _ => 0) [] 1)
        (TrainSearchParamsInit toyGame nanOps 7 8 false (fun i => i)) toyGame.kPWIHashMove
        = some 2000 := by
  have h := @trainers_pin_hash_weight _ _ toyGame (Option Int) nanOps 7 8
    (by unfold HashMoveFirst; decide) (by decide) toyMoves_ne_zero
    (by
      intro c hc
      cases c with
      | none => cases hc
      | some x => simp [nanOps])
    (by
      intro c hc
      cases c with
      | none => cases hc
      | some x => simp [nanOps])
  exact ⟨h.1 _ (OrderBasedWeights.update (some 8) (some 1) (fun _ _ => 0) [] 1 (by decide)
      (by decide) (OrderBasedWeights.init true _)),
    h.2 _ (TrainSearchParamsWeights.update (some 4) (some 1) (fun _ _ => 0) [] 1 (by decide)
      (by decide) (TrainSearchParamsWeights.init false _))⟩

/-- C31: board restoration. When `UnMake` undoes the most recent `Make`, every
return of `QuiescentSearch`, of `AlphaBeta` and of `RootSearchLoop` (cutoffs,
deadline returns, sampling returns and normal completion included) leaves the
board in the position it had on entry, for every mode, fuel, node type,
window, depth, move list and state. -/
theorem search_restores_board (hum : ∀ b m, E.UnMake (E.Make b m) = b) (Mode fuel : Nat) :
    (∀ (alpha beta : Score) (st : State B T) (r : Score) (st1 : State B T),
        QuiescentSearch E Mode fuel alpha beta st = some (r, st1) → st1.board = st.board)
      ∧ (∀ (NodeType : Nat) (alpha beta : Score) (depth : Depth) (st : State B T) (r : Score)
          (st1 : State B T),
          AlphaBeta E Mode fuel NodeType alpha beta depth st = some (r, st1) →
          st1.board = st.board)
      ∧ (∀ (alpha beta : Score) (current_depth : Depth) (moves : List Move) (st : State B T)
          (r : Score) (moves1 : List Move) (st1 : State B T),
          RootSearchLoop E (AlphaBeta E Mode fuel) alpha beta current_depth moves st
            = some (r, moves1, st1) →
          st1.board = st.board) := by
  refine ⟨QuiescentSearch_board hum Mode fuel, AlphaBeta_board hum Mode fuel, ?_⟩
  intro alpha beta cd moves st r moves1 st1 h
  unfold RootSearchLoop at h
  exact RootSearchLoopFrom_board hum (AlphaBeta_board hum Mode fuel) beta cd _ _ _ _ _ _ h

/-- C31, instance: a depth-2 search of `toyGame`, whose board is the list of the
made moves (`Make` prepends, `UnMake` drops the head), returns with the empty
board it was entered with. -/
theorem search_restores_board_witness :
    ∃ r st1, AlphaBeta toyGame kNormalSearchMode 5 kPV (-100) 100 2 (toyState [] 1000)
        = some (r, st1)
      ∧ st1.board = (toyState [] 1000).board
      ∧ toyGame.get_num_made_moves st1.board = 0 :=
  have h := eq_some_result (toyState [] 1000)
    (AlphaBeta toyGame kNormalSearchMode 5 kPV (-100) 100 2 (toyState [] 1000)) (by decide)
  have hb := (@search_restores_board _ _ toyGame toyGame_lawful.unmake_make
    kNormalSearchMode 5).2.1 _ _ _ _ _ _ _ h
  ⟨_, _, h, hb, by rw [hb]; rfl⟩

/-- C32: stand-pat lower bound. On a position whose side to move is not in
check, when the table probe does not return early, `QuiescentSearch` returns
a value that is at least `evaluation::ScoreBoard(board)`, for every window;
the search returns once the fuel exceeds the rank of the board. -/
theorem QuiescentSearch_stand_pat {rank : B → Nat} (hL : Lawful E rank) (Mode fuel : Nat)
    (alpha beta : Score) (st : State B T)
    (hfuel : rank st.board < fuel)
    (hcheck : E.InCheck st.board = false)
    (htt : ¬ (E.ValidateHash (E.GetEntry st.table (E.get_hash st.board)) (E.get_hash st.board)
        = true
      ∧ sufficient_bounds E st.board (E.GetEntry st.table (E.get_hash st.board)) alpha beta 0
        = true)) :
    ∃ s st1, QuiescentSearch E Mode fuel alpha beta st = some (s, st1)
      ∧ E.ScoreBoard st.board ≤ s := by
  obtain ⟨r, st1, hrun, _⟩ := QuiescentSearch_total hL Mode fuel alpha beta st hfuel
  refine ⟨r, st1, hrun, ?_⟩
  obtain ⟨f, rfl⟩ : ∃ f, fuel = f + 1 := ⟨fuel - 1, by omega⟩
  rw [QuiescentSearch] at hrun
  have hb : (QuiescentEnter E st).board = st.board := rfl
  have ht : (QuiescentEnter E st).table = st.table := rfl
  simp only [hb, ht] at hrun
  rw [if_neg htt] at hrun
  have hge := @QuiescentStaticEval_ge B T E
    (E.ValidateHash (E.GetEntry st.table (E.get_hash st.board)) (E.get_hash st.board))
    (E.GetEntry st.table (E.get_hash st.board)) st.board
  unfold QuiescentNode at hrun
  split at hrun
  · rename_i r0 heq
    unfold QuiescentStandPat at heq
    simp only [hb, hcheck, Bool.false_eq_true, if_false] at heq
    split at heq
    · cases heq
      cases hrun
      exact hge
    · split at heq <;> cases heq
  · rename_i a0 st0 heq
    unfold QuiescentStandPat at heq
    simp only [hb, hcheck, Bool.false_eq_true, if_false] at heq
    simp only [hb, hcheck, Bool.false_eq_true, false_and, if_false] at hrun
    split at heq
    · cases heq
    · rename_i hlt
      have hlow := QuiescentLoop_lower _ _ _ _ _ _ _ _ hrun
      have ha0 : QuiescentStaticEval E
          (E.ValidateHash (E.GetEntry st.table (E.get_hash st.board)) (E.get_hash st.board))
          (E.GetEntry st.table (E.get_hash st.board)) st.board ≤ a0 := by
        split at heq
        · cases heq; exact le_refl _
        · rename_i hgt
          cases heq
          exact not_lt.1 hgt
      rcases hlow with h1 | h1
      · exact le_trans hge (le_trans ha0 h1)
      · rw [h1]
        exact le_trans hge (le_of_lt (not_le.1 hlt))

/-- C32, instance: the quiescent search of `toyGame` on the board after the
moves 1 and 5, whose static evaluation is 60, with the window `(-100, 100)`. -/
theorem QuiescentSearch_stand_pat_witness :
    ∃ s st1, QuiescentSearch toyGame kNormalSearchMode 3 (-100) 100 (toyState [5, 1] 1000)
        = some (s, st1)
      ∧ toyGame.ScoreBoard (toyState [5, 1] 1000).board ≤ s :=
  QuiescentSearch_stand_pat toyGame_lawful kNormalSearchMode 3 (-100) 100
    (toyState [5, 1] 1000) (by decide) (by decide) (by decide)

/-- C33: at a null-window node (`beta = alpha + 1`) whose window lies in a mate
band (`beta ≤ kMinScore + 2000` or `alpha ≥ kMaxScore - 2000`) the selectivity
prelude returns nothing early and leaves `static_eval` at its initial value
`alpha`; the margins `kFutileMargin[1..3]` are positive, the test
`static_eval < alpha - margin` is false for every move, reduction and depth,
and the move loop skips no move by futility. The loop returns once the fuel
exceeds the rank of the board. -/
theorem ABMoves_mate_band_futility {rank : B → Nat} (hL : Lawful E rank) (Mode fuel : Nat)
    (alpha beta : Score) (depth : Depth) (valid_entry : Bool) (entry : Entry)
    (in_check : Bool) (st : State B T)
    (hfuel : rank st.board < fuel)
    (hdraw : E.IsDraw st.board = false)
    (hnw : beta = alpha + 1)
    (hband : beta ≤ E.kMinScore + 2000 ∨ alpha ≥ E.kMaxScore - 2000) :
    ABPrelude E (AlphaBeta E Mode fuel) kNW alpha beta depth valid_entry entry in_check st
        = some (Sum.inr (alpha, st))
      ∧ (∀ d : Depth, 1 ≤ d → d ≤ 3 → 0 < kFutileMargin d)
      ∧ (∀ (reduction : Depth) (cs : Nat → BitBoard) (board : B) (move : Move),
          ABFutile E kNW in_check depth reduction alpha alpha cs board move = false)
      ∧ ABMovesSkipped E (AlphaBeta E Mode fuel) kNW alpha beta depth valid_entry entry
          in_check alpha st = some []
      ∧ (ABMoves E (AlphaBeta E Mode fuel) kNW alpha beta depth valid_entry entry in_check
          alpha st).isSome = true := by
  have hP : ∀ m ∈ E.GetMovesNonQuiescent st.board, rank (E.Make st.board m) + 1 < fuel := by
    intro m hm
    have := hL.rank_nq st.board m hdraw hm
    omega
  have ho := ABOrder_mem hL.sort_perm (ABSwapCheck E st (E.GetMovesNonQuiescent st.board)
    (ABHashMove E valid_entry entry st)) (E.GetMovesNonQuiescent st.board)
    (ABHashMove E valid_entry entry st) (hL.moves16 _)
  have hskip : ABMovesSkipped E (AlphaBeta E Mode fuel) kNW alpha beta depth valid_entry entry
      in_check alpha st = some [] := by
    unfold ABMovesSkipped
    exact ABLoopSkipped_nw hL.unmake_make hL.sort_perm (AlphaBeta_total hL Mode fuel) st.board
      (E.GetMovesNonQuiescent st.board) (hL.moves16 _) hP alpha beta _ in_check _ _ hnw
      _ _ _ _ _ (by simp) ho.1 (by simp)
  refine ⟨?_, ?_, fun reduction cs board move => ABFutile_static_alpha _ _ _ _ _ _ _ _,
    hskip, ?_⟩
  · unfold ABPrelude
    rw [if_neg]
    rintro ⟨_, h1, h2, _⟩
    rcases hband with h | h
    · exact absurd h1 (not_lt.2 h)
    · exact absurd h2 (not_lt.2 h)
  · intro d h1 h3
    interval_cases d <;> decide
  · obtain ⟨r, st1, h1, _⟩ := ABMoves_total hL.unmake_make hL.sort_perm
      (AlphaBeta_total hL Mode fuel) kNW alpha beta depth valid_entry entry in_check alpha st
      (hL.moves16 _) hP
    rw [h1]
    rfl

/-- C33, instance: the null-window node of depth 2 of `toyGame` on the board
after move 1 with the window `(-99000, -98999)`, below `kMinScore + 2000`. -/
theorem ABMoves_mate_band_futility_witness :
    ABMovesSkipped toyGame (AlphaBeta toyGame kNormalSearchMode 4) kNW (-99000) (-98999) 2
        false ⟨0, 0, 0, 0, 0⟩ false (-99000) (toyState [1] 1000) = some []
      ∧ (ABMoves toyGame (AlphaBeta toyGame kNormalSearchMode 4) kNW (-99000) (-98999) 2
          false ⟨0, 0, 0, 0, 0⟩ false (-99000) (toyState [1] 1000)).isSome = true :=
  (ABMoves_mate_band_futility toyGame_lawful kNormalSearchMode 4 (-99000) (-98999) 2 false
    ⟨0, 0, 0, 0, 0⟩ false (toyState [1] 1000) (by decide) (by decide) (by decide)
    (Or.inl (by decide))).2.2.2

/-- C34: in the scoring loop of `TrainSearchParams` and
`CreateSearchParamDataset`, a run that leaves the loop through the `break`, or
runs on an empty move list, is discarded by the tests `high == 0`, `low == 0`,
`high > low`; so an iteration that is not discarded has a non-empty move list
(the index `rng() % moves.size()` is below `moves.size()`), did not break, and
every entry of `scores` up to `moves.size()` was written by a search. -/
theorem TrainScores_break_discarded
    (search : Nat → Score → Score → Depth → State B T → Option (Score × State B T))
    (moves : List Move) (st : State B T) (res : Scoring B T)
    (hrun : TrainScores E search moves st = some res) :
    ((res.broke = true ∨ moves = []) → TrainDiscarded res.low res.high = true)
      ∧ (TrainDiscarded res.low res.high = false →
          moves ≠ [] ∧ res.broke = false ∧ res.scores.length = moves.length
            ∧ ∀ rng : Nat, rng % moves.length < res.scores.length) := by
  unfold TrainScores at hrun
  obtain ⟨h1, h2, h3, h4⟩ := TrainScoreLoop_inv search moves.length moves [] 0 0 st res hrun
    rfl (by simp) (Nat.zero_le _)
  have hbreak : res.broke = true → TrainDiscarded res.low res.high = true := by
    intro hb
    have := h3 hb
    unfold TrainDiscarded
    simp only [Bool.or_eq_true, decide_eq_true_eq]
    right
    omega
  have hempty : moves = [] → TrainDiscarded res.low res.high = true := by
    intro he
    have hlen : moves.length = 0 := by rw [he]; rfl
    unfold TrainDiscarded
    simp only [Bool.or_eq_true, decide_eq_true_eq]
    left; left
    omega
  refine ⟨fun h => h.elim hbreak hempty, ?_⟩
  intro hd
  have hne : moves ≠ [] := fun he => by rw [hempty he] at hd; cases hd
  have hb : res.broke = false := by
    cases hbr : res.broke with
    | false => rfl
    | true => rw [hbreak hbr] at hd; cases hd
  refine ⟨hne, hb, (h4 hb).1, fun rng => ?_⟩
  rw [(h4 hb).1]
  exact Nat.mod_lt _ (List.length_pos.2 hne)

/-- C34, instance: in `toyGame` with `sampled_alpha = -5` the loop over the
root moves breaks after the second move (scores -4, -4) and the run is
discarded; with `sampled_alpha = 20` it scores all three moves (21, 10, 0),
one above and two below, and the run is kept. -/
theorem TrainScores_break_discarded_witness :
    ((TrainScores toyGame (AlphaBeta toyGame kNormalSearchMode 5) (toyMoves [])
        (toySampledState (-5))).map
      fun r => (r.scores, r.low, r.high, r.broke, TrainDiscarded r.low r.high))
      = some ([-4, -4], 0, 2, true, true)
    ∧ ((TrainScores toyGame (AlphaBeta toyGame kNormalSearchMode 5) (toyMoves [])
        (toySampledState 20)).map
      fun r => (r.scores, r.low, r.high, r.broke, TrainDiscarded r.low r.high))
      = some ([21, 10, 0], 2, 1, false, false)
    ∧ ∃ res, TrainScores toyGame (AlphaBeta toyGame kNormalSearchMode 5) (toyMoves [])
          (toySampledState 20) = some res
        ∧ (TrainDiscarded res.low res.high = false →
          toyMoves [] ≠ [] ∧ res.broke = false ∧ res.scores.length = (toyMoves []).length
            ∧ ∀ rng : Nat, rng % (toyMoves []).length < res.scores.length) := by
  refine ⟨by decide, by decide, ?_⟩
  cases h : TrainScores toyGame (AlphaBeta toyGame kNormalSearchMode 5) (toyMoves [])
      (toySampledState 20) with
  | none =>
    have hs : (TrainScores toyGame (AlphaBeta toyGame kNormalSearchMode 5) (toyMoves [])
        (toySampledState 20)).isSome = true := by decide
    rw [h] at hs
    cases hs
  | some res =>
    exact ⟨res, rfl, (TrainScores_break_discarded (AlphaBeta toyGame kNormalSearchMode 5)
      (toyMoves []) (toySampledState 20) res h).2⟩

/-- C35: depth decreases below null-window nodes. With `R ≥ 0`, every call that
the body of an `AlphaBeta<kNW>` node of depth `depth` makes to `AlphaBeta`
(null-move search, reduced search, re-search, normal search) is a `kNW` call
with a depth argument strictly below `depth`: the node whose calls test this
returns what the untested node returns, and in the whole search below a
`kNW` call every call is a `kNW` call. The body is what `AlphaBeta` runs for
`depth ≥ 1`; it returns once the fuel exceeds the rank of the board. -/
theorem AlphaBeta_nw_depth_decreases {rank : B → Nat} (hL : Lawful E rank) (hR : 0 ≤ E.R)
    (Mode fuel : Nat) (alpha beta : Score) (depth : Depth) (valid_entry : Bool)
    (entry : Entry) (st : State B T) (hfuel : rank st.board < fuel)
    (hdraw : E.IsDraw st.board = false) :
    (∃ r st1, ABBody E (AlphaBeta E Mode fuel) Mode kNW alpha beta depth valid_entry
        entry st = some (r, st1))
      ∧ ABBody E (checked (nw_below depth) (AlphaBeta E Mode fuel)) Mode kNW alpha beta depth
          valid_entry entry st
        = ABBody E (AlphaBeta E Mode fuel) Mode kNW alpha beta depth valid_entry entry st
      ∧ AlphaBetaChecked E only_nw Mode (fuel + 1) kNW alpha beta depth st
        = AlphaBeta E Mode (fuel + 1) kNW alpha beta depth st := by
  have hs := AlphaBeta_total hL Mode fuel
  have hnullP : rank (E.Make st.board E.kNullMove) + 1 < fuel := by
    have := hL.rank_null st.board hdraw
    omega
  have hP : ∀ m ∈ E.GetMovesNonQuiescent st.board, rank (E.Make st.board m) + 1 < fuel := by
    intro m hm
    have := hL.rank_nq st.board m hdraw hm
    omega
  refine ⟨?_, ?_, ?_⟩
  · obtain ⟨r, st1, h1, _⟩ := ABBody_total hL.unmake_make hL.sort_perm hs Mode kNW alpha
      beta depth valid_entry entry st (hL.moves16 _) hnullP hP
    exact ⟨r, st1, h1⟩
  · refine ABBody_agree_ext hL.unmake_make hL.sort_perm hs Mode kNW alpha beta depth
      valid_entry entry st (hL.moves16 _) hnullP hP (fun _ => True) trivial
      (fun _ _ _ _ _ => trivial) ?_ ?_
    · intro _ _
      exact checked_agree _ _ _ _ _ _ _ (by
        unfold nw_below
        exact decide_eq_true ⟨rfl, by linarith⟩)
    · intro moves red a i m nt a1 b1 d1 st1 hred _ _ _ hc
      rw [ABExtend_nw] at hc hred
      have hr0 : 0 ≤ red := by
        rcases hred with h | ⟨h, _⟩
        · rw [h]
        · exact le_of_lt h
      have hpv : kPV ≠ kNW := by decide
      refine checked_agree _ _ _ _ _ _ _ ?_
      unfold nw_below
      refine decide_eq_true ?_
      rcases hc with ⟨_, h2, _, _, h | ⟨_, h⟩⟩ | ⟨h1, _⟩ | ⟨h1, _⟩
      · exact ⟨h2, by rw [h]; linarith⟩
      · exact ⟨h2, by rw [h]; linarith⟩
      · exact absurd rfl h1
      · exact absurd rfl h1
  · refine AlphaBetaChecked_eq hL only_nw Mode (fun _ _ _ => True)
      (fun _ _ _ _ _ _ => trivial) (fun _ _ _ _ _ _ _ => trivial) ?_ ?_ (fuel + 1) kNW
      alpha beta depth st (by omega) ?_
    · intro a b d bd _ _
      unfold only_nw
      exact decide_eq_true rfl
    · intro nt a b d bd hok _ d0 red a0 i m nt1 a1 b1 d1 _ _ _ hc
      have hnt : nt = kNW := by
        unfold only_nw at hok
        exact of_decide_eq_true hok
      unfold only_nw
      refine decide_eq_true ?_
      rcases hc with ⟨_, h2, _⟩ | ⟨h1, _⟩ | ⟨h1, _⟩
      · exact h2
      · exact absurd hnt h1
      · exact absurd hnt h1
    · unfold only_nw
      exact decide_eq_true rfl

/-- C35, instance: the null-window node of depth 2 of `toyGame` on the board
after move 1, where `R = 2` and the null-move search is made. -/
theorem AlphaBeta_nw_depth_decreases_witness :
    (∃ r st1, ABBody toyGame (AlphaBeta toyGame kNormalSearchMode 4) kNormalSearchMode kNW
        (-51) (-50) 2 false ⟨0, 0, 0, 0, 0⟩ (toyState [1] 1000) = some (r, st1))
      ∧ ABBody toyGame (checked (nw_below 2) (AlphaBeta toyGame kNormalSearchMode 4))
          kNormalSearchMode kNW (-51) (-50) 2 false ⟨0, 0, 0, 0, 0⟩ (toyState [1] 1000)
        = ABBody toyGame (AlphaBeta toyGame kNormalSearchMode 4) kNormalSearchMode kNW
          (-51) (-50) 2 false ⟨0, 0, 0, 0, 0⟩ (toyState [1] 1000)
      ∧ AlphaBetaChecked toyGame only_nw kNormalSearchMode (4 + 1) kNW (-51) (-50) 2
          (toyState [1] 1000)
        = AlphaBeta toyGame kNormalSearchMode (4 + 1) kNW (-51) (-50) 2 (toyState [1] 1000) :=
  AlphaBeta_nw_depth_decreases toyGame_lawful (by decide) kNormalSearchMode 4 (-51) (-50) 2
    false ⟨0, 0, 0, 0, 0⟩ (toyState [1] 1000) (by decide) (by decide)

end

end Winter
